import Mathlib

/-!
# Frequency reducer of ci-tools: a shallow embedding

Embedding of `cmd/branchingconfigmanagers/frequency-reducer/main.go`.
Go strings are `String`s (valid UTF-8), handled as lists of runes; Go `int`
is `Int`, wrapped to 64 bits where the source subtracts.  A point in time is
the number of whole seconds since 0001-01-01T00:00:00Z, the zero `time.Time`.
-/

set_option autoImplicit false

namespace FrequencyReducer

/-! ## Go standard library: `strings`, `strconv`, `fmt` -/

/-- Whether `s` begins with `p` (`strings.HasPrefix` on rune lists). -/
def startsWith : List Char → List Char → Bool
  | _, [] => true
  | [], _ :: _ => false
  | c :: cs, p :: ps => c == p && startsWith cs ps

/-- Whether `sub` occurs in `s` (`strings.Contains` on rune lists). -/
def containsSub : List Char → List Char → Bool
  | [], sub => sub.isEmpty
  | c :: cs, sub => startsWith (c :: cs) sub || containsSub cs sub

/-- `strings.HasPrefix`. -/
def HasPrefix (s p : String) : Bool := startsWith s.data p.data

/-- `strings.Contains`. -/
def Contains (s sub : String) : Bool := containsSub s.data sub.data

/-- Lower case of one rune as `unicode.ToLower` gives it, for every rune whose
lower case is an ASCII character: the letters `A` to `Z`, U+0130 (to `i`) and
U+212A (to `k`).  Other runes are kept: Go maps the remaining upper-case
letters to lower-case letters outside ASCII, and the reducer only compares the
result with ASCII text or searches ASCII text in it. -/
def lowerRune (c : Char) : Char :=
  if 65 ≤ c.toNat ∧ c.toNat ≤ 90 then Char.ofNat (c.toNat + 32)
  else if c.toNat = 0x130 then 'i'
  else if c.toNat = 0x212A then 'k'
  else c

/-- `strings.ToLower`. -/
def ToLower (s : String) : String := ⟨s.data.map lowerRune⟩

/-- The decimal digit `d` as a character. -/
def digitChar (d : Nat) : Char := Char.ofNat (48 + d)

/-- Decimal digits of `n`, most significant first; the first argument bounds
the number of digits and is `n` itself in `fmtNat`. -/
def natDigits : Nat → Nat → List Char
  | 0, n => [digitChar (n % 10)]
  | f + 1, n => if n < 10 then [digitChar n] else natDigits f (n / 10) ++ [digitChar (n % 10)]

/-- A natural number under the verb `%d`. -/
def fmtNat (n : Nat) : List Char := natDigits n n

/-- An integer under the verb `%d` of `fmt.Sprintf`. -/
def fmtInt : Int → List Char
  | Int.ofNat n => fmtNat n
  | Int.negSucc n => '-' :: fmtNat (n + 1)

/-- Whether the rune is one of `0` to `9` (the class `\d` of Go regular
expressions). -/
def isDigit (c : Char) : Bool := 48 ≤ c.toNat && c.toNat ≤ 57

/-- Value of a run of decimal digits, `none` when a character is no digit. -/
def digitsValue : List Char → Nat → Option Nat
  | [], acc => some acc
  | c :: cs, acc => if isDigit c then digitsValue cs (acc * 10 + (c.toNat - 48)) else none

/-- `strconv.ParseInt(s, 10, bits)`: an optional sign, then at least one
decimal digit and nothing else; a value outside the signed range of `bits` bits
is an error. -/
def parseIntBits (bits : Nat) (s : List Char) : Option Int :=
  let signed : Bool × List Char :=
    match s with
    | '+' :: r => (false, r)
    | '-' :: r => (true, r)
    | r => (false, r)
  match signed.2 with
  | [] => none
  | d :: ds =>
    match digitsValue (d :: ds) 0 with
    | none => none
    | some v =>
      if signed.1 then (if v ≤ 2 ^ (bits - 1) then some (-(v : Int)) else none)
      else (if v < 2 ^ (bits - 1) then some (v : Int) else none)

/-- Pieces of `s` between the occurrences of the rune `sep`, empty pieces
included (`strings.Split` with a one-rune separator). -/
def splitOnChar (sep : Char) : List Char → List (List Char)
  | [] => [[]]
  | c :: cs =>
    if c = sep then [] :: splitOnChar sep cs
    else
      match splitOnChar sep cs with
      | [] => [[c]]
      | p :: ps => (c :: p) :: ps

/-- Go `int` arithmetic: the 64-bit two's complement value of `x`. -/
def wrapInt64 (x : Int) : Int := (x + 2 ^ 63) % 2 ^ 64 - 2 ^ 63

/-! ## Go standard library: `time`, in UTC and whole seconds -/

/-- Whether `y` is a leap year of the proleptic Gregorian calendar. -/
def isLeap (y : Nat) : Bool := y % 4 = 0 && (y % 100 != 0 || y % 400 = 0)

/-- Number of days of month `m` (1 to 12) in year `y`. -/
def daysIn (y m : Nat) : Nat :=
  if m = 2 then (if isLeap y then 29 else 28)
  else if m = 4 ∨ m = 6 ∨ m = 9 ∨ m = 11 then 30
  else 31

/-- Days from 0001-01-01 to January 1 of year `y`, for `y ≥ 1`. -/
def daysBeforeYear (y : Nat) : Nat :=
  365 * (y - 1) + (y - 1) / 4 - (y - 1) / 100 + (y - 1) / 400

/-- Days from January 1 of year `y` to the first day of month `m`. -/
def daysBeforeMonth (y : Nat) : Nat → Nat
  | 0 => 0
  | 1 => 0
  | m + 2 => daysBeforeMonth y (m + 1) + daysIn y (m + 1)

/-- Year and zero-based day of the year of day number `n` (days since
0001-01-01), by the 400, 100, 4 and 1 year cycles as in Go. -/
def yearAndYday (n : Nat) : Nat × Nat :=
  let n400 := n / 146097
  let d := n % 146097
  let c := d / 36524
  let n100 := c - c / 4
  let d := d - 36524 * n100
  let n4 := d / 1461
  let d := d % 1461
  let q := d / 365
  let n1 := q - q / 4
  let d := d - 365 * n1
  (400 * n400 + 100 * n100 + 4 * n4 + n1 + 1, d)

/-- Month and day of the month for the zero-based day `d` counted from the
first day of month `m` of year `y`; the first argument bounds the months
still to walk. -/
def monthAndDay (y : Nat) : Nat → Nat → Nat → Nat × Nat
  | 0, m, d => (m, d + 1)
  | f + 1, m, d => if d < daysIn y m then (m, d + 1) else monthAndDay y f (m + 1) (d - daysIn y m)

/-- Day number (days since 0001-01-01) of the instant `t`. -/
def dayNumber (t : Nat) : Nat := t / 86400

/-- Year of day number `n`. -/
def yearOfDay (n : Nat) : Nat := (yearAndYday n).1

/-- Month, January being 1, of day number `n`. -/
def monthOfDay (n : Nat) : Nat :=
  (monthAndDay (yearAndYday n).1 11 1 (yearAndYday n).2).1

/-- Day of the month of day number `n`. -/
def dayOfMonth (n : Nat) : Nat :=
  (monthAndDay (yearAndYday n).1 11 1 (yearAndYday n).2).2

/-- `Time.Year`. -/
def Year (t : Nat) : Nat := yearOfDay (dayNumber t)

/-- `Time.Month`, January being 1. -/
def Month (t : Nat) : Nat := monthOfDay (dayNumber t)

/-- `Time.Day`, the day of the month. -/
def Day (t : Nat) : Nat := dayOfMonth (dayNumber t)

/-- `Time.Hour`. -/
def Hour (t : Nat) : Nat := t / 3600 % 24

/-- `Time.Minute`. -/
def Minute (t : Nat) : Nat := t / 60 % 60

/-- `Time.Second`. -/
def Second (t : Nat) : Nat := t % 60

/-- `Time.Weekday`, Sunday being 0; 0001-01-01 is a Monday. -/
def Weekday (t : Nat) : Nat := (dayNumber t + 1) % 7

/-- `time.Date(y, m, d, h, mi, s, 0, time.UTC)` for `y ≥ 1`, `m ≥ 1`, `d ≥ 1`:
a month above 12 carries into the year and a day beyond the end of the month
runs on into the following months, as Go normalises them. -/
def Date (y m d h mi s : Nat) : Nat :=
  let y1 := y + (m - 1) / 12
  let m1 := (m - 1) % 12 + 1
  (daysBeforeYear y1 + daysBeforeMonth y1 m1 + d - 1) * 86400 + h * 3600 + mi * 60 + s

/-- `Time.AddDate(years, months, days)`. -/
def AddDate (t years months days : Nat) : Nat :=
  Date (Year t + years) (Month t + months) (Day t + days) (Hour t) (Minute t) (Second t)

/-- `Time.Truncate(d)` for a duration of `d` seconds: the time is rounded down
to a multiple of `d` since the zero time. -/
def Truncate (t d : Nat) : Nat := t - t % d

/-! ## The cron library `gopkg.in/robfig/cron.v2`

The reducer validates schedules with `cron.Parse` and `Schedule.Next`.  The
functions of the reducer take the library as a value of `CronLib`; `robfig`
below is the library the repository builds against. -/

/-- The part of a cron library the reducer uses: parsing an expression, which
can fail, and the next activation time after a given time. -/
structure CronLib where
  /-- Parsed schedules. -/
  Schedule : Type
  /-- `cron.Parse`, `none` standing for a returned error. -/
  Parse : String → Option Schedule
  /-- `Schedule.Next`. -/
  Next : Schedule → Nat → Nat

/-- `unicode.IsSpace`. -/
def isSpace (c : Char) : Bool :=
  let n := c.toNat
  (9 ≤ n && n ≤ 13) || n = 0x20 || n = 0x85 || n = 0xA0 || n = 0x1680 ||
  (0x2000 ≤ n && n ≤ 0x200A) || n = 0x2028 || n = 0x2029 || n = 0x202F ||
  n = 0x205F || n = 0x3000

/-- Maximal runs of runes that do not satisfy `sep`, in order
(`strings.FieldsFunc`); `cur` is the run being read, reversed. -/
def fieldsFunc (sep : Char → Bool) : List Char → List Char → List (List Char)
  | [], cur => if cur.isEmpty then [] else [cur.reverse]
  | c :: cs, cur =>
    if sep c then (if cur.isEmpty then fieldsFunc sep cs [] else cur.reverse :: fieldsFunc sep cs [])
    else fieldsFunc sep cs (c :: cur)

/-- `strings.Fields`. -/
def Fields (s : List Char) : List (List Char) := fieldsFunc isSpace s []

/-- A field of a crontab line: the admitted range and the names of its values. -/
structure bounds where
  /-- Least value. -/
  min : Nat
  /-- Greatest value. -/
  max : Nat
  /-- Names accepted in place of numbers, in lower case. -/
  names : List (String × Nat)

/-- Bounds of the seconds field. -/
def seconds : bounds := ⟨0, 59, []⟩

/-- Bounds of the minutes field. -/
def minutes : bounds := ⟨0, 59, []⟩

/-- Bounds of the hours field. -/
def hours : bounds := ⟨0, 23, []⟩

/-- Bounds of the day-of-month field. -/
def dom : bounds := ⟨1, 31, []⟩

/-- Bounds of the month field. -/
def months : bounds :=
  ⟨1, 12, [("jan", 1), ("feb", 2), ("mar", 3), ("apr", 4), ("may", 5), ("jun", 6),
    ("jul", 7), ("aug", 8), ("sep", 9), ("oct", 10), ("nov", 11), ("dec", 12)]⟩

/-- Bounds of the day-of-week field. -/
def dow : bounds :=
  ⟨0, 6, [("sun", 0), ("mon", 1), ("tue", 2), ("wed", 3), ("thu", 4), ("fri", 5), ("sat", 6)]⟩

/-- The bit that records that a field was given as `*` or `?`. -/
def starBit : Nat := 1 <<< 63

/-- All ones of a `uint64`. -/
def maxUint64 : Nat := 2 ^ 64 - 1

/-- The loop of `getBits`: bits `i`, `i + step`, ... up to `max`; the first
argument bounds the number of rounds. -/
def getBitsLoop : Nat → Nat → Nat → Nat → Nat → Nat
  | 0, _, _, _, acc => acc
  | f + 1, i, max, step, acc =>
    if i ≤ max then getBitsLoop f (i + step) max step (acc ||| (1 <<< i)) else acc

/-- `getBits`: the bits `min`, `min + step`, ... up to `max`, for `step ≥ 1`
and `max < 63`. -/
def getBits (min max step : Nat) : Nat :=
  if step = 1 then
    (maxUint64 ^^^ ((maxUint64 <<< (max + 1)) % 2 ^ 64)) &&& ((maxUint64 <<< min) % 2 ^ 64)
  else getBitsLoop (max + 1) min max step 0

/-- `all`: every value of the field, and the star bit. -/
def all (r : bounds) : Nat := getBits r.min r.max 1 ||| starBit

/-- `mustParseInt`: `strconv.Atoi`, refusing what is no integer of 64 bits and
what is negative. -/
def mustParseInt (expr : List Char) : Option Nat :=
  match parseIntBits 64 expr with
  | some v => if v < 0 then none else some v.toNat
  | none => none

/-- `parseIntOrName`. -/
def parseIntOrName (expr : List Char) (names : List (String × Nat)) : Option Nat :=
  match names.lookup (ToLower ⟨expr⟩) with
  | some v => some v
  | none => mustParseInt expr

/-- `getRange`: the bits of `number`, `number-number`, `*` or `?`, each with
an optional `/step`; `none` stands for the panic that `Parse` turns into an
error.  A step of zero, on which the loop of `getBits` does not advance, is
refused as well. -/
def getRange (expr : List Char) (r : bounds) : Option Nat :=
  let rangeAndStep := splitOnChar '/' expr
  let lowAndHigh := splitOnChar '-' (rangeAndStep.headD [])
  let singleDigit : Bool := lowAndHigh.length == 1
  let low := lowAndHigh.headD []
  let startEndStar : Option (Nat × Nat × Nat) :=
    if low = ['*'] ∨ low = ['?'] then some (r.min, r.max, starBit)
    else
      match parseIntOrName low r.names with
      | none => none
      | some start =>
        match lowAndHigh with
        | [_] => some (start, start, 0)
        | [_, high] =>
          match parseIntOrName high r.names with
          | none => none
          | some e => some (start, e, 0)
        | _ => none
  match startEndStar with
  | none => none
  | some (start, end0, extraStar) =>
    let endStep : Option (Nat × Nat) :=
      match rangeAndStep with
      | [_] => some (end0, 1)
      | [_, st] =>
        match mustParseInt st with
        | none => none
        | some step => some (if singleDigit then r.max else end0, step)
      | _ => none
    match endStep with
    | none => none
    | some (end1, step) =>
      if start < r.min then none
      else if end1 > r.max then none
      else if start > end1 then none
      else if step = 0 then none
      else some (getBits start end1 step ||| extraStar)

/-- The loop of `getField` over the comma-separated ranges. -/
def getFieldLoop (r : bounds) : List (List Char) → Nat → Option Nat
  | [], bits => some bits
  | expr :: rest, bits =>
    match getRange expr r with
    | none => none
    | some b => getFieldLoop r rest (bits ||| b)

/-- `getField`: the union of the ranges of a comma-separated list. -/
def getField (field : List Char) (r : bounds) : Option Nat :=
  getFieldLoop r (fieldsFunc (fun c => c == ',') field []) 0

/-- `SpecSchedule`: one bit set per field of a crontab line. -/
structure SpecSchedule where
  /-- Seconds, bits 0 to 59. -/
  Second : Nat
  /-- Minutes, bits 0 to 59. -/
  Minute : Nat
  /-- Hours, bits 0 to 23. -/
  Hour : Nat
  /-- Days of the month, bits 1 to 31. -/
  Dom : Nat
  /-- Months, bits 1 to 12. -/
  Month : Nat
  /-- Days of the week, bits 0 to 6. -/
  Dow : Nat
deriving DecidableEq, Repr

/-- The schedules `cron.Parse` returns: a `SpecSchedule`, or the
`ConstantDelaySchedule` of `@every`, its delay in whole seconds. -/
inductive Schedule where
  | spec (s : SpecSchedule)
  | every (delay : Nat)
deriving DecidableEq, Repr

/-- `Every`: a delay below one second becomes one second, and the delay is
cut to whole seconds; `duration` is in nanoseconds. -/
def Every (duration : Int) : Schedule :=
  .every ((if duration < 1000000000 then (1000000000 : Int) else duration) / 1000000000).toNat

/-- `parseDescriptor`: the predefined schedules and `@every <duration>`. -/
def parseDescriptor (parseDuration : String → Option Int) (spec : String) : Option Schedule :=
  if spec = "@yearly" ∨ spec = "@annually" then
    some (.spec ⟨1 <<< seconds.min, 1 <<< minutes.min, 1 <<< hours.min, 1 <<< dom.min,
      1 <<< months.min, all dow⟩)
  else if spec = "@monthly" then
    some (.spec ⟨1 <<< seconds.min, 1 <<< minutes.min, 1 <<< hours.min, 1 <<< dom.min,
      all months, all dow⟩)
  else if spec = "@weekly" then
    some (.spec ⟨1 <<< seconds.min, 1 <<< minutes.min, 1 <<< hours.min, all dom,
      all months, 1 <<< dow.min⟩)
  else if spec = "@daily" ∨ spec = "@midnight" then
    some (.spec ⟨1 <<< seconds.min, 1 <<< minutes.min, 1 <<< hours.min, all dom,
      all months, all dow⟩)
  else if spec = "@hourly" then
    some (.spec ⟨1 <<< seconds.min, 1 <<< minutes.min, all hours, all dom,
      all months, all dow⟩)
  else if startsWith spec.data "@every ".data then
    match parseDuration ⟨spec.data.drop 7⟩ with
    | some d => some (Every d)
    | none => none
  else none

/-- `cron.Parse`: a descriptor when the text starts with `@`, else five or six
fields separated by white space, seconds first when there are six.  A panic
inside, recovered by `Parse`, and the empty text give `none`. -/
def Parse (parseDuration : String → Option Int) (spec : String) : Option Schedule :=
  match spec.data with
  | [] => none
  | '@' :: _ => parseDescriptor parseDuration spec
  | _ =>
    let fields := Fields spec.data
    if fields.length ≠ 5 ∧ fields.length ≠ 6 then none
    else
      match (if fields.length = 5 then ['0'] :: fields else fields) with
      | [f0, f1, f2, f3, f4, f5] =>
        match getField f0 seconds, getField f1 minutes, getField f2 hours,
          getField f3 dom, getField f4 months, getField f5 dow with
        | some b0, some b1, some b2, some b3, some b4, some b5 =>
          some (.spec ⟨b0, b1, b2, b3, b4, b5⟩)
        | _, _, _, _, _, _ => none
      | _ => none

/-- Whether bit `v` of the bit set is on: `1<<uint(v)&bits != 0`. -/
def bitSet (bits v : Nat) : Bool := (1 <<< v) &&& bits != 0

/-- `dayMatches`: when the day of the month or the day of the week is a
star both must match, else one of them is enough. -/
def dayMatches (s : SpecSchedule) (t : Nat) : Bool :=
  let domMatch := bitSet s.Dom (Day t)
  let dowMatch := bitSet s.Dow (Weekday t)
  if starBit &&& s.Dom != 0 || starBit &&& s.Dow != 0 then domMatch && dowMatch
  else domMatch || dowMatch

/-- Where `SpecSchedule.Next` stands: at the label `WRAP`, or in the loop of
one of the five fields. -/
inductive Phase where
  | wrap
  | month
  | day
  | hour
  | minute
  | second
deriving DecidableEq, Repr

/-- Rounds of `nextLoop` granted to one call of `Next`: more than seven per
second of the six years a search can span. -/
def nextFuel : Nat := 2 ^ 31

/-- The body of `SpecSchedule.Next` from the label `WRAP` on.  Each field has
a loop that moves the time to the start of the next unit of that field until
the field matches; the first move also clears the smaller units (`added`), and
a move that wraps the field around goes back to `WRAP`.  A search that leaves
`yearLimit` returns the zero time.  The first argument bounds the rounds. -/
def nextLoop (s : SpecSchedule) (yearLimit : Nat) : Nat → Phase → Nat → Bool → Nat
  | 0, _, _, _ => 0
  | f + 1, .wrap, t, added =>
    if Year t > yearLimit then 0 else nextLoop s yearLimit f .month t added
  | f + 1, .month, t, added =>
    if bitSet s.Month (Month t) then nextLoop s yearLimit f .day t added
    else
      let t1 := if added then t else Date (Year t) (Month t) 1 0 0 0
      let t2 := AddDate t1 0 1 0
      if Month t2 = 1 then nextLoop s yearLimit f .wrap t2 true
      else nextLoop s yearLimit f .month t2 true
  | f + 1, .day, t, added =>
    if dayMatches s t then nextLoop s yearLimit f .hour t added
    else
      let t1 := if added then t else Date (Year t) (Month t) (Day t) 0 0 0
      let t2 := AddDate t1 0 0 1
      if Day t2 = 1 then nextLoop s yearLimit f .wrap t2 true
      else nextLoop s yearLimit f .day t2 true
  | f + 1, .hour, t, added =>
    if bitSet s.Hour (Hour t) then nextLoop s yearLimit f .minute t added
    else
      let t1 := if added then t else Truncate t 3600
      let t2 := t1 + 3600
      if Hour t2 = 0 then nextLoop s yearLimit f .wrap t2 true
      else nextLoop s yearLimit f .hour t2 true
  | f + 1, .minute, t, added =>
    if bitSet s.Minute (Minute t) then nextLoop s yearLimit f .second t added
    else
      let t1 := if added then t else Truncate t 60
      let t2 := t1 + 60
      if Minute t2 = 0 then nextLoop s yearLimit f .wrap t2 true
      else nextLoop s yearLimit f .minute t2 true
  | f + 1, .second, t, added =>
    if bitSet s.Second (Second t) then t
    else
      let t1 := if added then t else Truncate t 1
      let t2 := t1 + 1
      if Second t2 = 0 then nextLoop s yearLimit f .wrap t2 true
      else nextLoop s yearLimit f .second t2 true

/-- `SpecSchedule.Next`: the search starts at the second after `t` and gives
up, with the zero time, after the fifth year from there. -/
def SpecSchedule.Next (s : SpecSchedule) (t : Nat) : Nat :=
  nextLoop s (Year (t + 1) + 5) nextFuel .wrap (t + 1) false

/-- `Schedule.Next`; for `ConstantDelaySchedule` the time plus the delay. -/
def Schedule.Next : Schedule → Nat → Nat
  | .spec s, t => s.Next t
  | .every delay, t => t + delay

/-- The library `gopkg.in/robfig/cron.v2`, with `time.ParseDuration` as a
parameter (duration texts to nanoseconds) for its `@every` descriptor. -/
def robfig (parseDuration : String → Option Int) : CronLib :=
  ⟨Schedule, Parse parseDuration, Schedule.Next⟩

/-! ## Package `ocplifecycle` and the configuration types -/

/-- Modelled from the spec: the type `ocplifecycle.MajorMinor` of
`pkg/api/ocplifecycle`, which is not under src/; the spec writes versions as
`MAJ.MIN` and the reducer reads the two numbers `Major` and `Minor`. -/
structure MajorMinor where
  /-- The number before the dot. -/
  Major : Int
  /-- The number after the dot. -/
  Minor : Int
deriving DecidableEq, Repr

/-- Modelled from the spec: `MajorMinor.Less` of `pkg/api/ocplifecycle`, not
under src/; the order of release age, by major and then by minor number. -/
def MajorMinor.Less (m other : MajorMinor) : Bool :=
  if m.Major = other.Major then m.Minor < other.Minor else m.Major < other.Major

/-- The text `fmt.Sprintf("%d.%d", a, b)`. -/
def fmtVersion (a b : Int) : String := ⟨fmtInt a ++ '.' :: fmtInt b⟩

/-- Modelled from the spec: `MajorMinor.GetVersion` of `pkg/api/ocplifecycle`,
not under src/; the version written `MAJ.MIN`. -/
def MajorMinor.GetVersion (m : MajorMinor) : String := fmtVersion m.Major m.Minor

/-- Modelled from the spec: `MajorMinor.GetPastVersion` of
`pkg/api/ocplifecycle`, not under src/; the version one minor release back,
the band `n-1`, written `MAJ.MIN`. -/
def MajorMinor.GetPastVersion (m : MajorMinor) : String :=
  fmtVersion m.Major (wrapInt64 (m.Minor - 1))

/-- Modelled from the spec: `ocplifecycle.ParseMajorMinor` of
`pkg/api/ocplifecycle`, not under src/; a version `MAJ.MIN` is two integers of
32 bits around one dot, and anything else is an error. -/
def ParseMajorMinor (version : String) : Option MajorMinor :=
  match splitOnChar '.' version.data with
  | [a, b] =>
    match parseIntBits 32 a, parseIntBits 32 b with
    | some major, some minor => some ⟨major, minor⟩
    | _, _ => none
  | _ => none

/-- The fields of `api.TestStepConfiguration` the reducer reads or writes. -/
structure TestStepConfiguration where
  /-- Name of the test. -/
  As : String
  /-- Cron schedule, when set. -/
  Cron : Option String
  /-- Interval schedule, when set. -/
  Interval : Option String
  /-- Modelled from the spec: what `GetClusterProfileName` of `pkg/api`, not
  under src/, returns: the name of the cluster profile of the test, empty when
  the test has none. -/
  GetClusterProfileName : String
deriving DecidableEq, Repr

/-- The fields of `config.DataWithInfo` the reducer reads or writes: branch
and variant of `Info.Metadata`, and the tests of `Configuration`. -/
structure DataWithInfo where
  /-- `Info.Metadata.Branch`. -/
  Branch : String
  /-- `Info.Metadata.Variant`. -/
  Variant : String
  /-- `Configuration.Tests`. -/
  Tests : List TestStepConfiguration
deriving DecidableEq, Repr

/-! ## The frequency reducer -/

/-- The text matched by `(\d+\.\d+)$`: digits, a dot, digits, and nothing
after them. -/
def isVersionText (s : List Char) : Bool :=
  match splitOnChar '.' s with
  | [a, b] => !a.isEmpty && a.all isDigit && !b.isEmpty && b.all isDigit
  | _ => false

/-- Second alternative of the pattern, `^.*nightly-(\d+\.\d+)$`, tried on
what is left of the text after the runes `.*` has taken: `.*` takes any rune
but a line feed, as many as it can, and the group is what follows `nightly-`
when that is a version up to the end of the text.  Returns the group. -/
def matchNightly : List Char → Option (List Char)
  | [] => none
  | c :: cs =>
    let here : Option (List Char) :=
      if startsWith (c :: cs) "nightly-".data && isVersionText ((c :: cs).drop 8)
      then some ((c :: cs).drop 8) else none
    if c = '\n' then here
    else
      match matchNightly cs with
      | some g => some g
      | none => here

/-- `re.FindStringSubmatch(s)` for the pattern
`^(?:release|openshift)-(\d+\.\d+)$|^.*nightly-(\d+\.\d+)$`: the whole
match and the two groups, a group that took no part being empty; `none` when
the pattern does not match. -/
def FindStringSubmatch (s : List Char) : Option (List (List Char)) :=
  if startsWith s "release-".data && isVersionText (s.drop 8) then some [s, s.drop 8, []]
  else if startsWith s "openshift-".data && isVersionText (s.drop 10) then some [s, s.drop 10, []]
  else
    match matchNightly s with
    | some g => some [s, [], g]
    | none => none

/-- `extractVersion`. -/
def extractVersion (s : String) : String :=
  let submatches := (FindStringSubmatch s.data).getD []
  match (submatches.drop 1).find? (fun g => g != []) with
  | some g => ⟨g⟩
  | none =>
    if s.utf8ByteSize = 3 ∧ s.data.head? = some '4' then ⟨'4' :: '.' :: s.data.drop 1⟩
    else ""

/-- `shouldProcessTest`, the allow-list being the map `allowedClusterProfiles`
read as a function (a key that is absent reads as `false`). -/
def shouldProcessTest (test : TestStepConfiguration) (allowedClusterProfiles : String → Bool) :
    Bool :=
  let clusterProfile := test.GetClusterProfileName
  if clusterProfile = "" then true
  else allowedClusterProfiles clusterProfile

/-- The keywords of `shouldProcessJobByName`. -/
def requiredKeywords : List String :=
  ["e2e", "upgrade", "vsphere", "aws", "nightly", "metal", "conformance", "ocp"]

/-- `shouldProcessJobByName`. -/
def shouldProcessJobByName (testName : String) : Bool :=
  let testNameLower := ToLower testName
  requiredKeywords.any (fun keyword => Contains testNameLower keyword)

/-- `shouldExcludeQEClusterProfile`. -/
def shouldExcludeQEClusterProfile (test : TestStepConfiguration) : Bool :=
  let clusterProfile := test.GetClusterProfileName
  if clusterProfile = "" then false
  else Contains (ToLower clusterProfile) "-qe"

/-- `rand.Intn(n)`: the random source is a stream `rng` of numbers, of which
the call takes number `i`, reduced to the range `0` to `n - 1`. -/
def Intn (rng : Nat → Nat) (i n : Nat) : Nat := rng i % n

/-- `generateWeeklyWeekendCron`, from draw `i` on; returns the cron and the
number of the next draw. -/
def generateWeeklyWeekendCron (rng : Nat → Nat) (i : Nat) : String × Nat :=
  let randDay := Intn rng i 2
  let selectedDay := randDay * 6
  (⟨fmtNat (Intn rng (i + 1) 60) ++ ' ' :: fmtNat (Intn rng (i + 2) 24) ++
      ' ' :: '*' :: ' ' :: '*' :: ' ' :: fmtNat selectedDay⟩, i + 3)

/-- `generateBiWeeklyCron`. -/
def generateBiWeeklyCron (rng : Nat → Nat) (i : Nat) : String × Nat :=
  (⟨fmtNat (Intn rng i 60) ++ ' ' :: fmtNat (Intn rng (i + 1) 24) ++
      ' ' :: fmtNat (Intn rng (i + 2) 10 + 5) ++ ',' :: fmtNat (Intn rng (i + 3) 14 + 15) ++
      ' ' :: '*' :: ' ' :: '*' :: []⟩, i + 4)

/-- `generateMonthlyCron`. -/
def generateMonthlyCron (rng : Nat → Nat) (i : Nat) : String × Nat :=
  (⟨fmtNat (Intn rng i 60) ++ ' ' :: fmtNat (Intn rng (i + 1) 24) ++
      ' ' :: fmtNat (Intn rng (i + 2) 28 + 1) ++ ' ' :: '*' :: ' ' :: '*' :: []⟩, i + 3)

/-- `generateYearlyCron`. -/
def generateYearlyCron (rng : Nat → Nat) (i : Nat) : String × Nat :=
  let month := Intn rng i 12 + 1
  let day := Intn rng (i + 1) 28 + 1
  let hour := Intn rng (i + 2) 24
  let minute := Intn rng (i + 3) 60
  (⟨fmtNat minute ++ ' ' :: fmtNat hour ++ ' ' :: fmtNat day ++ ' ' :: fmtNat month ++
      ' ' :: '*' :: []⟩, i + 4)

/-- `convertCronMacroToGenerated`. -/
def convertCronMacroToGenerated (rng : Nat → Nat) (i : Nat) (cronExpr : String) : String × Nat :=
  let lower := ToLower cronExpr
  if lower = "@daily" then generateWeeklyWeekendCron rng i
  else if lower = "@weekly" then generateBiWeeklyCron rng i
  else if lower = "@monthly" then generateMonthlyCron rng i
  else if lower = "@yearly" ∨ lower = "@annually" then generateYearlyCron rng i
  else (cronExpr, i)

/-- The `switch` that opens both validators: a macro is replaced by its
five-field form. -/
def macroToFields (cronExpr : String) : String :=
  let lower := ToLower cronExpr
  if lower = "@daily" then "0 0 * * *"
  else if lower = "@weekly" then "0 0 * * 0"
  else if lower = "@monthly" then "0 0 1 * *"
  else if lower = "@yearly" ∨ lower = "@annually" then "0 0 1 1 *"
  else cronExpr

/-- The counting loop of both validators: `rounds` is what is left of
`maxIterations`; each round asks for the activation after `start`, stops with
the count when `stop` holds of it, and counts it otherwise.  `none` is the
error returned when the rounds are used up. -/
def countExecutions (next : Nat → Nat) (stop : Nat → Bool) : Nat → Nat → Nat → Option Nat
  | 0, _, _ => none
  | rounds + 1, start, executionCount =>
    if stop (next start) then some executionCount
    else countExecutions next stop rounds (next start) (executionCount + 1)

/-- Start of both windows, 2024-01-01T00:00:00Z. -/
def windowStart : Nat := Date 2024 1 1 0 0 0

/-- `isExecutedAtMostOncePerYear`; `none` is a returned error. -/
def isExecutedAtMostOncePerYear (lib : CronLib) (cronExpr : String) : Option Bool :=
  match lib.Parse (macroToFields cronExpr) with
  | none => none
  | some schedule =>
    let start := windowStart
    let stop := AddDate start 1 0 0
    match countExecutions (lib.Next schedule) (fun next => decide (next > stop) || next == stop)
        1000 start 0 with
    | none => none
    | some executionCount => some (decide (executionCount ≤ 1))

/-- `isExecutedAtMostXTimesAMonth`; `none` is a returned error. -/
def isExecutedAtMostXTimesAMonth (lib : CronLib) (cronExpr : String) (x : Int) : Option Bool :=
  match lib.Parse (macroToFields cronExpr) with
  | none => none
  | some schedule =>
    let start := windowStart
    let stop := AddDate start 0 1 0
    match countExecutions (lib.Next schedule) (fun next => decide (next > stop))
        100 start 0 with
    | none => none
    | some executionCount => some (decide ((executionCount : Int) ≤ x))

/-- The version the reducer works with (the variable `extractedVersion`): the
one of the branch, or the one of the variant. -/
def extractedVersionOf (branchName variantName : String) : String :=
  let branchVersion := extractVersion branchName
  let variantVersion := if variantName ≠ "" then extractVersion variantName else ""
  if variantVersion ≠ "" ∧ HasPrefix variantVersion "4." then
    (if !HasPrefix branchVersion "4." then variantVersion else branchVersion)
  else if branchVersion = "" ∧ variantVersion ≠ "" then variantVersion
  else branchVersion

/-- First test of the version chain:
`testVersion.Less(n3Version) || *testVersion == n3Version`. -/
def atMostN3 (version testVersion : MajorMinor) : Bool :=
  let n3Version : MajorMinor := ⟨version.Major, wrapInt64 (version.Minor - 3)⟩
  testVersion.Less n3Version || testVersion == n3Version

/-- Second test of the version chain:
`testVersion.GetVersion() == fmt.Sprintf("%d.%d", version.Major, version.Minor-2)`. -/
def isN2 (version testVersion : MajorMinor) : Bool :=
  testVersion.GetVersion == fmtVersion version.Major (wrapInt64 (version.Minor - 2))

/-- Third test of the version chain:
`testVersion.GetVersion() == version.GetPastVersion()`. -/
def isN1 (version testVersion : MajorMinor) : Bool :=
  testVersion.GetVersion == version.GetPastVersion

/-- The block `if test.Cron != nil { ... }` for a test whose cron is `cron`.
Returns the test, the number of the next random draw, and `false` when the
block left the round of the loop with `continue`. -/
def updateCron (lib : CronLib) (rng : Nat → Nat) (version testVersion : MajorMinor)
    (test : TestStepConfiguration) (cron : String) (i : Nat) :
    TestStepConfiguration × Nat × Bool :=
  if atMostN3 version testVersion then
    let converted := convertCronMacroToGenerated rng i cron
    let test1 := { test with Cron := some converted.1 }
    match isExecutedAtMostOncePerYear lib converted.1 with
    | none => (test1, converted.2, false)
    | some correctCron =>
      if !correctCron then
        ({ test1 with Cron := some (generateYearlyCron rng converted.2).1 },
          (generateYearlyCron rng converted.2).2, true)
      else (test1, converted.2, true)
  else if isN2 version testVersion then
    let converted := convertCronMacroToGenerated rng i cron
    let test1 := { test with Cron := some converted.1 }
    match isExecutedAtMostOncePerYear lib converted.1 with
    | none => (test1, converted.2, false)
    | some isYearlyOrLess =>
      if isYearlyOrLess then
        ({ test1 with Cron := some (generateBiWeeklyCron rng converted.2).1 },
          (generateBiWeeklyCron rng converted.2).2, true)
      else
        match isExecutedAtMostXTimesAMonth lib converted.1 2 with
        | none => (test1, converted.2, false)
        | some correctCron =>
          if !correctCron then
            ({ test1 with Cron := some (generateBiWeeklyCron rng converted.2).1 },
              (generateBiWeeklyCron rng converted.2).2, true)
          else (test1, converted.2, true)
  else if isN1 version testVersion then
    let converted := convertCronMacroToGenerated rng i cron
    let test1 := { test with Cron := some converted.1 }
    match isExecutedAtMostOncePerYear lib converted.1 with
    | none => (test1, converted.2, false)
    | some isYearlyOrLess =>
      if isYearlyOrLess then
        ({ test1 with Cron := some (generateWeeklyWeekendCron rng converted.2).1 },
          (generateWeeklyWeekendCron rng converted.2).2, true)
      else
        match isExecutedAtMostXTimesAMonth lib converted.1 4 with
        | none => (test1, converted.2, false)
        | some correctCron =>
          if !correctCron then
            ({ test1 with Cron := some (generateWeeklyWeekendCron rng converted.2).1 },
              (generateWeeklyWeekendCron rng converted.2).2, true)
          else (test1, converted.2, true)
  else (test, i, true)

/-- Nanoseconds of `time.Hour * 24`. -/
def dayNanos : Int := 3600 * 1000000000 * 24

/-- The block `if test.Interval != nil { ... }` for a test whose interval is
`interval`; `parseDuration` is `time.ParseDuration`, to nanoseconds.  Returns
the test and the number of the next random draw. -/
def updateInterval (parseDuration : String → Option Int) (rng : Nat → Nat)
    (version testVersion : MajorMinor) (test : TestStepConfiguration) (interval : String)
    (i : Nat) : TestStepConfiguration × Nat :=
  if atMostN3 version testVersion then
    match parseDuration interval with
    | none => (test, i)
    | some duration =>
      if duration < dayNanos * 365 then
        ({ test with Cron := some (generateYearlyCron rng i).1, Interval := none },
          (generateYearlyCron rng i).2)
      else (test, i)
  else if isN2 version testVersion then
    match parseDuration interval with
    | none => (test, i)
    | some duration =>
      if duration < dayNanos * 14 then
        ({ test with Cron := some (generateBiWeeklyCron rng i).1, Interval := none },
          (generateBiWeeklyCron rng i).2)
      else (test, i)
  else if isN1 version testVersion then
    match parseDuration interval with
    | none => (test, i)
    | some duration =>
      if duration < dayNanos * 7 then
        ({ test with Cron := some (generateWeeklyWeekendCron rng i).1, Interval := none },
          (generateWeeklyWeekendCron rng i).2)
      else (test, i)
  else (test, i)

/-- The statement `if test.Cron != nil { ... }`: the test, the number of the
next random draw, and `false` when the round was left with `continue`. -/
def cronBlock (lib : CronLib) (rng : Nat → Nat) (version testVersion : MajorMinor)
    (test : TestStepConfiguration) (i : Nat) : TestStepConfiguration × Nat × Bool :=
  match test.Cron with
  | some cron => updateCron lib rng version testVersion test cron i
  | none => (test, i, true)

/-- The statement `if test.Interval != nil { ... }`. -/
def intervalBlock (parseDuration : String → Option Int) (rng : Nat → Nat)
    (version testVersion : MajorMinor) (test : TestStepConfiguration) (i : Nat) :
    TestStepConfiguration × Nat :=
  match test.Interval with
  | some interval => updateInterval parseDuration rng version testVersion test interval i
  | none => (test, i)

/-- One round of the loop over the tests: the test after the round and the
number of the next random draw.  `allowedClusterProfiles` is `none` for the
nil map. -/
def updateTest (lib : CronLib) (parseDuration : String → Option Int) (rng : Nat → Nat)
    (version testVersion : MajorMinor) (allowedClusterProfiles : Option (String → Bool))
    (test : TestStepConfiguration) (i : Nat) : TestStepConfiguration × Nat :=
  if !Contains test.As "mirror-nightly-image" && !Contains test.As "promote-" then
    if !shouldProcessJobByName test.As then (test, i)
    else if shouldExcludeQEClusterProfile test then (test, i)
    else if allowedClusterProfiles.isSome &&
        !shouldProcessTest test (allowedClusterProfiles.getD (fun _ => false)) then (test, i)
    else if !(cronBlock lib rng version testVersion test i).2.2 then
      ((cronBlock lib rng version testVersion test i).1,
        (cronBlock lib rng version testVersion test i).2.1)
    else
      intervalBlock parseDuration rng version testVersion
        (cronBlock lib rng version testVersion test i).1
        (cronBlock lib rng version testVersion test i).2.1
  else (test, i)

/-- The loop `for i := range configuration.Configuration.Tests`. -/
def updateTests (lib : CronLib) (parseDuration : String → Option Int) (rng : Nat → Nat)
    (version testVersion : MajorMinor) (allowedClusterProfiles : Option (String → Bool)) :
    List TestStepConfiguration → Nat → List TestStepConfiguration × Nat
  | [], i => ([], i)
  | test :: rest, i =>
    let r := updateTest lib parseDuration rng version testVersion allowedClusterProfiles test i
    let rs := updateTests lib parseDuration rng version testVersion allowedClusterProfiles rest r.2
    (r.1 :: rs.1, rs.2)

/-- `updateIntervalFieldsForMatchedSteps`: the configuration after the call,
and the number of the next random draw; the random source `rng` is read from
draw `i` on. -/
def updateIntervalFieldsForMatchedSteps (lib : CronLib) (parseDuration : String → Option Int)
    (rng : Nat → Nat) (i : Nat) (configuration : DataWithInfo) (version : MajorMinor)
    (allowedClusterProfiles : Option (String → Bool)) : DataWithInfo × Nat :=
  let extractedVersion := extractedVersionOf configuration.Branch configuration.Variant
  match ParseMajorMinor extractedVersion with
  | none => (configuration, i)
  | some testVersion =>
    let r := updateTests lib parseDuration rng version testVersion allowedClusterProfiles
      configuration.Tests i
    ({ configuration with Tests := r.1 }, r.2)

/-! ## Notions of the specification -/

/-- A value of Go's `int`, 64 bits wide. -/
def isInt64 (x : Int) : Prop := -2 ^ 63 ≤ x ∧ x < 2 ^ 63

/-- Band `n-1` of the specification: the test version is one minor release
behind the current version. -/
def BandN1 (version testVersion : MajorMinor) : Prop :=
  testVersion.Major = version.Major ∧ testVersion.Minor = version.Minor - 1

/-- Band `n-2` of the specification: two minor releases behind. -/
def BandN2 (version testVersion : MajorMinor) : Prop :=
  testVersion.Major = version.Major ∧ testVersion.Minor = version.Minor - 2

/-- Band `≤ n-3` of the specification: three minor releases behind or more,
or an earlier major release. -/
def BandN3 (version testVersion : MajorMinor) : Prop :=
  testVersion.Major < version.Major ∨
    (testVersion.Major = version.Major ∧ testVersion.Minor ≤ version.Minor - 3)

/-- A test the loop processes rather than skips: its name passes the name
filter, its cluster profile passes both profile filters, and the cron block
does not leave the round with `continue` (whatever the position in the random
stream). -/
def isProcessed (lib : CronLib) (rng : Nat → Nat) (version testVersion : MajorMinor)
    (allowedClusterProfiles : Option (String → Bool)) (test : TestStepConfiguration) : Prop :=
  Contains test.As "mirror-nightly-image" = false ∧ Contains test.As "promote-" = false ∧
  shouldProcessJobByName test.As = true ∧ shouldExcludeQEClusterProfile test = false ∧
  (∀ allowList, allowedClusterProfiles = some allowList →
    shouldProcessTest test allowList = true) ∧
  (∀ i, (cronBlock lib rng version testVersion test i).2.2 = true)

/-- A non-empty run of decimal digits. -/
def isDigitRun (l : List Char) : Prop := l ≠ [] ∧ ∀ c ∈ l, isDigit c = true

/-- The texts that carry a version `x.y`: exactly `release-x.y` or
`openshift-x.y`, or `nightly-x.y` after a prefix that `okPrefix` admits, with
`x` and `y` non-empty runs of digits. -/
def carriesVersion (okPrefix : List Char → Prop) (s x y : List Char) : Prop :=
  isDigitRun x ∧ isDigitRun y ∧
    (s = "release-".data ++ (x ++ '.' :: y) ∨ s = "openshift-".data ++ (x ++ '.' :: y) ∨
      ∃ p, okPrefix p ∧ s = p ++ ("nightly-".data ++ (x ++ '.' :: y)))

/-- The reference for `extractVersion` in the words of the specification:
`x.y` for a text that carries that version, with any prefix before `nightly-`;
otherwise `4.` and the last two characters for a text of exactly three
characters that starts with `4`; otherwise the empty text. -/
def ExtractVersionClaim (s r : String) : Prop :=
  (∃ x y, carriesVersion (fun _ => True) s.data x y ∧ r.data = x ++ '.' :: y) ∨
  ((¬ ∃ x y, carriesVersion (fun _ => True) s.data x y) ∧
    s.data.length = 3 ∧ s.data.head? = some '4' ∧
    r.data = '4' :: '.' :: s.data.drop (s.data.length - 2)) ∨
  ((¬ ∃ x y, carriesVersion (fun _ => True) s.data x y) ∧
    ¬ (s.data.length = 3 ∧ s.data.head? = some '4') ∧ r = "")

/-- The reference for `extractVersion` as amended: the prefix before
`nightly-` holds no line feed, and the compact form is a text of three bytes
that starts with `4`, giving `4.` and what follows the `4`. -/
def ExtractVersionAmended (s r : String) : Prop :=
  (∃ x y, carriesVersion (fun p => '\n' ∉ p) s.data x y ∧ r.data = x ++ '.' :: y) ∨
  ((¬ ∃ x y, carriesVersion (fun p => '\n' ∉ p) s.data x y) ∧
    s.utf8ByteSize = 3 ∧ s.data.head? = some '4' ∧ r.data = '4' :: '.' :: s.data.drop 1) ∨
  ((¬ ∃ x y, carriesVersion (fun p => '\n' ∉ p) s.data x y) ∧
    ¬ (s.utf8ByteSize = 3 ∧ s.data.head? = some '4') ∧ r = "")

/-! ## Activation times and the invariant of `SpecSchedule.Next` -/

/-- The schedule is activated at the instant `t`: every field of `t` is in
the bit set of the schedule, days by `dayMatches`. -/
def firesAt (s : SpecSchedule) (t : Nat) : Bool :=
  bitSet s.Month (Month t) && dayMatches s t && bitSet s.Hour (Hour t) &&
    bitSet s.Minute (Minute t) && bitSet s.Second (Second t)

/-- The schedule is activated at the instant `t` when the loop of a validator
asks it from the instant `start` on: a schedule of fields at the instants
whose fields match, and a constant delay at the instants after `start` that
are a whole number of delays away from it. -/
def Schedule.firesFrom : Schedule → Nat → Nat → Bool
  | .spec s, _, t => firesAt s t
  | .every delay, start, t => decide (start < t) && decide ((t - start) % delay = 0)

/-- First instant after the year `yearLimit`, where a search ends. -/
def searchEnd (yearLimit : Nat) : Nat := daysBeforeYear (yearLimit + 1) * 86400

/-- Day number of 2024-01-01, the first day the calendar lemmas cover. -/
def firstDay : Nat := 738885

/-- Number of days from 2024-01-01 to 2031-01-01, the last day the calendar
lemmas cover. -/
def spanDays : Nat := 2557

/-- The facts about day `firstDay + k` of the calendar that the proofs use,
as one check: the ranges of month and day, the day number recovered from
year, month and day, the first day of the month, the first day of the next
month as `Date` computes it, the year as a bracket of day numbers, and how
the following day relates to this one. -/
def calendarCheck (k : Nat) : Bool :=
  let n := firstDay + k
  let y := yearOfDay n
  let m := monthOfDay n
  let d := dayOfMonth n
  let n1 := n - (d - 1)
  decide (1 ≤ d ∧ d ≤ daysIn y m ∧ 1 ≤ m ∧ m ≤ 12) &&
  decide (daysBeforeYear y + daysBeforeMonth y m + d = n + 1) &&
  decide (yearOfDay n1 = y ∧ monthOfDay n1 = m ∧ dayOfMonth n1 = 1 ∧ firstDay ≤ n1) &&
  decide (Date y (m + 1) 1 0 0 0 = (n1 + daysIn y m) * 86400) &&
  decide (daysBeforeYear y ≤ n ∧ n < daysBeforeYear (y + 1) ∧
    n1 + daysIn y m ≤ daysBeforeYear (y + 1)) &&
  (if d < daysIn y m then
      decide (yearOfDay (n + 1) = y ∧ monthOfDay (n + 1) = m ∧ dayOfMonth (n + 1) = d + 1)
    else
      decide (dayOfMonth (n + 1) = 1 ∧
        ((m < 12 ∧ monthOfDay (n + 1) = m + 1 ∧ yearOfDay (n + 1) = y) ∨
          (m = 12 ∧ monthOfDay (n + 1) = 1 ∧ yearOfDay (n + 1) = y + 1))))

/-- How far `nextLoop` is from the label `WRAP`: the loops of the fields come
in this order, the seconds last. -/
def Phase.rank : Phase → Nat
  | .wrap => 6
  | .month => 5
  | .day => 4
  | .hour => 3
  | .minute => 2
  | .second => 1

/-- Invariant of `nextLoop` in a search that started at `t0` with the limit
`yearLimit`: the time reached is not before `t0` and not after the end of the
search, the schedule is not activated from `t0` up to it, after the first move
every field either matches or stands at the start of its unit, and the fields
whose loops are done match. -/
structure NextInv (s : SpecSchedule) (yearLimit t0 : Nat) (p : Phase) (t : Nat)
    (added : Bool) : Prop where
  /-- The search starts in the covered range. -/
  lo : firstDay * 86400 ≤ t0
  /-- The search ends in the covered range. -/
  limit : daysBeforeYear (yearLimit + 1) ≤ firstDay + spanDays
  /-- Before the first move the time is the start. -/
  start : added = false → t = t0
  /-- The time is not before the start. -/
  later : t0 ≤ t
  /-- The time is not after the end of the search. -/
  upper : t ≤ searchEnd yearLimit
  /-- No activation from the start up to the time. -/
  quiet : ∀ u, t0 ≤ u → u < t → firesAt s u = false
  /-- The month matches or the time is the start of a month. -/
  monthAligned : added = true → bitSet s.Month (Month t) = true ∨ (Day t = 1 ∧ t % 86400 = 0)
  /-- The day matches or the time is the start of a day. -/
  dayAligned : added = true → dayMatches s t = true ∨ t % 86400 = 0
  /-- The hour matches or the time is the start of an hour. -/
  hourAligned : added = true → bitSet s.Hour (Hour t) = true ∨ t % 3600 = 0
  /-- The minute matches or the time is the start of a minute. -/
  minuteAligned : added = true → bitSet s.Minute (Minute t) = true ∨ t % 60 = 0
  /-- Past `WRAP` the year is within the limit. -/
  inYear : p.rank ≤ 5 → t < searchEnd yearLimit
  /-- Past the loop of the months the month matches. -/
  monthOk : p.rank ≤ 4 → bitSet s.Month (Month t) = true
  /-- Past the loop of the days the day matches. -/
  dayOk : p.rank ≤ 3 → dayMatches s t = true
  /-- Past the loop of the hours the hour matches. -/
  hourOk : p.rank ≤ 2 → bitSet s.Hour (Hour t) = true
  /-- Past the loop of the minutes the minute matches. -/
  minuteOk : p.rank ≤ 1 → bitSet s.Minute (Minute t) = true

/-- What a search from `t0` with the limit `yearLimit` has to return: the
zero time when the schedule is not activated before the end of the search,
else the first activation from `t0` on. -/
def NextResult (s : SpecSchedule) (yearLimit t0 r : Nat) : Prop :=
  (r = 0 ∧ ∀ u, t0 ≤ u → u < searchEnd yearLimit → firesAt s u = false) ∨
  (t0 ≤ r ∧ r < searchEnd yearLimit ∧ firesAt s r = true ∧
    ∀ u, t0 ≤ u → u < r → firesAt s u = false)


/-- The day with number `n` is one on which the schedule is activated: its
month and its day match. -/
def activeDay (s : SpecSchedule) (n : Nat) : Bool :=
  bitSet s.Month (Month (n * 86400)) && dayMatches s (n * 86400)

/-- A field of a crontab line: a text that is not empty and has no white
space. -/
def isField (f : List Char) : Prop := f ≠ [] ∧ ∀ c ∈ f, isSpace c = false

/-- How the two blocks of a round behave in one band, in terms of the check
`check` the band makes of a cron (`none` for an error, `some true` for a cron
that is kept, `some false` for one that is replaced), of the generator `gen`
of the band and of the duration `limit` below which an interval is replaced;
the generated crons pass the check and are no macros. -/
structure BandShape (lib : CronLib) (parseDuration : String → Option Int)
    (version testVersion : MajorMinor) (check : String → Option Bool)
    (gen : (Nat → Nat) → Nat → String × Nat) (limit : Int) : Prop where
  /-- An error of the check leaves the round. -/
  cronNone : ∀ rng test cron i, check (convertCronMacroToGenerated rng i cron).1 = none →
    updateCron lib rng version testVersion test cron i =
      ({ test with Cron := some (convertCronMacroToGenerated rng i cron).1 },
        (convertCronMacroToGenerated rng i cron).2, false)
  /-- A cron that passes the check is kept. -/
  cronKeep : ∀ rng test cron i, check (convertCronMacroToGenerated rng i cron).1 = some true →
    updateCron lib rng version testVersion test cron i =
      ({ test with Cron := some (convertCronMacroToGenerated rng i cron).1 },
        (convertCronMacroToGenerated rng i cron).2, true)
  /-- A cron that fails the check is replaced by a generated one. -/
  cronNew : ∀ rng test cron i, check (convertCronMacroToGenerated rng i cron).1 = some false →
    updateCron lib rng version testVersion test cron i =
      ({ test with Cron := some (gen rng (convertCronMacroToGenerated rng i cron).2).1 },
        (gen rng (convertCronMacroToGenerated rng i cron).2).2, true)
  /-- An interval that does not parse is kept. -/
  intervalNone : ∀ rng test interval i, parseDuration interval = none →
    updateInterval parseDuration rng version testVersion test interval i = (test, i)
  /-- An interval of the limit or more is kept. -/
  intervalLong : ∀ rng test interval i d, parseDuration interval = some d → ¬ d < limit →
    updateInterval parseDuration rng version testVersion test interval i = (test, i)
  /-- An interval below the limit is replaced by a generated cron. -/
  intervalShort : ∀ rng test interval i d, parseDuration interval = some d → d < limit →
    updateInterval parseDuration rng version testVersion test interval i =
      ({ test with Cron := some (gen rng i).1, Interval := none }, (gen rng i).2)
  /-- The generated crons pass the check. -/
  genPasses : ∀ rng i, check (gen rng i).1 = some true
  /-- The generated crons are no macros. -/
  genPlain : ∀ rng i,
    ToLower (gen rng i).1 ∉ ["@daily", "@weekly", "@monthly", "@yearly", "@annually"]

/-- The two blocks of a round, for a test that the filters let through: the
cron block and, unless that left the round, the interval block. -/
def runBlocks (lib : CronLib) (parseDuration : String → Option Int) (rng : Nat → Nat)
    (version testVersion : MajorMinor) (test : TestStepConfiguration) (i : Nat) :
    TestStepConfiguration × Nat :=
  if !(cronBlock lib rng version testVersion test i).2.2 then
    ((cronBlock lib rng version testVersion test i).1,
      (cronBlock lib rng version testVersion test i).2.1)
  else
    intervalBlock parseDuration rng version testVersion
      (cronBlock lib rng version testVersion test i).1
      (cronBlock lib rng version testVersion test i).2.1

end FrequencyReducer

namespace CiOperator

/-! ## The orchestrator (`cmd/ci-operator`) -/

/-! ### Go standard library: `sort`, `crypto/sha256`, `encoding/base32`, `strings` -/

/-- The functions of Go's package `sort` that the orchestrator calls.  The
package is not part of the repository, and `sort.Slice` does not fix the order
of elements that compare as equal; so the model is any function with the
contract of the package: the result holds the elements given, and no element
is less than one before it when `less` is a strict weak order. -/
structure GoSort where
  /-- `sort.Slice(x, less)`, as the slice it leaves. -/
  Slice : {α : Type} → (α → α → Bool) → List α → List α
  /-- The slice is rearranged only. -/
  perm : ∀ {α : Type} (less : α → α → Bool) (x : List α), (Slice less x).Perm x
  /-- The slice is left in order. -/
  sorted : ∀ {α : Type} (less : α → α → Bool) (x : List α),
    (∀ a, less a a = false) →
    (∀ a b c, less a b = true → less b c = true → less a c = true) →
    (∀ a b c, less a b = false → less b c = false → less a c = false) →
    (Slice less x).Pairwise (fun a b => less b a = false)

/-- `sort.Strings`. -/
def GoSort.Strings (S : GoSort) (x : List String) : List String :=
  S.Slice (fun a b => decide (a < b)) x

/-- A sorting function with the contract of `GoSort`: sorting by insertion. -/
def insertionSort : GoSort where
  Slice := fun less x => List.insertionSort (fun a b => less b a = false) x
  perm := fun less x => List.perm_insertionSort _ x
  sorted := by
    intro α less x hirr htrans hneg
    have htotal : IsTotal α (fun a b => less b a = false) := ⟨fun a b => by
      cases hab : less a b
      · exact Or.inr rfl
      · left
        cases hba : less b a
        · rfl
        · have := htrans a b a hab hba
          rw [hirr a] at this
          exact absurd this (by simp)⟩
    have htr : IsTrans α (fun a b => less b a = false) := ⟨fun a b c hab hbc => hneg c b a hbc hab⟩
    exact List.sorted_insertionSort (fun a b => less b a = false) x

/-- The digest of `crypto/sha256`: 32 bytes. -/
structure Digest where
  /-- The bytes of the digest. -/
  bytes : List Nat
  /-- Their number, `sha256.Size`. -/
  size : bytes.length = 32
  /-- Each is a byte. -/
  byte : ∀ b ∈ bytes, b < 256

/-- The bytes of a string, `[]byte(s)`: its runes in UTF-8. -/
def bytesOf (s : String) : List Nat :=
  s.data.flatMap (fun c => (String.utf8EncodeChar c).map (fun b => b.toNat))

/-- The alphabet of `oneWayNameEncoding`. -/
def oneWayNameAlphabet : List Char := "bcdfghijklmnpqrstvwxyz0123456789".data

/-- One quantum of `Encoding.Encode` of `encoding/base32`: the 40 bits of five
bytes, five bits at a time from the highest on, each as its character of the
alphabet. -/
def encodeQuantum (alphabet : List Char) (b0 b1 b2 b3 b4 : Nat) : List Char :=
  let v := b0 <<< 32 ||| b1 <<< 24 ||| b2 <<< 16 ||| b3 <<< 8 ||| b4
  (List.range 8).map (fun k => alphabet.getD ((v >>> (35 - 5 * k)) &&& 0x1F) 'b')

/-- `Encoding.EncodeToString` of an encoding without padding: whole quanta of
five bytes, and of what is left the characters that hold bits of it. -/
def EncodeToString (alphabet : List Char) : List Nat → List Char
  | b0 :: b1 :: b2 :: b3 :: b4 :: rest =>
    encodeQuantum alphabet b0 b1 b2 b3 b4 ++ EncodeToString alphabet rest
  | [b0, b1, b2, b3] => (encodeQuantum alphabet b0 b1 b2 b3 0).take 7
  | [b0, b1, b2] => (encodeQuantum alphabet b0 b1 b2 0 0).take 5
  | [b0, b1] => (encodeQuantum alphabet b0 b1 0 0 0).take 4
  | [b0] => (encodeQuantum alphabet b0 0 0 0 0).take 2
  | [] => []

/-- The loop of `strings.Replace` for a text `old` that is not empty: `left`
replacements are still to be made, and `skip` runes of an occurrence just
replaced are still to be passed over. -/
def replaceLoop (old new : List Char) : Nat → Nat → List Char → List Char
  | _, _, [] => []
  | left, skip + 1, _ :: cs => replaceLoop old new left skip cs
  | 0, 0, c :: cs => c :: cs
  | left + 1, 0, c :: cs =>
    if FrequencyReducer.startsWith (c :: cs) old then
      new ++ replaceLoop old new left (old.length - 1) cs
    else c :: replaceLoop old new (left + 1) 0 cs

/-- The loop of `strings.Replace` for the empty text `old`: `new` goes before
each rune and after the last one, `left` times at most. -/
def replaceEmpty (new : List Char) : Nat → List Char → List Char
  | 0, s => s
  | _ + 1, [] => new
  | left + 1, c :: cs => new ++ c :: replaceEmpty new left cs

/-- `strings.Replace(s, old, new, n)`: the first `n` occurrences of `old`,
taken from the left and not overlapping, give way to `new`; all of them when
`n` is negative (their number is `s.length + 1` at most). -/
def Replace (s old new : String) (n : Int) : String :=
  if old = new ∨ n = 0 then s
  else
    let count := if n < 0 then s.length + 1 else n.toNat
    if old.data = [] then ⟨replaceEmpty new.data count s.data⟩
    else ⟨replaceLoop old.data new.data count 0 s.data⟩

/-! ### Input hash and namespace -/

/-- `inputHash`: the strings are written to the hash one after the other, and
the first five bytes of the digest are encoded; `sha256` is the digest of
`crypto/sha256` of a sequence of bytes. -/
def inputHash (sha256 : List Nat → Digest) (inputs : List String) : String :=
  ⟨EncodeToString oneWayNameAlphabet ((sha256 (inputs.flatMap bytesOf)).bytes.take 5)⟩

/-- `getHashFromBytes`. -/
def getHashFromBytes (sha256 : List Nat → Digest) (b : List Nat) : String :=
  ⟨EncodeToString oneWayNameAlphabet ((sha256 b).bytes.take 5)⟩

/-- The end of `options.resolveInputs`, from `sort.Strings(inputs)` on, for
the inputs collected before and the value `namespace` of the flag
`--namespace`: the input hash and the namespace that are set. -/
def resolveInputs (S : GoSort) (sha256 : List Nat → Digest) (inputs : List String)
    (namespace0 : String) : String × String :=
  let inputs := S.Strings inputs
  let hash := inputHash sha256 inputs
  let namespace1 := if namespace0.utf8ByteSize = 0 then "ci-op-{id}" else namespace0
  (hash, Replace namespace1 "{id}" hash (-1))

/-- A function of the type of the digest, for statements that are evaluated;
it is a check sum, not the digest of SHA-256. -/
def checkSum (data : List Nat) : Digest where
  bytes := (List.range 32).map (fun k => (data.sum + k) % 256)
  size := by simp
  byte := by
    intro b hb
    simp only [List.mem_map, List.mem_range] at hb
    obtain ⟨k, _, rfl⟩ := hb
    exact Nat.mod_lt _ (by norm_num)

/-! ### JUnit suites -/

/-- The fields of `junit.TestSuiteProperty`. -/
structure TestSuiteProperty where
  /-- Name of the property. -/
  Name : String
  /-- Value of the property. -/
  Value : String
deriving DecidableEq, Repr

/-- The fields of `junit.FailureOutput`. -/
structure FailureOutput where
  /-- Message of the failure. -/
  Message : String
  /-- Output of the failure. -/
  Output : String
deriving DecidableEq, Repr

/-- The fields of `junit.TestCase` the orchestrator sets or reads here. -/
structure TestCase where
  /-- Name of the test case. -/
  Name : String
  /-- Failure of the test case, when set. -/
  FailureOutput : Option FailureOutput
deriving DecidableEq, Repr

/-- The fields of `junit.TestSuite` the orchestrator sets or reads here; the
fields of the type are `Name`, `NumTests`, `NumFailed`, `Properties`,
`TestCases` and `Children`, in this order. -/
inductive TestSuite where
  | mk (Name : String) (NumTests NumFailed : Nat) (Properties : List TestSuiteProperty)
      (TestCases : List TestCase) (Children : List TestSuite)

/-- Field `Name` of a suite. -/
def TestSuite.Name : TestSuite → String
  | .mk name _ _ _ _ _ => name

/-- Field `NumTests` of a suite. -/
def TestSuite.NumTests : TestSuite → Nat
  | .mk _ numTests _ _ _ _ => numTests

/-- Field `NumFailed` of a suite. -/
def TestSuite.NumFailed : TestSuite → Nat
  | .mk _ _ numFailed _ _ _ => numFailed

/-- Field `Properties` of a suite. -/
def TestSuite.Properties : TestSuite → List TestSuiteProperty
  | .mk _ _ _ properties _ _ => properties

/-- Field `TestCases` of a suite. -/
def TestSuite.TestCases : TestSuite → List TestCase
  | .mk _ _ _ _ testCases _ => testCases

/-- Field `Children` of a suite. -/
def TestSuite.Children : TestSuite → List TestSuite
  | .mk _ _ _ _ _ children => children

/-- `sortSuite`: the properties, the children and the test cases are sorted by
name with `sort.Slice`, then each child is sorted in the same way. -/
def sortSuite (S : GoSort) : TestSuite → TestSuite
  | .mk name numTests numFailed properties testCases children =>
    .mk name numTests numFailed
      (S.Slice (fun a b => decide (a.Name < b.Name)) properties)
      (S.Slice (fun a b => decide (a.Name < b.Name)) testCases)
      ((S.Slice (fun a b => decide (a.Name < b.Name)) children).attach.map
        (fun c => sortSuite S c.1))
termination_by suite => sizeOf suite
decreasing_by
  rename_i numTests numFailed properties testCases children
  have hmem : c.1 ∈ children := (S.perm _ children).mem_iff.mp c.2
  have := List.sizeOf_lt_of_mem hmem
  simp only [TestSuite.mk.sizeOf_spec]
  omega

/-- A suite is in order at every level: its properties, its children and its
test cases are each in non-decreasing order of name, and its children are in
order at every level. -/
inductive InOrder : TestSuite → Prop where
  | mk (name : String) (numTests numFailed : Nat) (properties : List TestSuiteProperty)
      (testCases : List TestCase) (children : List TestSuite)
      (hp : properties.Pairwise (fun a b => a.Name ≤ b.Name))
      (ht : testCases.Pairwise (fun a b => a.Name ≤ b.Name))
      (hc : children.Pairwise (fun a b => a.Name ≤ b.Name))
      (hrec : ∀ c ∈ children, InOrder c) :
      InOrder (.mk name numTests numFailed properties testCases children)

/-- An error value, as far as `writeFailingJUnit` tells errors apart: an
`*errWroteJUnit` with the error it wraps, or an error of any other type with
the text of its method `Error` and the errors its method `Unwrap` returns
(none, one, or several as for an aggregate). -/
inductive GoError where
  | other (message : String) (unwrap : List GoError)
  | errWroteJUnit (wrapped : GoError)

/-- The method `Error`; for an `errWroteJUnit` it is the one of the wrapped
error. -/
def GoError.Error : GoError → String
  | .other message _ => message
  | .errWroteJUnit wrapped => wrapped.Error

mutual

/-- `errors.Is(err, &errWroteJUnit{})`: the method `Is` of an `errWroteJUnit`
answers true for a target of its type; an error of another type is unwrapped
and the search goes on in what it wraps. -/
def errorsIs : GoError → Bool
  | .errWroteJUnit _ => true
  | .other _ unwrap => errorsIsAny unwrap

/-- The search of `errors.Is` in the errors that `Unwrap` returned. -/
def errorsIsAny : List GoError → Bool
  | [] => false
  | err :: rest => errorsIs err || errorsIsAny rest

end

/-- `options.writeJUnit`, as the artifact it saves, if any: the name of the
file and the suites that are marshalled, sorted by name, each censored by
`junit.CensorTestSuite` (the parameter `censor`) and sorted by `sortSuite`.
`none` for `suites` is the nil pointer. -/
def writeJUnit (S : GoSort) (censor : TestSuite → TestSuite) (suites : Option (List TestSuite))
    (name : String) : Option (String × List TestSuite) :=
  match suites with
  | none => none
  | some suites =>
    some ("junit_" ++ name ++ ".xml",
      (S.Slice (fun a b => decide (a.Name < b.Name)) suites).map
        (fun suite => sortSuite S (censor suite)))

/-- The loop of `writeFailingJUnit` over the errors: the test cases. -/
def failingTestCases : List GoError → List TestCase
  | [] => []
  | err :: rest =>
    if errorsIs err then failingTestCases rest
    else ⟨"initialize", some ⟨"", err.Error⟩⟩ :: failingTestCases rest

/-- `options.writeFailingJUnit`, as the artifact it saves, if any. -/
def writeFailingJUnit (S : GoSort) (censor : TestSuite → TestSuite) (errs : List GoError) :
    Option (String × List TestSuite) :=
  let testCases := failingTestCases errs
  if testCases.length = 0 then none
  else
    writeJUnit S censor
      (some [TestSuite.mk "job" errs.length errs.length [] testCases []]) "job"

/-! ### Access of the authors -/

/-- The fields of `rbacapi.Subject` that are set. -/
structure Subject where
  /-- Kind of the subject. -/
  Kind : String
  /-- Name of the subject. -/
  Name : String
deriving DecidableEq, Repr

/-- The fields of `rbacapi.RoleRef` that are set. -/
structure RoleRef where
  /-- Kind of the role. -/
  Kind : String
  /-- Name of the role. -/
  Name : String
deriving DecidableEq, Repr

/-- The fields of `rbacapi.RoleBinding` that are set. -/
structure RoleBinding where
  /-- `ObjectMeta.Name`. -/
  Name : String
  /-- `ObjectMeta.Namespace`. -/
  Namespace : String
  /-- The subjects. -/
  Subjects : List Subject
  /-- The role. -/
  RoleRef : RoleRef
deriving DecidableEq, Repr

/-- `generateAuthorAccessRoleBinding`; `GitHubUserGroup` is the function of
`pkg/api`, and `sets.List` of the set of the authors is the list of the
distinct authors, sorted. -/
def generateAuthorAccessRoleBinding (S : GoSort) (GitHubUserGroup : String → String)
    (namespace0 : String) (authors : List String) : RoleBinding :=
  let subjects := (S.Strings authors.dedup).map
    (fun author => ({ Kind := "Group", Name := GitHubUserGroup author } : Subject))
  { Name := "ci-op-author-access",
    Namespace := namespace0,
    Subjects := subjects,
    RoleRef := { Kind := "ClusterRole", Name := "admin" } }

/-- An error is an `errWroteJUnit` or wraps one, directly or through other
errors. -/
inductive Covered : GoError → Prop where
  | self (wrapped : GoError) : Covered (.errWroteJUnit wrapped)
  | wraps (message : String) (unwrap : List GoError) (err : GoError) (hmem : err ∈ unwrap)
      (h : Covered err) : Covered (.other message unwrap)

/-- The second suite is the first one with its lists rearranged, at every
level: same name and counts, the properties and the test cases are
permutations of the ones of the first, and the child suites are the ones of
the first in some order, each rearranged in the same sense. -/
inductive Rearranged : TestSuite → TestSuite → Prop where
  | mk (name : String) (numTests numFailed : Nat)
      (properties : List TestSuiteProperty) (testCases : List TestCase)
      (children : List TestSuite)
      (properties2 : List TestSuiteProperty) (testCases2 : List TestCase)
      (l : List TestSuite) (g : TestSuite → TestSuite)
      (hp : properties2.Perm properties)
      (ht : testCases2.Perm testCases)
      (hl : l.Perm children)
      (hrec : ∀ c ∈ l, Rearranged c (g c)) :
      Rearranged (.mk name numTests numFailed properties testCases children)
        (.mk name numTests numFailed properties2 testCases2 (l.map g))

/-! ### Go maps -/

/-- The order in which a `range` statement visits the entries of a map: Go
leaves it open, so it is any rearrangement of the entries. -/
structure GoRange where
  /-- The entries in the order of the visit. -/
  order : {α : Type} → List α → List α
  /-- Every entry is visited once. -/
  perm : ∀ {α : Type} (x : List α), (order x).Perm x

/-- The visit of the entries in the order in which they are kept. -/
def rangeInOrder : GoRange where
  order := fun x => x
  perm := fun x => List.Perm.refl x

/-- The visit of the entries in the opposite order. -/
def rangeReversed : GoRange where
  order := fun x => x.reverse
  perm := fun x => List.reverse_perm x

/-- The value of a key in a map `m[k]`, with whether the key is there; a map
with keys that are strings is the list of its entries. -/
def mapGet {V : Type} (m : List (String × V)) (k : String) : Option V :=
  (m.find? (fun entry => entry.1 = k)).map (fun entry => entry.2)

/-- The assignment `m[k] = v`. -/
def mapSet {V : Type} : List (String × V) → String → V → List (String × V)
  | [], k, v => [(k, v)]
  | entry :: m, k, v => if entry.1 = k then (k, v) :: m else entry :: mapSet m k v

/-! ### Parameters of the form `key=value` -/

/-- `strings.TrimSpace`. -/
def TrimSpace (s : List Char) : List Char :=
  ((s.dropWhile FrequencyReducer.isSpace).reverse.dropWhile FrequencyReducer.isSpace).reverse

/-- The loop of `parseKeyValParams`: the map and the errors after the given
parameters, from the map and the errors before. -/
def parseKeyValParamsLoop (paramType : String) :
    List String → List (String × String) × List String → List (String × String) × List String
  | [], acc => acc
  | param :: rest, (params, validationErrors) =>
    match FrequencyReducer.splitOnChar '=' param.data with
    | [name, val] =>
      parseKeyValParamsLoop paramType rest
        (mapSet params ⟨TrimSpace name⟩ ⟨TrimSpace val⟩, validationErrors)
    | _ =>
      parseKeyValParamsLoop paramType rest
        (params, validationErrors ++
          ["could not parse " ++ paramType ++ ": " ++ param ++
            " is not in the format key=value"])

/-- `parseKeyValParams`: the map, or the errors of the aggregate. -/
def parseKeyValParams (input : List String) (paramType : String) :
    Except (List String) (List (String × String)) :=
  let r := parseKeyValParamsLoop paramType input ([], [])
  if r.2.length > 0 then .error r.2 else .ok r.1

/-- The text of a parameter before its first `=`, trimmed. -/
def paramName (param : String) : String :=
  ⟨TrimSpace (param.data.takeWhile (fun c => c != '='))⟩

/-- The text of a parameter after its first `=`, trimmed. -/
def paramValue (param : String) : String :=
  ⟨TrimSpace ((param.data.dropWhile (fun c => c != '=')).drop 1)⟩

/-! ### The configuration of the tests and the options -/

/-- The fields of `api.StepDependency`. -/
structure StepDependency where
  /-- Name of the image. -/
  Name : String
  /-- Name of the environment variable. -/
  Env : String
  /-- Pull specification that overrides the image. -/
  PullSpec : String
deriving DecidableEq, Repr

/-- The fields of `api.LiteralTestStep` that the overrides read or write. -/
structure LiteralTestStep where
  /-- Name of the step. -/
  As : String
  /-- The dependencies of the step. -/
  Dependencies : List StepDependency
deriving DecidableEq, Repr

/-- The fields of `api.MultiStageTestConfigurationLiteral` that the overrides
read or write. -/
structure MultiStageTestConfigurationLiteral where
  /-- The steps before the test. -/
  Pre : List LiteralTestStep
  /-- The steps of the test. -/
  Test : List LiteralTestStep
  /-- The steps after the test. -/
  Post : List LiteralTestStep
  /-- The overrides of the test, a map from the name of a dependency to a pull
  specification. -/
  DependencyOverrides : List (String × String)
deriving DecidableEq, Repr

/-- The fields of `api.TestStepConfiguration` that the operator reads or
writes in the functions below: the name and the multi-stage test, which is a
pointer. -/
structure TestStepConfiguration where
  /-- Name of the test. -/
  As : String
  /-- The multi-stage test, when the test is one. -/
  MultiStageTestConfigurationLiteral : Option MultiStageTestConfigurationLiteral
deriving DecidableEq, Repr

/-- The fields of `options` that the functions below read or write. -/
structure options where
  /-- The value of `--target-additional-suffix`. -/
  targetAdditionalSuffix : String
  /-- The values of `--target`. -/
  targets : List String
  /-- The values of `--dependency-override-param`. -/
  dependencyOverrides : List String
  /-- `configSpec.Tests`. -/
  Tests : List TestStepConfiguration
  /-- `jobSpec.Target`. -/
  Target : String
  /-- `jobSpec.TargetAdditionalSuffix`. -/
  TargetAdditionalSuffix : String
deriving DecidableEq, Repr

/-! ### The additional suffix of the targets -/

/-- The inner loop of `handleTargetAdditionalSuffix` for a test named `testAs`:
the first target that is the name of the test gets the name with the suffix;
the result is the targets after the loop and the index of that target, if
there is one. `j` is the index of the first of the given targets. -/
def renameFirstTarget (testAs targetWithSuffix : String) :
    List String → Nat → List String × Option Nat
  | [], _ => ([], none)
  | target :: rest, j =>
    if testAs = target then (targetWithSuffix :: rest, some j)
    else
      let r := renameFirstTarget testAs targetWithSuffix rest (j + 1)
      (target :: r.1, r.2)

/-- The outer loop of `handleTargetAdditionalSuffix` over the tests that are
left, from the targets and `jobSpec.Target` so far; the result is the tests,
the targets and `jobSpec.Target` after the loop. -/
def handleTargetAdditionalSuffixLoop (suffix : String) :
    List TestStepConfiguration → List String → String →
      List TestStepConfiguration × List String × String
  | [], targets, target => ([], targets, target)
  | test :: rest, targets, target =>
    let targetWithSuffix := test.As ++ "-" ++ suffix
    match renameFirstTarget test.As targetWithSuffix targets 0 with
    | (targets2, some j) =>
      let r := handleTargetAdditionalSuffixLoop suffix rest targets2
        (if j = 0 then targetWithSuffix else target)
      ({ test with As := targetWithSuffix } :: r.1, r.2)
    | (_, none) =>
      let r := handleTargetAdditionalSuffixLoop suffix rest targets target
      (test :: r.1, r.2)

/-- `handleTargetAdditionalSuffix`. -/
def handleTargetAdditionalSuffix (o : options) : options :=
  if o.targetAdditionalSuffix = "" then o
  else
    let r := handleTargetAdditionalSuffixLoop o.targetAdditionalSuffix o.Tests o.targets o.Target
    { o with
      TargetAdditionalSuffix := o.targetAdditionalSuffix,
      Tests := r.1,
      targets := r.2.1,
      Target := r.2.2 }

/-- `strings.HasSuffix` on rune lists. -/
def endsWith (s suffix : List Char) : Bool :=
  FrequencyReducer.startsWith s.reverse suffix.reverse

/-- `strings.TrimSuffix`. -/
def TrimSuffix (s suffix : String) : String :=
  if endsWith s.data suffix.data then ⟨s.data.take (s.data.length - suffix.data.length)⟩ else s

/-- The configuration that `options.resolveInputs` marshals for the hash: a
copy of the configuration in which every test whose name is one of the
targets has the suffix trimmed from its name, when the suffix is not empty,
and the configuration itself otherwise. -/
def resolveInputsConfigSpec (o : options) : List TestStepConfiguration :=
  if o.targetAdditionalSuffix ≠ "" then
    o.Tests.map (fun test =>
      if o.targets.any (fun target => test.As = target) then
        { test with As := TrimSuffix test.As ("-" ++ o.targetAdditionalSuffix) }
      else test)
  else o.Tests

/-! ### The overrides of the dependencies -/

/-- `overrideTestStepDependency`. -/
def overrideTestStepDependency (EqualFold : String → String → Bool) (name value : String)
    (steps : List LiteralTestStep) : List LiteralTestStep :=
  steps.map (fun step =>
    { step with
      Dependencies := step.Dependencies.map (fun dependency =>
        if EqualFold dependency.Env name then { dependency with PullSpec := value }
        else dependency) })

/-- The three calls of `overrideTestStepDependency` for one override and one
multi-stage test. -/
def overrideTestSteps (EqualFold : String → String → Bool) (name value : String)
    (test : MultiStageTestConfigurationLiteral) : MultiStageTestConfigurationLiteral :=
  { test with
    Pre := overrideTestStepDependency EqualFold name value test.Pre,
    Test := overrideTestStepDependency EqualFold name value test.Test,
    Post := overrideTestStepDependency EqualFold name value test.Post }

/-- The first loop of `overrideTestStepDependencyParams`: the overrides of
each test, in the order in which the map of the test is visited. -/
def overrideAtTestLevel (R : GoRange) (EqualFold : String → String → Bool)
    (tests : List TestStepConfiguration) : List TestStepConfiguration :=
  tests.map (fun test =>
    match test.MultiStageTestConfigurationLiteral with
    | none => test
    | some literal =>
      { test with
        MultiStageTestConfigurationLiteral :=
          some ((R.order literal.DependencyOverrides).foldl
            (fun l entry => overrideTestSteps EqualFold entry.1 entry.2 l) literal) })

/-- The second loop of `overrideTestStepDependencyParams`: every parameter, in
the order in which the map of the parameters is visited, for all tests. -/
def overrideByParams (R : GoRange) (EqualFold : String → String → Bool)
    (dependencyOverrideParams : List (String × String)) (tests : List TestStepConfiguration) :
    List TestStepConfiguration :=
  (R.order dependencyOverrideParams).foldl
    (fun tests entry =>
      tests.map (fun test =>
        match test.MultiStageTestConfigurationLiteral with
        | none => test
        | some literal =>
          { test with
            MultiStageTestConfigurationLiteral :=
              some (overrideTestSteps EqualFold entry.1 entry.2 literal) }))
    tests

/-- `overrideTestStepDependencyParams`: the error, or the options with the
tests after the overrides. `EqualFold` is `strings.EqualFold`. -/
def overrideTestStepDependencyParams (R : GoRange) (EqualFold : String → String → Bool)
    (o : options) : Except (List String) options :=
  match parseKeyValParams o.dependencyOverrides "dependency-override-param" with
  | .error err => .error err
  | .ok dependencyOverrideParams =>
    .ok { o with
      Tests := overrideByParams R EqualFold dependencyOverrideParams
        (overrideAtTestLevel R EqualFold o.Tests) }

/-- Equality of two texts when the letters `A` to `Z` count as `a` to `z`:
`strings.EqualFold` on texts of ASCII characters. -/
def equalFoldASCII (s t : String) : Bool :=
  s.data.map (fun c => if 65 ≤ c.toNat ∧ c.toNat ≤ 90 then Char.ofNat (c.toNat + 32) else c) =
    t.data.map (fun c => if 65 ≤ c.toNat ∧ c.toNat ≤ 90 then Char.ofNat (c.toNat + 32) else c)

/-- The pull specification of a dependency after overrides in a row: the
value of the last override whose name is the `Env` of the dependency under
`EqualFold`, or the pull specification before when there is none. -/
def lastOverride (EqualFold : String → String → Bool) (entries : List (String × String))
    (dependency : StepDependency) : StepDependency :=
  match entries.reverse.find? (fun entry => EqualFold dependency.Env entry.1) with
  | some entry => { dependency with PullSpec := entry.2 }
  | none => dependency

/-- The steps with every dependency replaced by `f` of it. -/
def mapDependencies (f : StepDependency → StepDependency) (steps : List LiteralTestStep) :
    List LiteralTestStep :=
  steps.map (fun step => { step with Dependencies := step.Dependencies.map f })

/-- The tests with every dependency of a step of a multi-stage test replaced:
`f` is given the overrides of the test and the dependency. -/
def mapTestDependencies (f : List (String × String) → StepDependency → StepDependency)
    (tests : List TestStepConfiguration) : List TestStepConfiguration :=
  tests.map (fun test =>
    match test.MultiStageTestConfigurationLiteral with
    | none => test
    | some literal =>
      { test with
        MultiStageTestConfigurationLiteral :=
          some { literal with
            Pre := mapDependencies (f literal.DependencyOverrides) literal.Pre,
            Test := mapDependencies (f literal.DependencyOverrides) literal.Test,
            Post := mapDependencies (f literal.DependencyOverrides) literal.Post } })

/-- The dependency after the two loops of `overrideTestStepDependencyParams`:
the overrides of the test first, then the parameters, each map in the order
in which it is visited. -/
def overriddenDependency (R : GoRange) (EqualFold : String → String → Bool)
    (dependencyOverrideParams overrides : List (String × String))
    (dependency : StepDependency) : StepDependency :=
  lastOverride EqualFold (R.order dependencyOverrideParams)
    (lastOverride EqualFold (R.order overrides) dependency)

/-- Options with one multi-stage test, whose step `install` depends on the
image `index` under the name `OO_INDEX`; the test overrides it itself. -/
def optionsWithOverrides (dependencyOverrides : List String) : options :=
  { targetAdditionalSuffix := "",
    targets := ["e2e"],
    dependencyOverrides := dependencyOverrides,
    Tests := [
      { As := "e2e",
        MultiStageTestConfigurationLiteral := some
          { Pre := [],
            Test := [{ As := "install",
                       Dependencies := [⟨"index", "OO_INDEX", "registry/index:old"⟩,
                         ⟨"bundle", "OO_BUNDLE", "registry/bundle:old"⟩] }],
            Post := [],
            DependencyOverrides := [("OO_INDEX", "registry/index:test")] } },
      { As := "unit", MultiStageTestConfigurationLiteral := none }],
    Target := "e2e",
    TargetAdditionalSuffix := "" }

end CiOperator

namespace PipelineController

/-! ### The pipeline controller: the second stage -/

/-- The states of a job record that the tests of the controller use
(`v1.ProwJobState`). -/
inductive ProwJobState where
  | TriggeredState
  | PendingState
  | SuccessState
  | FailureState
  | AbortedState
deriving DecidableEq, Repr

/-- The fields of a job record (`v1.ProwJob`) that the decision reads: the
name of the job, its state, the SHA of its one pull and the time of its
creation, in seconds. -/
structure ProwJob where
  /-- `Spec.Job`. -/
  Job : String
  /-- `Status.State`. -/
  State : ProwJobState
  /-- `Spec.Refs.Pulls[0].SHA`. -/
  SHA : String
  /-- `ObjectMeta.CreationTimestamp`. -/
  CreationTimestamp : Nat
deriving DecidableEq, Repr

/-- The presubmits of a repository, by their names (`presubmitTests`). -/
structure presubmitTests where
  /-- The jobs of the second stage (the field `protected`). -/
  protected0 : List String
  /-- The jobs that always run. -/
  alwaysRequired : List String
  /-- The jobs that run for some changes only. -/
  conditionallyRequired : List String
deriving DecidableEq, Repr

/-- Modelled from the spec: one record added to the latest records kept so
far, one per job; a record of a job that has one already replaces it when it
was created later ("the latest record by creation timestamp is
authoritative"). -/
def insertLatest : List ProwJob → ProwJob → List ProwJob
  | [], pjob => [pjob]
  | existing :: rest, pjob =>
    if existing.Job = pjob.Job then
      if existing.CreationTimestamp < pjob.CreationTimestamp then pjob :: rest
      else existing :: rest
    else existing :: insertLatest rest pjob

/-- Modelled from the spec: the latest record of each job among the listed
records of one SHA ("filter to a single pull SHA, the SHA of the triggering
record"). -/
def latestBatch (pjs : List ProwJob) (sha : String) : List ProwJob :=
  (pjs.filter (fun pjob => pjob.SHA = sha)).foldl insertLatest []

/-- Modelled from the spec: the state of the latest record of a job, if the
job has a record. -/
def latestState (batch : List ProwJob) (job : String) : Option ProwJobState :=
  (batch.find? (fun pjob => pjob.Job = job)).map (fun pjob => pjob.State)

/-- Modelled from the spec: `reconciler.reportSuccessOnPR`, whose code is in
a file that is not among the sources. `pj` is the triggering record, `pjs` are
the listed records of the pull request, `applies` tells whether a job is one
of the base branch of the pull request, `isPRClosed` is the answer of GitHub.
No promotion when a protected job is `Success` on the SHA; every always
required job of the branch must be complete-ok; `Aborted` or `Failure` of a
conditionally required job disqualify; at least one conditionally required
job, if any is configured, must be complete-ok; and the pull request must be
open. -/
def reportSuccessOnPR (applies : String → Bool) (isPRClosed : Bool) (pj : ProwJob)
    (pjs : List ProwJob) (presubmits : presubmitTests) : Bool :=
  let latest := latestBatch pjs pj.SHA
  if presubmits.protected0.any
      (fun job => latestState latest job == some .SuccessState) then false
  else if (presubmits.alwaysRequired.filter applies).any
      (fun job => latestState latest job != some .SuccessState) then false
  else if presubmits.conditionallyRequired.any
      (fun job => latestState latest job == some .FailureState ||
        latestState latest job == some .AbortedState) then false
  else if !presubmits.conditionallyRequired.isEmpty &&
      !presubmits.conditionallyRequired.any
        (fun job => latestState latest job == some .SuccessState) then false
  else !isPRClosed

/-- The record that the tests of the controller compose: all are created at
the same time. -/
def composePresubmit (name : String) (state : ProwJobState) (sha : String) : ProwJob :=
  { Job := name, State := state, SHA := sha, CreationTimestamp := 0 }

/-- The latest record of a job among records, read off the records in their
order: the first of the records of the job that were created last. -/
def latestOf (job : String) (pjs : List ProwJob) : Option ProwJob :=
  pjs.foldl
    (fun acc pjob =>
      if pjob.Job = job then
        match acc with
        | none => some pjob
        | some existing =>
          if existing.CreationTimestamp < pjob.CreationTimestamp then some pjob
          else some existing
      else acc)
    none

/-- The triggering record of the tests of the controller. -/
def dummyPJ : ProwJob := composePresubmit "org-repo-master-ps1" .SuccessState "sha"

/-- The jobs of the base branch in the tests of the controller: all but the
job of the other branch. -/
def appliesInTests (job : String) : Bool := job != "org-repo-other-branch-ps2"

end PipelineController

namespace Jobconfig

/-! ## Package `jobconfig`: the files of the Prow jobs

Embedding of `pkg/jobconfig/files.go`. -/

open CiOperator (GoRange GoSort mapGet mapSet rangeInOrder rangeReversed)

/-! ### Labels for file names -/

/-- A rune of the class `[\w\-.]` of the regular expression `regexParts`: an
ASCII letter, a digit, `_`, `-` or `.`. -/
def isLabelRune (c : Char) : Bool :=
  (48 ≤ c.toNat && c.toNat ≤ 57) || (65 ≤ c.toNat && c.toNat ≤ 90) ||
  (97 ≤ c.toNat && c.toNat ≤ 122) || c = '_' || c = '-' || c = '.'

/-- `regexParts.ReplaceAllString(s, "")`: every run of runes outside the class
`[\w\-.]` is removed, so the runes of the class are kept, in their order. -/
def removeRegexParts (s : List Char) : List Char := s.filter isLabelRune

/-- `strings.TrimLeft`. -/
def TrimLeft (s cutset : List Char) : List Char := s.dropWhile (fun c => cutset.contains c)

/-- `strings.TrimRight`. -/
def TrimRight (s cutset : List Char) : List Char :=
  (s.reverse.dropWhile (fun c => cutset.contains c)).reverse

/-- `MakeRegexFilenameLabel`. -/
def MakeRegexFilenameLabel (possibleRegex : String) : String :=
  let label := removeRegexParts possibleRegex.data
  let label := TrimLeft (TrimRight label "-._".data) "-._".data
  if label.length = 0 then "master" else ⟨label⟩

/-! ### The jobs of Prow -/

/-- The fields of `prowconfig.JobBase` that the package reads or writes;
`Other` stands for all the other fields, which the package only copies. -/
structure JobBase where
  /-- Name of the job. -/
  Name : String
  /-- The labels of the job, a map. -/
  Labels : List (String × String)
  /-- Maximal number of runs at the same time. -/
  MaxConcurrency : Int
  /-- The cluster of the job. -/
  Cluster : String
  /-- The configuration of the reports, a pointer. -/
  ReporterConfig : Option String
  /-- Every other field. -/
  Other : String
deriving DecidableEq, Repr

/-- The fields of `prowconfig.Presubmit`: the job base, and from the fields of
its own `AlwaysRun`, `RunIfChanged` and `SkipIfOnlyChanged` (of
`RegexpChangeMatcher`) and `SkipReport` (of `Reporter`); `Rest` stands for all
the other fields. -/
structure Presubmit extends JobBase where
  /-- Whether the job runs for every change. -/
  AlwaysRun : Bool
  /-- The job runs when a changed file matches. -/
  RunIfChanged : String
  /-- The job is skipped when all changed files match. -/
  SkipIfOnlyChanged : String
  /-- Whether the report of the job is skipped. -/
  SkipReport : Bool
  /-- Every other field. -/
  Rest : String
deriving DecidableEq, Repr

/-- The fields of `prowconfig.Postsubmit`. -/
structure Postsubmit extends JobBase where
  /-- Every other field. -/
  Rest : String
deriving DecidableEq, Repr

/-- The fields of `prowconfig.Periodic`. -/
structure Periodic extends JobBase where
  /-- Every other field. -/
  Rest : String
deriving DecidableEq, Repr

/-- The fields of `prowconfig.JobConfig` that the package reads or writes; the
two maps are the lists of their entries, and a map that is `nil` is the
empty list. -/
structure JobConfig where
  /-- The presubmits of each repository. -/
  PresubmitsStatic : List (String × List Presubmit)
  /-- The postsubmits of each repository. -/
  PostsubmitsStatic : List (String × List Postsubmit)
  /-- The periodics. -/
  Periodics : List Periodic
deriving DecidableEq, Repr

/-! ### Merging the generated jobs into a file -/

/-- `strings.HasSuffix`. -/
def HasSuffix (s suffix : String) : Bool := CiOperator.endsWith s.data suffix.data

/-- `mergePresubmits`; `ClusterLabel` is the constant of `pkg/api`. -/
def mergePresubmits (ClusterLabel : String) (old new : Presubmit) : Presubmit :=
  let merged := new
  let merged := { merged with MaxConcurrency := old.MaxConcurrency }
  let merged := { merged with SkipReport := old.SkipReport }
  let merged := { merged with
    Cluster :=
      match mapGet new.Labels ClusterLabel with
      | some val => val
      | none => if old.Cluster ≠ "" then old.Cluster else "" }
  if HasSuffix merged.Name "-images" then
    if old.RunIfChanged ≠ "" ∨ old.SkipIfOnlyChanged ≠ "" then
      { merged with
        RunIfChanged := old.RunIfChanged,
        SkipIfOnlyChanged := old.SkipIfOnlyChanged,
        AlwaysRun := false }
    else merged
  else merged

/-- `mergePostsubmits`; `PromotionJobLabelKey` is the constant of `pkg/api`. -/
def mergePostsubmits (PromotionJobLabelKey : String) (old new : Postsubmit) : Postsubmit :=
  let merged := new
  let merged :=
    if (mapGet merged.Labels PromotionJobLabelKey).isNone then
      { merged with MaxConcurrency := old.MaxConcurrency }
    else merged
  if old.Cluster ≠ "" then { merged with Cluster := old.Cluster } else merged

/-- `mergePeriodics`. -/
def mergePeriodics (old new : Periodic) : Periodic :=
  let merged := new
  let merged := { merged with MaxConcurrency := old.MaxConcurrency }
  let merged :=
    if old.ReporterConfig.isSome ∧ merged.ReporterConfig.isNone then
      { merged with ReporterConfig := old.ReporterConfig }
    else merged
  if old.Cluster ≠ "" then { merged with Cluster := old.Cluster } else merged

/-- The map from the name of a job to the job that the loops of
`mergeJobConfig` fill: a later job replaces an earlier job of the same name. -/
def jobsByName {J : Type} (name : J → String) (jobs : List J) : List (String × J) :=
  jobs.foldl (fun m job => mapSet m (name job) job) []

/-- The block of `mergeJobConfig` that is the same for the three kinds of
job: the jobs that are merged from the jobs `destinationJobs` of the
destination and the jobs `sourceJobs` of the source. `merge` is the function
that merges an old and a new job of the same name, and the two maps are each
visited in the order `R`. -/
def mergeJobs {J : Type} (R : GoRange) (name : J → String) (merge : J → J → J)
    (destinationJobs sourceJobs : List J) (allJobs : List String) : List J :=
  let oldJobs := jobsByName name destinationJobs
  let newJobs := jobsByName name sourceJobs
  (R.order newJobs).map
      (fun entry =>
        match mapGet oldJobs entry.1 with
        | some oldJob => merge oldJob entry.2
        | none => entry.2) ++
    (R.order oldJobs).filterMap
      (fun entry =>
        if (mapGet newJobs entry.1).isNone ∧ ¬ allJobs.contains entry.1 then some entry.2
        else none)

/-- `mergeJobConfig`: the destination after the call. `allJobs` is the set of
the names of all jobs that are written. -/
def mergeJobConfig (R : GoRange) (ClusterLabel PromotionJobLabelKey : String)
    (destination source : JobConfig) (allJobs : List String) : JobConfig :=
  { PresubmitsStatic :=
      (R.order source.PresubmitsStatic).foldl
        (fun dest entry =>
          mapSet dest entry.1
            (mergeJobs R (fun job : Presubmit => job.Name) (mergePresubmits ClusterLabel)
              ((mapGet dest entry.1).getD []) entry.2 allJobs))
        destination.PresubmitsStatic,
    PostsubmitsStatic :=
      (R.order source.PostsubmitsStatic).foldl
        (fun dest entry =>
          mapSet dest entry.1
            (mergeJobs R (fun job : Postsubmit => job.Name)
              (mergePostsubmits PromotionJobLabelKey)
              ((mapGet dest entry.1).getD []) entry.2 allJobs))
        destination.PostsubmitsStatic,
    Periodics :=
      if source.Periodics.length ≠ 0 then
        mergeJobs R (fun job : Periodic => job.Name) mergePeriodics
          destination.Periodics source.Periodics allJobs
      else destination.Periodics }

/-- What the merged jobs of one list are: every name of the source is the
name of exactly one merged job, and the merged jobs with other names are
exactly the given jobs `kept` of the destination whose names are neither
names of the source nor in `allJobs`. -/
def MergedJobs {J : Type} (name : J → String) (kept sourceJobs : List J)
    (allJobs : List String) (merged : List J) : Prop :=
  (∀ n ∈ sourceJobs.map name, (merged.map name).count n = 1) ∧
  (merged.filter (fun job => decide (name job ∉ sourceJobs.map name))).Perm
    (kept.filter
      (fun job => decide (name job ∉ sourceJobs.map name ∧ name job ∉ allJobs)))

/-- A presubmit with the given name and text in `Other`, for examples. -/
def examplePresubmit (name other : String) : Presubmit :=
  { Name := name, Labels := [], MaxConcurrency := 0, Cluster := "", ReporterConfig := none,
    Other := other, AlwaysRun := true, RunIfChanged := "", SkipIfOnlyChanged := "",
    SkipReport := false, Rest := "" }

/-! ### Pruning the stale jobs -/

/-- The constant `LabelGenerator`. -/
def LabelGenerator : String := "ci.openshift.io/generator"

/-- The constant `newlyGenerated`. -/
def newlyGenerated : String := "newly-generated"

/-- The operators of `selection` that the package uses. -/
inductive Operator where
  | Equals
  | NotEquals
deriving DecidableEq, Repr

/-- A requirement of a selector of labels (`labels.Requirement`) on one
value. -/
structure Requirement where
  /-- The key of the label. -/
  key : String
  /-- The operator. -/
  operator : Operator
  /-- The value. -/
  value : String
deriving DecidableEq, Repr

/-- `labels.NewRequirement` of `k8s.io/apimachinery`, for one value: it fails
when the key is not valid as the key of a label or the value is not valid as
the value of a label; the two checks of the syntax are `validKey` and
`validValue`. -/
def NewRequirement (validKey validValue : String → Bool) (key : String) (op : Operator)
    (value : String) : Option Requirement :=
  if validKey key && validValue value then some ⟨key, op, value⟩ else none

/-- `Requirement.Matches`: with `Equals` the label must be there with the
value; with `NotEquals` the label must be absent or have another value. -/
def Requirement.Matches (r : Requirement) (ls : List (String × String)) : Bool :=
  match r.operator with
  | .Equals =>
    match mapGet ls r.key with
    | none => false
    | some v => v == r.value
  | .NotEquals =>
    match mapGet ls r.key with
    | none => true
    | some v => v != r.value

/-- `Selector.Matches`: every requirement matches. A selector is the list of
its requirements; `Selector.Add` keeps them sorted by key, which does not
change what matches. -/
def Matches (selector : List Requirement) (ls : List (String × String)) : Bool :=
  selector.all (fun r => r.Matches ls)

/-- `generatedSelectorFor`. -/
def generatedSelectorFor (validKey validValue : String → Bool) (generator : String) :
    Option (List Requirement) :=
  match NewRequirement validKey validValue LabelGenerator .Equals generator with
  | none => none
  | some requirement => some [requirement]

/-- `staleSelectorFor`; the map of the prune labels is visited in the order
`R`, and the first requirement that fails ends the function. -/
def staleSelectorFor (R : GoRange) (validKey validValue : String → Bool) (generator : String)
    (pruneLabels : List (String × String)) : Option (List Requirement) :=
  match generatedSelectorFor validKey validValue generator with
  | none => none
  | some ls =>
    match NewRequirement validKey validValue generator .NotEquals newlyGenerated with
    | none => none
    | some notNewlyGenerated =>
      (R.order pruneLabels).foldl
        (fun acc entry =>
          match acc with
          | none => none
          | some ls =>
            match NewRequirement validKey validValue entry.1 .Equals entry.2 with
            | none => none
            | some req => some (ls ++ [req]))
        (some (ls ++ [notNewlyGenerated]))

/-- `delete(m, k)`. -/
def mapDelete {V : Type} (m : List (String × V)) (k : String) : List (String × V) :=
  m.filter (fun entry => entry.1 ≠ k)

/-- The loop of `Prune` over a map of jobs of which copies are appended, as
for the presubmits: the jobs that are not skipped are appended, after `keep`
is applied to the copy, to the jobs of their repository in the new map
`pruned`. -/
def pruneMap {J : Type} (R : GoRange) (skip : J → Bool) (keep : J → J)
    (jobs : List (String × List J)) : List (String × List J) :=
  (R.order jobs).foldl
    (fun pruned entry =>
      entry.2.foldl
        (fun pruned job =>
          if skip job then pruned
          else mapSet pruned entry.1 ((mapGet pruned entry.1).getD [] ++ [keep job]))
        pruned)
    []

/-- The identity of the maps of labels that the postsubmits and the periodics
of a configuration hold. A map of Go is a reference: two jobs may hold one
and the same map, and a `delete` through one of them is seen through the
other. `postsubmit repo i` names the map of the postsubmit at index `i` of
the repository `repo` and `periodic i` the map of the periodic at index `i`;
two jobs hold the same map when the names are equal, and their `Labels` in
the configuration are then equal. The presubmits need no names: `Prune`
visits them first and changes copies of them only. -/
structure LabelMaps where
  /-- The map of the postsubmit at an index of a repository. -/
  postsubmit : String → Nat → Nat
  /-- The map of the periodic at an index. -/
  periodic : Nat → Nat

/-- The content of the map `a` of a job when `Prune` reads it: the labels of
the job in the configuration, without the marker label when `Prune` has
deleted it in that map before (`deleted` lists the maps in which it did). -/
def labelsNow (generator : String) (deleted : List Nat) (a : Nat)
    (labels : List (String × String)) : List (String × String) :=
  if deleted.contains a then mapDelete labels generator else labels

/-- One round of the inner loop of `Prune` over the postsubmits, for the job
`job` of the repository `repo` that holds the map `a`. The state is the map
`pruned.PostsubmitsStatic` and the list of the maps in which the marker label
was deleted. The job is not copied: `delete(job.Labels, ...)` deletes in the
map that the configuration holds, and the job that is appended holds that
map. Its labels are given as they are after the `delete`; a later `delete`
in the same map deletes the same key, so they are the labels at the return. -/
def prunePostsubmit (isStale isGenerated : JobBase → Bool) (generator repo : String) (a : Nat)
    (job : Postsubmit) (state : List (String × List Postsubmit) × List Nat) :
    List (String × List Postsubmit) × List Nat :=
  let job : Postsubmit := { job with Labels := labelsNow generator state.2 a job.Labels }
  if isStale job.toJobBase then state
  else if isGenerated job.toJobBase then
    (mapSet state.1 repo
        ((mapGet state.1 repo).getD [] ++ [{ job with Labels := mapDelete job.Labels generator }]),
      a :: state.2)
  else (mapSet state.1 repo ((mapGet state.1 repo).getD [] ++ [job]), state.2)

/-- The inner loop of `Prune` over the postsubmits of one repository, from
the index `i` on. -/
def prunePostsubmitsOf (isStale isGenerated : JobBase → Bool) (generator : String)
    (mapOf : String → Nat → Nat) (repo : String) :
    List Postsubmit → Nat → List (String × List Postsubmit) × List Nat →
      List (String × List Postsubmit) × List Nat
  | [], _, state => state
  | job :: jobs, i, state =>
    prunePostsubmitsOf isStale isGenerated generator mapOf repo jobs (i + 1)
      (prunePostsubmit isStale isGenerated generator repo (mapOf repo i) job state)

/-- The loop of `Prune` over the postsubmits: the map
`pruned.PostsubmitsStatic` and the maps of labels in which the marker label
was deleted. -/
def prunePostsubmits (R : GoRange) (isStale isGenerated : JobBase → Bool) (generator : String)
    (mapOf : String → Nat → Nat) (jobs : List (String × List Postsubmit)) :
    List (String × List Postsubmit) × List Nat :=
  (R.order jobs).foldl
    (fun state entry =>
      prunePostsubmitsOf isStale isGenerated generator mapOf entry.1 entry.2 0 state)
    ([], [])

/-- The loop of `Prune` over the periodics, from the index `i` on, after the
loop over the postsubmits has deleted the marker label in the maps `deleted`:
a periodic is read as its map is by then, and the copy of it is changed. -/
def prunePeriodics (isStale isGenerated : JobBase → Bool) (generator : String)
    (deleted : List Nat) (mapOf : Nat → Nat) : List Periodic → Nat → List Periodic
  | [], _ => []
  | job :: jobs, i =>
    let current : Periodic :=
      { job with Labels := labelsNow generator deleted (mapOf i) job.Labels }
    if isStale current.toJobBase then
      prunePeriodics isStale isGenerated generator deleted mapOf jobs (i + 1)
    else
      (if isGenerated current.toJobBase then
          { current with Labels := mapDelete current.Labels generator }
        else current) ::
        prunePeriodics isStale isGenerated generator deleted mapOf jobs (i + 1)

/-- `Prune`: the pruned configuration, or nothing when a selector cannot be
built; `maps` tells which postsubmits and periodics hold the same map of
labels. The copies that `deepcopy.Copy` makes of the presubmits and of the
periodics are taken to succeed and to be equal to the jobs; the postsubmits
are not copied. -/
def Prune (R : GoRange) (validKey validValue : String → Bool) (maps : LabelMaps)
    (jobConfig : JobConfig) (generator : String) (pruneLabels : List (String × String)) :
    Option JobConfig :=
  match staleSelectorFor R validKey validValue generator pruneLabels with
  | none => none
  | some staleSelector =>
    match generatedSelectorFor validKey validValue generator with
    | none => none
    | some generatedSelector =>
      let isStale := fun (job : JobBase) => Matches staleSelector job.Labels
      let isGenerated := fun (job : JobBase) => Matches generatedSelector job.Labels
      let postsubmits :=
        prunePostsubmits R isStale isGenerated generator maps.postsubmit
          jobConfig.PostsubmitsStatic
      some
        { PresubmitsStatic :=
            pruneMap R (fun job : Presubmit => isStale job.toJobBase)
              (fun job =>
                if isGenerated job.toJobBase then
                  { job with Labels := mapDelete job.Labels generator }
                else job)
              jobConfig.PresubmitsStatic,
          PostsubmitsStatic := postsubmits.1,
          Periodics :=
            prunePeriodics isStale isGenerated generator postsubmits.2 maps.periodic
              jobConfig.Periodics 0 }

/-- The maps of labels of the postsubmits of a configuration, one for every
job. -/
def postsubmitMaps (mapOf : String → Nat → Nat) (jobs : List (String × List Postsubmit)) :
    List Nat :=
  jobs.flatMap (fun entry => (List.range' 0 entry.2.length).map (mapOf entry.1))

/-- The maps of labels of the periodics of a configuration, one for every
job. -/
def periodicMaps (mapOf : Nat → Nat) (jobs : List Periodic) : List Nat :=
  (List.range' 0 jobs.length).map mapOf

/-- A job is stale, by its labels: its generator label is the generator, its
marker label, whose key is the name of the generator, is not
`newly-generated`, and it carries every prune label with the given value. -/
def isStaleJob (generator : String) (pruneLabels labels : List (String × String)) : Bool :=
  decide (mapGet labels LabelGenerator = some generator) &&
  decide (mapGet labels generator ≠ some newlyGenerated) &&
  pruneLabels.all (fun entry => decide (mapGet labels entry.1 = some entry.2))

/-- The labels of a job that is kept: without the marker label when the
generator label of the job is the generator, and as they are otherwise. -/
def keptLabels (generator : String) (labels : List (String × String)) :
    List (String × String) :=
  if mapGet labels LabelGenerator = some generator then mapDelete labels generator else labels

/-- The jobs of a repository in the pruned map: the jobs that are not stale,
in their order, each with the labels of a job that is kept; the repository
is not a key of the map when none of its jobs is kept. `withLabels` puts
labels into a job. -/
def keptJobs {J : Type} (labelsOf : J → List (String × String))
    (withLabels : J → List (String × String) → J) (generator : String)
    (pruneLabels : List (String × String)) (jobs : Option (List J)) : Option (List J) :=
  match jobs with
  | none => none
  | some jobs =>
    let kept := (jobs.filter (fun job => !isStaleJob generator pruneLabels (labelsOf job))).map
      (fun job => withLabels job (keptLabels generator (labelsOf job)))
    if kept.isEmpty then none else some kept

/-- The checks of the syntax that `Prune` makes: the generator label with the
generator as value, the marker label with `newly-generated` as value, and
every prune label with its value. -/
def validSelectors (validKey validValue : String → Bool) (generator : String)
    (pruneLabels : List (String × String)) : Bool :=
  (validKey LabelGenerator && validValue generator) &&
    (validKey generator && validValue newlyGenerated) &&
    pruneLabels.all (fun entry => validKey entry.1 && validValue entry.2)

/-- A check of the syntax of labels for examples: a text is valid when it is
not empty. -/
def nonEmptyText (s : String) : Bool := s != ""

/-- Maps of labels for examples with one repository: every job holds a map of
its own. -/
def ownMaps : LabelMaps := ⟨fun _ i => 2 * i, fun i => 2 * i + 1⟩

/-- Maps of labels for examples: all the jobs hold one map. -/
def sharedMap : LabelMaps := ⟨fun _ _ => 0, fun _ => 0⟩

/-- A postsubmit with the given name and labels, for examples. -/
def labelledPostsubmit (name : String) (labels : List (String × String)) : Postsubmit :=
  { Name := name, Labels := labels, MaxConcurrency := 0, Cluster := "", ReporterConfig := none,
    Other := "", Rest := "" }

/-- A periodic with the given name and labels, for examples. -/
def labelledPeriodic (name : String) (labels : List (String × String)) : Periodic :=
  { Name := name, Labels := labels, MaxConcurrency := 0, Cluster := "", ReporterConfig := none,
    Other := "", Rest := "" }

/-- A presubmit with the given name and labels, for examples. -/
def labelledPresubmit (name : String) (labels : List (String × String)) : Presubmit :=
  { Name := name, Labels := labels, MaxConcurrency := 0, Cluster := "", ReporterConfig := none,
    Other := "", AlwaysRun := true, RunIfChanged := "", SkipIfOnlyChanged := "",
    SkipReport := false, Rest := "" }

/-! ### The names of the files

The functions of `path/filepath` are the ones for a system whose separator
is `/` and that has no volume names. -/

/-- One component of a path in `filepath.Clean`: an empty component and `.`
are dropped; `..` removes the last component that is kept, is dropped at the
root, and is kept at the front of a path that is not rooted; every other
component is kept. The state is the number of `..` kept at the front and the
other components that are kept, the last one first. -/
def cleanStep (rooted : Bool) (st : Nat × List (List Char)) (comp : List Char) :
    Nat × List (List Char) :=
  if comp = [] ∨ comp = ['.'] then st
  else if comp = ['.', '.'] then
    match st.2 with
    | _ :: rest => (st.1, rest)
    | [] => if rooted then st else (st.1 + 1, [])
  else (st.1, comp :: st.2)

/-- `filepath.Clean`, by the components of the path. -/
def Clean (path : List Char) : List Char :=
  if path = [] then ['.']
  else
    let rooted := path.head? = some '/'
    let st := (FrequencyReducer.splitOnChar '/' path).foldl (cleanStep rooted) (0, [])
    let out := (if rooted then ['/'] else []) ++
      List.intercalate ['/'] (List.replicate st.1 ['.', '.'] ++ st.2.reverse)
    if out = [] then ['.'] else out

/-- `filepath.Base`. -/
def Base (path : List Char) : List Char :=
  if path = [] then ['.']
  else
    let path := (path.reverse.dropWhile (fun c => c = '/')).reverse
    let path := (path.reverse.takeWhile (fun c => c ≠ '/')).reverse
    if path = [] then ['/'] else path

/-- `filepath.Dir`. -/
def Dir (path : List Char) : List Char :=
  Clean (path.reverse.dropWhile (fun c => c ≠ '/')).reverse

/-- `filepath.Ext`. -/
def Ext (path : List Char) : List Char :=
  let last := path.reverse.takeWhile (fun c => c ≠ '/')
  if '.' ∈ last then ('.' :: (last.takeWhile (fun c => c ≠ '.')).reverse) else []

/-- `strings.TrimSuffix` on rune lists. -/
def trimSuffix (s suffix : List Char) : List Char :=
  if CiOperator.endsWith s suffix then s.take (s.length - suffix.length) else s

/-- `strings.LastIndex` for a separator of one rune, with `none` for -1. -/
def lastIndex (s : List Char) (sep : Char) : Option Nat :=
  if sep ∈ s then some (s.length - 1 - (s.reverse.takeWhile (fun c => c ≠ sep)).length)
  else none

/-- The metadata of a file of Prow jobs (`Info`). -/
structure Info where
  /-- The organization. -/
  Org : String
  /-- The repository. -/
  Repo : String
  /-- The branch. -/
  Branch : String
  /-- The type of the jobs in the file (the field `Type`). -/
  Type0 : String
  /-- The path of the file. -/
  Filename : String
deriving DecidableEq, Repr

/-- `Info.Basename`. -/
def Info.Basename (i : Info) : String :=
  let parts :=
    if i.Type0 = "periodics" ∧ i.Branch = "" then [i.Org, i.Repo, i.Type0]
    else [i.Org, i.Repo, i.Branch, i.Type0]
  ⟨List.intercalate ['-'] (parts.map (fun part => part.data)) ++ ".yaml".data⟩

/-- `extractInfoFromPath`; `none` is an error. -/
def extractInfoFromPath (configFilePath : String) : Option Info :=
  let configSpecDir := Dir configFilePath.data
  let repo := Base configSpecDir
  if repo = ['.'] ∨ repo = ['/'] then none
  else
    let org := Base (Dir configSpecDir)
    if org = ['.'] ∨ org = ['/'] then none
    else
      let basename := Base configFilePath.data
      let basenameWithoutSuffix := trimSuffix basename (Ext configFilePath.data)
      let orgRepo := org ++ ['-'] ++ repo ++ ['-']
      if !FrequencyReducer.startsWith basenameWithoutSuffix orgRepo then none
      else
        let branchType := basenameWithoutSuffix.drop orgRepo.length
        match lastIndex branchType '-' with
        | none =>
          if branchType ≠ "periodics".data then none
          else some ⟨⟨org⟩, ⟨repo⟩, "", "periodics", configFilePath⟩
        | some typeIndex =>
          some ⟨⟨org⟩, ⟨repo⟩, ⟨branchType.take typeIndex⟩,
            ⟨branchType.drop (typeIndex + 1)⟩, configFilePath⟩

/-- A name of an entry of a directory that `filepath.Clean` keeps: not empty,
without a separator, and neither `.` nor `..`. -/
def IsComponent (c : List Char) : Prop :=
  c ≠ [] ∧ '/' ∉ c ∧ c ≠ ['.'] ∧ c ≠ ['.', '.']

/-- A path to which a name can be appended as a new component: it is empty or
ends with a separator. -/
def IsDirPrefix (w : List Char) : Prop := w = [] ∨ ∃ v, w = v ++ ['/']

end Jobconfig

namespace FrequencyReducer

/-! ## Theorems -/

section Frame

variable (lib : CronLib) (parseDuration : String → Option Int) (rng : Nat → Nat)
  (version testVersion : MajorMinor) (allowed : Option (String → Bool))

/-- A relation that every round of the loop establishes between a test and its
successor holds between the tests before and after the loop. -/
theorem updateTests_forall₂ {R : TestStepConfiguration → TestStepConfiguration → Prop}
    (h : ∀ test i, R test (updateTest lib parseDuration rng version testVersion allowed test i).1) :
    ∀ (tests : List TestStepConfiguration) (i : Nat),
      List.Forall₂ R tests
        (updateTests lib parseDuration rng version testVersion allowed tests i).1 := by
  intro tests
  induction tests with
  | nil => intro i; exact List.Forall₂.nil
  | cons t ts ih => intro i; exact List.Forall₂.cons (h t i) (ih _)

/-- Without a version the configuration is returned as it came. -/
theorem update_of_parse_none (i : Nat) (configuration : DataWithInfo)
    (hp : ParseMajorMinor (extractedVersionOf configuration.Branch configuration.Variant) = none) :
    updateIntervalFieldsForMatchedSteps lib parseDuration rng i configuration version allowed
      = (configuration, i) := by
  simp [updateIntervalFieldsForMatchedSteps, hp]

/-- With a version the tests are those the loop leaves. -/
theorem update_of_parse_some (i : Nat) (configuration : DataWithInfo) (tv : MajorMinor)
    (hp : ParseMajorMinor (extractedVersionOf configuration.Branch configuration.Variant)
      = some tv) :
    updateIntervalFieldsForMatchedSteps lib parseDuration rng i configuration version allowed
      = ({ configuration with
            Tests := (updateTests lib parseDuration rng version tv allowed
              configuration.Tests i).1 },
          (updateTests lib parseDuration rng version tv allowed configuration.Tests i).2) := by
  simp [updateIntervalFieldsForMatchedSteps, hp]

/-- A reflexive relation that every round of the loop establishes, whatever
version the configuration yields, holds between the tests before and after
`updateIntervalFieldsForMatchedSteps`. -/
theorem update_forall₂ {R : TestStepConfiguration → TestStepConfiguration → Prop}
    (i : Nat) (configuration : DataWithInfo) (hrefl : ∀ t, R t t)
    (h : ∀ tv, ParseMajorMinor (extractedVersionOf configuration.Branch configuration.Variant)
        = some tv → ∀ test j, R test (updateTest lib parseDuration rng version tv allowed test j).1) :
    List.Forall₂ R configuration.Tests
      (updateIntervalFieldsForMatchedSteps lib parseDuration rng i configuration version
        allowed).1.Tests := by
  cases hp : ParseMajorMinor (extractedVersionOf configuration.Branch configuration.Variant) with
  | none =>
    rw [update_of_parse_none lib parseDuration rng version allowed i configuration hp]
    exact List.forall₂_same.mpr (fun t _ => hrefl t)
  | some tv =>
    rw [update_of_parse_some lib parseDuration rng version allowed i configuration tv hp]
    exact updateTests_forall₂ lib parseDuration rng version tv allowed (h tv hp) _ _

/-- A test that the name filter rejects leaves its round unchanged. -/
theorem updateTest_of_name (test : TestStepConfiguration) (i : Nat)
    (h : ¬ (shouldProcessJobByName test.As = true ∧ Contains test.As "mirror-nightly-image" = false
      ∧ Contains test.As "promote-" = false)) :
    updateTest lib parseDuration rng version testVersion allowed test i = (test, i) := by
  unfold updateTest
  by_cases h1 : Contains test.As "mirror-nightly-image" = true
  · simp [h1]
  · by_cases h2 : Contains test.As "promote-" = true
    · simp [h2]
    · have h3 : shouldProcessJobByName test.As = false := by
        cases hs : shouldProcessJobByName test.As
        · rfl
        · exact absurd ⟨hs, by simpa using h1, by simpa using h2⟩ h
      simp [h3]

/-- A test that a cluster-profile filter rejects leaves its round unchanged. -/
theorem updateTest_of_profile (test : TestStepConfiguration) (i : Nat)
    (h : shouldExcludeQEClusterProfile test = true ∨
      ∃ f, allowed = some f ∧ shouldProcessTest test f = false) :
    updateTest lib parseDuration rng version testVersion allowed test i = (test, i) := by
  unfold updateTest
  split
  · split
    · rfl
    · rcases h with h | ⟨f, hf, hp⟩
      · simp [h]
      · subst hf
        by_cases hq : shouldExcludeQEClusterProfile test = true
        · simp [hq]
        · simp [hq, hp]
  · rfl

end Frame

/-- The loop over the keywords, spelled out. -/
theorem shouldProcessJobByName_iff (testName : String) :
    shouldProcessJobByName testName = true ↔
      ∃ keyword ∈ ["e2e", "upgrade", "vsphere", "aws", "nightly", "metal", "conformance", "ocp"],
        Contains (ToLower testName) keyword = true := by
  simp [shouldProcessJobByName, requiredKeywords]

/-- C6: `updateIntervalFieldsForMatchedSteps` changes the `Cron` or the
`Interval` of a test only if the name of the test, in lower case, contains one
of the keywords e2e, upgrade, vsphere, aws, nightly, metal, conformance, ocp,
and the name contains neither `mirror-nightly-image` nor `promote-`; every
other test comes out as it went in.  `shouldProcessJobByName` is false of
`promote-images` and true of `e2e-aws-upgrade`. -/
theorem C6_name_filter :
    (∀ (lib : CronLib) (parseDuration : String → Option Int) (rng : Nat → Nat) (i : Nat)
        (configuration : DataWithInfo) (version : MajorMinor)
        (allowed : Option (String → Bool)),
      List.Forall₂
        (fun t t' =>
          ((t'.Cron ≠ t.Cron ∨ t'.Interval ≠ t.Interval) →
            (∃ keyword ∈ ["e2e", "upgrade", "vsphere", "aws", "nightly", "metal",
                "conformance", "ocp"], Contains (ToLower t.As) keyword = true) ∧
              Contains t.As "mirror-nightly-image" = false ∧ Contains t.As "promote-" = false) ∧
          (¬ ((∃ keyword ∈ ["e2e", "upgrade", "vsphere", "aws", "nightly", "metal",
                "conformance", "ocp"], Contains (ToLower t.As) keyword = true) ∧
              Contains t.As "mirror-nightly-image" = false ∧ Contains t.As "promote-" = false) →
            t' = t))
        configuration.Tests
        (updateIntervalFieldsForMatchedSteps lib parseDuration rng i configuration version
          allowed).1.Tests) ∧
    shouldProcessJobByName "promote-images" = false ∧
    shouldProcessJobByName "e2e-aws-upgrade" = true := by
  refine ⟨?_, by decide, by decide⟩
  intro lib parseDuration rng i configuration version allowed
  have key : ∀ (tv : MajorMinor) (test : TestStepConfiguration) (j : Nat),
      ¬ ((∃ keyword ∈ ["e2e", "upgrade", "vsphere", "aws", "nightly", "metal",
            "conformance", "ocp"], Contains (ToLower test.As) keyword = true) ∧
          Contains test.As "mirror-nightly-image" = false ∧ Contains test.As "promote-" = false) →
      (updateTest lib parseDuration rng version tv allowed test j).1 = test := by
    intro tv test j hn
    rw [updateTest_of_name lib parseDuration rng version tv allowed test j]
    rw [shouldProcessJobByName_iff]
    exact hn
  apply update_forall₂
  · intro t
    exact ⟨fun h => absurd h (by simp), fun _ => rfl⟩
  · intro tv _ test j
    refine ⟨fun hch => ?_, key tv test j⟩
    by_contra hn
    rw [key tv test j hn] at hch
    simp at hch

/-- C7: `updateIntervalFieldsForMatchedSteps` leaves `Cron` and `Interval` as
they are for every test whose cluster profile name contains `-qe` in some
letter case, and, when an allow-list is supplied, for every test whose
non-empty cluster profile the list does not allow.  `shouldExcludeQEClusterProfile`
is true exactly of the profiles that contain `-qe`, and a test without a
cluster profile is excluded by neither filter. -/
theorem C7_cluster_profile_filter :
    (∀ (lib : CronLib) (parseDuration : String → Option Int) (rng : Nat → Nat) (i : Nat)
        (configuration : DataWithInfo) (version : MajorMinor)
        (allowed : Option (String → Bool)),
      List.Forall₂
        (fun t t' =>
          (Contains (ToLower t.GetClusterProfileName) "-qe" = true ∨
            ∃ allowList, allowed = some allowList ∧ t.GetClusterProfileName ≠ "" ∧
              allowList t.GetClusterProfileName = false) →
          t'.Cron = t.Cron ∧ t'.Interval = t.Interval)
        configuration.Tests
        (updateIntervalFieldsForMatchedSteps lib parseDuration rng i configuration version
          allowed).1.Tests) ∧
    (∀ test : TestStepConfiguration,
      shouldExcludeQEClusterProfile test = true ↔
        Contains (ToLower test.GetClusterProfileName) "-qe" = true) ∧
    (∀ (test : TestStepConfiguration) (allowList : String → Bool),
      test.GetClusterProfileName = "" →
        shouldExcludeQEClusterProfile test = false ∧ shouldProcessTest test allowList = true) := by
  have hqe : ∀ test : TestStepConfiguration,
      shouldExcludeQEClusterProfile test = true ↔
        Contains (ToLower test.GetClusterProfileName) "-qe" = true := by
    intro test
    unfold shouldExcludeQEClusterProfile
    by_cases he : test.GetClusterProfileName = ""
    · rw [he]; decide
    · simp [he]
  refine ⟨?_, hqe, ?_⟩
  · intro lib parseDuration rng i configuration version allowed
    apply update_forall₂
    · intro t _; exact ⟨rfl, rfl⟩
    · intro tv _ test j h
      rw [updateTest_of_profile lib parseDuration rng version tv allowed test j]
      · exact ⟨rfl, rfl⟩
      · rcases h with h | ⟨f, hf, hne, hfalse⟩
        · exact Or.inl ((hqe test).mpr h)
        · refine Or.inr ⟨f, hf, ?_⟩
          simp [shouldProcessTest, hne, hfalse]
  · intro test allowList he
    simp [shouldExcludeQEClusterProfile, shouldProcessTest, he]

/-- C9: the version `updateIntervalFieldsForMatchedSteps` works with is the
version extracted from the variant when that starts with `4.` and the version
extracted from the branch does not; otherwise it is the version of the branch
when that is not empty, and the version of the variant when the branch gives
none.  Without a version of that text the configuration is returned unchanged,
and with one the tests are those the loop leaves for it. -/
theorem C9_version_choice (branchName variantName : String) :
    extractedVersionOf branchName variantName =
        (if HasPrefix (extractVersion variantName) "4." = true ∧
            HasPrefix (extractVersion branchName) "4." = false then extractVersion variantName
          else if extractVersion branchName ≠ "" then extractVersion branchName
          else extractVersion variantName) ∧
    ∀ (lib : CronLib) (parseDuration : String → Option Int) (rng : Nat → Nat) (i : Nat)
      (tests : List TestStepConfiguration) (version : MajorMinor)
      (allowed : Option (String → Bool)),
      updateIntervalFieldsForMatchedSteps lib parseDuration rng i
          ⟨branchName, variantName, tests⟩ version allowed =
        match ParseMajorMinor
            (if HasPrefix (extractVersion variantName) "4." = true ∧
                HasPrefix (extractVersion branchName) "4." = false then extractVersion variantName
              else if extractVersion branchName ≠ "" then extractVersion branchName
              else extractVersion variantName) with
        | none => (⟨branchName, variantName, tests⟩, i)
        | some testVersion =>
          (⟨branchName, variantName,
              (updateTests lib parseDuration rng version testVersion allowed tests i).1⟩,
            (updateTests lib parseDuration rng version testVersion allowed tests i).2) := by
  have hv : extractedVersionOf branchName variantName =
        (if HasPrefix (extractVersion variantName) "4." = true ∧
            HasPrefix (extractVersion branchName) "4." = false then extractVersion variantName
          else if extractVersion branchName ≠ "" then extractVersion branchName
          else extractVersion variantName) := by
    have hempty : extractVersion "" = "" := by decide
    have hpre : ∀ s : String, HasPrefix s "4." = true → s ≠ "" := by
      intro s h he
      rw [he] at h
      exact absurd h (by decide)
    unfold extractedVersionOf
    by_cases hvar : variantName = ""
    · subst hvar
      have h4 : HasPrefix (extractVersion "") "4." = false := by rw [hempty]; decide
      have h5 : HasPrefix "" "4." = false := by decide
      simp only [hempty, h5]
      by_cases hbe : extractVersion branchName = ""
      · simp [hbe]
      · simp [hbe]
    · by_cases hv4 : HasPrefix (extractVersion variantName) "4." = true
      · have hne := hpre _ hv4
        by_cases hb4 : HasPrefix (extractVersion branchName) "4." = true
        · have hbne := hpre _ hb4
          simp [hvar, hv4, hne, hb4, hbne]
        · simp [hvar, hv4, hne, hb4]
      · by_cases hbe : extractVersion branchName = ""
        · by_cases hve : extractVersion variantName = ""
          · simp [hvar, hv4, hbe, hve]
          · simp [hvar, hv4, hbe, hve]
        · simp [hvar, hv4, hbe]
  refine ⟨hv, ?_⟩
  intro lib parseDuration rng i tests version allowed
  rw [← hv]
  cases hp : ParseMajorMinor (extractedVersionOf branchName variantName) with
  | none => simp [updateIntervalFieldsForMatchedSteps, hp]
  | some tv => simp [updateIntervalFieldsForMatchedSteps, hp]

/-! ### Decimal text -/

theorem digitChar_isDigit : ∀ d < 10, isDigit (digitChar d) = true ∧ (digitChar d).toNat - 48 = d := by
  decide

theorem digitsValue_append (l : List Char) (c : Char) :
    ∀ acc v, digitsValue l acc = some v →
      digitsValue (l ++ [c]) acc = if isDigit c then some (v * 10 + (c.toNat - 48)) else none := by
  induction l with
  | nil =>
    intro acc v h
    simp only [digitsValue, Option.some.injEq] at h
    subst h
    simp [digitsValue]
  | cons a l ih =>
    intro acc v h
    simp only [digitsValue, List.cons_append] at h ⊢
    split at h
    · rename_i hd
      simp only [hd, if_true]
      exact ih _ _ h
    · exact absurd h (by simp)

/-- Reading the decimal text of a number gives the number back. -/
theorem digitsValue_natDigits : ∀ f n, n ≤ f → digitsValue (natDigits f n) 0 = some n := by
  intro f
  induction f with
  | zero =>
    intro n hn
    have : n = 0 := by omega
    subst this
    decide
  | succ f ih =>
    intro n hn
    unfold natDigits
    split
    · rename_i h10
      have := digitChar_isDigit n h10
      simp [digitsValue, this.1, this.2]
    · rename_i h10
      have hrec := ih (n / 10) (by omega)
      rw [digitsValue_append _ _ 0 (n / 10) hrec]
      have := digitChar_isDigit (n % 10) (by omega)
      simp only [this.1, this.2, if_true]
      congr 1
      omega

theorem fmtNat_value (n : Nat) : digitsValue (fmtNat n) 0 = some n :=
  digitsValue_natDigits n n (le_refl n)

theorem fmtNat_inj {a b : Nat} (h : fmtNat a = fmtNat b) : a = b := by
  have ha := fmtNat_value a
  rw [h, fmtNat_value b] at ha
  exact (Option.some.inj ha).symm

/-- Text that reads as a number consists of digits. -/
theorem all_isDigit_of_digitsValue : ∀ (l : List Char) (acc v : Nat),
    digitsValue l acc = some v → ∀ c ∈ l, isDigit c = true := by
  intro l
  induction l with
  | nil => intro _ _ _ c hc; simp at hc
  | cons a l ih =>
    intro acc v h c hc
    simp only [digitsValue] at h
    split at h
    · rename_i hd
      rcases List.mem_cons.mp hc with rfl | hc
      · exact hd
      · exact ih _ _ h c hc
    · exact absurd h (by simp)

theorem fmtNat_isDigit (n : Nat) : ∀ c ∈ fmtNat n, isDigit c = true :=
  all_isDigit_of_digitsValue _ _ _ (fmtNat_value n)

theorem fmtNat_ne_nil (n : Nat) : fmtNat n ≠ [] := by
  intro h
  have := fmtNat_value n
  rw [h] at this
  cases n with
  | zero => exact absurd h (by decide)
  | succ k => simp [digitsValue] at this

theorem fmtInt_inj {a b : Int} (h : fmtInt a = fmtInt b) : a = b := by
  cases a with
  | ofNat m =>
    cases b with
    | ofNat n => simp only [fmtInt] at h; rw [fmtNat_inj h]
    | negSucc n =>
      simp only [fmtInt] at h
      have hd := fmtNat_isDigit m '-' (by rw [h]; simp)
      exact absurd hd (by decide)
  | negSucc m =>
    cases b with
    | ofNat n =>
      simp only [fmtInt] at h
      have hd := fmtNat_isDigit n '-' (by rw [← h]; simp)
      exact absurd hd (by decide)
    | negSucc n =>
      simp only [fmtInt, List.cons.injEq, true_and] at h
      have := fmtNat_inj h
      have : m = n := by omega
      rw [this]

theorem fmtInt_no_dot (a : Int) : '.' ∉ fmtInt a := by
  intro h
  cases a with
  | ofNat m => exact absurd (fmtNat_isDigit m '.' h) (by decide)
  | negSucc m =>
    simp only [fmtInt] at h
    rcases List.mem_cons.mp h with h | h
    · exact absurd h (by decide)
    · exact absurd (fmtNat_isDigit _ '.' h) (by decide)

theorem fmtInt_ne_nil (a : Int) : fmtInt a ≠ [] := by
  cases a with
  | ofNat m => exact fmtNat_ne_nil m
  | negSucc m => simp [fmtInt]

/-! ### Splitting at a rune -/

theorem splitOnChar_of_not_mem (sep : Char) : ∀ l : List Char, sep ∉ l → splitOnChar sep l = [l] := by
  intro l
  induction l with
  | nil => intro _; rfl
  | cons a l ih =>
    intro h
    have ha : a ≠ sep := fun e => h (by simp [e])
    have hl : sep ∉ l := fun e => h (by simp [e])
    simp [splitOnChar, ha, ih hl]

theorem splitOnChar_append (sep : Char) : ∀ (x y : List Char), sep ∉ x →
    splitOnChar sep (x ++ sep :: y) = x :: splitOnChar sep y := by
  intro x
  induction x with
  | nil => intro y _; simp [splitOnChar]
  | cons a x ih =>
    intro y h
    have ha : a ≠ sep := fun e => h (by simp [e])
    have hx : sep ∉ x := fun e => h (by simp [e])
    simp [splitOnChar, ha, ih y hx]

theorem splitOnChar_ne_nil (sep : Char) : ∀ l : List Char, splitOnChar sep l ≠ [] := by
  intro l
  induction l with
  | nil => simp [splitOnChar]
  | cons a l ih =>
    unfold splitOnChar
    split
    · simp
    · split
      · simp
      · simp

/-- The pieces put together again, with the separator between them. -/
theorem splitOnChar_join (sep : Char) : ∀ l : List Char,
    List.intercalate [sep] (splitOnChar sep l) = l := by
  intro l
  induction l with
  | nil => simp [splitOnChar, List.intercalate]
  | cons a l ih =>
    unfold splitOnChar
    split
    · rename_i h
      subst h
      have hne := splitOnChar_ne_nil a l
      cases hs : splitOnChar a l with
      | nil => exact absurd hs hne
      | cons p ps =>
        rw [hs] at ih
        simp only [List.intercalate] at ih ⊢
        simp only [List.intersperse, List.flatten] at ih ⊢
        simp [ih]
    · cases hs : splitOnChar sep l with
      | nil => exact absurd hs (splitOnChar_ne_nil sep l)
      | cons p ps =>
        rw [hs] at ih
        simp only [List.intercalate] at ih ⊢
        cases ps with
        | nil => simp [List.intersperse, List.flatten] at ih ⊢; exact ih
        | cons q qs => simp [List.intersperse, List.flatten] at ih ⊢; exact ih

theorem fmtVersion_inj {a b c d : Int} (h : fmtVersion a b = fmtVersion c d) : a = c ∧ b = d := by
  have h1 : fmtInt a ++ '.' :: fmtInt b = fmtInt c ++ '.' :: fmtInt d := by
    simpa [fmtVersion] using congrArg String.data h
  have h2 := congrArg (splitOnChar '.') h1
  rw [splitOnChar_append _ _ _ (fmtInt_no_dot a), splitOnChar_append _ _ _ (fmtInt_no_dot c),
    splitOnChar_of_not_mem _ _ (fmtInt_no_dot b), splitOnChar_of_not_mem _ _ (fmtInt_no_dot d)] at h2
  simp only [List.cons.injEq, and_true] at h2
  exact ⟨fmtInt_inj h2.1, fmtInt_inj h2.2⟩

/-! ### Versions -/

theorem parseIntBits_range (s : List Char) (v : Int) (h : parseIntBits 32 s = some v) :
    -2 ^ 31 ≤ v ∧ v < 2 ^ 31 := by
  unfold parseIntBits at h
  simp only at h
  split at h
  · exact absurd h (by simp)
  · split at h
    · exact absurd h (by simp)
    · rename_i w _
      split at h
      · split at h
        · rename_i hw
          simp only [Option.some.injEq] at h
          subst h
          norm_num at hw ⊢
          omega
        · exact absurd h (by simp)
      · split at h
        · rename_i hw
          simp only [Option.some.injEq] at h
          subst h
          norm_num at hw ⊢
          omega
        · exact absurd h (by simp)

theorem ParseMajorMinor_range (s : String) (tv : MajorMinor) (h : ParseMajorMinor s = some tv) :
    (-2 ^ 31 ≤ tv.Major ∧ tv.Major < 2 ^ 31) ∧ (-2 ^ 31 ≤ tv.Minor ∧ tv.Minor < 2 ^ 31) := by
  unfold ParseMajorMinor at h
  split at h
  · rename_i a b _
    split at h
    · rename_i major minor ha hb
      simp only [Option.some.injEq] at h
      subst h
      exact ⟨parseIntBits_range a major ha, parseIntBits_range b minor hb⟩
    · exact absurd h (by simp)
  · exact absurd h (by simp)

/-! ### The version chain and the bands -/

theorem wrapInt64_of_isInt64 {x : Int} (h : isInt64 x) : wrapInt64 x = x := by
  unfold isInt64 at h
  unfold wrapInt64
  norm_num at h ⊢
  omega

theorem atMostN3_iff (version testVersion : MajorMinor) :
    atMostN3 version testVersion = true ↔
      testVersion.Major < version.Major ∨
        (testVersion.Major = version.Major ∧
          testVersion.Minor ≤ wrapInt64 (version.Minor - 3)) := by
  obtain ⟨a, b⟩ := version
  obtain ⟨c, d⟩ := testVersion
  simp only [atMostN3, MajorMinor.Less, Bool.or_eq_true, beq_iff_eq, MajorMinor.mk.injEq]
  by_cases h : c = a
  · subst h
    simp only [if_true, decide_eq_true_eq, lt_self_iff_false, true_and, false_or]
    omega
  · simp only [h, if_false, decide_eq_true_eq, false_and, or_false]

theorem isN2_iff (version testVersion : MajorMinor) :
    isN2 version testVersion = true ↔
      testVersion.Major = version.Major ∧ testVersion.Minor = wrapInt64 (version.Minor - 2) := by
  simp only [isN2, MajorMinor.GetVersion, beq_iff_eq]
  constructor
  · exact fmtVersion_inj
  · rintro ⟨h1, h2⟩
    rw [h1, h2]

theorem isN1_iff (version testVersion : MajorMinor) :
    isN1 version testVersion = true ↔
      testVersion.Major = version.Major ∧ testVersion.Minor = wrapInt64 (version.Minor - 1) := by
  simp only [isN1, MajorMinor.GetVersion, MajorMinor.GetPastVersion, beq_iff_eq]
  constructor
  · exact fmtVersion_inj
  · rintro ⟨h1, h2⟩
    rw [h1, h2]

/-- In band `≤ n-3` the first test of the chain holds. -/
theorem chain_of_BandN3 {version testVersion : MajorMinor} (hv : isInt64 version.Minor)
    (ht : -2 ^ 31 ≤ testVersion.Minor) (h : BandN3 version testVersion) :
    atMostN3 version testVersion = true := by
  rw [atMostN3_iff]
  rcases h with h | ⟨h1, h2⟩
  · exact Or.inl h
  · refine Or.inr ⟨h1, ?_⟩
    have : isInt64 (version.Minor - 3) := by
      unfold isInt64 at hv ⊢
      norm_num at hv ht ⊢
      omega
    rw [wrapInt64_of_isInt64 this]
    exact h2

/-- In band `n-2` the second test of the chain is the first that holds. -/
theorem chain_of_BandN2 {version testVersion : MajorMinor} (hv : isInt64 version.Minor)
    (ht : -2 ^ 31 ≤ testVersion.Minor) (h : BandN2 version testVersion) :
    atMostN3 version testVersion = false ∧ isN2 version testVersion = true := by
  obtain ⟨h1, h2⟩ := h
  have e3 : isInt64 (version.Minor - 3) := by
    unfold isInt64 at hv ⊢
    norm_num at hv ht ⊢
    omega
  have e2 : isInt64 (version.Minor - 2) := by
    unfold isInt64 at hv ⊢
    norm_num at hv ht ⊢
    omega
  constructor
  · rw [Bool.eq_false_iff, Ne, atMostN3_iff, wrapInt64_of_isInt64 e3]
    omega
  · rw [isN2_iff, wrapInt64_of_isInt64 e2]
    exact ⟨h1, h2⟩

/-- In band `n-1` the third test of the chain is the first that holds. -/
theorem chain_of_BandN1 {version testVersion : MajorMinor} (hv : isInt64 version.Minor)
    (ht : -2 ^ 31 ≤ testVersion.Minor) (h : BandN1 version testVersion) :
    atMostN3 version testVersion = false ∧ isN2 version testVersion = false ∧
      isN1 version testVersion = true := by
  obtain ⟨h1, h2⟩ := h
  have e3 : isInt64 (version.Minor - 3) := by
    unfold isInt64 at hv ⊢
    norm_num at hv ht ⊢
    omega
  have e2 : isInt64 (version.Minor - 2) := by
    unfold isInt64 at hv ⊢
    norm_num at hv ht ⊢
    omega
  have e1 : isInt64 (version.Minor - 1) := by
    unfold isInt64 at hv ⊢
    norm_num at hv ht ⊢
    omega
  refine ⟨?_, ?_, ?_⟩
  · rw [Bool.eq_false_iff, Ne, atMostN3_iff, wrapInt64_of_isInt64 e3]
    omega
  · rw [Bool.eq_false_iff, Ne, isN2_iff, wrapInt64_of_isInt64 e2]
    omega
  · rw [isN1_iff, wrapInt64_of_isInt64 e1]
    exact ⟨h1, h2⟩

/-- For the current version itself no test of the chain holds. -/
theorem chain_of_current {version : MajorMinor}
    (hv : -2 ^ 31 ≤ version.Minor ∧ version.Minor < 2 ^ 31) :
    atMostN3 version version = false ∧ isN2 version version = false ∧
      isN1 version version = false := by
  have e3 : isInt64 (version.Minor - 3) := by
    unfold isInt64
    norm_num at hv ⊢
    omega
  have e2 : isInt64 (version.Minor - 2) := by
    unfold isInt64
    norm_num at hv ⊢
    omega
  have e1 : isInt64 (version.Minor - 1) := by
    unfold isInt64
    norm_num at hv ⊢
    omega
  refine ⟨?_, ?_, ?_⟩
  · rw [Bool.eq_false_iff, Ne, atMostN3_iff, wrapInt64_of_isInt64 e3]
    omega
  · rw [Bool.eq_false_iff, Ne, isN2_iff, wrapInt64_of_isInt64 e2]
    omega
  · rw [Bool.eq_false_iff, Ne, isN1_iff, wrapInt64_of_isInt64 e1]
    omega

/-- When no test of the version chain holds, a round of the loop changes
nothing. -/
theorem updateTest_of_no_band (lib : CronLib) (parseDuration : String → Option Int)
    (rng : Nat → Nat) (version testVersion : MajorMinor) (allowed : Option (String → Bool))
    (h3 : atMostN3 version testVersion = false) (h2 : isN2 version testVersion = false)
    (h1 : isN1 version testVersion = false) (test : TestStepConfiguration) (i : Nat) :
    updateTest lib parseDuration rng version testVersion allowed test i = (test, i) := by
  have hc : cronBlock lib rng version testVersion test i = (test, i, true) := by
    unfold cronBlock
    cases test.Cron with
    | none => rfl
    | some cron => simp [updateCron, h3, h2, h1]
  have hi : intervalBlock parseDuration rng version testVersion test i = (test, i) := by
    unfold intervalBlock
    cases test.Interval with
    | none => rfl
    | some interval => simp [updateInterval, h3, h2, h1]
  unfold updateTest
  rw [hc, hi]
  simp

theorem updateTests_of_no_band (lib : CronLib) (parseDuration : String → Option Int)
    (rng : Nat → Nat) (version testVersion : MajorMinor) (allowed : Option (String → Bool))
    (h3 : atMostN3 version testVersion = false) (h2 : isN2 version testVersion = false)
    (h1 : isN1 version testVersion = false) :
    ∀ (tests : List TestStepConfiguration) (i : Nat),
      updateTests lib parseDuration rng version testVersion allowed tests i = (tests, i) := by
  intro tests
  induction tests with
  | nil => intro i; rfl
  | cons t ts ih =>
    intro i
    simp [updateTests, updateTest_of_no_band lib parseDuration rng version testVersion allowed
      h3 h2 h1, ih]

/-- C4: when the version extracted for a configuration is the current version
(band `n`), `updateIntervalFieldsForMatchedSteps` returns the configuration as
it came, so the `Cron` and the `Interval` of every test are unchanged, cron
macros included, and no random number is drawn. -/
theorem C4_current_band_unchanged (lib : CronLib) (parseDuration : String → Option Int)
    (rng : Nat → Nat) (i : Nat) (configuration : DataWithInfo) (version : MajorMinor)
    (allowed : Option (String → Bool))
    (h : ParseMajorMinor (extractedVersionOf configuration.Branch configuration.Variant)
      = some version) :
    updateIntervalFieldsForMatchedSteps lib parseDuration rng i configuration version allowed
      = (configuration, i) := by
  have hr := (ParseMajorMinor_range _ _ h).2
  obtain ⟨h3, h2, h1⟩ := chain_of_current hr
  rw [update_of_parse_some lib parseDuration rng version allowed i configuration version h,
    updateTests_of_no_band lib parseDuration rng version version allowed h3 h2 h1]

/-- C4 at a configuration of branch `release-4.17` with a test on `@daily`,
the current version being 4.17. -/
theorem C4_witness :
    ParseMajorMinor (extractedVersionOf "release-4.17" "") = some ⟨4, 17⟩ ∧
    updateIntervalFieldsForMatchedSteps (robfig (fun _ => none)) (fun _ => none) (fun k => k) 0
        ⟨"release-4.17", "", [⟨"e2e-test", some "@daily", none, ""⟩]⟩ ⟨4, 17⟩ none
      = (⟨"release-4.17", "", [⟨"e2e-test", some "@daily", none, ""⟩]⟩, 0) :=
  ⟨by decide, C4_current_band_unchanged _ _ _ _ _ _ _ (by decide)⟩

/-- For a processed test, a round of the loop is the cron block followed by
the interval block. -/
theorem updateTest_of_isProcessed (lib : CronLib) (parseDuration : String → Option Int)
    (rng : Nat → Nat) (version testVersion : MajorMinor) (allowed : Option (String → Bool))
    (test : TestStepConfiguration) (i : Nat)
    (hp : isProcessed lib rng version testVersion allowed test) :
    updateTest lib parseDuration rng version testVersion allowed test i =
      intervalBlock parseDuration rng version testVersion
        (cronBlock lib rng version testVersion test i).1
        (cronBlock lib rng version testVersion test i).2.1 := by
  obtain ⟨h1, h2, h3, h4, h5, h6⟩ := hp
  have h5b : (allowed.isSome && !shouldProcessTest test (allowed.getD (fun _ => false))) = false := by
    cases allowed with
    | none => rfl
    | some f => simp [h5 f rfl]
  unfold updateTest
  simp [h1, h2, h3, h4, h5b, h6 i]

/-- The cron block leaves the interval of the test alone. -/
theorem cronBlock_Interval (lib : CronLib) (rng : Nat → Nat) (version testVersion : MajorMinor)
    (test : TestStepConfiguration) (i : Nat) :
    (cronBlock lib rng version testVersion test i).1.Interval = test.Interval := by
  unfold cronBlock
  cases test.Cron with
  | none => rfl
  | some cron =>
    simp only [updateCron]
    repeat' split
    all_goals rfl

/-- Without a cron the cron block does nothing. -/
theorem cronBlock_of_Cron_none (lib : CronLib) (rng : Nat → Nat) (version testVersion : MajorMinor)
    (test : TestStepConfiguration) (i : Nat) (h : test.Cron = none) :
    cronBlock lib rng version testVersion test i = (test, i, true) := by
  simp [cronBlock, h]

/-- C5: for a processed test whose `Interval` parses as the duration `d`
(nanoseconds): in band `≤ n-3` with `d` below 365 days, in band `n-2` with `d`
below 14 days and in band `n-1` with `d` below 7 days,
`updateIntervalFieldsForMatchedSteps` sets `Interval` to nil and `Cron` to a
cron of `generateYearlyCron`, `generateBiWeeklyCron` and
`generateWeeklyWeekendCron` respectively; with `d` at or above the threshold of
the band the `Interval` is left as it is and a test without cron stays without
one. -/
theorem C5_interval_conversion (lib : CronLib) (parseDuration : String → Option Int)
    (rng : Nat → Nat) (i : Nat) (configuration : DataWithInfo)
    (version testVersion : MajorMinor) (allowed : Option (String → Bool))
    (hv : isInt64 version.Minor)
    (hp : ParseMajorMinor (extractedVersionOf configuration.Branch configuration.Variant)
      = some testVersion) :
    List.Forall₂
      (fun t t' =>
        isProcessed lib rng version testVersion allowed t →
        ∀ interval d, t.Interval = some interval → parseDuration interval = some d →
          (BandN3 version testVersion → d < 365 * 86400000000000 →
            t'.Interval = none ∧ ∃ j, t'.Cron = some (generateYearlyCron rng j).1) ∧
          (BandN2 version testVersion → d < 14 * 86400000000000 →
            t'.Interval = none ∧ ∃ j, t'.Cron = some (generateBiWeeklyCron rng j).1) ∧
          (BandN1 version testVersion → d < 7 * 86400000000000 →
            t'.Interval = none ∧ ∃ j, t'.Cron = some (generateWeeklyWeekendCron rng j).1) ∧
          ((BandN3 version testVersion ∧ 365 * 86400000000000 ≤ d) ∨
              (BandN2 version testVersion ∧ 14 * 86400000000000 ≤ d) ∨
              (BandN1 version testVersion ∧ 7 * 86400000000000 ≤ d) →
            t'.Interval = t.Interval ∧ (t.Cron = none → t'.Cron = none)))
      configuration.Tests
      (updateIntervalFieldsForMatchedSteps lib parseDuration rng i configuration version
        allowed).1.Tests := by
  have ht := (ParseMajorMinor_range _ _ hp).2.1
  rw [update_of_parse_some lib parseDuration rng version allowed i configuration testVersion hp]
  apply updateTests_forall₂
  intro test j hproc interval d hint hd
  rw [updateTest_of_isProcessed lib parseDuration rng version testVersion allowed test j hproc]
  have hI := cronBlock_Interval lib rng version testVersion test j
  rw [hint] at hI
  have hday : dayNanos = 86400000000000 := by decide
  refine ⟨?_, ?_, ?_, ?_⟩
  · intro hb hlt
    have h3 := chain_of_BandN3 hv ht hb
    have hlt2 : d < dayNanos * 365 := by rw [hday]; omega
    have hres : intervalBlock parseDuration rng version testVersion
        (cronBlock lib rng version testVersion test j).1
        (cronBlock lib rng version testVersion test j).2.1 =
        ({ (cronBlock lib rng version testVersion test j).1 with
            Cron := some (generateYearlyCron rng (cronBlock lib rng version testVersion test j).2.1).1,
            Interval := none },
          (generateYearlyCron rng (cronBlock lib rng version testVersion test j).2.1).2) := by
      simp [intervalBlock, hI, updateInterval, h3, hd, hlt2]
    rw [hres]
    exact ⟨rfl, _, rfl⟩
  · intro hb hlt
    obtain ⟨h3, h2⟩ := chain_of_BandN2 hv ht hb
    have hlt2 : d < dayNanos * 14 := by rw [hday]; omega
    have hres : intervalBlock parseDuration rng version testVersion
        (cronBlock lib rng version testVersion test j).1
        (cronBlock lib rng version testVersion test j).2.1 =
        ({ (cronBlock lib rng version testVersion test j).1 with
            Cron := some (generateBiWeeklyCron rng (cronBlock lib rng version testVersion test j).2.1).1,
            Interval := none },
          (generateBiWeeklyCron rng (cronBlock lib rng version testVersion test j).2.1).2) := by
      simp [intervalBlock, hI, updateInterval, h3, h2, hd, hlt2]
    rw [hres]
    exact ⟨rfl, _, rfl⟩
  · intro hb hlt
    obtain ⟨h3, h2, h1⟩ := chain_of_BandN1 hv ht hb
    have hlt2 : d < dayNanos * 7 := by rw [hday]; omega
    have hres : intervalBlock parseDuration rng version testVersion
        (cronBlock lib rng version testVersion test j).1
        (cronBlock lib rng version testVersion test j).2.1 =
        ({ (cronBlock lib rng version testVersion test j).1 with
            Cron := some (generateWeeklyWeekendCron rng (cronBlock lib rng version testVersion test j).2.1).1,
            Interval := none },
          (generateWeeklyWeekendCron rng (cronBlock lib rng version testVersion test j).2.1).2) := by
      simp [intervalBlock, hI, updateInterval, h3, h2, h1, hd, hlt2]
    rw [hres]
    exact ⟨rfl, _, rfl⟩
  · intro hcase
    have hsame : intervalBlock parseDuration rng version testVersion
        (cronBlock lib rng version testVersion test j).1
        (cronBlock lib rng version testVersion test j).2.1 =
        ((cronBlock lib rng version testVersion test j).1,
          (cronBlock lib rng version testVersion test j).2.1) := by
      rcases hcase with ⟨hb, hge⟩ | ⟨hb, hge⟩ | ⟨hb, hge⟩
      · have h3 := chain_of_BandN3 hv ht hb
        have hge2 : ¬ d < dayNanos * 365 := by rw [hday]; omega
        simp only [intervalBlock, hI, updateInterval, h3, if_true, hd, hge2, if_false]
      · obtain ⟨h3, h2⟩ := chain_of_BandN2 hv ht hb
        have hge2 : ¬ d < dayNanos * 14 := by rw [hday]; omega
        simp [intervalBlock, hI, updateInterval, h3, h2, hd, hge2]
      · obtain ⟨h3, h2, h1⟩ := chain_of_BandN1 hv ht hb
        have hge2 : ¬ d < dayNanos * 7 := by rw [hday]; omega
        simp [intervalBlock, hI, updateInterval, h3, h2, h1, hd, hge2]
    rw [hsame]
    refine ⟨by rw [hI, hint], ?_⟩
    intro hnone
    rw [cronBlock_of_Cron_none lib rng version testVersion test j hnone]
    exact hnone

/-- C5 at the scenario of the specification: branch `release-4.15`, current
version 4.17, a test on the interval `24h`; the interval is cleared and the
cron is one of `generateBiWeeklyCron`. -/
theorem C5_witness :
    ∃ t', (updateIntervalFieldsForMatchedSteps (robfig (fun _ => none))
        (fun s => if s = "24h" then some 86400000000000 else none) (fun k => 7 * k + 100) 0
        ⟨"release-4.15", "", [⟨"e2e-test", none, some "24h", ""⟩]⟩ ⟨4, 17⟩ none).1.Tests = [t'] ∧
      t'.Interval = none ∧ ∃ j, t'.Cron = some (generateBiWeeklyCron (fun k => 7 * k + 100) j).1 := by
  have h := C5_interval_conversion (robfig (fun _ => none))
    (fun s => if s = "24h" then some 86400000000000 else none) (fun k => 7 * k + 100) 0
    ⟨"release-4.15", "", [⟨"e2e-test", none, some "24h", ""⟩]⟩ ⟨4, 17⟩ ⟨4, 15⟩ none
    (by unfold isInt64; norm_num) (by decide)
  obtain ⟨t', rest, h1, hrest, heq⟩ := List.forall₂_cons_left_iff.mp h
  have hnil : rest = [] := List.forall₂_nil_left_iff.mp hrest
  subst hnil
  refine ⟨t', heq, ?_⟩
  have hproc : isProcessed (robfig (fun _ => none)) (fun k => 7 * k + 100) ⟨4, 17⟩ ⟨4, 15⟩ none
      ⟨"e2e-test", none, some "24h", ""⟩ :=
    ⟨by decide, by decide, by decide, by decide, fun _ h => absurd h (by simp), fun _ => rfl⟩
  exact (h1 hproc "24h" 86400000000000 rfl (by decide)).2.1 ⟨rfl, rfl⟩ (by norm_num)

/-! ### `extractVersion` -/

theorem startsWith_iff : ∀ (s p : List Char), startsWith s p = true ↔ ∃ r, s = p ++ r := by
  intro s p
  induction p generalizing s with
  | nil => cases s <;> simp [startsWith]
  | cons a p ih =>
    cases s with
    | nil => simp [startsWith]
    | cons c cs =>
      simp only [startsWith, Bool.and_eq_true, beq_iff_eq, ih, List.cons_append, List.cons.injEq]
      constructor
      · rintro ⟨rfl, r, rfl⟩; exact ⟨r, rfl, rfl⟩
      · rintro ⟨r, rfl, rfl⟩; exact ⟨rfl, r, rfl⟩

theorem isDigit_ne_dot {l : List Char} (h : ∀ c ∈ l, isDigit c = true) : '.' ∉ l :=
  fun hm => absurd (h '.' hm) (by decide)

theorem isVersionText_iff (l : List Char) :
    isVersionText l = true ↔ ∃ x y, isDigitRun x ∧ isDigitRun y ∧ l = x ++ '.' :: y := by
  constructor
  · intro h
    unfold isVersionText at h
    split at h
    · rename_i a b hs
      simp only [Bool.and_eq_true, Bool.not_eq_true', List.isEmpty_eq_false, List.all_eq_true] at h
      have hj := splitOnChar_join '.' l
      rw [hs] at hj
      refine ⟨a, b, ⟨?_, h.1.1.2⟩, ⟨?_, h.2⟩, ?_⟩
      · intro e; rw [e] at h; simp at h
      · intro e; rw [e] at h; simp at h
      · rw [← hj]; simp [List.intercalate, List.intersperse]
    · exact absurd h (by simp)
  · rintro ⟨x, y, ⟨hx1, hx2⟩, ⟨hy1, hy2⟩, rfl⟩
    unfold isVersionText
    rw [splitOnChar_append _ _ _ (isDigit_ne_dot hx2), splitOnChar_of_not_mem _ _ (isDigit_ne_dot hy2)]
    simp only [Bool.and_eq_true, Bool.not_eq_true', List.isEmpty_eq_false, List.all_eq_true]
    cases x with
    | nil => exact absurd rfl hx1
    | cons a x =>
      cases y with
      | nil => exact absurd rfl hy1
      | cons b y => exact ⟨⟨⟨by simp, hx2⟩, by simp⟩, hy2⟩

theorem isVersionText_ne_nil {l : List Char} (h : isVersionText l = true) : l ≠ [] := by
  obtain ⟨x, y, _, _, rfl⟩ := (isVersionText_iff l).mp h
  simp

/-- What `matchNightly` returns follows `nightly-` after a prefix without a
line feed, and is a version. -/
theorem matchNightly_sound : ∀ (s g : List Char), matchNightly s = some g →
    ∃ p, '\n' ∉ p ∧ s = p ++ ("nightly-".data ++ g) ∧ isVersionText g = true := by
  intro s
  induction s with
  | nil => intro g h; simp [matchNightly] at h
  | cons c cs ih =>
    intro g h
    have hhere : ∀ g, (if (startsWith (c :: cs) "nightly-".data &&
        isVersionText ((c :: cs).drop 8)) = true then some ((c :: cs).drop 8) else none) = some g →
        ∃ p, '\n' ∉ p ∧ c :: cs = p ++ ("nightly-".data ++ g) ∧ isVersionText g = true := by
      intro g hg
      split at hg
      · rename_i hc
        simp only [Bool.and_eq_true] at hc
        obtain ⟨r, hr⟩ := (startsWith_iff _ _).mp hc.1
        simp only [Option.some.injEq] at hg
        subst hg
        refine ⟨[], by simp, ?_, hc.2⟩
        rw [hr]
        simp
      · exact absurd hg (by simp)
    unfold matchNightly at h
    simp only at h
    split at h
    · exact hhere g h
    · rename_i hnl
      split at h
      · rename_i g' hrec
        simp only [Option.some.injEq] at h
        subst h
        obtain ⟨p, hp1, hp2, hp3⟩ := ih _ hrec
        refine ⟨c :: p, ?_, by rw [hp2]; simp, hp3⟩
        simp only [List.mem_cons, not_or]
        exact ⟨fun e => hnl e.symm, hp1⟩
      · exact hhere g h

/-- `matchNightly` finds a version after `nightly-` whenever there is one
behind a prefix without a line feed. -/
theorem matchNightly_complete : ∀ (s p g : List Char), '\n' ∉ p →
    s = p ++ ("nightly-".data ++ g) → isVersionText g = true → matchNightly s ≠ none := by
  intro s
  induction s with
  | nil => intro p g _ h _; simp at h
  | cons c cs ih =>
    intro p g hp hs hg
    unfold matchNightly
    simp only
    cases p with
    | nil =>
      have hst : startsWith (c :: cs) "nightly-".data = true := (startsWith_iff _ _).mpr ⟨g, by simpa using hs⟩
      have hdrop : (c :: cs).drop 8 = g := by rw [hs]; simp
      have hc : c ≠ '\n' := by
        intro e
        rw [e] at hs
        simp at hs
      simp only [hst, hdrop, hg, Bool.and_self, if_true, hc, if_false]
      split <;> simp
    | cons a p =>
      simp only [List.cons_append, List.cons.injEq] at hs
      obtain ⟨rfl, hcs⟩ := hs
      have hc : c ≠ '\n' := fun e => hp (by simp [e])
      have hrec := ih p g (fun e => hp (by simp [e])) hcs hg
      simp only [hc, if_false]
      split
      · simp
      · rename_i hn
        exact absurd hn hrec

theorem extractVersion_of_first (s : String) (g : List Char) (hg : g ≠ [])
    (hF : FindStringSubmatch s.data = some [s.data, g, []]) : extractVersion s = ⟨g⟩ := by
  have hne : (g != []) = true := by simpa using hg
  unfold extractVersion
  rw [hF]
  simp [List.find?, hne]

theorem extractVersion_of_second (s : String) (g : List Char) (hg : g ≠ [])
    (hF : FindStringSubmatch s.data = some [s.data, [], g]) : extractVersion s = ⟨g⟩ := by
  have hne : (g != []) = true := by simpa using hg
  unfold extractVersion
  rw [hF]
  simp [List.find?, hne]

theorem extractVersion_of_none (s : String) (hF : FindStringSubmatch s.data = none) :
    extractVersion s =
      if s.utf8ByteSize = 3 ∧ s.data.head? = some '4' then ⟨'4' :: '.' :: s.data.drop 1⟩
      else "" := by
  unfold extractVersion
  rw [hF]
  simp [List.find?]

/-- C8 (amended): for every text `s`, `extractVersion s` is `x.y` when `s` is
exactly `release-x.y` or `openshift-x.y`, or ends with `nightly-x.y` after a
prefix that holds no line feed (`x` and `y` non-empty runs of decimal digits);
otherwise it is `4.` followed by the rest of `s` when `s` is three bytes long
and starts with `4`; otherwise it is empty. -/
theorem C8_extractVersion_amended (s : String) : ExtractVersionAmended s (extractVersion s) := by
  unfold ExtractVersionAmended
  by_cases h1 : (startsWith s.data "release-".data && isVersionText (s.data.drop 8)) = true
  · left
    have hv := h1
    simp only [Bool.and_eq_true] at hv
    obtain ⟨x, y, hx, hy, hxy⟩ := (isVersionText_iff _).mp hv.2
    obtain ⟨r, hr⟩ := (startsWith_iff _ _).mp hv.1
    have hdrop : s.data.drop 8 = r := by rw [hr]; simp
    refine ⟨x, y, ⟨hx, hy, Or.inl ?_⟩, ?_⟩
    · rw [← hxy, hdrop]; exact hr
    · have hF : FindStringSubmatch s.data = some [s.data, s.data.drop 8, []] := by
        unfold FindStringSubmatch
        rw [if_pos h1]
      rw [extractVersion_of_first s _ (isVersionText_ne_nil hv.2) hF]
      exact hxy
  · by_cases h2 : (startsWith s.data "openshift-".data && isVersionText (s.data.drop 10)) = true
    · left
      have hv := h2
      simp only [Bool.and_eq_true] at hv
      obtain ⟨x, y, hx, hy, hxy⟩ := (isVersionText_iff _).mp hv.2
      obtain ⟨r, hr⟩ := (startsWith_iff _ _).mp hv.1
      have hdrop : s.data.drop 10 = r := by rw [hr]; simp
      refine ⟨x, y, ⟨hx, hy, Or.inr (Or.inl ?_)⟩, ?_⟩
      · rw [← hxy, hdrop]; exact hr
      · have hF : FindStringSubmatch s.data = some [s.data, s.data.drop 10, []] := by
          unfold FindStringSubmatch
          rw [if_neg h1, if_pos h2]
        rw [extractVersion_of_first s _ (isVersionText_ne_nil hv.2) hF]
        exact hxy
    · cases h3 : matchNightly s.data with
      | some g =>
        left
        obtain ⟨p, hp1, hp2, hp3⟩ := matchNightly_sound _ _ h3
        obtain ⟨x, y, hx, hy, hxy⟩ := (isVersionText_iff _).mp hp3
        refine ⟨x, y, ⟨hx, hy, Or.inr (Or.inr ⟨p, hp1, ?_⟩)⟩, ?_⟩
        · rw [← hxy]; exact hp2
        · have hF : FindStringSubmatch s.data = some [s.data, [], g] := by
            unfold FindStringSubmatch
            rw [if_neg h1, if_neg h2, h3]
          rw [extractVersion_of_second s _ (isVersionText_ne_nil hp3) hF]
          exact hxy
      | none =>
        right
        have hno : ¬ ∃ x y, carriesVersion (fun p => '\n' ∉ p) s.data x y := by
          rintro ⟨x, y, hx, hy, h | h | ⟨p, hp, h⟩⟩
          · apply h1
            have hst : startsWith s.data "release-".data = true := (startsWith_iff _ _).mpr ⟨_, h⟩
            have hdrop : s.data.drop 8 = x ++ '.' :: y := by rw [h]; simp
            rw [hst, hdrop, (isVersionText_iff _).mpr ⟨x, y, hx, hy, rfl⟩]
            rfl
          · apply h2
            have hst : startsWith s.data "openshift-".data = true := (startsWith_iff _ _).mpr ⟨_, h⟩
            have hdrop : s.data.drop 10 = x ++ '.' :: y := by rw [h]; simp
            rw [hst, hdrop, (isVersionText_iff _).mpr ⟨x, y, hx, hy, rfl⟩]
            rfl
          · exact matchNightly_complete _ p _ hp h ((isVersionText_iff _).mpr ⟨x, y, hx, hy, rfl⟩) h3
        have hF : FindStringSubmatch s.data = none := by
          unfold FindStringSubmatch
          rw [if_neg h1, if_neg h2, h3]
        have hres := extractVersion_of_none s hF
        by_cases h4 : s.utf8ByteSize = 3 ∧ s.data.head? = some '4'
        · left
          rw [hres, if_pos h4]
          exact ⟨hno, h4.1, h4.2, rfl⟩
        · right
          rw [hres, if_neg h4]
          exact ⟨hno, h4, rfl⟩

/-- C8 as stated fails: behind a line feed `nightly-4.17` is not found, and the
compact form goes by bytes, so that `4é`, three bytes and two characters long,
gives `4.é`. -/
theorem C8_counterexample :
    ¬ ExtractVersionClaim "\nnightly-4.17" (extractVersion "\nnightly-4.17") ∧
    ¬ ExtractVersionClaim "4é" (extractVersion "4é") := by
  constructor
  · have hr : extractVersion "\nnightly-4.17" = "" := by decide
    have hc : ∃ x y, carriesVersion (fun _ => True) "\nnightly-4.17".data x y :=
      ⟨['4'], ['1', '7'], ⟨by simp, by decide⟩, ⟨by simp, by decide⟩,
        Or.inr (Or.inr ⟨['\n'], trivial, by decide⟩)⟩
    rw [hr]
    rintro (⟨x, y, _, h⟩ | ⟨h, _⟩ | ⟨h, _⟩)
    · have : ("" : String).data = [] := rfl
      rw [this] at h
      simp at h
    · exact h hc
    · exact h hc
  · have hr : extractVersion "4é" = "4.é" := by decide
    rw [hr]
    rintro (⟨x, y, ⟨_, _, h | h | ⟨p, _, h⟩⟩, _⟩ | ⟨_, h, _⟩ | ⟨_, _, h⟩)
    · have := congrArg List.length h
      simp at this
    · have := congrArg List.length h
      simp at this
    · have := congrArg List.length h
      simp at this
      omega
    · exact absurd h (by decide)
    · exact absurd h (by decide)

/-- A round of the loop either skips the test or runs the cron block and,
unless that leaves the round, the interval block. -/
theorem updateTest_cases (lib : CronLib) (parseDuration : String → Option Int)
    (rng : Nat → Nat) (version testVersion : MajorMinor) (allowed : Option (String → Bool))
    (test : TestStepConfiguration) (i : Nat) :
    updateTest lib parseDuration rng version testVersion allowed test i = (test, i) ∨
    updateTest lib parseDuration rng version testVersion allowed test i =
      (if !(cronBlock lib rng version testVersion test i).2.2 then
        ((cronBlock lib rng version testVersion test i).1,
          (cronBlock lib rng version testVersion test i).2.1)
      else
        intervalBlock parseDuration rng version testVersion
          (cronBlock lib rng version testVersion test i).1
          (cronBlock lib rng version testVersion test i).2.1) := by
  unfold updateTest
  split
  · split
    · exact Or.inl rfl
    · split
      · exact Or.inl rfl
      · split
        · exact Or.inl rfl
        · exact Or.inr rfl
  · exact Or.inl rfl

/-- A cron that is no macro is not converted. -/
theorem convertCronMacroToGenerated_of_not_macro (rng : Nat → Nat) (i : Nat) (cron : String)
    (h : ToLower cron ∉ ["@daily", "@weekly", "@monthly", "@yearly", "@annually"]) :
    convertCronMacroToGenerated rng i cron = (cron, i) := by
  simp only [List.mem_cons, List.mem_singleton, not_or, List.not_mem_nil, or_false] at h
  obtain ⟨h1, h2, h3, h4, h5⟩ := h
  simp [convertCronMacroToGenerated, h1, h2, h3, h4, h5]

/-- C3 (amended): in band `n-1` (resp. `n-2`), a test whose cron is no macro,
runs more than once a year by `isExecutedAtMostOncePerYear`, and runs at most
4 (resp. 2) times a month by `isExecutedAtMostXTimesAMonth` keeps its cron,
provided the test has no `Interval` that the interval block converts (none, or
one that does not parse, or one of at least 7, resp. 14, days). -/
theorem C3_kept_when_within_target (lib : CronLib) (parseDuration : String → Option Int)
    (rng : Nat → Nat) (i : Nat) (configuration : DataWithInfo)
    (version testVersion : MajorMinor) (allowed : Option (String → Bool))
    (hv : isInt64 version.Minor)
    (hp : ParseMajorMinor (extractedVersionOf configuration.Branch configuration.Variant)
      = some testVersion) :
    List.Forall₂
      (fun t t' =>
        ∀ cron, t.Cron = some cron →
          ToLower cron ∉ ["@daily", "@weekly", "@monthly", "@yearly", "@annually"] →
          isExecutedAtMostOncePerYear lib cron = some false →
          ((BandN1 version testVersion ∧ isExecutedAtMostXTimesAMonth lib cron 4 = some true ∧
              (t.Interval = none ∨ ∃ interval, t.Interval = some interval ∧
                (parseDuration interval = none ∨
                  ∃ d, parseDuration interval = some d ∧ 7 * 86400000000000 ≤ d))) ∨
            (BandN2 version testVersion ∧ isExecutedAtMostXTimesAMonth lib cron 2 = some true ∧
              (t.Interval = none ∨ ∃ interval, t.Interval = some interval ∧
                (parseDuration interval = none ∨
                  ∃ d, parseDuration interval = some d ∧ 14 * 86400000000000 ≤ d)))) →
          t'.Cron = some cron)
      configuration.Tests
      (updateIntervalFieldsForMatchedSteps lib parseDuration rng i configuration version
        allowed).1.Tests := by
  have ht := (ParseMajorMinor_range _ _ hp).2.1
  rw [update_of_parse_some lib parseDuration rng version allowed i configuration testVersion hp]
  apply updateTests_forall₂
  intro test j cron hcron hmac hyear hband
  have hday : dayNanos = 86400000000000 := by decide
  have hconv := convertCronMacroToGenerated_of_not_macro rng j cron hmac
  have hsame : ({ test with Cron := some cron } : TestStepConfiguration) = test := by
    cases test
    simp only at hcron
    simp [hcron]
  have hcb : cronBlock lib rng version testVersion test j = (test, j, true) := by
    rcases hband with ⟨hb, hx, _⟩ | ⟨hb, hx, _⟩
    · obtain ⟨h3, h2, h1⟩ := chain_of_BandN1 hv ht hb
      simp [cronBlock, hcron, updateCron, h3, h2, h1, hconv, hyear, hx, hsame]
    · obtain ⟨h3, h2⟩ := chain_of_BandN2 hv ht hb
      simp [cronBlock, hcron, updateCron, h3, h2, hconv, hyear, hx, hsame]
  have hib : intervalBlock parseDuration rng version testVersion test j = (test, j) := by
    unfold intervalBlock
    rcases hband with ⟨hb, _, hi⟩ | ⟨hb, _, hi⟩
    · obtain ⟨h3, h2, h1⟩ := chain_of_BandN1 hv ht hb
      rcases hi with hi | ⟨interval, hi, hd | ⟨d, hd, hge⟩⟩
      · rw [hi]
      · rw [hi]; simp [updateInterval, h3, h2, h1, hd]
      · have hge2 : ¬ d < dayNanos * 7 := by rw [hday]; omega
        rw [hi]; simp [updateInterval, h3, h2, h1, hd, hge2]
    · obtain ⟨h3, h2⟩ := chain_of_BandN2 hv ht hb
      rcases hi with hi | ⟨interval, hi, hd | ⟨d, hd, hge⟩⟩
      · rw [hi]
      · rw [hi]; simp [updateInterval, h3, h2, hd]
      · have hge2 : ¬ d < dayNanos * 14 := by rw [hday]; omega
        rw [hi]; simp [updateInterval, h3, h2, hd, hge2]
  rcases updateTest_cases lib parseDuration rng version testVersion allowed test j with h | h
  · rw [h]; exact hcron
  · rw [h, hcb]
    simp only [Bool.not_true, Bool.false_eq_true, if_false]
    rw [hib]
    exact hcron

/-- C3 as stated fails in band `n-1` (branch `release-4.16`, current version
4.17): the cron `0 0 1 6 *` is no macro and runs at most 4 times a month, yet
it is replaced, because it runs at most once a year; and the cron `0 0 * * 0`,
which runs at most 4 times a month, is replaced when the test also has the
interval `24h`. -/
theorem C3_counterexample :
    (ParseMajorMinor (extractedVersionOf "release-4.16" "") = some ⟨4, 16⟩ ∧
      BandN1 ⟨4, 17⟩ ⟨4, 16⟩ ∧
      ToLower "0 0 1 6 *" ∉ ["@daily", "@weekly", "@monthly", "@yearly", "@annually"] ∧
      isExecutedAtMostXTimesAMonth (robfig (fun _ => none)) "0 0 1 6 *" 4 = some true ∧
      (updateIntervalFieldsForMatchedSteps (robfig (fun _ => none)) (fun _ => none)
          (fun k => 7 * k + 100) 0
          ⟨"release-4.16", "", [⟨"e2e-test", some "0 0 1 6 *", none, ""⟩]⟩ ⟨4, 17⟩ none).1.Tests
        = [⟨"e2e-test", some "47 18 * * 0", none, ""⟩]) ∧
    (isExecutedAtMostXTimesAMonth
        (robfig (fun s => if s = "24h" then some 86400000000000 else none)) "0 0 * * 0" 4
        = some true ∧
      (updateIntervalFieldsForMatchedSteps
          (robfig (fun s => if s = "24h" then some 86400000000000 else none))
          (fun s => if s = "24h" then some 86400000000000 else none)
          (fun k => 7 * k + 100) 0
          ⟨"release-4.16", "", [⟨"e2e-test", some "0 0 * * 0", some "24h", ""⟩]⟩
          ⟨4, 17⟩ none).1.Tests
        = [⟨"e2e-test", some "47 18 * * 0", none, ""⟩]) := by
  refine ⟨⟨by decide, ⟨rfl, rfl⟩, by decide, by decide!, by decide!⟩, by decide!, by decide!⟩

/-- C3 (amended) at branch `release-4.16` with current version 4.17: the
weekly cron `0 0 * * 0` is kept. -/
theorem C3_witness :
    ∃ t', (updateIntervalFieldsForMatchedSteps (robfig (fun _ => none)) (fun _ => none)
        (fun k => 7 * k + 100) 0
        ⟨"release-4.16", "", [⟨"e2e-test", some "0 0 * * 0", none, ""⟩]⟩ ⟨4, 17⟩ none).1.Tests
        = [t'] ∧ t'.Cron = some "0 0 * * 0" := by
  have h := C3_kept_when_within_target (robfig (fun _ => none)) (fun _ => none)
    (fun k => 7 * k + 100) 0
    ⟨"release-4.16", "", [⟨"e2e-test", some "0 0 * * 0", none, ""⟩]⟩ ⟨4, 17⟩ ⟨4, 16⟩ none
    (by unfold isInt64; norm_num) (by decide)
  obtain ⟨t', rest, h1, hrest, heq⟩ := List.forall₂_cons_left_iff.mp h
  have hnil : rest = [] := List.forall₂_nil_left_iff.mp hrest
  subst hnil
  exact ⟨t', heq, h1 "0 0 * * 0" rfl (by decide) (by decide!)
    (Or.inl ⟨⟨rfl, rfl⟩, by decide!, Or.inl rfl⟩)⟩

/-! ### The calendar from 2024-01-01 to 2031-01-01 -/

/-! The calendar check, a hundred days at a time. -/

theorem calendarCheck_00 : ∀ r < 100, calendarCheck (100 * 0 + r) = true := by decide!

theorem calendarCheck_01 : ∀ r < 100, calendarCheck (100 * 1 + r) = true := by decide!

theorem calendarCheck_02 : ∀ r < 100, calendarCheck (100 * 2 + r) = true := by decide!

theorem calendarCheck_03 : ∀ r < 100, calendarCheck (100 * 3 + r) = true := by decide!

theorem calendarCheck_04 : ∀ r < 100, calendarCheck (100 * 4 + r) = true := by decide!

theorem calendarCheck_05 : ∀ r < 100, calendarCheck (100 * 5 + r) = true := by decide!

theorem calendarCheck_06 : ∀ r < 100, calendarCheck (100 * 6 + r) = true := by decide!

theorem calendarCheck_07 : ∀ r < 100, calendarCheck (100 * 7 + r) = true := by decide!

theorem calendarCheck_08 : ∀ r < 100, calendarCheck (100 * 8 + r) = true := by decide!

theorem calendarCheck_09 : ∀ r < 100, calendarCheck (100 * 9 + r) = true := by decide!

theorem calendarCheck_10 : ∀ r < 100, calendarCheck (100 * 10 + r) = true := by decide!

theorem calendarCheck_11 : ∀ r < 100, calendarCheck (100 * 11 + r) = true := by decide!

theorem calendarCheck_12 : ∀ r < 100, calendarCheck (100 * 12 + r) = true := by decide!

theorem calendarCheck_13 : ∀ r < 100, calendarCheck (100 * 13 + r) = true := by decide!

theorem calendarCheck_14 : ∀ r < 100, calendarCheck (100 * 14 + r) = true := by decide!

theorem calendarCheck_15 : ∀ r < 100, calendarCheck (100 * 15 + r) = true := by decide!

theorem calendarCheck_16 : ∀ r < 100, calendarCheck (100 * 16 + r) = true := by decide!

theorem calendarCheck_17 : ∀ r < 100, calendarCheck (100 * 17 + r) = true := by decide!

theorem calendarCheck_18 : ∀ r < 100, calendarCheck (100 * 18 + r) = true := by decide!

theorem calendarCheck_19 : ∀ r < 100, calendarCheck (100 * 19 + r) = true := by decide!

theorem calendarCheck_20 : ∀ r < 100, calendarCheck (100 * 20 + r) = true := by decide!

theorem calendarCheck_21 : ∀ r < 100, calendarCheck (100 * 21 + r) = true := by decide!

theorem calendarCheck_22 : ∀ r < 100, calendarCheck (100 * 22 + r) = true := by decide!

theorem calendarCheck_23 : ∀ r < 100, calendarCheck (100 * 23 + r) = true := by decide!

theorem calendarCheck_24 : ∀ r < 100, calendarCheck (100 * 24 + r) = true := by decide!

theorem calendarCheck_25 : ∀ r < 58, calendarCheck (100 * 25 + r) = true := by decide!

/-- The calendar check holds on every day from 2024-01-01 to 2031-01-01. -/
theorem calendarCheck_all : ∀ k < 2558, calendarCheck k = true := by
  intro k hk
  have e : 100 * (k / 100) + k % 100 = k := Nat.div_add_mod k 100
  have hr : k % 100 < 100 := Nat.mod_lt _ (by norm_num)
  have hc : k / 100 < 26 := by omega
  rw [← e]
  generalize k / 100 = c at *
  generalize k % 100 = r at *
  interval_cases c
  · exact calendarCheck_00 r (by omega)
  · exact calendarCheck_01 r (by omega)
  · exact calendarCheck_02 r (by omega)
  · exact calendarCheck_03 r (by omega)
  · exact calendarCheck_04 r (by omega)
  · exact calendarCheck_05 r (by omega)
  · exact calendarCheck_06 r (by omega)
  · exact calendarCheck_07 r (by omega)
  · exact calendarCheck_08 r (by omega)
  · exact calendarCheck_09 r (by omega)
  · exact calendarCheck_10 r (by omega)
  · exact calendarCheck_11 r (by omega)
  · exact calendarCheck_12 r (by omega)
  · exact calendarCheck_13 r (by omega)
  · exact calendarCheck_14 r (by omega)
  · exact calendarCheck_15 r (by omega)
  · exact calendarCheck_16 r (by omega)
  · exact calendarCheck_17 r (by omega)
  · exact calendarCheck_18 r (by omega)
  · exact calendarCheck_19 r (by omega)
  · exact calendarCheck_20 r (by omega)
  · exact calendarCheck_21 r (by omega)
  · exact calendarCheck_22 r (by omega)
  · exact calendarCheck_23 r (by omega)
  · exact calendarCheck_24 r (by omega)
  · exact calendarCheck_25 r (by omega)

/-- The facts of `calendarCheck` for a day number of the covered range. -/
theorem calendar_facts (n : Nat) (h1 : firstDay ≤ n) (h2 : n ≤ firstDay + spanDays) :
    (1 ≤ dayOfMonth n ∧ dayOfMonth n ≤ daysIn (yearOfDay n) (monthOfDay n) ∧
      1 ≤ monthOfDay n ∧ monthOfDay n ≤ 12) ∧
    daysBeforeYear (yearOfDay n) + daysBeforeMonth (yearOfDay n) (monthOfDay n) + dayOfMonth n
      = n + 1 ∧
    (yearOfDay (n - (dayOfMonth n - 1)) = yearOfDay n ∧
      monthOfDay (n - (dayOfMonth n - 1)) = monthOfDay n ∧
      dayOfMonth (n - (dayOfMonth n - 1)) = 1 ∧ firstDay ≤ n - (dayOfMonth n - 1)) ∧
    Date (yearOfDay n) (monthOfDay n + 1) 1 0 0 0
      = (n - (dayOfMonth n - 1) + daysIn (yearOfDay n) (monthOfDay n)) * 86400 ∧
    (daysBeforeYear (yearOfDay n) ≤ n ∧ n < daysBeforeYear (yearOfDay n + 1) ∧
      n - (dayOfMonth n - 1) + daysIn (yearOfDay n) (monthOfDay n)
        ≤ daysBeforeYear (yearOfDay n + 1)) ∧
    (if dayOfMonth n < daysIn (yearOfDay n) (monthOfDay n) then
      yearOfDay (n + 1) = yearOfDay n ∧ monthOfDay (n + 1) = monthOfDay n ∧
        dayOfMonth (n + 1) = dayOfMonth n + 1
    else
      dayOfMonth (n + 1) = 1 ∧
        ((monthOfDay n < 12 ∧ monthOfDay (n + 1) = monthOfDay n + 1 ∧
            yearOfDay (n + 1) = yearOfDay n) ∨
          (monthOfDay n = 12 ∧ monthOfDay (n + 1) = 1 ∧
            yearOfDay (n + 1) = yearOfDay n + 1))) := by
  obtain ⟨k, rfl⟩ : ∃ k, n = firstDay + k := ⟨n - firstDay, by omega⟩
  have hk : k < 2558 := by unfold spanDays at h2; omega
  have h := calendarCheck_all k hk
  unfold calendarCheck at h
  simp only [Bool.and_eq_true, decide_eq_true_eq] at h
  obtain ⟨⟨⟨⟨⟨a, b⟩, c⟩, d⟩, e⟩, f⟩ := h
  refine ⟨a, b, c, d, e, ?_⟩
  split
  · rename_i hlt
    rw [if_pos hlt] at f
    simpa using f
  · rename_i hlt
    rw [if_neg hlt] at f
    simpa using f

theorem daysIn_le (y m : Nat) : 28 ≤ daysIn y m ∧ daysIn y m ≤ 31 := by
  unfold daysIn
  split
  · split <;> omega
  · split <;> omega

theorem daysBeforeYear_mono {a b : Nat} (h : a ≤ b) : daysBeforeYear a ≤ daysBeforeYear b := by
  unfold daysBeforeYear
  have h1 : (a - 1) / 4 ≤ (b - 1) / 4 := Nat.div_le_div_right (by omega)
  have h2 : (a - 1) / 400 ≤ (b - 1) / 400 := Nat.div_le_div_right (by omega)
  have h3 : (b - 1) / 100 ≤ (a - 1) / 100 + ((b - 1) - (a - 1)) := by omega
  have h4 : (a - 1) / 100 ≤ (a - 1) := Nat.div_le_self _ _
  have h5 : (b - 1) / 100 ≤ (b - 1) := Nat.div_le_self _ _
  omega

/-! ### Fields of a time -/

theorem Hour_congr {t u : Nat} (h : t / 3600 = u / 3600) : Hour u = Hour t := by
  unfold Hour; rw [h]

theorem Minute_congr {t u : Nat} (h : t / 60 = u / 60) : Minute u = Minute t := by
  unfold Minute; rw [h]

theorem Month_congr {t u : Nat} (h : t / 86400 = u / 86400) : Month u = Month t := by
  unfold Month dayNumber; rw [h]

theorem Year_congr {t u : Nat} (h : t / 86400 = u / 86400) : Year u = Year t := by
  unfold Year dayNumber; rw [h]

theorem Day_congr {t u : Nat} (h : t / 86400 = u / 86400) : Day u = Day t := by
  unfold Day dayNumber; rw [h]

theorem dayMatches_congr (s : SpecSchedule) {t u : Nat} (h : t / 86400 = u / 86400) :
    dayMatches s u = dayMatches s t := by
  unfold dayMatches Day Weekday dayNumber; rw [h]

theorem firesAt_iff (s : SpecSchedule) (t : Nat) :
    firesAt s t = true ↔
      bitSet s.Month (Month t) = true ∧ dayMatches s t = true ∧ bitSet s.Hour (Hour t) = true ∧
        bitSet s.Minute (Minute t) = true ∧ bitSet s.Second (Second t) = true := by
  simp only [firesAt, Bool.and_eq_true]
  tauto

theorem firesAt_false_of_month {s : SpecSchedule} {t : Nat}
    (h : bitSet s.Month (Month t) = false) : firesAt s t = false := by
  simp [firesAt, h]

theorem firesAt_false_of_day {s : SpecSchedule} {t : Nat}
    (h : dayMatches s t = false) : firesAt s t = false := by
  simp [firesAt, h]

theorem firesAt_false_of_hour {s : SpecSchedule} {t : Nat}
    (h : bitSet s.Hour (Hour t) = false) : firesAt s t = false := by
  simp [firesAt, h]

theorem firesAt_false_of_minute {s : SpecSchedule} {t : Nat}
    (h : bitSet s.Minute (Minute t) = false) : firesAt s t = false := by
  simp [firesAt, h]

theorem firesAt_false_of_second {s : SpecSchedule} {t : Nat}
    (h : bitSet s.Second (Second t) = false) : firesAt s t = false := by
  simp [firesAt, h]

/-- On the day after a day whose month matches, the month matches or the day
is the first of its month. -/
theorem month_next_day (s : SpecSchedule) (n : Nat) (h1 : firstDay ≤ n)
    (h2 : n ≤ firstDay + spanDays) (hm : bitSet s.Month (monthOfDay n) = true) :
    bitSet s.Month (monthOfDay (n + 1)) = true ∨ dayOfMonth (n + 1) = 1 := by
  have h := (calendar_facts n h1 h2).2.2.2.2.2
  split at h
  · left; rw [h.2.1]; exact hm
  · right; exact h.1

/-- The day number of a time of the search is in the covered range. -/
theorem NextInv.day_range {s : SpecSchedule} {L t0 t : Nat} {p : Phase} {added : Bool}
    (h : NextInv s L t0 p t added) (hp : p.rank ≤ 5) :
    firstDay ≤ t / 86400 ∧ t / 86400 < daysBeforeYear (L + 1) ∧
      t / 86400 ≤ firstDay + spanDays := by
  have h1 := h.lo
  have h2 := h.later
  have h3 := h.inYear hp
  have h4 := h.limit
  unfold searchEnd at h3
  omega

/-! ### Moves of `nextLoop` keep the invariant -/

/-- The invariant at `WRAP` after a move from `t` to `t2`. -/
theorem NextInv.move {s : SpecSchedule} {L t0 t t2 : Nat} {p : Phase} {added : Bool}
    (h : NextInv s L t0 p t added) (hlt : t ≤ t2) (hup : t2 ≤ searchEnd L)
    (hq : ∀ u, t ≤ u → u < t2 → firesAt s u = false)
    (hmonth : bitSet s.Month (Month t2) = true ∨ (Day t2 = 1 ∧ t2 % 86400 = 0))
    (hday : dayMatches s t2 = true ∨ t2 % 86400 = 0)
    (hhour : bitSet s.Hour (Hour t2) = true ∨ t2 % 3600 = 0)
    (hminute : bitSet s.Minute (Minute t2) = true ∨ t2 % 60 = 0) :
    NextInv s L t0 .wrap t2 true where
  lo := h.lo
  limit := h.limit
  start := fun e => absurd e (by simp)
  later := le_trans h.later hlt
  upper := hup
  quiet := fun u h1 h2 => by
    by_cases hu : u < t
    · exact h.quiet u h1 hu
    · exact hq u (by omega) h2
  monthAligned := fun _ => hmonth
  dayAligned := fun _ => hday
  hourAligned := fun _ => hhour
  minuteAligned := fun _ => hminute
  inYear := fun e => absurd e (by simp [Phase.rank])
  monthOk := fun e => absurd e (by simp [Phase.rank])
  dayOk := fun e => absurd e (by simp [Phase.rank])
  hourOk := fun e => absurd e (by simp [Phase.rank])
  minuteOk := fun e => absurd e (by simp [Phase.rank])

/-- From the invariant at `WRAP` to the invariant in a loop, given what the
loops before it have established. -/
theorem NextInv.enter {s : SpecSchedule} {L t0 t : Nat} {added : Bool} (p : Phase)
    (h : NextInv s L t0 .wrap t added)
    (h5 : p.rank ≤ 5 → t < searchEnd L)
    (h4 : p.rank ≤ 4 → bitSet s.Month (Month t) = true)
    (h3 : p.rank ≤ 3 → dayMatches s t = true)
    (h2 : p.rank ≤ 2 → bitSet s.Hour (Hour t) = true)
    (h1 : p.rank ≤ 1 → bitSet s.Minute (Minute t) = true) :
    NextInv s L t0 p t added where
  lo := h.lo
  limit := h.limit
  start := h.start
  later := h.later
  upper := h.upper
  quiet := h.quiet
  monthAligned := h.monthAligned
  dayAligned := h.dayAligned
  hourAligned := h.hourAligned
  minuteAligned := h.minuteAligned
  inYear := h5
  monthOk := h4
  dayOk := h3
  hourOk := h2
  minuteOk := h1

/-- The invariant does not depend on the loop beyond what the loop assumes. -/
theorem NextInv.weaken {s : SpecSchedule} {L t0 t : Nat} {added : Bool} {p : Phase}
    (h : NextInv s L t0 p t added) : NextInv s L t0 .wrap t added where
  lo := h.lo
  limit := h.limit
  start := h.start
  later := h.later
  upper := h.upper
  quiet := h.quiet
  monthAligned := h.monthAligned
  dayAligned := h.dayAligned
  hourAligned := h.hourAligned
  minuteAligned := h.minuteAligned
  inYear := fun e => absurd e (by simp [Phase.rank])
  monthOk := fun e => absurd e (by simp [Phase.rank])
  dayOk := fun e => absurd e (by simp [Phase.rank])
  hourOk := fun e => absurd e (by simp [Phase.rank])
  minuteOk := fun e => absurd e (by simp [Phase.rank])

/-- After a move within the day of `t`, or to the start of the next day, the
month is aligned, provided it matched at `t`. -/
theorem month_aligned_after (s : SpecSchedule) {t t2 : Nat} (h1 : firstDay ≤ t / 86400)
    (h2 : t / 86400 ≤ firstDay + spanDays) (hm : bitSet s.Month (Month t) = true)
    (hd : t2 / 86400 = t / 86400 ∨ t2 = (t / 86400 + 1) * 86400) :
    bitSet s.Month (Month t2) = true ∨ (Day t2 = 1 ∧ t2 % 86400 = 0) := by
  rcases hd with hd | hd
  · left; rw [Month_congr hd.symm]; exact hm
  · have hn : t2 / 86400 = t / 86400 + 1 := by omega
    have hz : t2 % 86400 = 0 := by omega
    rcases month_next_day s (t / 86400) h1 h2 hm with h | h
    · left; unfold Month dayNumber; rw [hn]; exact h
    · right; unfold Day dayNumber; rw [hn]; exact ⟨h, hz⟩

/-- The move of the loop of the seconds. -/
theorem NextInv.second_move {s : SpecSchedule} {L t0 t : Nat} {added : Bool}
    (h : NextInv s L t0 .second t added) (hno : bitSet s.Second (Second t) = false) :
    NextInv s L t0 .wrap (t + 1) true ∧
      (Second (t + 1) ≠ 0 → NextInv s L t0 .second (t + 1) true) := by
  have hr := h.day_range (by simp [Phase.rank])
  have hy := h.inYear (by simp [Phase.rank])
  have hmo := h.monthOk (by simp [Phase.rank])
  have hdo := h.dayOk (by simp [Phase.rank])
  have hho := h.hourOk (by simp [Phase.rank])
  have hmi := h.minuteOk (by simp [Phase.rank])
  have hw : NextInv s L t0 .wrap (t + 1) true := by
    apply h.move (by omega) (by omega)
    · intro u hu1 hu2
      have : u = t := by omega
      subst this
      exact firesAt_false_of_second hno
    · exact month_aligned_after s hr.1 hr.2.2 hmo (by omega)
    · by_cases hz : (t + 1) % 86400 = 0
      · exact Or.inr hz
      · left; rw [dayMatches_congr s (show t / 86400 = (t + 1) / 86400 by omega)]; exact hdo
    · by_cases hz : (t + 1) % 3600 = 0
      · exact Or.inr hz
      · left; rw [Hour_congr (show t / 3600 = (t + 1) / 3600 by omega)]; exact hho
    · by_cases hz : (t + 1) % 60 = 0
      · exact Or.inr hz
      · left; rw [Minute_congr (show t / 60 = (t + 1) / 60 by omega)]; exact hmi
  refine ⟨hw, fun hs => ?_⟩
  have hs60 : (t + 1) % 60 ≠ 0 := hs
  have hse : searchEnd L % 60 = 0 := by unfold searchEnd; omega
  apply NextInv.enter .second hw
  · intro _; omega
  · intro _; rw [Month_congr (show t / 86400 = (t + 1) / 86400 by omega)]; exact hmo
  · intro _; rw [dayMatches_congr s (show t / 86400 = (t + 1) / 86400 by omega)]; exact hdo
  · intro _; rw [Hour_congr (show t / 3600 = (t + 1) / 3600 by omega)]; exact hho
  · intro _; rw [Minute_congr (show t / 60 = (t + 1) / 60 by omega)]; exact hmi

/-- In the loop of the minutes the time that is moved is the start of its
minute. -/
theorem NextInv.minute_start {s : SpecSchedule} {L t0 t : Nat} {added : Bool}
    (h : NextInv s L t0 .minute t added) (hno : bitSet s.Minute (Minute t) = false) :
    (if added = true then t else Truncate t 60) = t - t % 60 := by
  cases added with
  | false => rfl
  | true =>
    rcases h.minuteAligned rfl with hm | hm
    · rw [hm] at hno; exact absurd hno (by simp)
    · simp [hm]

/-- The move of the loop of the minutes. -/
theorem NextInv.minute_move {s : SpecSchedule} {L t0 t : Nat} {added : Bool}
    (h : NextInv s L t0 .minute t added) (hno : bitSet s.Minute (Minute t) = false) :
    NextInv s L t0 .wrap (t - t % 60 + 60) true ∧
      (Minute (t - t % 60 + 60) ≠ 0 → NextInv s L t0 .minute (t - t % 60 + 60) true) := by
  have hr := h.day_range (by simp [Phase.rank])
  have hy := h.inYear (by simp [Phase.rank])
  have hmo := h.monthOk (by simp [Phase.rank])
  have hdo := h.dayOk (by simp [Phase.rank])
  have hho := h.hourOk (by simp [Phase.rank])
  have hse : searchEnd L % 86400 = 0 := by unfold searchEnd; omega
  have hw : NextInv s L t0 .wrap (t - t % 60 + 60) true := by
    apply h.move (by omega) (by omega)
    · intro u hu1 hu2
      apply firesAt_false_of_minute
      rw [Minute_congr (show t / 60 = u / 60 by omega)]
      exact hno
    · exact month_aligned_after s hr.1 hr.2.2 hmo (by omega)
    · by_cases hz : (t - t % 60 + 60) % 86400 = 0
      · exact Or.inr hz
      · left
        rw [dayMatches_congr s (show t / 86400 = (t - t % 60 + 60) / 86400 by omega)]
        exact hdo
    · by_cases hz : (t - t % 60 + 60) % 3600 = 0
      · exact Or.inr hz
      · left; rw [Hour_congr (show t / 3600 = (t - t % 60 + 60) / 3600 by omega)]; exact hho
    · right; omega
  refine ⟨hw, fun hs => ?_⟩
  have hs60 : (t - t % 60 + 60) / 60 % 60 ≠ 0 := hs
  apply NextInv.enter .minute hw
  · intro _; omega
  · intro _
    rw [Month_congr (show t / 86400 = (t - t % 60 + 60) / 86400 by omega)]; exact hmo
  · intro _
    rw [dayMatches_congr s (show t / 86400 = (t - t % 60 + 60) / 86400 by omega)]; exact hdo
  · intro _; rw [Hour_congr (show t / 3600 = (t - t % 60 + 60) / 3600 by omega)]; exact hho
  · intro e; exact absurd e (by simp [Phase.rank])

/-- In the loop of the hours the time that is moved is the start of its
hour. -/
theorem NextInv.hour_start {s : SpecSchedule} {L t0 t : Nat} {added : Bool}
    (h : NextInv s L t0 .hour t added) (hno : bitSet s.Hour (Hour t) = false) :
    (if added = true then t else Truncate t 3600) = t - t % 3600 := by
  cases added with
  | false => rfl
  | true =>
    rcases h.hourAligned rfl with hm | hm
    · rw [hm] at hno; exact absurd hno (by simp)
    · simp [hm]

/-- The move of the loop of the hours. -/
theorem NextInv.hour_move {s : SpecSchedule} {L t0 t : Nat} {added : Bool}
    (h : NextInv s L t0 .hour t added) (hno : bitSet s.Hour (Hour t) = false) :
    NextInv s L t0 .wrap (t - t % 3600 + 3600) true ∧
      (Hour (t - t % 3600 + 3600) ≠ 0 → NextInv s L t0 .hour (t - t % 3600 + 3600) true) := by
  have hr := h.day_range (by simp [Phase.rank])
  have hy := h.inYear (by simp [Phase.rank])
  have hmo := h.monthOk (by simp [Phase.rank])
  have hdo := h.dayOk (by simp [Phase.rank])
  have hse : searchEnd L % 86400 = 0 := by unfold searchEnd; omega
  have hw : NextInv s L t0 .wrap (t - t % 3600 + 3600) true := by
    apply h.move (by omega) (by omega)
    · intro u hu1 hu2
      apply firesAt_false_of_hour
      rw [Hour_congr (show t / 3600 = u / 3600 by omega)]
      exact hno
    · exact month_aligned_after s hr.1 hr.2.2 hmo (by omega)
    · by_cases hz : (t - t % 3600 + 3600) % 86400 = 0
      · exact Or.inr hz
      · left
        rw [dayMatches_congr s (show t / 86400 = (t - t % 3600 + 3600) / 86400 by omega)]
        exact hdo
    · right; omega
    · right; omega
  refine ⟨hw, fun hs => ?_⟩
  have hs24 : (t - t % 3600 + 3600) / 3600 % 24 ≠ 0 := hs
  apply NextInv.enter .hour hw
  · intro _; omega
  · intro _
    rw [Month_congr (show t / 86400 = (t - t % 3600 + 3600) / 86400 by omega)]; exact hmo
  · intro _
    rw [dayMatches_congr s (show t / 86400 = (t - t % 3600 + 3600) / 86400 by omega)]; exact hdo
  · intro e; exact absurd e (by simp [Phase.rank])
  · intro e; exact absurd e (by simp [Phase.rank])

/-- The seconds since midnight, put together from hour, minute and second. -/
theorem clock_sum (t : Nat) : Hour t * 3600 + Minute t * 60 + Second t = t % 86400 := by
  unfold Hour Minute Second
  omega

/-- `Date` for a month from 1 to 12 and a day from 1 on. -/
theorem Date_eq (y m d h mi sec : Nat) (hm1 : 1 ≤ m) (hm2 : m ≤ 12) (hd : 1 ≤ d) :
    Date y m d h mi sec =
      (daysBeforeYear y + daysBeforeMonth y m + (d - 1)) * 86400 + h * 3600 + mi * 60 + sec := by
  unfold Date
  have e1 : (m - 1) / 12 = 0 := by omega
  have e2 : (m - 1) % 12 + 1 = m := by omega
  simp only [e1, e2, Nat.add_zero]
  have e3 : daysBeforeYear y + daysBeforeMonth y m + d - 1
      = daysBeforeYear y + daysBeforeMonth y m + (d - 1) := by omega
  rw [e3]

/-- The start of the day of `t`, as `Date` gives it. -/
theorem Date_day_start (t : Nat) (h1 : firstDay ≤ t / 86400)
    (h2 : t / 86400 ≤ firstDay + spanDays) :
    Date (Year t) (Month t) (Day t) 0 0 0 = t / 86400 * 86400 := by
  obtain ⟨⟨a1, a2, a3, a4⟩, b, _⟩ := calendar_facts (t / 86400) h1 h2
  unfold Year Month Day dayNumber
  rw [Date_eq _ _ _ _ _ _ a3 a4 a1]
  omega

/-- One day added by `AddDate`. -/
theorem AddDate_day (t : Nat) (h1 : firstDay ≤ t / 86400)
    (h2 : t / 86400 ≤ firstDay + spanDays) : AddDate t 0 0 1 = t + 86400 := by
  obtain ⟨⟨a1, a2, a3, a4⟩, b, _⟩ := calendar_facts (t / 86400) h1 h2
  have hc := clock_sum t
  unfold AddDate
  simp only [Nat.add_zero]
  rw [Date_eq _ _ _ _ _ _ (by unfold Month dayNumber; exact a3)
    (by unfold Month dayNumber; exact a4) (by omega)]
  unfold Year Month Day dayNumber
  omega

/-- In the loop of the days the time moved to is the start of the next day. -/
theorem NextInv.day_target {s : SpecSchedule} {L t0 t : Nat} {added : Bool}
    (h : NextInv s L t0 .day t added) (hno : dayMatches s t = false) :
    AddDate (if added = true then t else Date (Year t) (Month t) (Day t) 0 0 0) 0 0 1
      = (t / 86400 + 1) * 86400 := by
  have hr := h.day_range (by simp [Phase.rank])
  have hstart : (if added = true then t else Date (Year t) (Month t) (Day t) 0 0 0)
      = t / 86400 * 86400 := by
    cases added with
    | false => simp only [Bool.false_eq_true, if_false]; exact Date_day_start t hr.1 hr.2.2
    | true =>
      rcases h.dayAligned rfl with hm | hm
      · rw [hm] at hno; exact absurd hno (by simp)
      · simp only [if_true]; omega
  rw [hstart, AddDate_day _ (by omega) (by omega)]
  omega

/-- The move of the loop of the days. -/
theorem NextInv.day_move {s : SpecSchedule} {L t0 t : Nat} {added : Bool}
    (h : NextInv s L t0 .day t added) (hno : dayMatches s t = false) :
    NextInv s L t0 .wrap ((t / 86400 + 1) * 86400) true ∧
      (Day ((t / 86400 + 1) * 86400) ≠ 1 →
        NextInv s L t0 .day ((t / 86400 + 1) * 86400) true) := by
  have hr := h.day_range (by simp [Phase.rank])
  have hy := h.inYear (by simp [Phase.rank])
  have hmo := h.monthOk (by simp [Phase.rank])
  have hlim := h.limit
  have hse : searchEnd L = daysBeforeYear (L + 1) * 86400 := rfl
  have hw : NextInv s L t0 .wrap ((t / 86400 + 1) * 86400) true := by
    apply h.move (by omega) (by omega)
    · intro u hu1 hu2
      apply firesAt_false_of_day
      rw [dayMatches_congr s (show t / 86400 = u / 86400 by omega)]
      exact hno
    · exact month_aligned_after s hr.1 hr.2.2 hmo (Or.inr rfl)
    · right; omega
    · right; omega
    · right; omega
  refine ⟨hw, fun hs => ?_⟩
  have hn : (t / 86400 + 1) * 86400 / 86400 = t / 86400 + 1 := by omega
  have hd1 : dayOfMonth (t / 86400 + 1) ≠ 1 := by
    unfold Day dayNumber at hs; rw [hn] at hs; exact hs
  obtain ⟨_, _, _, _, ⟨b1, b2, _⟩, c⟩ := calendar_facts (t / 86400) hr.1 hr.2.2
  split at c
  · obtain ⟨c1, c2, c3⟩ := c
    obtain ⟨_, _, _, _, ⟨d1, d2, _⟩, _⟩ := calendar_facts (t / 86400 + 1) (by omega) (by omega)
    have hyL : yearOfDay (t / 86400) ≤ L := by
      by_contra hc
      have := daysBeforeYear_mono (show L + 1 ≤ yearOfDay (t / 86400) by omega)
      omega
    have hmono := daysBeforeYear_mono (show yearOfDay (t / 86400) + 1 ≤ L + 1 by omega)
    rw [c1] at d2
    apply NextInv.enter .day hw
    · intro _; omega
    · intro _; unfold Month dayNumber; rw [hn, c2]; exact hmo
    · intro e; exact absurd e (by simp [Phase.rank])
    · intro e; exact absurd e (by simp [Phase.rank])
    · intro e; exact absurd e (by simp [Phase.rank])
  · exact absurd c.1 hd1

/-- From the first day of a month on, the days of that month. -/
theorem month_span (n1 : Nat) (h1 : firstDay ≤ n1) (hd : dayOfMonth n1 = 1) :
    ∀ j, j < daysIn (yearOfDay n1) (monthOfDay n1) → n1 + j ≤ firstDay + spanDays →
      yearOfDay (n1 + j) = yearOfDay n1 ∧ monthOfDay (n1 + j) = monthOfDay n1 ∧
        dayOfMonth (n1 + j) = 1 + j := by
  intro j
  induction j with
  | zero => intro _ _; exact ⟨rfl, rfl, by simpa using hd⟩
  | succ j ih =>
    intro hj hr
    obtain ⟨e1, e2, e3⟩ := ih (by omega) (by omega)
    have c := (calendar_facts (n1 + j) (by omega) (by omega)).2.2.2.2.2
    rw [e1, e2, e3] at c
    rw [if_pos (by omega)] at c
    have hs : n1 + (j + 1) = n1 + j + 1 := by omega
    rw [hs]
    exact ⟨c.1, c.2.1, by rw [c.2.2]; omega⟩

/-- The day after the last day of a month is the first of the next month. -/
theorem month_end (n1 : Nat) (h1 : firstDay ≤ n1) (hd : dayOfMonth n1 = 1)
    (hr : n1 + daysIn (yearOfDay n1) (monthOfDay n1) ≤ firstDay + spanDays + 1) :
    dayOfMonth (n1 + daysIn (yearOfDay n1) (monthOfDay n1)) = 1 ∧
      ((monthOfDay n1 < 12 ∧
          monthOfDay (n1 + daysIn (yearOfDay n1) (monthOfDay n1)) = monthOfDay n1 + 1 ∧
          yearOfDay (n1 + daysIn (yearOfDay n1) (monthOfDay n1)) = yearOfDay n1) ∨
        (monthOfDay n1 = 12 ∧
          monthOfDay (n1 + daysIn (yearOfDay n1) (monthOfDay n1)) = 1 ∧
          yearOfDay (n1 + daysIn (yearOfDay n1) (monthOfDay n1)) = yearOfDay n1 + 1)) := by
  have hlen := daysIn_le (yearOfDay n1) (monthOfDay n1)
  obtain ⟨e1, e2, e3⟩ := month_span n1 h1 hd (daysIn (yearOfDay n1) (monthOfDay n1) - 1)
    (by omega) (by omega)
  have c := (calendar_facts (n1 + (daysIn (yearOfDay n1) (monthOfDay n1) - 1)) (by omega)
    (by omega)).2.2.2.2.2
  rw [e1, e2, e3] at c
  rw [if_neg (by omega)] at c
  have hs : n1 + (daysIn (yearOfDay n1) (monthOfDay n1) - 1) + 1
      = n1 + daysIn (yearOfDay n1) (monthOfDay n1) := by omega
  rw [hs] at c
  exact c

/-- In the loop of the months the time moved to is the start of the next
month. -/
theorem NextInv.month_target {s : SpecSchedule} {L t0 t : Nat} {added : Bool}
    (h : NextInv s L t0 .month t added) (hno : bitSet s.Month (Month t) = false) :
    AddDate (if added = true then t else Date (Year t) (Month t) 1 0 0 0) 0 1 0
      = (t / 86400 - (Day t - 1) + daysIn (Year t) (Month t)) * 86400 := by
  have hr := h.day_range (by simp [Phase.rank])
  obtain ⟨⟨a1, a2, a3, a4⟩, b, ⟨c1, c2, c3, c4⟩, d, _⟩ := calendar_facts (t / 86400) hr.1 hr.2.2
  have hstart : (if added = true then t else Date (Year t) (Month t) 1 0 0 0)
      = (t / 86400 - (Day t - 1)) * 86400 := by
    cases added with
    | false =>
      simp only [Bool.false_eq_true, if_false]
      unfold Year Month Day dayNumber
      rw [Date_eq _ _ _ _ _ _ a3 a4 (le_refl 1)]
      omega
    | true =>
      rcases h.monthAligned rfl with hm | hm
      · rw [hm] at hno; exact absurd hno (by simp)
      · simp only [if_true]
        rw [hm.1]
        omega
  rw [hstart]
  have hq : (t / 86400 - (Day t - 1)) * 86400 / 86400 = t / 86400 - (Day t - 1) := by omega
  have hz : (t / 86400 - (Day t - 1)) * 86400 % 86400 = 0 := by omega
  unfold AddDate
  have f1 : Year ((t / 86400 - (Day t - 1)) * 86400) = Year t := by
    unfold Year Day dayNumber at *; rw [hq]; exact c1
  have f2 : Month ((t / 86400 - (Day t - 1)) * 86400) = Month t := by
    unfold Month Day dayNumber at *; rw [hq]; exact c2
  have f3 : Day ((t / 86400 - (Day t - 1)) * 86400) = 1 := by
    unfold Day dayNumber at *; rw [hq]; exact c3
  have f4 : Hour ((t / 86400 - (Day t - 1)) * 86400) = 0 := by unfold Hour; omega
  have f5 : Minute ((t / 86400 - (Day t - 1)) * 86400) = 0 := by unfold Minute; omega
  have f6 : Second ((t / 86400 - (Day t - 1)) * 86400) = 0 := by unfold Second; omega
  rw [f1, f2, f3, f4, f5, f6]
  exact d

/-- The move of the loop of the months. -/
theorem NextInv.month_move {s : SpecSchedule} {L t0 t : Nat} {added : Bool}
    (h : NextInv s L t0 .month t added) (hno : bitSet s.Month (Month t) = false) :
    NextInv s L t0 .wrap
        ((t / 86400 - (Day t - 1) + daysIn (Year t) (Month t)) * 86400) true ∧
      (Month ((t / 86400 - (Day t - 1) + daysIn (Year t) (Month t)) * 86400) ≠ 1 →
        NextInv s L t0 .month
          ((t / 86400 - (Day t - 1) + daysIn (Year t) (Month t)) * 86400) true) ∧
      t < (t / 86400 - (Day t - 1) + daysIn (Year t) (Month t)) * 86400 := by
  have hr := h.day_range (by simp [Phase.rank])
  have hy := h.inYear (by simp [Phase.rank])
  have hlim := h.limit
  have hse : searchEnd L = daysBeforeYear (L + 1) * 86400 := rfl
  obtain ⟨⟨a1, a2, a3, a4⟩, b, ⟨c1, c2, c3, c4⟩, d, ⟨e1, e2, e3⟩, _⟩ :=
    calendar_facts (t / 86400) hr.1 hr.2.2
  have hyL : yearOfDay (t / 86400) ≤ L := by
    by_contra hc
    have := daysBeforeYear_mono (show L + 1 ≤ yearOfDay (t / 86400) by omega)
    omega
  have hmono := daysBeforeYear_mono (show yearOfDay (t / 86400) + 1 ≤ L + 1 by omega)
  -- the first day of the month of `t`, and the first day of the next month
  have hY : Year t = yearOfDay (t / 86400 - (dayOfMonth (t / 86400) - 1)) := by
    unfold Year dayNumber; exact c1.symm
  have hM : Month t = monthOfDay (t / 86400 - (dayOfMonth (t / 86400) - 1)) := by
    unfold Month dayNumber; exact c2.symm
  have hD : Day t = dayOfMonth (t / 86400) := rfl
  rw [hD, hY, hM]
  rw [← c1] at a2 e2 e3 hyL hmono
  rw [← c2] at a2 e3
  generalize hn1 : t / 86400 - (dayOfMonth (t / 86400) - 1) = n1 at *
  have hend := month_end n1 c4 c3 (by omega)
  have hq : (n1 + daysIn (yearOfDay n1) (monthOfDay n1)) * 86400 / 86400
      = n1 + daysIn (yearOfDay n1) (monthOfDay n1) := by omega
  have hw : NextInv s L t0 .wrap ((n1 + daysIn (yearOfDay n1) (monthOfDay n1)) * 86400) true := by
    apply h.move (by omega) (by omega)
    · intro u hu1 hu2
      apply firesAt_false_of_month
      have hspan := month_span n1 c4 c3 (u / 86400 - n1) (by omega) (by omega)
      have hu : n1 + (u / 86400 - n1) = u / 86400 := by omega
      rw [hu] at hspan
      have hmu : Month u = monthOfDay n1 := by
        unfold Month dayNumber; exact hspan.2.1
      rw [hmu, ← hM]
      exact hno
    · right
      refine ⟨?_, by omega⟩
      unfold Day dayNumber
      rw [hq]
      exact hend.1
    · right; omega
    · right; omega
    · right; omega
  refine ⟨hw, fun hs => ?_, by omega⟩
  have hm1 : monthOfDay (n1 + daysIn (yearOfDay n1) (monthOfDay n1)) ≠ 1 := by
    unfold Month dayNumber at hs; rw [hq] at hs; exact hs
  rcases hend.2 with ⟨_, _, hyy⟩ | ⟨_, hmm, _⟩
  · have hb := (calendar_facts (n1 + daysIn (yearOfDay n1) (monthOfDay n1)) (by omega)
      (by omega)).2.2.2.2.1
    rw [hyy] at hb
    apply NextInv.enter .month hw
    · intro _; omega
    · intro e; exact absurd e (by simp [Phase.rank])
    · intro e; exact absurd e (by simp [Phase.rank])
    · intro e; exact absurd e (by simp [Phase.rank])
    · intro e; exact absurd e (by simp [Phase.rank])
  · exact absurd hmm hm1

theorem Phase.rank_pos (p : Phase) : 1 ≤ p.rank := by
  cases p <;> simp [Phase.rank]

/-- `nextLoop` returns what a search has to return, from every state that
satisfies the invariant, given rounds enough for the time left. -/
theorem nextLoop_correct (s : SpecSchedule) (L t0 : Nat) :
    ∀ (fuel : Nat) (p : Phase) (t : Nat) (added : Bool), NextInv s L t0 p t added →
      7 * (searchEnd L - t) + p.rank ≤ fuel →
      NextResult s L t0 (nextLoop s L fuel p t added) := by
  intro fuel
  induction fuel with
  | zero =>
    intro p t added _ hf
    have := p.rank_pos
    omega
  | succ f ih =>
    intro p t added h hf
    have hup := h.upper
    cases p with
    | wrap =>
      have hlo := h.lo
      have hla := h.later
      have hlim := h.limit
      have hse : searchEnd L = daysBeforeYear (L + 1) * 86400 := rfl
      obtain ⟨_, _, _, _, ⟨e1, e2, _⟩, _⟩ :=
        calendar_facts (t / 86400) (by omega) (by omega)
      simp only [nextLoop]
      split
      · rename_i hy
        left
        refine ⟨rfl, fun u hu1 hu2 => h.quiet u hu1 ?_⟩
        have hy2 : L + 1 ≤ yearOfDay (t / 86400) := hy
        have := daysBeforeYear_mono hy2
        omega
      · rename_i hy
        have hy2 : yearOfDay (t / 86400) + 1 ≤ L + 1 := by
          have : ¬ (yearOfDay (t / 86400) > L) := hy
          omega
        have := daysBeforeYear_mono hy2
        have hlt : t < searchEnd L := by omega
        apply ih
        · apply NextInv.enter .month h (fun _ => hlt)
          all_goals intro e; exact absurd e (by simp [Phase.rank])
        · simp only [Phase.rank] at hf ⊢; omega
    | month =>
      have hlt := h.inYear (by simp [Phase.rank])
      simp only [nextLoop]
      split
      · rename_i hm
        apply ih
        · apply NextInv.enter .day h.weaken (fun _ => hlt) (fun _ => hm)
          all_goals intro e; exact absurd e (by simp [Phase.rank])
        · simp only [Phase.rank] at hf ⊢; omega
      · rename_i hm
        have hno : bitSet s.Month (Month t) = false := by simpa using hm
        rw [h.month_target hno]
        obtain ⟨hw, hp, hgt⟩ := h.month_move hno
        have hup2 := hw.upper
        split
        · apply ih _ _ _ hw
          simp only [Phase.rank] at hf ⊢; omega
        · rename_i hne
          apply ih _ _ _ (hp hne)
          simp only [Phase.rank] at hf ⊢; omega
    | day =>
      have hlt := h.inYear (by simp [Phase.rank])
      have hmo := h.monthOk (by simp [Phase.rank])
      simp only [nextLoop]
      split
      · rename_i hm
        apply ih
        · apply NextInv.enter .hour h.weaken (fun _ => hlt) (fun _ => hmo) (fun _ => hm)
          all_goals intro e; exact absurd e (by simp [Phase.rank])
        · simp only [Phase.rank] at hf ⊢; omega
      · rename_i hm
        have hno : dayMatches s t = false := by simpa using hm
        rw [h.day_target hno]
        obtain ⟨hw, hp⟩ := h.day_move hno
        have hup2 := hw.upper
        split
        · apply ih _ _ _ hw
          simp only [Phase.rank] at hf ⊢; omega
        · rename_i hne
          apply ih _ _ _ (hp hne)
          simp only [Phase.rank] at hf ⊢; omega
    | hour =>
      have hlt := h.inYear (by simp [Phase.rank])
      have hmo := h.monthOk (by simp [Phase.rank])
      have hdo := h.dayOk (by simp [Phase.rank])
      simp only [nextLoop]
      split
      · rename_i hm
        apply ih
        · apply NextInv.enter .minute h.weaken (fun _ => hlt) (fun _ => hmo) (fun _ => hdo)
            (fun _ => hm)
          all_goals intro e; exact absurd e (by simp [Phase.rank])
        · simp only [Phase.rank] at hf ⊢; omega
      · rename_i hm
        have hno : bitSet s.Hour (Hour t) = false := by simpa using hm
        rw [h.hour_start hno]
        obtain ⟨hw, hp⟩ := h.hour_move hno
        have hup2 := hw.upper
        split
        · apply ih _ _ _ hw
          simp only [Phase.rank] at hf ⊢; omega
        · rename_i hne
          apply ih _ _ _ (hp hne)
          simp only [Phase.rank] at hf ⊢; omega
    | minute =>
      have hlt := h.inYear (by simp [Phase.rank])
      have hmo := h.monthOk (by simp [Phase.rank])
      have hdo := h.dayOk (by simp [Phase.rank])
      have hho := h.hourOk (by simp [Phase.rank])
      simp only [nextLoop]
      split
      · rename_i hm
        apply ih
        · exact NextInv.enter .second h.weaken (fun _ => hlt) (fun _ => hmo) (fun _ => hdo)
            (fun _ => hho) (fun _ => hm)
        · simp only [Phase.rank] at hf ⊢; omega
      · rename_i hm
        have hno : bitSet s.Minute (Minute t) = false := by simpa using hm
        rw [h.minute_start hno]
        obtain ⟨hw, hp⟩ := h.minute_move hno
        have hup2 := hw.upper
        split
        · apply ih _ _ _ hw
          simp only [Phase.rank] at hf ⊢; omega
        · rename_i hne
          apply ih _ _ _ (hp hne)
          simp only [Phase.rank] at hf ⊢; omega
    | second =>
      have hlt := h.inYear (by simp [Phase.rank])
      have hmo := h.monthOk (by simp [Phase.rank])
      have hdo := h.dayOk (by simp [Phase.rank])
      have hho := h.hourOk (by simp [Phase.rank])
      have hmi := h.minuteOk (by simp [Phase.rank])
      simp only [nextLoop]
      split
      · rename_i hm
        right
        exact ⟨h.later, hlt, (firesAt_iff s t).mpr ⟨hmo, hdo, hho, hmi, hm⟩, h.quiet⟩
      · rename_i hm
        have hno : bitSet s.Second (Second t) = false := by simpa using hm
        have ht1 : (if added = true then t else Truncate t 1) = t := by
          cases added <;> simp [Truncate, Nat.mod_one]
        rw [ht1]
        obtain ⟨hw, hp⟩ := h.second_move hno
        have hup2 := hw.upper
        split
        · apply ih _ _ _ hw
          simp only [Phase.rank] at hf ⊢; omega
        · rename_i hne
          apply ih _ _ _ (hp hne)
          simp only [Phase.rank] at hf ⊢; omega

/-! ### `SpecSchedule.Next` on the window -/

theorem windowStart_eq : windowStart = 63839664000 := by decide

theorem yearEnd_eq : AddDate windowStart 1 0 0 = 63871286400 := by decide

theorem monthEnd_eq : AddDate windowStart 0 1 0 = 63842342400 := by decide

/-- The year of a time from 2024-01-01T00:00:00Z up to 2025-01-01T00:00:00Z is
2024 or 2025. -/
theorem Year_window (t : Nat) (h1 : 63839664000 ≤ t) (h2 : t ≤ 63871286400) :
    2024 ≤ Year t ∧ Year t ≤ 2025 := by
  have hf : firstDay = 738885 := rfl
  have hs : spanDays = 2557 := rfl
  obtain ⟨_, _, _, _, ⟨e1, e2, _⟩, _⟩ :=
    calendar_facts (t / 86400) (by omega) (by omega)
  have d24 : daysBeforeYear 2024 = 738885 := by decide
  have d26 : daysBeforeYear 2026 = 739616 := by decide
  unfold Year dayNumber
  constructor
  · by_contra hc
    have := daysBeforeYear_mono (show yearOfDay (t / 86400) + 1 ≤ 2024 by omega)
    omega
  · by_contra hc
    have := daysBeforeYear_mono (show 2026 ≤ yearOfDay (t / 86400) by omega)
    omega

/-- What `Next` returns for a time `t` of the window, from 2024-01-01T00:00:00Z
to just before 2025-01-01T00:00:00Z. -/
theorem Next_result (s : SpecSchedule) (t : Nat) (h1 : 63839664000 ≤ t)
    (h2 : t < 63871286400) : NextResult s (Year (t + 1) + 5) (t + 1) (s.Next t) := by
  have hf : firstDay = 738885 := rfl
  have hs : spanDays = 2557 := rfl
  obtain ⟨y1, y2⟩ := Year_window (t + 1) (by omega) (by omega)
  have d31 : daysBeforeYear 2031 = 741442 := by decide
  have hmono := daysBeforeYear_mono (show Year (t + 1) + 5 + 1 ≤ 2031 by omega)
  obtain ⟨_, _, _, _, ⟨e1, e2, _⟩, _⟩ :=
    calendar_facts ((t + 1) / 86400) (by omega) (by omega)
  have hmono2 := daysBeforeYear_mono
    (show yearOfDay ((t + 1) / 86400) + 1 ≤ Year (t + 1) + 5 + 1 by
      unfold Year dayNumber; omega)
  have hse : searchEnd (Year (t + 1) + 5) = daysBeforeYear (Year (t + 1) + 5 + 1) * 86400 := rfl
  have hinv : NextInv s (Year (t + 1) + 5) (t + 1) .wrap (t + 1) false :=
    { lo := by omega
      limit := by omega
      start := fun _ => rfl
      later := le_refl _
      upper := by omega
      quiet := fun u hu1 hu2 => absurd hu1 (by omega)
      monthAligned := fun e => absurd e (by simp)
      dayAligned := fun e => absurd e (by simp)
      hourAligned := fun e => absurd e (by simp)
      minuteAligned := fun e => absurd e (by simp)
      inYear := fun e => absurd e (by simp [Phase.rank])
      monthOk := fun e => absurd e (by simp [Phase.rank])
      dayOk := fun e => absurd e (by simp [Phase.rank])
      hourOk := fun e => absurd e (by simp [Phase.rank])
      minuteOk := fun e => absurd e (by simp [Phase.rank]) }
  unfold SpecSchedule.Next
  apply nextLoop_correct s _ _ _ _ _ _ hinv
  have hfuel : nextFuel = 2147483648 := by decide
  simp only [Phase.rank]
  omega

/-- For a time of the window after which the schedule is activated before
2030, `Next` returns the first activation after that time. -/
theorem Next_contract (s : SpecSchedule) (t : Nat) (h1 : 63839664000 ≤ t)
    (h2 : t < 63871286400)
    (hex : ∃ u, t < u ∧ u < 64029052800 ∧ firesAt s u = true) :
    firesAt s (s.Next t) = true ∧ t < s.Next t ∧
      ∀ v, t < v → v < s.Next t → firesAt s v = false := by
  obtain ⟨u, hu1, hu2, hu3⟩ := hex
  obtain ⟨y1, y2⟩ := Year_window (t + 1) (by omega) (by omega)
  have d30 : daysBeforeYear 2030 = 741077 := by decide
  have hmono := daysBeforeYear_mono (show 2030 ≤ Year (t + 1) + 5 + 1 by omega)
  have hse : searchEnd (Year (t + 1) + 5) = daysBeforeYear (Year (t + 1) + 5 + 1) * 86400 := rfl
  rcases Next_result s t h1 h2 with ⟨_, hq⟩ | ⟨r1, r2, r3, r4⟩
  · have := hq u (by omega) (by omega)
    rw [this] at hu3
    exact absurd hu3 (by simp)
  · exact ⟨r3, by omega, fun v hv1 hv2 => r4 v (by omega) hv2⟩

/-- `Next` returns the activation `u` when none lies between `t` and `u`. -/
theorem Next_eq (s : SpecSchedule) (t u : Nat) (h1 : 63839664000 ≤ t) (h2 : t < 63871286400)
    (hu1 : t < u) (hu2 : u < 64029052800) (hu3 : firesAt s u = true)
    (hq : ∀ v, t < v → v < u → firesAt s v = false) : s.Next t = u := by
  obtain ⟨c1, c2, c3⟩ := Next_contract s t h1 h2 ⟨u, hu1, hu2, hu3⟩
  rcases Nat.lt_trichotomy (s.Next t) u with h | h | h
  · have := hq _ c2 h
    rw [this] at c1
    exact absurd c1 (by simp)
  · exact h
  · have := c3 u hu1 h
    rw [this] at hu3
    exact absurd hu3 (by simp)

/-! ### The counting loop -/

/-- Activations strictly between `a` and `b`, counted. -/
theorem card_firings_step (F : Nat → Bool) (c n E : Nat) (hcn : c < n) (hnE : n < E)
    (hF : F n = true) (hq : ∀ u, c < u → u < n → F u = false) :
    ((Finset.Ioo c E).filter (fun u => F u = true)).card
      = ((Finset.Ioo n E).filter (fun u => F u = true)).card + 1 := by
  have hset : (Finset.Ioo c E).filter (fun u => F u = true)
      = insert n ((Finset.Ioo n E).filter (fun u => F u = true)) := by
    ext u
    simp only [Finset.mem_filter, Finset.mem_Ioo, Finset.mem_insert]
    constructor
    · rintro ⟨⟨h1, h2⟩, h3⟩
      rcases Nat.lt_trichotomy u n with h | h | h
      · have := hq u h1 h
        rw [this] at h3
        exact absurd h3 (by simp)
      · exact Or.inl h
      · exact Or.inr ⟨⟨h, h2⟩, h3⟩
    · rintro (h | ⟨⟨h1, h2⟩, h3⟩)
      · subst h; exact ⟨⟨hcn, hnE⟩, hF⟩
      · exact ⟨⟨by omega, h2⟩, h3⟩
  rw [hset, Finset.card_insert_of_not_mem]
  simp

theorem card_firings_zero (F : Nat → Bool) (c n E : Nat) (hnE : E ≤ n)
    (hq : ∀ u, c < u → u < n → F u = false) :
    ((Finset.Ioo c E).filter (fun u => F u = true)).card = 0 := by
  rw [Finset.card_eq_zero, Finset.filter_eq_empty_iff]
  intro u hu
  simp only [Finset.mem_Ioo] at hu
  rw [hq u hu.1 (by omega)]
  simp

/-- The counting loop against a set `F` of activation times: when `next`
gives, at the start of the window and at every activation inside it, the first
activation after the time given, the loop returns the number of activations
inside the window, unless that number uses up the rounds, in which case it
returns the error. -/
theorem countExecutions_eq (next : Nat → Nat) (stop : Nat → Bool) (F : Nat → Bool)
    (a E : Nat) (hstop : ∀ n, stop n = true ↔ E ≤ n)
    (hc : ∀ t, a ≤ t → t < E → (t = a ∨ F t = true) →
      F (next t) = true ∧ t < next t ∧ ∀ u, t < u → u < next t → F u = false) :
    ∀ (rounds c count : Nat), a ≤ c → c < E → (c = a ∨ F c = true) →
      countExecutions next stop rounds c count =
        if ((Finset.Ioo c E).filter (fun u => F u = true)).card < rounds then
          some (count + ((Finset.Ioo c E).filter (fun u => F u = true)).card)
        else none := by
  intro rounds
  induction rounds with
  | zero => intro c count _ _ _; simp [countExecutions]
  | succ r ih =>
    intro c count h1 h2 h3
    obtain ⟨c1, c2, c3⟩ := hc c h1 h2 h3
    unfold countExecutions
    by_cases hs : E ≤ next c
    · rw [if_pos ((hstop _).mpr hs), card_firings_zero F c (next c) E hs c3]
      simp
    · have hs2 : ¬ stop (next c) = true := fun e => hs ((hstop _).mp e)
      rw [if_neg hs2, ih (next c) (count + 1) (by omega) (by omega) (Or.inr c1),
        card_firings_step F c (next c) E c2 (by omega) c1 c3]
      by_cases hk : ((Finset.Ioo (next c) E).filter (fun u => F u = true)).card < r
      · rw [if_pos hk, if_pos (by omega)]
        congr 1
        omega
      · rw [if_neg hk, if_neg (by omega)]

/-- `isExecutedAtMostOncePerYear` against a set `F` of activation times for
which the library keeps the contract of `Next` on the window: with fewer than
1000 activations strictly between 2024-01-01T00:00:00Z and
2025-01-01T00:00:00Z the result says whether there is at most one, and with
1000 or more it is the error. -/
theorem isExecutedAtMostOncePerYear_eq (lib : CronLib) (cronExpr : String)
    (schedule : lib.Schedule) (F : Nat → Bool)
    (hparse : lib.Parse (macroToFields cronExpr) = some schedule)
    (hc : ∀ t, 63839664000 ≤ t → t < 63871286400 → (t = 63839664000 ∨ F t = true) →
      F (lib.Next schedule t) = true ∧ t < lib.Next schedule t ∧
        ∀ u, t < u → u < lib.Next schedule t → F u = false) :
    isExecutedAtMostOncePerYear lib cronExpr =
      if ((Finset.Ioo 63839664000 63871286400).filter (fun u => F u = true)).card < 1000 then
        some (decide (((Finset.Ioo 63839664000 63871286400).filter
          (fun u => F u = true)).card ≤ 1))
      else none := by
  unfold isExecutedAtMostOncePerYear
  simp only [hparse]
  rw [yearEnd_eq, windowStart_eq]
  rw [countExecutions_eq (lib.Next schedule) _ F 63839664000 63871286400 (by
    intro n
    simp only [Bool.or_eq_true, decide_eq_true_eq, beq_iff_eq]
    omega) hc 1000 63839664000 0 (le_refl _) (by norm_num) (Or.inl rfl)]
  by_cases hk : ((Finset.Ioo 63839664000 63871286400).filter (fun u => F u = true)).card < 1000
  · simp [hk]
  · simp [hk]

/-- `isExecutedAtMostXTimesAMonth` against a set `F` of activation times for
which the library keeps the contract of `Next` on the window: with fewer than
100 activations after 2024-01-01T00:00:00Z and up to 2024-02-01T00:00:00Z the
result says whether there are at most `x`, and with 100 or more it is the
error. -/
theorem isExecutedAtMostXTimesAMonth_eq (lib : CronLib) (cronExpr : String) (x : Int)
    (schedule : lib.Schedule) (F : Nat → Bool)
    (hparse : lib.Parse (macroToFields cronExpr) = some schedule)
    (hc : ∀ t, 63839664000 ≤ t → t < 63842342401 → (t = 63839664000 ∨ F t = true) →
      F (lib.Next schedule t) = true ∧ t < lib.Next schedule t ∧
        ∀ u, t < u → u < lib.Next schedule t → F u = false) :
    isExecutedAtMostXTimesAMonth lib cronExpr x =
      if ((Finset.Ioo 63839664000 63842342401).filter (fun u => F u = true)).card < 100 then
        some (decide ((((Finset.Ioo 63839664000 63842342401).filter
          (fun u => F u = true)).card : Int) ≤ x))
      else none := by
  unfold isExecutedAtMostXTimesAMonth
  simp only [hparse]
  rw [monthEnd_eq, windowStart_eq]
  rw [countExecutions_eq (lib.Next schedule) _ F 63839664000 63842342401 (by
    intro n
    simp only [decide_eq_true_eq]
    omega) hc 100 63839664000 0 (le_refl _) (by norm_num) (Or.inl rfl)]
  by_cases hk : ((Finset.Ioo 63839664000 63842342401).filter (fun u => F u = true)).card < 100
  · simp [hk]
  · simp [hk]

/-! ### Bit sets -/

theorem bitSet_eq_testBit (bits v : Nat) : bitSet bits v = bits.testBit v := by
  unfold bitSet
  rw [Nat.one_shiftLeft, Nat.two_pow_and]
  cases h : bits.testBit v <;> simp [h]

theorem bitSet_one_shiftLeft (k v : Nat) : bitSet (1 <<< k) v = decide (k = v) := by
  rw [bitSet_eq_testBit, Nat.one_shiftLeft, Nat.testBit_two_pow]

/-! ### `isExecutedAtMostOncePerYear` -/

/-- A loop that reaches a time before the window from which `next` does not
move uses up its rounds. -/
theorem countExecutions_stuck (next : Nat → Nat) (stop : Nat → Bool) (c z : Nat)
    (h1 : next c = z) (h2 : next z = z) (h3 : stop z = false) :
    ∀ rounds count, countExecutions next stop rounds c count = none := by
  have hz : ∀ rounds count, countExecutions next stop rounds z count = none := by
    intro rounds
    induction rounds with
    | zero => intro count; rfl
    | succ r ih =>
      intro count
      unfold countExecutions
      rw [h2, h3]
      simpa using ih (count + 1)
  intro rounds count
  cases rounds with
  | zero => rfl
  | succ r =>
    unfold countExecutions
    rw [h1, h3]
    simpa using hz r (count + 1)

/-- `isExecutedAtMostOncePerYear` once the expression is parsed. -/
theorem isExecutedAtMostOncePerYear_of_parse (lib : CronLib) (cronExpr : String)
    (schedule : lib.Schedule) (hparse : lib.Parse (macroToFields cronExpr) = some schedule) :
    isExecutedAtMostOncePerYear lib cronExpr =
      (countExecutions (lib.Next schedule)
        (fun next => decide (next > 63871286400) || next == 63871286400) 1000 63839664000
        0).map (fun executionCount => decide (executionCount ≤ 1)) := by
  unfold isExecutedAtMostOncePerYear
  simp only [hparse]
  rw [yearEnd_eq, windowStart_eq]
  cases countExecutions (lib.Next schedule)
    (fun next => decide (next > 63871286400) || next == 63871286400) 1000 63839664000 0 <;> rfl

/-- `isExecutedAtMostOncePerYear` returns the error of `cron.Parse`. -/
theorem isExecutedAtMostOncePerYear_of_none (lib : CronLib) (cronExpr : String)
    (hparse : lib.Parse (macroToFields cronExpr) = none) :
    isExecutedAtMostOncePerYear lib cronExpr = none := by
  unfold isExecutedAtMostOncePerYear
  simp only [hparse]

/-- The validators of the library `robfig` with two duration parsers agree on
an expression that both parse alike. -/
theorem isExecutedAtMostOncePerYear_congr (pd pd' : String → Option Int) (cronExpr : String)
    (h : Parse pd (macroToFields cronExpr) = Parse pd' (macroToFields cronExpr)) :
    isExecutedAtMostOncePerYear (robfig pd) cronExpr
      = isExecutedAtMostOncePerYear (robfig pd') cronExpr := by
  cases hp : Parse pd' (macroToFields cronExpr) with
  | none =>
    rw [isExecutedAtMostOncePerYear_of_none (robfig pd) cronExpr (h.trans hp),
      isExecutedAtMostOncePerYear_of_none (robfig pd') cronExpr hp]
  | some schedule =>
    rw [isExecutedAtMostOncePerYear_of_parse (robfig pd) cronExpr schedule (h.trans hp),
      isExecutedAtMostOncePerYear_of_parse (robfig pd') cronExpr schedule hp]
    rfl

/-- The schedule of a field expression under `robfig`: the contract of `Next`
holds on the window once the schedule is activated again between the end of
the window and 2030. -/
theorem isExecutedAtMostOncePerYear_spec (pd : String → Option Int) (cronExpr : String)
    (s : SpecSchedule) (hparse : Parse pd (macroToFields cronExpr) = some (.spec s))
    (hex : ∃ u, 63871286400 ≤ u ∧ u < 64029052800 ∧ firesAt s u = true) :
    isExecutedAtMostOncePerYear (robfig pd) cronExpr =
      if ((Finset.Ioo 63839664000 63871286400).filter
          (fun u => firesAt s u = true)).card < 1000 then
        some (decide (((Finset.Ioo 63839664000 63871286400).filter
          (fun u => firesAt s u = true)).card ≤ 1))
      else none := by
  obtain ⟨u, hu1, hu2, hu3⟩ := hex
  apply isExecutedAtMostOncePerYear_eq (robfig pd) cronExpr (Schedule.spec s) (firesAt s) hparse
  intro t ht1 ht2 _
  exact Next_contract s t ht1 ht2 ⟨u, by omega, hu2, hu3⟩

/-- No day of the covered range is a 30th of February. -/
theorem no_february_30 (t : Nat) (h1 : 63839664000 ≤ t) (h2 : t < 63871286400) :
    ¬ (Month t = 2 ∧ Day t = 30) := by
  have hf : firstDay = 738885 := rfl
  have hs : spanDays = 2557 := rfl
  obtain ⟨⟨_, a2, _, _⟩, _⟩ := calendar_facts (t / 86400) (by omega) (by omega)
  rintro ⟨hm, hd⟩
  have hm2 : monthOfDay (t / 86400) = 2 := hm
  have hd2 : dayOfMonth (t / 86400) = 30 := hd
  rw [hm2, hd2] at a2
  unfold daysIn at a2
  simp only [if_true] at a2
  split at a2 <;> omega

/-- C10 as stated fails: `0 0 30 2 *` parses and is never activated in the
window, so that it runs at most once in the year, yet
`isExecutedAtMostOncePerYear` returns the error: `Next` finds no activation
within five years and returns the zero time, from which the loop does not
leave. -/
theorem C10_counterexample :
    Parse (fun _ => none) "0 0 30 2 *"
      = some (.spec ⟨1, 1, 1, 1 <<< 30, 1 <<< 2, all dow⟩) ∧
    ((Finset.Ioo 63839664000 63871286400).filter
      (fun u => firesAt ⟨1, 1, 1, 1 <<< 30, 1 <<< 2, all dow⟩ u = true)).card = 0 ∧
    isExecutedAtMostOncePerYear (robfig (fun _ => none)) "0 0 30 2 *" = none := by
  refine ⟨by decide, ?_, ?_⟩
  · rw [Finset.card_eq_zero, Finset.filter_eq_empty_iff]
    intro u hu
    simp only [Finset.mem_Ioo] at hu
    intro hf
    rw [firesAt_iff] at hf
    obtain ⟨hm, hd, _⟩ := hf
    have hstar : (starBit &&& (1 <<< 30) != 0 || starBit &&& all dow != 0) = true := by decide
    simp only [dayMatches, hstar, if_true, Bool.and_eq_true, bitSet_one_shiftLeft,
      decide_eq_true_eq] at hm hd
    exact no_february_30 u (by omega) hu.2 ⟨hm.symm, hd.1.symm⟩
  · have hp : (robfig (fun _ => none)).Parse (macroToFields "0 0 30 2 *")
        = some (Schedule.spec ⟨1, 1, 1, 1 <<< 30, 1 <<< 2, all dow⟩) := by
      show Parse (fun _ => none) (macroToFields "0 0 30 2 *") = _
      decide
    have h1 : (robfig (fun _ => none)).Next
        (Schedule.spec ⟨1, 1, 1, 1 <<< 30, 1 <<< 2, all dow⟩) 63839664000 = 0 := by decide!
    have h2 : (robfig (fun _ => none)).Next
        (Schedule.spec ⟨1, 1, 1, 1 <<< 30, 1 <<< 2, all dow⟩) 0 = 0 := by decide!
    have h3 : (fun next : Nat => decide (next > 63871286400) || next == 63871286400) 0
        = false := by decide
    rw [isExecutedAtMostOncePerYear_of_parse _ _ _ hp,
      countExecutions_stuck _ _ 63839664000 0 h1 h2 h3 1000 0]
    rfl

/-! ### Schedules activated once a day -/

theorem bitSet_or (x y v : Nat) : bitSet (x ||| y) v = (bitSet x v || bitSet y v) := by
  simp only [bitSet_eq_testBit, Nat.testBit_lor]

theorem bitSet_one (v : Nat) : bitSet 1 v = decide (0 = v) := by
  have h := bitSet_one_shiftLeft 0 v
  simpa using h

theorem activeDay_eq (s : SpecSchedule) (u : Nat) :
    activeDay s (u / 86400) = (bitSet s.Month (Month u) && dayMatches s u) := by
  unfold activeDay
  have e : u / 86400 = (u / 86400 * 86400) / 86400 := by omega
  rw [Month_congr e, dayMatches_congr s e]

/-- A schedule with one second, one minute and one hour is activated at `u`
exactly when the day of `u` is one of its days and `u` is that time of the
day. -/
theorem daily_firesAt (s : SpecSchedule) (h mi : Nat) (hS : s.Second = 1)
    (hM : s.Minute = 1 <<< mi) (hH : s.Hour = 1 <<< h) (hmi : mi < 60) (u : Nat) :
    firesAt s u = true ↔
      activeDay s (u / 86400) = true ∧ u = u / 86400 * 86400 + h * 3600 + mi * 60 := by
  rw [firesAt_iff, activeDay_eq, hS, hM, hH, bitSet_one, bitSet_one_shiftLeft,
    bitSet_one_shiftLeft]
  simp only [Bool.and_eq_true, decide_eq_true_eq]
  have hc := clock_sum u
  constructor
  · rintro ⟨a, b, c, d, e⟩
    refine ⟨⟨a, b⟩, ?_⟩
    rw [← c, ← d, ← e] at hc
    omega
  · rintro ⟨⟨a, b⟩, c⟩
    refine ⟨a, b, ?_, ?_, ?_⟩
    · unfold Hour; omega
    · unfold Minute; omega
    · unfold Second; omega

/-- A schedule activated once a day has at most as many activations in a
window as the window has days of the schedule. -/
theorem card_daily_le (s : SpecSchedule) (h mi : Nat) (hS : s.Second = 1)
    (hM : s.Minute = 1 <<< mi) (hH : s.Hour = 1 <<< h) (hmi : mi < 60)
    (A E : Nat) :
    ((Finset.Ioo A E).filter (fun u => firesAt s u = true)).card ≤
      ((Finset.Icc (A / 86400) ((E - 1) / 86400)).filter
        (fun n => activeDay s n = true)).card := by
  apply Finset.card_le_card_of_injOn (fun u => u / 86400)
  · intro u hu
    simp only [Finset.mem_filter, Finset.mem_Ioo] at hu
    simp only [Finset.mem_filter, Finset.mem_Icc]
    obtain ⟨⟨h1, h2⟩, h3⟩ := hu
    have := (daily_firesAt s h mi hS hM hH hmi u).mp h3
    refine ⟨⟨Nat.div_le_div_right (by omega), Nat.div_le_div_right (by omega)⟩, this.1⟩
  · intro u hu v hv huv
    simp only [Finset.coe_filter, Finset.mem_Ioo, Set.mem_setOf_eq] at hu hv
    have a := ((daily_firesAt s h mi hS hM hH hmi u).mp hu.2).2
    have b := ((daily_firesAt s h mi hS hM hH hmi v).mp hv.2).2
    have huv2 : u / 86400 = v / 86400 := huv
    omega

/-- Two activations in a window. -/
theorem two_le_card (F : Nat → Bool) (A E u v : Nat) (hu : A < u ∧ u < E) (hv : A < v ∧ v < E)
    (huv : u ≠ v) (fu : F u = true) (fv : F v = true) :
    2 ≤ ((Finset.Ioo A E).filter (fun u => F u = true)).card := by
  have hsub : ({u, v} : Finset Nat) ⊆ (Finset.Ioo A E).filter (fun u => F u = true) := by
    intro x hx
    simp only [Finset.mem_insert, Finset.mem_singleton] at hx
    simp only [Finset.mem_filter, Finset.mem_Ioo]
    rcases hx with rfl | rfl
    · exact ⟨hu, fu⟩
    · exact ⟨hv, fv⟩
  have := Finset.card_le_card hsub
  rw [Finset.card_pair huv] at this
  exact this


theorem all_months_bits : ∀ m < 13, 1 ≤ m → bitSet (all months) m = true := by decide
theorem all_dom_bits : ∀ d < 32, 1 ≤ d → bitSet (all dom) d = true := by decide
theorem all_dow_bits : ∀ w < 7, bitSet (all dow) w = true := by decide
theorem all_dow_star : (starBit &&& all dow != 0) = true := by decide
theorem all_dom_star : (starBit &&& all dom != 0) = true := by decide

/-- The days of January, February and March 2024 and of January 2025. -/
theorem days_2024 :
    (∀ j < 31, monthOfDay (firstDay + j) = 1 ∧ dayOfMonth (firstDay + j) = j + 1) ∧
    (∀ j < 29, monthOfDay (firstDay + 31 + j) = 2 ∧ dayOfMonth (firstDay + 31 + j) = j + 1) ∧
    (∀ j < 31, monthOfDay (firstDay + 60 + j) = 3 ∧ dayOfMonth (firstDay + 60 + j) = j + 1) ∧
    (∀ j < 31, monthOfDay (firstDay + 366 + j) = 1 ∧ dayOfMonth (firstDay + 366 + j) = j + 1) := by
  decide!

/-- The days of 2024 and 2025 by month and day of the month. -/
theorem days_by_month : ∀ y < 2, ∀ mo < 12, ∀ d < 28,
    monthOfDay (daysBeforeYear (2024 + y) + daysBeforeMonth (2024 + y) (mo + 1) + d) = mo + 1 ∧
    dayOfMonth (daysBeforeYear (2024 + y) + daysBeforeMonth (2024 + y) (mo + 1) + d) = d + 1 ∧
    firstDay + 366 * y ≤ daysBeforeYear (2024 + y) + daysBeforeMonth (2024 + y) (mo + 1) + d ∧
    daysBeforeYear (2024 + y) + daysBeforeMonth (2024 + y) (mo + 1) + d < firstDay + 366 * y + 366
    := by
  decide!

/-! ### The days of the generated schedules -/

theorem Month_day (n : Nat) : Month (n * 86400) = monthOfDay n := by
  unfold Month dayNumber
  rw [Nat.mul_div_cancel _ (by norm_num)]

theorem Day_day (n : Nat) : Day (n * 86400) = dayOfMonth n := by
  unfold Day dayNumber
  rw [Nat.mul_div_cancel _ (by norm_num)]

theorem Weekday_day (n : Nat) : Weekday (n * 86400) = (n + 1) % 7 := by
  unfold Weekday dayNumber
  rw [Nat.mul_div_cancel _ (by norm_num)]

/-- With a star for the day of the week the day of the month decides. -/
theorem dayMatches_star_dow (s : SpecSchedule) (t : Nat) (h : s.Dow = all dow) :
    dayMatches s t = bitSet s.Dom (Day t) := by
  unfold dayMatches
  simp only [h, all_dow_star, Bool.or_true, if_true]
  rw [all_dow_bits (Weekday t) (by unfold Weekday; omega)]
  simp

/-- With a star for the day of the month the day of the week decides. -/
theorem dayMatches_star_dom (s : SpecSchedule) (t : Nat) (h : s.Dom = all dom)
    (h1 : 1 ≤ Day t) (h2 : Day t ≤ 31) : dayMatches s t = bitSet s.Dow (Weekday t) := by
  unfold dayMatches
  simp only [h, all_dom_star, Bool.true_or, if_true]
  rw [all_dom_bits (Day t) (by omega) h1]
  simp

/-- The days of a schedule with stars for the month and the day of the week. -/
theorem activeDay_monthly (s : SpecSchedule) (n : Nat) (hMo : s.Month = all months)
    (hDw : s.Dow = all dow) (h1 : firstDay ≤ n) (h2 : n ≤ firstDay + spanDays) :
    activeDay s n = bitSet s.Dom (dayOfMonth n) := by
  obtain ⟨⟨_, _, a3, a4⟩, _⟩ := calendar_facts n h1 h2
  unfold activeDay
  rw [dayMatches_star_dow s _ hDw, Month_day, Day_day, hMo,
    all_months_bits (monthOfDay n) (by omega) a3]
  simp

/-- The days of a schedule with stars for the month and the day of the month. -/
theorem activeDay_weekend (s : SpecSchedule) (w n : Nat) (hMo : s.Month = all months)
    (hDm : s.Dom = all dom) (hDw : s.Dow = 1 <<< w) (h1 : firstDay ≤ n)
    (h2 : n ≤ firstDay + spanDays) : activeDay s n = decide (w = (n + 1) % 7) := by
  obtain ⟨⟨a1, a2, a3, a4⟩, _⟩ := calendar_facts n h1 h2
  have hl := daysIn_le (yearOfDay n) (monthOfDay n)
  unfold activeDay
  rw [dayMatches_star_dom s _ hDm (by rw [Day_day]; exact a1) (by rw [Day_day]; omega),
    Month_day, Weekday_day, hMo, all_months_bits (monthOfDay n) (by omega) a3, hDw,
    bitSet_one_shiftLeft]
  simp

/-- The days of a schedule with one month, one day of the month and a star
for the day of the week. -/
theorem activeDay_yearly (s : SpecSchedule) (mo d n : Nat) (hMo : s.Month = 1 <<< mo)
    (hDm : s.Dom = 1 <<< d) (hDw : s.Dow = all dow) :
    activeDay s n = (decide (mo = monthOfDay n) && decide (d = dayOfMonth n)) := by
  unfold activeDay
  rw [dayMatches_star_dow s _ hDw, Month_day, Day_day, hMo, hDm, bitSet_one_shiftLeft,
    bitSet_one_shiftLeft]

/-- A schedule with one second, one minute and one hour is activated on each
of its days. -/
theorem daily_fires_on (s : SpecSchedule) (h mi : Nat) (hS : s.Second = 1)
    (hM : s.Minute = 1 <<< mi) (hH : s.Hour = 1 <<< h) (hh : h < 24) (hmi : mi < 60) (n : Nat)
    (ha : activeDay s n = true) : firesAt s (n * 86400 + h * 3600 + mi * 60) = true := by
  rw [daily_firesAt s h mi hS hM hH hmi]
  have e : (n * 86400 + h * 3600 + mi * 60) / 86400 = n := by omega
  rw [e]
  exact ⟨ha, rfl⟩

/-- Every day from 2024-01-01 to 2024-12-31 is of the year 2024. -/
theorem yearOfDay_2024 (n : Nat) (h1 : firstDay ≤ n) (h2 : n ≤ firstDay + 365) :
    yearOfDay n = 2024 := by
  have hf : firstDay = 738885 := rfl
  have hs : spanDays = 2557 := rfl
  obtain ⟨_, _, _, _, ⟨e1, e2, _⟩, _⟩ := calendar_facts n h1 (by omega)
  have d24 : daysBeforeYear 2024 = 738885 := by decide
  have d25 : daysBeforeYear 2025 = 739251 := by decide
  by_contra hc
  rcases Nat.lt_or_gt_of_ne hc with hlt | hgt
  · have := daysBeforeYear_mono (show yearOfDay n + 1 ≤ 2024 by omega)
    omega
  · have := daysBeforeYear_mono (show 2025 ≤ yearOfDay n by omega)
    omega

/-- A schedule activated once a day is activated fewer than 1000 times in the
year. -/
theorem daily_card_year (s : SpecSchedule) (h mi : Nat) (hS : s.Second = 1)
    (hM : s.Minute = 1 <<< mi) (hH : s.Hour = 1 <<< h) (hmi : mi < 60) :
    ((Finset.Ioo 63839664000 63871286400).filter (fun u => firesAt s u = true)).card ≤ 366 := by
  refine (card_daily_le s h mi hS hM hH hmi _ _).trans ?_
  refine (Finset.card_filter_le _ _).trans ?_
  rw [Nat.card_Icc]

/-- A schedule activated once a day is activated fewer than 100 times in the
month. -/
theorem daily_card_month (s : SpecSchedule) (h mi : Nat) (hS : s.Second = 1)
    (hM : s.Minute = 1 <<< mi) (hH : s.Hour = 1 <<< h) (hmi : mi < 60) :
    ((Finset.Ioo 63839664000 63842342401).filter (fun u => firesAt s u = true)).card ≤ 32 := by
  refine (card_daily_le s h mi hS hM hH hmi _ _).trans ?_
  refine (Finset.card_filter_le _ _).trans ?_
  rw [Nat.card_Icc]

/-- A schedule with one month and one day of the month is activated at most
once in the year. -/
theorem yearly_card (s : SpecSchedule) (h mi mo d : Nat) (hS : s.Second = 1)
    (hM : s.Minute = 1 <<< mi) (hH : s.Hour = 1 <<< h) (hDm : s.Dom = 1 <<< d)
    (hMo : s.Month = 1 <<< mo) (hDw : s.Dow = all dow) (hmi : mi < 60) :
    ((Finset.Ioo 63839664000 63871286400).filter (fun u => firesAt s u = true)).card ≤ 1 := by
  have hf : firstDay = 738885 := rfl
  have hs : spanDays = 2557 := rfl
  refine (card_daily_le s h mi hS hM hH hmi _ _).trans ?_
  rw [Finset.card_le_one]
  intro a ha b hb
  simp only [Finset.mem_filter, Finset.mem_Icc, activeDay_yearly s mo d _ hMo hDm hDw,
    Bool.and_eq_true, decide_eq_true_eq] at ha hb
  obtain ⟨⟨a1, a2⟩, a3, a4⟩ := ha
  obtain ⟨⟨b1, b2⟩, b3, b4⟩ := hb
  have ya := yearOfDay_2024 a (by omega) (by omega)
  have yb := yearOfDay_2024 b (by omega) (by omega)
  have ca := (calendar_facts a (by omega) (by omega)).2.1
  have cb := (calendar_facts b (by omega) (by omega)).2.1
  rw [ya, ← a3, ← a4] at ca
  rw [yb, ← b3, ← b4] at cb
  omega

/-- A schedule with one month and one day of the month, up to the 28th, is
activated in 2025. -/
theorem yearly_later (s : SpecSchedule) (h mi mo d : Nat) (hS : s.Second = 1)
    (hM : s.Minute = 1 <<< mi) (hH : s.Hour = 1 <<< h) (hDm : s.Dom = 1 <<< d)
    (hMo : s.Month = 1 <<< mo) (hDw : s.Dow = all dow) (hh : h < 24) (hmi : mi < 60)
    (hd1 : 1 ≤ d) (hd2 : d ≤ 28) (hmo1 : 1 ≤ mo) (hmo2 : mo ≤ 12) :
    ∃ u, 63871286400 ≤ u ∧ u < 64029052800 ∧ firesAt s u = true := by
  have hf : firstDay = 738885 := rfl
  obtain ⟨c1, c2, c3, c4⟩ := days_by_month 1 (by omega) (mo - 1) (by omega) (d - 1) (by omega)
  have e1 : mo - 1 + 1 = mo := by omega
  have e2 : d - 1 + 1 = d := by omega
  rw [e1] at c1 c2 c3 c4
  rw [e2] at c2
  refine ⟨(daysBeforeYear (2024 + 1) + daysBeforeMonth (2024 + 1) mo + (d - 1)) * 86400
    + h * 3600 + mi * 60, by omega, by omega, ?_⟩
  apply daily_fires_on s h mi hS hM hH hh hmi
  rw [activeDay_yearly s mo d _ hMo hDm hDw, c1, c2]
  simp

/-- A schedule for every month that has a day of the month up to the 28th
is activated twice in the year, in February and in March, and again in
January 2025. -/
theorem monthly_fires (s : SpecSchedule) (h mi d : Nat) (hS : s.Second = 1)
    (hM : s.Minute = 1 <<< mi) (hH : s.Hour = 1 <<< h) (hMo : s.Month = all months)
    (hDw : s.Dow = all dow) (hD : bitSet s.Dom d = true) (hh : h < 24) (hmi : mi < 60)
    (hd1 : 1 ≤ d) (hd2 : d ≤ 28) :
    2 ≤ ((Finset.Ioo 63839664000 63871286400).filter (fun u => firesAt s u = true)).card ∧
      ∃ u, 63871286400 ≤ u ∧ u < 64029052800 ∧ firesAt s u = true := by
  have hf : firstDay = 738885 := rfl
  have hs : spanDays = 2557 := rfl
  obtain ⟨_, j2, j3, j4⟩ := days_2024
  have e : d - 1 + 1 = d := by omega
  have f2 := (j2 (d - 1) (by omega)).2
  have f3 := (j3 (d - 1) (by omega)).2
  have f4 := (j4 (d - 1) (by omega)).2
  rw [e] at f2 f3 f4
  have a2 : activeDay s (firstDay + 31 + (d - 1)) = true := by
    rw [activeDay_monthly s _ hMo hDw (by omega) (by omega), f2]; exact hD
  have a3 : activeDay s (firstDay + 60 + (d - 1)) = true := by
    rw [activeDay_monthly s _ hMo hDw (by omega) (by omega), f3]; exact hD
  have a4 : activeDay s (firstDay + 366 + (d - 1)) = true := by
    rw [activeDay_monthly s _ hMo hDw (by omega) (by omega), f4]; exact hD
  refine ⟨two_le_card (firesAt s) _ _ _ _ ?_ ?_ ?_
    (daily_fires_on s h mi hS hM hH hh hmi _ a2) (daily_fires_on s h mi hS hM hH hh hmi _ a3),
    ⟨_, ?_, ?_, daily_fires_on s h mi hS hM hH hh hmi _ a4⟩⟩
  all_goals omega

/-- A schedule for Saturdays or for Sundays is activated twice in the year,
on the first two of these days, and again in January 2025. -/
theorem weekend_fires (s : SpecSchedule) (h mi w : Nat) (hS : s.Second = 1)
    (hM : s.Minute = 1 <<< mi) (hH : s.Hour = 1 <<< h) (hMo : s.Month = all months)
    (hDm : s.Dom = all dom) (hDw : s.Dow = 1 <<< w) (hh : h < 24) (hmi : mi < 60)
    (hw : w = 0 ∨ w = 6) :
    2 ≤ ((Finset.Ioo 63839664000 63871286400).filter (fun u => firesAt s u = true)).card ∧
      ∃ u, 63871286400 ≤ u ∧ u < 64029052800 ∧ firesAt s u = true := by
  have hf : firstDay = 738885 := rfl
  have hs : spanDays = 2557 := rfl
  have key : ∀ k, k ≤ 2000 → (k + 1) % 7 = w → activeDay s (firstDay + k) = true := by
    intro k hk hkw
    rw [activeDay_weekend s w _ hMo hDm hDw (by omega) (by omega)]
    simp only [decide_eq_true_eq]
    omega
  rcases hw with rfl | rfl
  · refine ⟨two_le_card (firesAt s) _ _ _ _ ?_ ?_ ?_
      (daily_fires_on s h mi hS hM hH hh hmi _ (key 6 (by omega) rfl))
      (daily_fires_on s h mi hS hM hH hh hmi _ (key 13 (by omega) rfl)),
      ⟨_, ?_, ?_, daily_fires_on s h mi hS hM hH hh hmi _ (key 370 (by omega) rfl)⟩⟩
    all_goals omega
  · refine ⟨two_le_card (firesAt s) _ _ _ _ ?_ ?_ ?_
      (daily_fires_on s h mi hS hM hH hh hmi _ (key 5 (by omega) rfl))
      (daily_fires_on s h mi hS hM hH hh hmi _ (key 12 (by omega) rfl)),
      ⟨_, ?_, ?_, daily_fires_on s h mi hS hM hH hh hmi _ (key 369 (by omega) rfl)⟩⟩
    all_goals omega

/-- A schedule for Saturdays or for Sundays is activated at most four times
in the month. -/
theorem weekend_card_month (s : SpecSchedule) (h mi w : Nat) (hS : s.Second = 1)
    (hM : s.Minute = 1 <<< mi) (hH : s.Hour = 1 <<< h) (hMo : s.Month = all months)
    (hDm : s.Dom = all dom) (hDw : s.Dow = 1 <<< w) (hmi : mi < 60) (hw : w = 0 ∨ w = 6) :
    ((Finset.Ioo 63839664000 63842342401).filter (fun u => firesAt s u = true)).card ≤ 4 := by
  have hf : firstDay = 738885 := rfl
  have hs : spanDays = 2557 := rfl
  refine (card_daily_le s h mi hS hM hH hmi _ _).trans ?_
  have hsub : (Finset.Icc (63839664000 / 86400) ((63842342401 - 1) / 86400)).filter
      (fun n => activeDay s n = true) ⊆
      ({738885 + 5 + (6 - w) / 6, 738885 + 12 + (6 - w) / 6, 738885 + 19 + (6 - w) / 6,
        738885 + 26 + (6 - w) / 6} : Finset Nat) := by
    intro n hn
    simp only [Finset.mem_filter, Finset.mem_Icc] at hn
    obtain ⟨⟨n1, n2⟩, n3⟩ := hn
    rw [activeDay_weekend s w _ hMo hDm hDw (by omega) (by omega)] at n3
    simp only [decide_eq_true_eq] at n3
    simp only [Finset.mem_insert, Finset.mem_singleton]
    omega
  exact (Finset.card_le_card hsub).trans Finset.card_le_four

/-- A schedule for two days of the month, one from the 5th to the 14th and
one from the 15th to the 28th, is activated at most twice in the month. -/
theorem biweekly_card_month (s : SpecSchedule) (h mi a b : Nat) (hS : s.Second = 1)
    (hM : s.Minute = 1 <<< mi) (hH : s.Hour = 1 <<< h) (hMo : s.Month = all months)
    (hDm : s.Dom = 1 <<< a ||| 1 <<< b) (hDw : s.Dow = all dow) (hmi : mi < 60)
    (ha : 5 ≤ a) (hb : 5 ≤ b) :
    ((Finset.Ioo 63839664000 63842342401).filter (fun u => firesAt s u = true)).card ≤ 2 := by
  have hf : firstDay = 738885 := rfl
  have hs : spanDays = 2557 := rfl
  obtain ⟨j1, j2, _, _⟩ := days_2024
  refine (card_daily_le s h mi hS hM hH hmi _ _).trans ?_
  have hsub : (Finset.Icc (63839664000 / 86400) ((63842342401 - 1) / 86400)).filter
      (fun n => activeDay s n = true) ⊆ ({738885 + (a - 1), 738885 + (b - 1)} : Finset Nat) := by
    intro n hn
    simp only [Finset.mem_filter, Finset.mem_Icc] at hn
    obtain ⟨⟨n1, n2⟩, n3⟩ := hn
    rw [activeDay_monthly s _ hMo hDw (by omega) (by omega), hDm, bitSet_or,
      bitSet_one_shiftLeft, bitSet_one_shiftLeft] at n3
    simp only [Bool.or_eq_true, decide_eq_true_eq] at n3
    simp only [Finset.mem_insert, Finset.mem_singleton]
    obtain ⟨k, rfl⟩ : ∃ k, n = firstDay + k := ⟨n - firstDay, by omega⟩
    by_cases hk : k < 31
    · have := (j1 k hk).2
      omega
    · have e : firstDay + k = firstDay + 31 + 0 := by omega
      have := (j2 0 (by omega)).2
      rw [← e] at this
      omega
  exact (Finset.card_le_card hsub).trans Finset.card_le_two

/-- The schedule of a field expression under `robfig`: the contract of `Next`
holds on the window of the month once the schedule is activated again between
the end of the window and 2030. -/
theorem isExecutedAtMostXTimesAMonth_spec (pd : String → Option Int) (cronExpr : String)
    (x : Int) (s : SpecSchedule) (hparse : Parse pd (macroToFields cronExpr) = some (.spec s))
    (hex : ∃ u, 63842342401 ≤ u ∧ u < 64029052800 ∧ firesAt s u = true) :
    isExecutedAtMostXTimesAMonth (robfig pd) cronExpr x =
      if ((Finset.Ioo 63839664000 63842342401).filter
          (fun u => firesAt s u = true)).card < 100 then
        some (decide ((((Finset.Ioo 63839664000 63842342401).filter
          (fun u => firesAt s u = true)).card : Int) ≤ x))
      else none := by
  obtain ⟨u, hu1, hu2, hu3⟩ := hex
  apply isExecutedAtMostXTimesAMonth_eq (robfig pd) cronExpr x (Schedule.spec s) (firesAt s)
    hparse
  intro t ht1 ht2 _
  exact Next_contract s t ht1 (by omega) ⟨u, by omega, hu2, hu3⟩

/-! ### Parsing the generated crons -/

theorem getField_minutes : ∀ m < 60, getField (fmtNat m) minutes = some (1 <<< m) := by decide
theorem getField_hours : ∀ h < 24, getField (fmtNat h) hours = some (1 <<< h) := by decide
theorem getField_dom : ∀ d < 28, getField (fmtNat (d + 1)) dom = some (1 <<< (d + 1)) := by decide
theorem getField_months : ∀ m < 12, getField (fmtNat (m + 1)) months = some (1 <<< (m + 1)) := by
  decide
theorem getField_dow : ∀ r < 2, getField (fmtNat (r * 6)) dow = some (1 <<< (r * 6)) := by decide
theorem getField_dom_pair : ∀ a < 10, ∀ b < 14,
    getField (fmtNat (a + 5) ++ ',' :: fmtNat (b + 15)) dom
      = some (1 <<< (a + 5) ||| 1 <<< (b + 15)) := by decide
theorem getField_star : getField ['0'] seconds = some 1 ∧ getField ['*'] dom = some (all dom) ∧
    getField ['*'] months = some (all months) ∧ getField ['*'] dow = some (all dow) := by decide


theorem fieldsFunc_run (sep : Char → Bool) (tok rest : List Char)
    (h : ∀ c ∈ tok, sep c = false) :
    ∀ cur, fieldsFunc sep (tok ++ rest) cur = fieldsFunc sep rest (tok.reverse ++ cur) := by
  induction tok with
  | nil => intro cur; rfl
  | cons c cs ih =>
    intro cur
    have hc := h c (List.mem_cons_self _ _)
    have e : fieldsFunc sep (c :: (cs ++ rest)) cur = fieldsFunc sep (cs ++ rest) (c :: cur) := by
      rw [fieldsFunc, hc]; rfl
    rw [List.cons_append, e, ih (fun x hx => h x (List.mem_cons_of_mem _ hx))]
    simp

/-- A field followed by a separator is the first of the fields. -/
theorem fieldsFunc_token (sep : Char → Bool) (tok rest : List Char) (c : Char)
    (hc : sep c = true) (hne : tok ≠ []) (h : ∀ x ∈ tok, sep x = false) :
    fieldsFunc sep (tok ++ c :: rest) [] = tok :: fieldsFunc sep rest [] := by
  rw [fieldsFunc_run sep tok _ h, fieldsFunc, hc]
  simp [hne]

/-- A field alone. -/
theorem fieldsFunc_last (sep : Char → Bool) (tok : List Char) (hne : tok ≠ [])
    (h : ∀ x ∈ tok, sep x = false) : fieldsFunc sep tok [] = [tok] := by
  have := fieldsFunc_run sep tok [] h []
  rw [List.append_nil] at this
  rw [this, fieldsFunc]
  simp [hne]

theorem isSpace_of_isDigit (c : Char) (h : isDigit c = true) : isSpace c = false := by
  unfold isDigit at h
  unfold isSpace
  simp only [Bool.and_eq_true, decide_eq_true_eq] at h
  simp only [Bool.or_eq_false_iff, Bool.and_eq_false_imp, decide_eq_true_eq,
    decide_eq_false_iff_not]
  omega

theorem isField_fmtNat (n : Nat) : isField (fmtNat n) :=
  ⟨fmtNat_ne_nil n, fun c hc => isSpace_of_isDigit c (fmtNat_isDigit n c hc)⟩

theorem isField_star : isField ['*'] := by
  refine ⟨by simp, ?_⟩
  intro c hc
  rw [List.mem_singleton] at hc
  subst hc
  decide

theorem isField_pair (a b : Nat) : isField (fmtNat a ++ ',' :: fmtNat b) := by
  refine ⟨by simp, ?_⟩
  intro c hc
  rw [List.mem_append, List.mem_cons] at hc
  rcases hc with hc | rfl | hc
  · exact (isField_fmtNat a).2 c hc
  · decide
  · exact (isField_fmtNat b).2 c hc

/-- Five fields separated by one blank each. -/
theorem Fields_five (f1 f2 f3 f4 f5 : List Char) (t1 : isField f1) (t2 : isField f2)
    (t3 : isField f3) (t4 : isField f4) (t5 : isField f5) :
    Fields (f1 ++ ' ' :: (f2 ++ ' ' :: (f3 ++ ' ' :: (f4 ++ ' ' :: f5)))) = [f1, f2, f3, f4, f5] := by
  have hsp : isSpace ' ' = true := by decide
  unfold Fields
  rw [fieldsFunc_token _ _ _ _ hsp t1.1 t1.2, fieldsFunc_token _ _ _ _ hsp t2.1 t2.2,
    fieldsFunc_token _ _ _ _ hsp t3.1 t3.2, fieldsFunc_token _ _ _ _ hsp t4.1 t4.2,
    fieldsFunc_last _ _ t5.1 t5.2]

/-- `cron.Parse` of five fields that start with a digit: the schedule of the
bits of the fields, at the second 0. -/
theorem Parse_five (pd : String → Option Int) (n : Nat) (f2 f3 f4 f5 : List Char)
    (b1 b2 b3 b4 b5 : Nat) (t2 : isField f2) (t3 : isField f3) (t4 : isField f4)
    (t5 : isField f5) (g1 : getField (fmtNat n) minutes = some b1)
    (g2 : getField f2 hours = some b2) (g3 : getField f3 dom = some b3)
    (g4 : getField f4 months = some b4) (g5 : getField f5 dow = some b5) :
    Parse pd ⟨fmtNat n ++ ' ' :: (f2 ++ ' ' :: (f3 ++ ' ' :: (f4 ++ ' ' :: f5)))⟩
      = some (.spec ⟨1, b1, b2, b3, b4, b5⟩) := by
  have hF := Fields_five (fmtNat n) f2 f3 f4 f5 (isField_fmtNat n) t2 t3 t4 t5
  obtain ⟨c, cs, hcs⟩ : ∃ c cs, fmtNat n = c :: cs := by
    cases hn : fmtNat n with
    | nil => exact absurd hn (fmtNat_ne_nil n)
    | cons c cs => exact ⟨c, cs, rfl⟩
  have hd : isDigit c = true := fmtNat_isDigit n c (by rw [hcs]; exact List.mem_cons_self _ _)
  have hat : c ≠ '@' := by
    rintro rfl
    exact absurd hd (by decide)
  rw [hcs] at hF
  unfold Parse
  simp only [hcs, List.cons_append]
  split
  · rename_i heq; exact absurd heq (by simp)
  · rename_i heq
    simp only [List.cons.injEq] at heq
    exact absurd heq.1 hat
  · simp only [List.cons_append] at hF
    simp only [hF, List.length_cons, List.length_nil]
    rw [if_neg (by omega)]
    simp only [if_true]
    try rw [← hcs]
    simp only [getField_star.1, g1, g2, g3, g4, g5]


theorem lowerRune_ne_at (c : Char) (h : isDigit c = true) : lowerRune c ≠ '@' := by
  unfold isDigit at h
  simp only [Bool.and_eq_true, decide_eq_true_eq] at h
  unfold lowerRune
  rw [if_neg (by omega), if_neg (by omega), if_neg (by omega)]
  rintro rfl
  revert h
  decide

/-- A text that starts with a digit is none of the macros. -/
theorem not_macro_of_digit (s : String) (c : Char) (cs : List Char) (hs : s.data = c :: cs)
    (hd : isDigit c = true) :
    ToLower s ∉ ["@daily", "@weekly", "@monthly", "@yearly", "@annually"] := by
  have key : ∀ m : String, m.data.head? = some '@' → ToLower s ≠ m := by
    intro m hm h
    have e : (ToLower s).data.head? = some (lowerRune c) := by
      unfold ToLower
      rw [hs]
      rfl
    rw [h, hm] at e
    exact lowerRune_ne_at c hd (Option.some.inj e).symm
  simp only [List.mem_cons, List.mem_singleton, List.not_mem_nil, or_false, not_or]
  exact ⟨key _ rfl, key _ rfl, key _ rfl, key _ rfl, key _ rfl⟩

/-- A text that starts with a number is none of the macros. -/
theorem not_macro_fmtNat (n : Nat) (rest : List Char) :
    ToLower ⟨fmtNat n ++ rest⟩ ∉ ["@daily", "@weekly", "@monthly", "@yearly", "@annually"] := by
  cases hn : fmtNat n with
  | nil => exact absurd hn (fmtNat_ne_nil n)
  | cons c cs =>
    exact not_macro_of_digit _ c (cs ++ rest) rfl
      (fmtNat_isDigit n c (by rw [hn]; exact List.mem_cons_self _ _))

theorem macroToFields_of_not_macro (cron : String)
    (h : ToLower cron ∉ ["@daily", "@weekly", "@monthly", "@yearly", "@annually"]) :
    macroToFields cron = cron := by
  simp only [List.mem_cons, List.mem_singleton, not_or, List.not_mem_nil, or_false] at h
  obtain ⟨h1, h2, h3, h4, h5⟩ := h
  simp [macroToFields, h1, h2, h3, h4, h5]

/-! ### The generated crons -/

theorem generateWeeklyWeekendCron_eq (rng : Nat → Nat) (i : Nat) :
    (generateWeeklyWeekendCron rng i).1 =
      ⟨fmtNat (Intn rng (i + 1) 60) ++ ' ' :: (fmtNat (Intn rng (i + 2) 24) ++ ' ' ::
        (['*'] ++ ' ' :: (['*'] ++ ' ' :: fmtNat (Intn rng i 2 * 6))))⟩ := by
  simp [generateWeeklyWeekendCron]

theorem generateBiWeeklyCron_eq (rng : Nat → Nat) (i : Nat) :
    (generateBiWeeklyCron rng i).1 =
      ⟨fmtNat (Intn rng i 60) ++ ' ' :: (fmtNat (Intn rng (i + 1) 24) ++ ' ' ::
        ((fmtNat (Intn rng (i + 2) 10 + 5) ++ ',' :: fmtNat (Intn rng (i + 3) 14 + 15)) ++ ' ' ::
          (['*'] ++ ' ' :: ['*'])))⟩ := by
  simp [generateBiWeeklyCron]

theorem generateMonthlyCron_eq (rng : Nat → Nat) (i : Nat) :
    (generateMonthlyCron rng i).1 =
      ⟨fmtNat (Intn rng i 60) ++ ' ' :: (fmtNat (Intn rng (i + 1) 24) ++ ' ' ::
        (fmtNat (Intn rng (i + 2) 28 + 1) ++ ' ' :: (['*'] ++ ' ' :: ['*'])))⟩ := by
  simp [generateMonthlyCron]

theorem generateYearlyCron_eq (rng : Nat → Nat) (i : Nat) :
    (generateYearlyCron rng i).1 =
      ⟨fmtNat (Intn rng (i + 3) 60) ++ ' ' :: (fmtNat (Intn rng (i + 2) 24) ++ ' ' ::
        (fmtNat (Intn rng (i + 1) 28 + 1) ++ ' ' :: (fmtNat (Intn rng i 12 + 1) ++ ' ' ::
          ['*'])))⟩ := by
  simp [generateYearlyCron]

theorem Intn_lt (rng : Nat → Nat) (i n : Nat) (h : 0 < n) : Intn rng i n < n :=
  Nat.mod_lt _ h

/-- What `cron.Parse` makes of a cron of `generateWeeklyWeekendCron`. -/
theorem Parse_generateWeeklyWeekendCron (pd : String → Option Int) (rng : Nat → Nat) (i : Nat) :
    Parse pd (generateWeeklyWeekendCron rng i).1 = some (.spec ⟨1, 1 <<< Intn rng (i + 1) 60,
      1 <<< Intn rng (i + 2) 24, all dom, all months, 1 <<< (Intn rng i 2 * 6)⟩) := by
  rw [generateWeeklyWeekendCron_eq]
  exact Parse_five pd _ _ _ _ _ _ _ _ _ _ (isField_fmtNat _) isField_star isField_star
    (isField_fmtNat _) (getField_minutes _ (Intn_lt _ _ _ (by norm_num)))
    (getField_hours _ (Intn_lt _ _ _ (by norm_num))) getField_star.2.1 getField_star.2.2.1
    (getField_dow _ (Intn_lt _ _ _ (by norm_num)))

/-- What `cron.Parse` makes of a cron of `generateBiWeeklyCron`. -/
theorem Parse_generateBiWeeklyCron (pd : String → Option Int) (rng : Nat → Nat) (i : Nat) :
    Parse pd (generateBiWeeklyCron rng i).1 = some (.spec ⟨1, 1 <<< Intn rng i 60,
      1 <<< Intn rng (i + 1) 24,
      1 <<< (Intn rng (i + 2) 10 + 5) ||| 1 <<< (Intn rng (i + 3) 14 + 15), all months,
      all dow⟩) := by
  rw [generateBiWeeklyCron_eq]
  exact Parse_five pd _ _ _ _ _ _ _ _ _ _ (isField_fmtNat _) (isField_pair _ _) isField_star
    isField_star (getField_minutes _ (Intn_lt _ _ _ (by norm_num)))
    (getField_hours _ (Intn_lt _ _ _ (by norm_num)))
    (getField_dom_pair _ (Intn_lt _ _ _ (by norm_num)) _ (Intn_lt _ _ _ (by norm_num)))
    getField_star.2.2.1 getField_star.2.2.2

/-- What `cron.Parse` makes of a cron of `generateMonthlyCron`. -/
theorem Parse_generateMonthlyCron (pd : String → Option Int) (rng : Nat → Nat) (i : Nat) :
    Parse pd (generateMonthlyCron rng i).1 = some (.spec ⟨1, 1 <<< Intn rng i 60,
      1 <<< Intn rng (i + 1) 24, 1 <<< (Intn rng (i + 2) 28 + 1), all months, all dow⟩) := by
  rw [generateMonthlyCron_eq]
  exact Parse_five pd _ _ _ _ _ _ _ _ _ _ (isField_fmtNat _) (isField_fmtNat _) isField_star
    isField_star (getField_minutes _ (Intn_lt _ _ _ (by norm_num)))
    (getField_hours _ (Intn_lt _ _ _ (by norm_num)))
    (getField_dom _ (Intn_lt _ _ _ (by norm_num))) getField_star.2.2.1 getField_star.2.2.2

/-- What `cron.Parse` makes of a cron of `generateYearlyCron`. -/
theorem Parse_generateYearlyCron (pd : String → Option Int) (rng : Nat → Nat) (i : Nat) :
    Parse pd (generateYearlyCron rng i).1 = some (.spec ⟨1, 1 <<< Intn rng (i + 3) 60,
      1 <<< Intn rng (i + 2) 24, 1 <<< (Intn rng (i + 1) 28 + 1), 1 <<< (Intn rng i 12 + 1),
      all dow⟩) := by
  rw [generateYearlyCron_eq]
  exact Parse_five pd _ _ _ _ _ _ _ _ _ _ (isField_fmtNat _) (isField_fmtNat _)
    (isField_fmtNat _) isField_star (getField_minutes _ (Intn_lt _ _ _ (by norm_num)))
    (getField_hours _ (Intn_lt _ _ _ (by norm_num)))
    (getField_dom _ (Intn_lt _ _ _ (by norm_num)))
    (getField_months _ (Intn_lt _ _ _ (by norm_num))) getField_star.2.2.2

/-! ### The validators on the generated crons -/

theorem not_macro_generateWeeklyWeekendCron (rng : Nat → Nat) (i : Nat) :
    ToLower (generateWeeklyWeekendCron rng i).1 ∉
      ["@daily", "@weekly", "@monthly", "@yearly", "@annually"] := by
  rw [generateWeeklyWeekendCron_eq]; exact not_macro_fmtNat _ _

theorem not_macro_generateBiWeeklyCron (rng : Nat → Nat) (i : Nat) :
    ToLower (generateBiWeeklyCron rng i).1 ∉
      ["@daily", "@weekly", "@monthly", "@yearly", "@annually"] := by
  rw [generateBiWeeklyCron_eq]; exact not_macro_fmtNat _ _

theorem not_macro_generateMonthlyCron (rng : Nat → Nat) (i : Nat) :
    ToLower (generateMonthlyCron rng i).1 ∉
      ["@daily", "@weekly", "@monthly", "@yearly", "@annually"] := by
  rw [generateMonthlyCron_eq]; exact not_macro_fmtNat _ _

theorem not_macro_generateYearlyCron (rng : Nat → Nat) (i : Nat) :
    ToLower (generateYearlyCron rng i).1 ∉
      ["@daily", "@weekly", "@monthly", "@yearly", "@annually"] := by
  rw [generateYearlyCron_eq]; exact not_macro_fmtNat _ _

/-- The result of `isExecutedAtMostOncePerYear` for a schedule of `robfig`
that is activated once a day at most, and again between the end of the window
and 2030. -/
theorem isExecutedAtMostOncePerYear_daily (pd : String → Option Int) (cronExpr : String)
    (s : SpecSchedule) (h mi : Nat)
    (hparse : Parse pd (macroToFields cronExpr) = some (.spec s)) (hS : s.Second = 1)
    (hM : s.Minute = 1 <<< mi) (hH : s.Hour = 1 <<< h) (hmi : mi < 60)
    (hex : ∃ u, 63871286400 ≤ u ∧ u < 64029052800 ∧ firesAt s u = true) :
    isExecutedAtMostOncePerYear (robfig pd) cronExpr =
      some (decide (((Finset.Ioo 63839664000 63871286400).filter
          (fun u => firesAt s u = true)).card ≤ 1)) := by
  rw [isExecutedAtMostOncePerYear_spec pd cronExpr s hparse hex]
  have := daily_card_year s h mi hS hM hH hmi
  rw [if_pos (by omega)]

/-- The result of `isExecutedAtMostXTimesAMonth` for a schedule of `robfig`
that is activated once a day at most, and again between the end of the year
and 2030. -/
theorem isExecutedAtMostXTimesAMonth_daily (pd : String → Option Int) (cronExpr : String)
    (x : Int) (s : SpecSchedule) (h mi : Nat)
    (hparse : Parse pd (macroToFields cronExpr) = some (.spec s)) (hS : s.Second = 1)
    (hM : s.Minute = 1 <<< mi) (hH : s.Hour = 1 <<< h) (hmi : mi < 60)
    (hex : ∃ u, 63871286400 ≤ u ∧ u < 64029052800 ∧ firesAt s u = true) :
    isExecutedAtMostXTimesAMonth (robfig pd) cronExpr x =
      some (decide ((((Finset.Ioo 63839664000 63842342401).filter
          (fun u => firesAt s u = true)).card : Int) ≤ x)) := by
  obtain ⟨u, hu1, hu2, hu3⟩ := hex
  rw [isExecutedAtMostXTimesAMonth_spec pd cronExpr x s hparse ⟨u, by omega, hu2, hu3⟩]
  have := daily_card_month s h mi hS hM hH hmi
  rw [if_pos (by omega)]

/-- A cron of `generateYearlyCron` runs at most once a year. -/
theorem isExecutedAtMostOncePerYear_generateYearlyCron (pd : String → Option Int)
    (rng : Nat → Nat) (i : Nat) :
    isExecutedAtMostOncePerYear (robfig pd) (generateYearlyCron rng i).1 = some true := by
  have hp := Parse_generateYearlyCron pd rng i
  rw [← macroToFields_of_not_macro _ (not_macro_generateYearlyCron rng i)] at hp
  have h3 := Intn_lt rng (i + 3) 60 (by norm_num)
  have h2 := Intn_lt rng (i + 2) 24 (by norm_num)
  have h1 := Intn_lt rng (i + 1) 28 (by norm_num)
  have h0 := Intn_lt rng i 12 (by norm_num)
  rw [isExecutedAtMostOncePerYear_daily pd _ _ _ _ hp rfl rfl rfl h3
    (yearly_later (⟨1, 1 <<< Intn rng (i + 3) 60, 1 <<< Intn rng (i + 2) 24, 1 <<< (Intn rng (i + 1) 28 + 1),
      1 <<< (Intn rng i 12 + 1), all dow⟩ : SpecSchedule) _ _ _ _ rfl rfl rfl rfl rfl rfl h2 h3 (by omega) (by omega) (by omega)
      (by omega))]
  have := yearly_card (⟨1, 1 <<< Intn rng (i + 3) 60, 1 <<< Intn rng (i + 2) 24, 1 <<< (Intn rng (i + 1) 28 + 1),
      1 <<< (Intn rng i 12 + 1), all dow⟩ : SpecSchedule) _ _ _ _ rfl rfl rfl rfl rfl rfl h3
  rw [decide_eq_true this]

/-- A cron of `generateMonthlyCron` runs more than once a year. -/
theorem isExecutedAtMostOncePerYear_generateMonthlyCron (pd : String → Option Int)
    (rng : Nat → Nat) (i : Nat) :
    isExecutedAtMostOncePerYear (robfig pd) (generateMonthlyCron rng i).1 = some false := by
  have hp := Parse_generateMonthlyCron pd rng i
  rw [← macroToFields_of_not_macro _ (not_macro_generateMonthlyCron rng i)] at hp
  have h0 := Intn_lt rng i 60 (by norm_num)
  have h1 := Intn_lt rng (i + 1) 24 (by norm_num)
  have h2 := Intn_lt rng (i + 2) 28 (by norm_num)
  obtain ⟨c, hex⟩ := monthly_fires (⟨1, 1 <<< Intn rng i 60, 1 <<< Intn rng (i + 1) 24, 1 <<< (Intn rng (i + 2) 28 + 1),
      all months, all dow⟩ : SpecSchedule) _ _ (Intn rng (i + 2) 28 + 1) rfl rfl rfl rfl rfl
    (by rw [bitSet_one_shiftLeft]; simp) h1 h0 (by omega) (by omega)
  rw [isExecutedAtMostOncePerYear_daily pd _ _ _ _ hp rfl rfl rfl h0 hex]
  rw [decide_eq_false (by omega)]

/-- A cron of `generateBiWeeklyCron` runs more than once a year. -/
theorem isExecutedAtMostOncePerYear_generateBiWeeklyCron (pd : String → Option Int)
    (rng : Nat → Nat) (i : Nat) :
    isExecutedAtMostOncePerYear (robfig pd) (generateBiWeeklyCron rng i).1 = some false := by
  have hp := Parse_generateBiWeeklyCron pd rng i
  rw [← macroToFields_of_not_macro _ (not_macro_generateBiWeeklyCron rng i)] at hp
  have h0 := Intn_lt rng i 60 (by norm_num)
  have h1 := Intn_lt rng (i + 1) 24 (by norm_num)
  have h2 := Intn_lt rng (i + 2) 10 (by norm_num)
  obtain ⟨c, hex⟩ := monthly_fires (⟨1, 1 <<< Intn rng i 60, 1 <<< Intn rng (i + 1) 24,
      1 <<< (Intn rng (i + 2) 10 + 5) ||| 1 <<< (Intn rng (i + 3) 14 + 15), all months,
      all dow⟩ : SpecSchedule) _ _ (Intn rng (i + 2) 10 + 5) rfl rfl rfl rfl rfl
    (by rw [bitSet_or, bitSet_one_shiftLeft]; simp) h1 h0 (by omega) (by omega)
  rw [isExecutedAtMostOncePerYear_daily pd _ _ _ _ hp rfl rfl rfl h0 hex]
  rw [decide_eq_false (by omega)]

theorem weekend_day (rng : Nat → Nat) (i : Nat) : Intn rng i 2 * 6 = 0 ∨ Intn rng i 2 * 6 = 6 := by
  have := Intn_lt rng i 2 (by norm_num)
  omega

/-- A cron of `generateWeeklyWeekendCron` runs more than once a year. -/
theorem isExecutedAtMostOncePerYear_generateWeeklyWeekendCron (pd : String → Option Int)
    (rng : Nat → Nat) (i : Nat) :
    isExecutedAtMostOncePerYear (robfig pd) (generateWeeklyWeekendCron rng i).1 = some false := by
  have hp := Parse_generateWeeklyWeekendCron pd rng i
  rw [← macroToFields_of_not_macro _ (not_macro_generateWeeklyWeekendCron rng i)] at hp
  have h1 := Intn_lt rng (i + 1) 60 (by norm_num)
  have h2 := Intn_lt rng (i + 2) 24 (by norm_num)
  obtain ⟨c, hex⟩ := weekend_fires (⟨1, 1 <<< Intn rng (i + 1) 60, 1 <<< Intn rng (i + 2) 24, all dom, all months,
      1 <<< (Intn rng i 2 * 6)⟩ : SpecSchedule) _ _ _ rfl rfl rfl rfl rfl rfl h2 h1 (weekend_day rng i)
  rw [isExecutedAtMostOncePerYear_daily pd _ _ _ _ hp rfl rfl rfl h1 hex]
  rw [decide_eq_false (by omega)]

/-- A cron of `generateMonthlyCron` is counted over the month without error. -/
theorem isExecutedAtMostXTimesAMonth_generateMonthlyCron (pd : String → Option Int)
    (rng : Nat → Nat) (i : Nat) (x : Int) :
    isExecutedAtMostXTimesAMonth (robfig pd) (generateMonthlyCron rng i).1 x ≠ none := by
  have hp := Parse_generateMonthlyCron pd rng i
  rw [← macroToFields_of_not_macro _ (not_macro_generateMonthlyCron rng i)] at hp
  have h0 := Intn_lt rng i 60 (by norm_num)
  have h1 := Intn_lt rng (i + 1) 24 (by norm_num)
  have h2 := Intn_lt rng (i + 2) 28 (by norm_num)
  obtain ⟨c, hex⟩ := monthly_fires (⟨1, 1 <<< Intn rng i 60, 1 <<< Intn rng (i + 1) 24, 1 <<< (Intn rng (i + 2) 28 + 1),
      all months, all dow⟩ : SpecSchedule) _ _ (Intn rng (i + 2) 28 + 1) rfl rfl rfl rfl rfl
    (by rw [bitSet_one_shiftLeft]; simp) h1 h0 (by omega) (by omega)
  rw [isExecutedAtMostXTimesAMonth_daily pd _ x _ _ _ hp rfl rfl rfl h0 hex]
  simp

/-- A cron of `generateBiWeeklyCron` runs at most `x` times a month, for any
`x` from 2 on. -/
theorem isExecutedAtMostXTimesAMonth_generateBiWeeklyCron (pd : String → Option Int)
    (rng : Nat → Nat) (i : Nat) (x : Int) (hx : 2 ≤ x) :
    isExecutedAtMostXTimesAMonth (robfig pd) (generateBiWeeklyCron rng i).1 x = some true := by
  have hp := Parse_generateBiWeeklyCron pd rng i
  rw [← macroToFields_of_not_macro _ (not_macro_generateBiWeeklyCron rng i)] at hp
  have h0 := Intn_lt rng i 60 (by norm_num)
  have h1 := Intn_lt rng (i + 1) 24 (by norm_num)
  have h2 := Intn_lt rng (i + 2) 10 (by norm_num)
  obtain ⟨c, hex⟩ := monthly_fires (⟨1, 1 <<< Intn rng i 60, 1 <<< Intn rng (i + 1) 24,
      1 <<< (Intn rng (i + 2) 10 + 5) ||| 1 <<< (Intn rng (i + 3) 14 + 15), all months,
      all dow⟩ : SpecSchedule) _ _ (Intn rng (i + 2) 10 + 5) rfl rfl rfl rfl rfl
    (by rw [bitSet_or, bitSet_one_shiftLeft]; simp) h1 h0 (by omega) (by omega)
  rw [isExecutedAtMostXTimesAMonth_daily pd _ x _ _ _ hp rfl rfl rfl h0 hex]
  have := biweekly_card_month (⟨1, 1 <<< Intn rng i 60, 1 <<< Intn rng (i + 1) 24,
      1 <<< (Intn rng (i + 2) 10 + 5) ||| 1 <<< (Intn rng (i + 3) 14 + 15), all months,
      all dow⟩ : SpecSchedule) _ _ _ _ rfl rfl rfl rfl rfl rfl h0
    (show 5 ≤ Intn rng (i + 2) 10 + 5 by omega) (show 5 ≤ Intn rng (i + 3) 14 + 15 by omega)
  rw [decide_eq_true (by omega)]

/-- A cron of `generateWeeklyWeekendCron` runs at most `x` times a month, for
any `x` from 4 on. -/
theorem isExecutedAtMostXTimesAMonth_generateWeeklyWeekendCron (pd : String → Option Int)
    (rng : Nat → Nat) (i : Nat) (x : Int) (hx : 4 ≤ x) :
    isExecutedAtMostXTimesAMonth (robfig pd) (generateWeeklyWeekendCron rng i).1 x
      = some true := by
  have hp := Parse_generateWeeklyWeekendCron pd rng i
  rw [← macroToFields_of_not_macro _ (not_macro_generateWeeklyWeekendCron rng i)] at hp
  have h1 := Intn_lt rng (i + 1) 60 (by norm_num)
  have h2 := Intn_lt rng (i + 2) 24 (by norm_num)
  obtain ⟨c, hex⟩ := weekend_fires (⟨1, 1 <<< Intn rng (i + 1) 60, 1 <<< Intn rng (i + 2) 24, all dom, all months,
      1 <<< (Intn rng i 2 * 6)⟩ : SpecSchedule) _ _ _ rfl rfl rfl rfl rfl rfl h2 h1 (weekend_day rng i)
  rw [isExecutedAtMostXTimesAMonth_daily pd _ x _ _ _ hp rfl rfl rfl h1 hex]
  have := weekend_card_month (⟨1, 1 <<< Intn rng (i + 1) 60, 1 <<< Intn rng (i + 2) 24, all dom, all months,
      1 <<< (Intn rng i 2 * 6)⟩ : SpecSchedule) _ _ _ rfl rfl rfl rfl rfl rfl h1 (weekend_day rng i)
  rw [decide_eq_true (by omega)]

/-- A cron of `generateWeeklyWeekendCron` is counted over the month without
error. -/
theorem isExecutedAtMostXTimesAMonth_weekend_some (pd : String → Option Int)
    (rng : Nat → Nat) (i : Nat) (x : Int) :
    isExecutedAtMostXTimesAMonth (robfig pd) (generateWeeklyWeekendCron rng i).1 x ≠ none := by
  have hp := Parse_generateWeeklyWeekendCron pd rng i
  rw [← macroToFields_of_not_macro _ (not_macro_generateWeeklyWeekendCron rng i)] at hp
  have h1 := Intn_lt rng (i + 1) 60 (by norm_num)
  have h2 := Intn_lt rng (i + 2) 24 (by norm_num)
  obtain ⟨c, hex⟩ := weekend_fires (⟨1, 1 <<< Intn rng (i + 1) 60, 1 <<< Intn rng (i + 2) 24, all dom, all months,
      1 <<< (Intn rng i 2 * 6)⟩ : SpecSchedule) _ _ _ rfl rfl rfl rfl rfl rfl h2 h1 (weekend_day rng i)
  rw [isExecutedAtMostXTimesAMonth_daily pd _ x _ _ _ hp rfl rfl rfl h1 hex]
  simp

/-! ### A round of the loop in one band -/

/-- What `convertCronMacroToGenerated` returns: the cron as it came, or a
generated one. -/
theorem convertCronMacroToGenerated_cases (rng : Nat → Nat) (i : Nat) (cron : String) :
    (ToLower cron ∉ ["@daily", "@weekly", "@monthly", "@yearly", "@annually"] ∧
      convertCronMacroToGenerated rng i cron = (cron, i)) ∨
    convertCronMacroToGenerated rng i cron = generateWeeklyWeekendCron rng i ∨
    convertCronMacroToGenerated rng i cron = generateBiWeeklyCron rng i ∨
    convertCronMacroToGenerated rng i cron = generateMonthlyCron rng i ∨
    convertCronMacroToGenerated rng i cron = generateYearlyCron rng i := by
  unfold convertCronMacroToGenerated
  by_cases h1 : ToLower cron = "@daily"
  · simp [h1]
  by_cases h2 : ToLower cron = "@weekly"
  · simp [h1, h2]
  by_cases h3 : ToLower cron = "@monthly"
  · simp [h1, h2, h3]
  by_cases h4 : ToLower cron = "@yearly"
  · simp [h1, h2, h3, h4]
  by_cases h5 : ToLower cron = "@annually"
  · simp [h1, h2, h3, h4, h5]
  · left
    simp [h1, h2, h3, h4, h5]

/-- What `convertCronMacroToGenerated` returns is no macro. -/
theorem convertCronMacroToGenerated_plain (rng : Nat → Nat) (i : Nat) (cron : String) :
    ToLower (convertCronMacroToGenerated rng i cron).1 ∉
      ["@daily", "@weekly", "@monthly", "@yearly", "@annually"] := by
  rcases convertCronMacroToGenerated_cases rng i cron with ⟨h, e⟩ | e | e | e | e
  · rw [e]; exact h
  · rw [e]; exact not_macro_generateWeeklyWeekendCron rng i
  · rw [e]; exact not_macro_generateBiWeeklyCron rng i
  · rw [e]; exact not_macro_generateMonthlyCron rng i
  · rw [e]; exact not_macro_generateYearlyCron rng i

theorem with_Cron_self (t : TestStepConfiguration) (c : String) (h : t.Cron = some c) :
    { t with Cron := some c } = t := by
  cases t
  simp only at h
  subst h
  rfl

section Band

variable {lib : CronLib} {parseDuration : String → Option Int} {version testVersion : MajorMinor}
  {check : String → Option Bool} {gen : (Nat → Nat) → Nat → String × Nat} {limit : Int}

/-- What the cron block leaves: a test without cron as it came; else a cron
that is no macro and on which the check either fails with an error, the block
leaving the round, or passes. -/
theorem BandShape.cronBlock_cases
    (hs : BandShape lib parseDuration version testVersion check gen limit)
    (rng : Nat → Nat) (t : TestStepConfiguration) (i : Nat) :
    (t.Cron = none ∧ cronBlock lib rng version testVersion t i = (t, i, true)) ∨
    ∃ c, (cronBlock lib rng version testVersion t i).1 = { t with Cron := some c } ∧
      ToLower c ∉ ["@daily", "@weekly", "@monthly", "@yearly", "@annually"] ∧
      ((check c = none ∧ (cronBlock lib rng version testVersion t i).2.2 = false ∧
          ∃ cron, t.Cron = some cron ∧ c = (convertCronMacroToGenerated rng i cron).1) ∨
        (check c = some true ∧ (cronBlock lib rng version testVersion t i).2.2 = true)) := by
  unfold cronBlock
  cases hc : t.Cron with
  | none => exact Or.inl ⟨rfl, rfl⟩
  | some cron =>
    right
    simp only
    cases hk : check (convertCronMacroToGenerated rng i cron).1 with
    | none =>
      rw [hs.cronNone rng t cron i hk]
      exact ⟨_, rfl, convertCronMacroToGenerated_plain rng i cron,
        Or.inl ⟨hk, rfl, cron, rfl, rfl⟩⟩
    | some b =>
      cases b with
      | true =>
        rw [hs.cronKeep rng t cron i hk]
        exact ⟨_, rfl, convertCronMacroToGenerated_plain rng i cron, Or.inr ⟨hk, rfl⟩⟩
      | false =>
        rw [hs.cronNew rng t cron i hk]
        exact ⟨_, rfl, hs.genPlain _ _, Or.inr ⟨hs.genPasses _ _, rfl⟩⟩

/-- The cron block on a cron that is no macro: the test stays as it is. -/
theorem BandShape.cronBlock_settled
    (hs : BandShape lib parseDuration version testVersion check gen limit)
    (rng : Nat → Nat) (t : TestStepConfiguration) (i : Nat) (c : String) (hc : t.Cron = some c)
    (hp : ToLower c ∉ ["@daily", "@weekly", "@monthly", "@yearly", "@annually"]) :
    (check c = none → cronBlock lib rng version testVersion t i = (t, i, false)) ∧
    (check c = some true → cronBlock lib rng version testVersion t i = (t, i, true)) := by
  have e := convertCronMacroToGenerated_of_not_macro rng i c hp
  unfold cronBlock
  rw [hc]
  simp only
  constructor
  · intro hk
    rw [hs.cronNone rng t c i (by rw [e]; exact hk), e, with_Cron_self t c hc]
  · intro hk
    rw [hs.cronKeep rng t c i (by rw [e]; exact hk), e, with_Cron_self t c hc]

/-- What the interval block leaves: the test as it came, and then also any
test with the same interval; or a generated cron and no interval. -/
theorem BandShape.intervalBlock_cases
    (hs : BandShape lib parseDuration version testVersion check gen limit)
    (rng : Nat → Nat) (t : TestStepConfiguration) (i : Nat) :
    (intervalBlock parseDuration rng version testVersion t i = (t, i) ∧
      ∀ rng2 t2 i2, t2.Interval = t.Interval →
        intervalBlock parseDuration rng2 version testVersion t2 i2 = (t2, i2)) ∨
    ∃ c, (intervalBlock parseDuration rng version testVersion t i).1
        = { t with Cron := some c, Interval := none } ∧
      ToLower c ∉ ["@daily", "@weekly", "@monthly", "@yearly", "@annually"] ∧
      check c = some true := by
  cases hi : t.Interval with
  | none =>
    left
    refine ⟨by unfold intervalBlock; rw [hi], ?_⟩
    intro rng2 t2 i2 h2
    unfold intervalBlock
    rw [h2]
  | some interval =>
    cases hd : parseDuration interval with
    | none =>
      left
      refine ⟨by unfold intervalBlock; rw [hi]; exact hs.intervalNone rng t interval i hd, ?_⟩
      intro rng2 t2 i2 h2
      unfold intervalBlock
      rw [h2]
      exact hs.intervalNone rng2 t2 interval i2 hd
    | some d =>
      by_cases hl : d < limit
      · right
        refine ⟨(gen rng i).1, ?_, hs.genPlain _ _, hs.genPasses _ _⟩
        unfold intervalBlock
        rw [hi]
        simp only
        rw [hs.intervalShort rng t interval i d hd hl]
      · left
        refine ⟨by unfold intervalBlock; rw [hi]; exact hs.intervalLong rng t interval i d hd hl,
          ?_⟩
        intro rng2 t2 i2 h2
        unfold intervalBlock
        rw [h2]
        exact hs.intervalLong rng2 t2 interval i2 d hd hl


theorem intervalBlock_of_Interval_none (parseDuration : String → Option Int) (rng : Nat → Nat)
    (version testVersion : MajorMinor) (test : TestStepConfiguration) (i : Nat)
    (h : test.Interval = none) :
    intervalBlock parseDuration rng version testVersion test i = (test, i) := by
  simp [intervalBlock, h]

theorem runBlocks_of_continue (lib : CronLib) (parseDuration : String → Option Int)
    (rng : Nat → Nat) (version testVersion : MajorMinor) (t t1 : TestStepConfiguration)
    (i j : Nat) (h : cronBlock lib rng version testVersion t i = (t1, j, false)) :
    runBlocks lib parseDuration rng version testVersion t i = (t1, j) := by
  unfold runBlocks
  rw [h]
  rfl

theorem runBlocks_of_done (lib : CronLib) (parseDuration : String → Option Int)
    (rng : Nat → Nat) (version testVersion : MajorMinor) (t t1 : TestStepConfiguration)
    (i j : Nat) (h : cronBlock lib rng version testVersion t i = (t1, j, true)) :
    runBlocks lib parseDuration rng version testVersion t i
      = intervalBlock parseDuration rng version testVersion t1 j := by
  unfold runBlocks
  rw [h]
  rfl

/-- What the two blocks leave of a test: its name and its cluster profile are
kept; running the blocks again, with any random numbers, changes nothing; and
when no macro leads to an error of the check, the cron is the one the test
came with or one that passes the check. -/
theorem BandShape.runBlocks_cases
    (hs : BandShape lib parseDuration version testVersion check gen limit)
    (rng : Nat → Nat) (t : TestStepConfiguration) (i : Nat) :
    (runBlocks lib parseDuration rng version testVersion t i).1.As = t.As ∧
    (runBlocks lib parseDuration rng version testVersion t i).1.GetClusterProfileName
      = t.GetClusterProfileName ∧
    (∀ rng2 i2, runBlocks lib parseDuration rng2 version testVersion
        (runBlocks lib parseDuration rng version testVersion t i).1 i2
      = ((runBlocks lib parseDuration rng version testVersion t i).1, i2)) ∧
    ((∀ rng1 i1 cron, (convertCronMacroToGenerated rng1 i1 cron).1 ≠ cron →
        check (convertCronMacroToGenerated rng1 i1 cron).1 ≠ none) →
      (runBlocks lib parseDuration rng version testVersion t i).1.Cron = t.Cron ∨
      ∃ c, (runBlocks lib parseDuration rng version testVersion t i).1.Cron = some c ∧
        check c = some true) := by
  -- the test after a generated cron replaced the interval
  have fresh : ∀ (t0 : TestStepConfiguration) (c : String),
      ToLower c ∉ ["@daily", "@weekly", "@monthly", "@yearly", "@annually"] →
      check c = some true → ∀ rng2 i2,
      runBlocks lib parseDuration rng2 version testVersion
        { t0 with Cron := some c, Interval := none } i2
        = ({ t0 with Cron := some c, Interval := none }, i2) := by
    intro t0 c hp hk rng2 i2
    rw [runBlocks_of_done _ _ _ _ _ _ _ _ _
      ((hs.cronBlock_settled rng2 _ i2 c rfl hp).2 hk)]
    exact intervalBlock_of_Interval_none _ _ _ _ _ _ rfl
  rcases hs.cronBlock_cases rng t i with ⟨hc, er⟩ | ⟨c, e1, hp, hk⟩
  · -- no cron
    rw [runBlocks_of_done _ _ _ _ _ _ _ _ _ er]
    rcases hs.intervalBlock_cases rng t i with ⟨eI, stab⟩ | ⟨c, e2, hp, hk⟩
    · rw [eI]
      refine ⟨rfl, rfl, ?_, fun _ => Or.inl rfl⟩
      intro rng2 i2
      rw [runBlocks_of_done _ _ _ _ _ _ _ _ _
        (cronBlock_of_Cron_none lib rng2 version testVersion t i2 hc)]
      exact stab rng2 t i2 rfl
    · rw [e2]
      exact ⟨rfl, rfl, fresh t c hp hk, fun _ => Or.inr ⟨c, rfl, hk⟩⟩
  · have er : cronBlock lib rng version testVersion t i
        = ({ t with Cron := some c }, (cronBlock lib rng version testVersion t i).2.1,
          (cronBlock lib rng version testVersion t i).2.2) := by
      rw [← e1]
    rcases hk with ⟨hk, hf, cron, hcron, hconv⟩ | ⟨hk, hf⟩
    · -- the check failed with an error
      rw [hf] at er
      rw [runBlocks_of_continue _ _ _ _ _ _ _ _ _ er]
      refine ⟨rfl, rfl, ?_, ?_⟩
      · intro rng2 i2
        exact runBlocks_of_continue _ _ _ _ _ _ _ _ _
          ((hs.cronBlock_settled rng2 _ i2 c rfl hp).1 hk)
      · intro hmac
        left
        by_cases hne : (convertCronMacroToGenerated rng i cron).1 = cron
        · show some c = t.Cron
          rw [hcron, hconv, hne]
        · exact absurd (hconv ▸ hk) (hmac rng i cron hne)
    · -- the cron passes the check
      rw [hf] at er
      rw [runBlocks_of_done _ _ _ _ _ _ _ _ _ er]
      rcases hs.intervalBlock_cases rng { t with Cron := some c }
          (cronBlock lib rng version testVersion t i).2.1 with ⟨eI, stab⟩ | ⟨c2, e2, hp2, hk2⟩
      · rw [eI]
        refine ⟨rfl, rfl, ?_, fun _ => Or.inr ⟨c, rfl, hk⟩⟩
        intro rng2 i2
        rw [runBlocks_of_done _ _ _ _ _ _ _ _ _
          ((hs.cronBlock_settled rng2 _ i2 c rfl hp).2 hk)]
        exact stab rng2 _ i2 rfl
      · rw [e2]
        exact ⟨rfl, rfl, fresh t c2 hp2 hk2, fun _ => Or.inr ⟨c2, rfl, hk2⟩⟩

end Band

/-! ### The loop in one band -/

/-- The filters of a round read the name and the cluster profile of the test
only: two tests that agree on them are both skipped or both run through the
two blocks. -/
theorem updateTest_skip_or_run (lib : CronLib) (parseDuration : String → Option Int)
    (version testVersion : MajorMinor) (allowed : Option (String → Bool))
    (t t2 : TestStepConfiguration) (hAs : t2.As = t.As)
    (hPr : t2.GetClusterProfileName = t.GetClusterProfileName) :
    ((∀ rng i, updateTest lib parseDuration rng version testVersion allowed t i = (t, i)) ∧
      (∀ rng i, updateTest lib parseDuration rng version testVersion allowed t2 i = (t2, i))) ∨
    ((∀ rng i, updateTest lib parseDuration rng version testVersion allowed t i
        = runBlocks lib parseDuration rng version testVersion t i) ∧
      (∀ rng i, updateTest lib parseDuration rng version testVersion allowed t2 i
        = runBlocks lib parseDuration rng version testVersion t2 i)) := by
  have eq1 : shouldExcludeQEClusterProfile t2 = shouldExcludeQEClusterProfile t := by
    unfold shouldExcludeQEClusterProfile; rw [hPr]
  have eq2 : ∀ f, shouldProcessTest t2 f = shouldProcessTest t f := by
    intro f; unfold shouldProcessTest; rw [hPr]
  unfold updateTest runBlocks
  rw [hAs, eq1, eq2]
  split
  · split
    · exact Or.inl ⟨fun _ _ => rfl, fun _ _ => rfl⟩
    · split
      · exact Or.inl ⟨fun _ _ => rfl, fun _ _ => rfl⟩
      · split
        · exact Or.inl ⟨fun _ _ => rfl, fun _ _ => rfl⟩
        · exact Or.inr ⟨fun _ _ => rfl, fun _ _ => rfl⟩
  · exact Or.inl ⟨fun _ _ => rfl, fun _ _ => rfl⟩

section Band

variable {lib : CronLib} {parseDuration : String → Option Int} {version testVersion : MajorMinor}
  {check : String → Option Bool} {gen : (Nat → Nat) → Nat → String × Nat} {limit : Int}

/-- What a round leaves of a test: a second round, with any random numbers,
changes nothing; and when no macro leads to an error of the check, the cron is
the one the test came with or one that passes the check. -/
theorem BandShape.round_cases
    (hs : BandShape lib parseDuration version testVersion check gen limit)
    (allowed : Option (String → Bool)) (rng : Nat → Nat) (t : TestStepConfiguration) (i : Nat) :
    (∀ rng2 i2, updateTest lib parseDuration rng2 version testVersion allowed
        (updateTest lib parseDuration rng version testVersion allowed t i).1 i2
      = ((updateTest lib parseDuration rng version testVersion allowed t i).1, i2)) ∧
    ((∀ rng1 i1 cron, (convertCronMacroToGenerated rng1 i1 cron).1 ≠ cron →
        check (convertCronMacroToGenerated rng1 i1 cron).1 ≠ none) →
      (updateTest lib parseDuration rng version testVersion allowed t i).1.Cron = t.Cron ∨
      ∃ c, (updateTest lib parseDuration rng version testVersion allowed t i).1.Cron = some c ∧
        check c = some true) := by
  obtain ⟨hA, hP, hidem, hcr⟩ := hs.runBlocks_cases rng t i
  rcases updateTest_skip_or_run lib parseDuration version testVersion allowed t
    (runBlocks lib parseDuration rng version testVersion t i).1 hA hP with ⟨s1, _⟩ | ⟨r1, r2⟩
  · rw [s1 rng i]
    exact ⟨fun rng2 i2 => s1 rng2 i2, fun _ => Or.inl rfl⟩
  · rw [r1 rng i]
    exact ⟨fun rng2 i2 => (r2 rng2 i2).trans (hidem rng2 i2), hcr⟩

end Band

/-- When a second round changes nothing of what a round leaves, a second run
of the loop changes nothing of what the loop leaves. -/
theorem updateTests_settled (lib : CronLib) (parseDuration : String → Option Int)
    (version testVersion : MajorMinor) (allowed : Option (String → Bool))
    (h : ∀ rng t i rng2 i2, updateTest lib parseDuration rng2 version testVersion allowed
        (updateTest lib parseDuration rng version testVersion allowed t i).1 i2
      = ((updateTest lib parseDuration rng version testVersion allowed t i).1, i2))
    (rng rng2 : Nat → Nat) :
    ∀ (tests : List TestStepConfiguration) (i i2 : Nat),
      updateTests lib parseDuration rng2 version testVersion allowed
        (updateTests lib parseDuration rng version testVersion allowed tests i).1 i2
      = ((updateTests lib parseDuration rng version testVersion allowed tests i).1, i2) := by
  intro tests
  induction tests with
  | nil => intro i i2; rfl
  | cons t ts ih =>
    intro i i2
    simp only [updateTests]
    rw [h rng t i rng2 i2]
    simp only
    rw [ih]

/-- The shape of band `n-3` and before, for a library on which the crons of
`generateYearlyCron` run at most once a year. -/
theorem bandShape_N3 (lib : CronLib) (parseDuration : String → Option Int)
    (version testVersion : MajorMinor) (h3 : atMostN3 version testVersion = true)
    (hY : ∀ rng i, isExecutedAtMostOncePerYear lib (generateYearlyCron rng i).1 = some true) :
    BandShape lib parseDuration version testVersion (isExecutedAtMostOncePerYear lib)
      generateYearlyCron (dayNanos * 365) where
  cronNone := by intro rng test cron i hk; simp [updateCron, h3, hk]
  cronKeep := by intro rng test cron i hk; simp [updateCron, h3, hk]
  cronNew := by intro rng test cron i hk; simp [updateCron, h3, hk]
  intervalNone := by intro rng test interval i hd; simp [updateInterval, h3, hd]
  intervalLong := by intro rng test interval i d hd hl; simp [updateInterval, h3, hd, hl]
  intervalShort := by intro rng test interval i d hd hl; simp [updateInterval, h3, hd, hl]
  genPasses := hY
  genPlain := not_macro_generateYearlyCron

/-- The shape of band `n-2`, for a library on which the crons of
`generateBiWeeklyCron` run more than once a year and at most twice a month. -/
theorem bandShape_N2 (lib : CronLib) (parseDuration : String → Option Int)
    (version testVersion : MajorMinor) (h3 : atMostN3 version testVersion = false)
    (h2 : isN2 version testVersion = true)
    (hY : ∀ rng i, isExecutedAtMostOncePerYear lib (generateBiWeeklyCron rng i).1 = some false)
    (hM : ∀ rng i,
      isExecutedAtMostXTimesAMonth lib (generateBiWeeklyCron rng i).1 2 = some true) :
    BandShape lib parseDuration version testVersion
      (fun c => (isExecutedAtMostOncePerYear lib c).bind
        (fun once => if once then some false else isExecutedAtMostXTimesAMonth lib c 2))
      generateBiWeeklyCron (dayNanos * 14) where
  cronNone := by
    intro rng test cron i hk
    cases hy : isExecutedAtMostOncePerYear lib (convertCronMacroToGenerated rng i cron).1 with
    | none => simp [updateCron, h3, h2, hy]
    | some once =>
      cases once with
      | true => simp [hy] at hk
      | false =>
        simp only [hy, Option.some_bind, Bool.false_eq_true, if_false] at hk
        simp [updateCron, h3, h2, hy, hk]
  cronKeep := by
    intro rng test cron i hk
    cases hy : isExecutedAtMostOncePerYear lib (convertCronMacroToGenerated rng i cron).1 with
    | none => simp [hy] at hk
    | some once =>
      cases once with
      | true => simp [hy] at hk
      | false =>
        simp only [hy, Option.some_bind, Bool.false_eq_true, if_false] at hk
        simp [updateCron, h3, h2, hy, hk]
  cronNew := by
    intro rng test cron i hk
    cases hy : isExecutedAtMostOncePerYear lib (convertCronMacroToGenerated rng i cron).1 with
    | none => simp [hy] at hk
    | some once =>
      cases once with
      | true => simp [updateCron, h3, h2, hy]
      | false =>
        simp only [hy, Option.some_bind, Bool.false_eq_true, if_false] at hk
        simp [updateCron, h3, h2, hy, hk]
  intervalNone := by intro rng test interval i hd; simp [updateInterval, h3, h2, hd]
  intervalLong := by intro rng test interval i d hd hl; simp [updateInterval, h3, h2, hd, hl]
  intervalShort := by intro rng test interval i d hd hl; simp [updateInterval, h3, h2, hd, hl]
  genPasses := by intro rng i; simp [hY rng i, hM rng i]
  genPlain := not_macro_generateBiWeeklyCron

/-- The shape of band `n-1`, for a library on which the crons of
`generateWeeklyWeekendCron` run more than once a year and at most four times a
month. -/
theorem bandShape_N1 (lib : CronLib) (parseDuration : String → Option Int)
    (version testVersion : MajorMinor) (h3 : atMostN3 version testVersion = false)
    (h2 : isN2 version testVersion = false) (h1 : isN1 version testVersion = true)
    (hY : ∀ rng i,
      isExecutedAtMostOncePerYear lib (generateWeeklyWeekendCron rng i).1 = some false)
    (hM : ∀ rng i,
      isExecutedAtMostXTimesAMonth lib (generateWeeklyWeekendCron rng i).1 4 = some true) :
    BandShape lib parseDuration version testVersion
      (fun c => (isExecutedAtMostOncePerYear lib c).bind
        (fun once => if once then some false else isExecutedAtMostXTimesAMonth lib c 4))
      generateWeeklyWeekendCron (dayNanos * 7) where
  cronNone := by
    intro rng test cron i hk
    cases hy : isExecutedAtMostOncePerYear lib (convertCronMacroToGenerated rng i cron).1 with
    | none => simp [updateCron, h3, h2, h1, hy]
    | some once =>
      cases once with
      | true => simp [hy] at hk
      | false =>
        simp only [hy, Option.some_bind, Bool.false_eq_true, if_false] at hk
        simp [updateCron, h3, h2, h1, hy, hk]
  cronKeep := by
    intro rng test cron i hk
    cases hy : isExecutedAtMostOncePerYear lib (convertCronMacroToGenerated rng i cron).1 with
    | none => simp [hy] at hk
    | some once =>
      cases once with
      | true => simp [hy] at hk
      | false =>
        simp only [hy, Option.some_bind, Bool.false_eq_true, if_false] at hk
        simp [updateCron, h3, h2, h1, hy, hk]
  cronNew := by
    intro rng test cron i hk
    cases hy : isExecutedAtMostOncePerYear lib (convertCronMacroToGenerated rng i cron).1 with
    | none => simp [hy] at hk
    | some once =>
      cases once with
      | true => simp [updateCron, h3, h2, h1, hy]
      | false =>
        simp only [hy, Option.some_bind, Bool.false_eq_true, if_false] at hk
        simp [updateCron, h3, h2, h1, hy, hk]
  intervalNone := by intro rng test interval i hd; simp [updateInterval, h3, h2, h1, hd]
  intervalLong := by
    intro rng test interval i d hd hl; simp [updateInterval, h3, h2, h1, hd, hl]
  intervalShort := by
    intro rng test interval i d hd hl; simp [updateInterval, h3, h2, h1, hd, hl]
  genPasses := by intro rng i; simp [hY rng i, hM rng i]
  genPlain := not_macro_generateWeeklyWeekendCron

/-! ### The reducer with the library `robfig` -/

/-- Under `robfig` a second round changes nothing of what a round leaves. -/
theorem updateTest_settled (parseDuration : String → Option Int)
    (version testVersion : MajorMinor) (allowed : Option (String → Bool))
    (rng : Nat → Nat) (t : TestStepConfiguration) (i : Nat) (rng2 : Nat → Nat) (i2 : Nat) :
    updateTest (robfig parseDuration) parseDuration rng2 version testVersion allowed
        (updateTest (robfig parseDuration) parseDuration rng version testVersion allowed t i).1 i2
      = ((updateTest (robfig parseDuration) parseDuration rng version testVersion allowed t i).1,
          i2) := by
  by_cases h3 : atMostN3 version testVersion = true
  · exact ((bandShape_N3 (robfig parseDuration) parseDuration version testVersion h3
      (isExecutedAtMostOncePerYear_generateYearlyCron parseDuration)).round_cases
        allowed rng t i).1 rng2 i2
  have h3f : atMostN3 version testVersion = false := by simpa using h3
  by_cases h2 : isN2 version testVersion = true
  · exact ((bandShape_N2 (robfig parseDuration) parseDuration version testVersion h3f h2
      (isExecutedAtMostOncePerYear_generateBiWeeklyCron parseDuration)
      (fun r j => isExecutedAtMostXTimesAMonth_generateBiWeeklyCron parseDuration r j 2
        (le_refl _))).round_cases allowed rng t i).1 rng2 i2
  have h2f : isN2 version testVersion = false := by simpa using h2
  by_cases h1 : isN1 version testVersion = true
  · exact ((bandShape_N1 (robfig parseDuration) parseDuration version testVersion h3f h2f h1
      (isExecutedAtMostOncePerYear_generateWeeklyWeekendCron parseDuration)
      (fun r j => isExecutedAtMostXTimesAMonth_generateWeeklyWeekendCron parseDuration r j 4
        (le_refl _))).round_cases allowed rng t i).1 rng2 i2
  have h1f : isN1 version testVersion = false := by simpa using h1
  rw [updateTest_of_no_band _ _ rng _ _ _ h3f h2f h1f t i]
  exact updateTest_of_no_band _ _ rng2 _ _ _ h3f h2f h1f t i2

/-- Under `robfig` a cron that `convertCronMacroToGenerated` made of a macro
is counted over the year without error. -/
theorem macro_year_some (pd : String → Option Int) (rng : Nat → Nat) (i : Nat) (cron : String)
    (h : (convertCronMacroToGenerated rng i cron).1 ≠ cron) :
    isExecutedAtMostOncePerYear (robfig pd) (convertCronMacroToGenerated rng i cron).1
      ≠ none := by
  rcases convertCronMacroToGenerated_cases rng i cron with ⟨_, e⟩ | e | e | e | e
  · rw [e] at h; exact absurd rfl h
  · rw [e, isExecutedAtMostOncePerYear_generateWeeklyWeekendCron]; simp
  · rw [e, isExecutedAtMostOncePerYear_generateBiWeeklyCron]; simp
  · rw [e, isExecutedAtMostOncePerYear_generateMonthlyCron]; simp
  · rw [e, isExecutedAtMostOncePerYear_generateYearlyCron]; simp

/-- Under `robfig` a cron that `convertCronMacroToGenerated` made of a macro
goes through the check of the bands `n-2` and `n-1` without error. -/
theorem macro_month_some (pd : String → Option Int) (x : Int) (hx : 2 ≤ x) (rng : Nat → Nat)
    (i : Nat) (cron : String) (h : (convertCronMacroToGenerated rng i cron).1 ≠ cron) :
    (isExecutedAtMostOncePerYear (robfig pd) (convertCronMacroToGenerated rng i cron).1).bind
      (fun once => if once then some false
        else isExecutedAtMostXTimesAMonth (robfig pd)
          (convertCronMacroToGenerated rng i cron).1 x) ≠ none := by
  rcases convertCronMacroToGenerated_cases rng i cron with ⟨_, e⟩ | e | e | e | e
  · rw [e] at h; exact absurd rfl h
  · rw [e, isExecutedAtMostOncePerYear_generateWeeklyWeekendCron]
    simpa using isExecutedAtMostXTimesAMonth_weekend_some pd rng i x
  · rw [e, isExecutedAtMostOncePerYear_generateBiWeeklyCron,
      isExecutedAtMostXTimesAMonth_generateBiWeeklyCron pd rng i x hx]
    simp
  · rw [e, isExecutedAtMostOncePerYear_generateMonthlyCron]
    simpa using isExecutedAtMostXTimesAMonth_generateMonthlyCron pd rng i x
  · rw [e, isExecutedAtMostOncePerYear_generateYearlyCron]; simp

theorem check_month_true (lib : CronLib) (c : String) (x : Int)
    (h : (isExecutedAtMostOncePerYear lib c).bind
      (fun once => if once then some false else isExecutedAtMostXTimesAMonth lib c x)
        = some true) :
    isExecutedAtMostXTimesAMonth lib c x = some true := by
  cases hy : isExecutedAtMostOncePerYear lib c with
  | none => simp [hy] at h
  | some once =>
    cases once with
    | true => simp [hy] at h
    | false => simpa [hy] using h

/-- C2: running `updateIntervalFieldsForMatchedSteps` a second time, on the
configuration the first run returned, with the same current version and the
same allow-list, returns that configuration as it is: no `Cron` and no
`Interval` of a test changes, whatever the random numbers of the two runs are,
and the second run draws none. -/
theorem C2_second_run_changes_nothing (parseDuration : String → Option Int)
    (rng rng2 : Nat → Nat) (i i2 : Nat) (configuration : DataWithInfo) (version : MajorMinor)
    (allowed : Option (String → Bool)) :
    updateIntervalFieldsForMatchedSteps (robfig parseDuration) parseDuration rng2 i2
        (updateIntervalFieldsForMatchedSteps (robfig parseDuration) parseDuration rng i
          configuration version allowed).1 version allowed
      = ((updateIntervalFieldsForMatchedSteps (robfig parseDuration) parseDuration rng i
          configuration version allowed).1, i2) := by
  cases hp : ParseMajorMinor (extractedVersionOf configuration.Branch configuration.Variant) with
  | none =>
    rw [update_of_parse_none _ _ rng version allowed i configuration hp]
    exact update_of_parse_none _ _ rng2 version allowed i2 configuration hp
  | some tv =>
    rw [update_of_parse_some _ _ rng version allowed i configuration tv hp]
    simp only
    rw [update_of_parse_some _ _ rng2 version allowed i2
      ⟨configuration.Branch, configuration.Variant,
        (updateTests (robfig parseDuration) parseDuration rng version tv allowed
          configuration.Tests i).1⟩ tv hp]
    simp only
    rw [updateTests_settled (robfig parseDuration) parseDuration version tv allowed
      (updateTest_settled parseDuration version tv allowed) rng rng2 configuration.Tests i i2]

/-- C1: when the version extracted for a configuration is `testVersion`, every
test whose `Cron` is not the one it came with has, after
`updateIntervalFieldsForMatchedSteps` with the library `robfig` and any random
numbers, a cron that passes the validator of the band without error:
`isExecutedAtMostOncePerYear` in band `n-3` and before,
`isExecutedAtMostXTimesAMonth` with 2 in band `n-2` and with 4 in band
`n-1`. -/
theorem C1_changed_cron_passes_validator (parseDuration : String → Option Int)
    (rng : Nat → Nat) (i : Nat) (configuration : DataWithInfo)
    (version testVersion : MajorMinor) (allowed : Option (String → Bool))
    (hv : isInt64 version.Minor)
    (hp : ParseMajorMinor (extractedVersionOf configuration.Branch configuration.Variant)
      = some testVersion) :
    List.Forall₂
      (fun t t2 => t2.Cron ≠ t.Cron → ∃ cron, t2.Cron = some cron ∧
        (BandN3 version testVersion →
          isExecutedAtMostOncePerYear (robfig parseDuration) cron = some true) ∧
        (BandN2 version testVersion →
          isExecutedAtMostXTimesAMonth (robfig parseDuration) cron 2 = some true) ∧
        (BandN1 version testVersion →
          isExecutedAtMostXTimesAMonth (robfig parseDuration) cron 4 = some true))
      configuration.Tests
      (updateIntervalFieldsForMatchedSteps (robfig parseDuration) parseDuration rng i
        configuration version allowed).1.Tests := by
  have ht := (ParseMajorMinor_range _ _ hp).2.1
  rw [update_of_parse_some _ _ rng version allowed i configuration testVersion hp]
  apply updateTests_forall₂
  intro t j hne
  by_cases h3 : atMostN3 version testVersion = true
  · rcases ((bandShape_N3 (robfig parseDuration) parseDuration version testVersion h3
      (isExecutedAtMostOncePerYear_generateYearlyCron parseDuration)).round_cases
        allowed rng t j).2 (macro_year_some parseDuration) with hc | ⟨c, hc, hk⟩
    · exact absurd hc hne
    · refine ⟨c, hc, fun _ => hk, fun hb => ?_, fun hb => ?_⟩
      · rw [(chain_of_BandN2 hv ht hb).1] at h3; exact absurd h3 (by simp)
      · rw [(chain_of_BandN1 hv ht hb).1] at h3; exact absurd h3 (by simp)
  have h3f : atMostN3 version testVersion = false := by simpa using h3
  by_cases h2 : isN2 version testVersion = true
  · rcases ((bandShape_N2 (robfig parseDuration) parseDuration version testVersion h3f h2
      (isExecutedAtMostOncePerYear_generateBiWeeklyCron parseDuration)
      (fun r k => isExecutedAtMostXTimesAMonth_generateBiWeeklyCron parseDuration r k 2
        (le_refl _))).round_cases allowed rng t j).2
      (macro_month_some parseDuration 2 (le_refl _)) with hc | ⟨c, hc, hk⟩
    · exact absurd hc hne
    · refine ⟨c, hc, fun hb => ?_, fun _ => check_month_true _ c 2 hk, fun hb => ?_⟩
      · exact absurd (chain_of_BandN3 hv ht hb) h3
      · rw [(chain_of_BandN1 hv ht hb).2.1] at h2; exact absurd h2 (by simp)
  have h2f : isN2 version testVersion = false := by simpa using h2
  by_cases h1 : isN1 version testVersion = true
  · rcases ((bandShape_N1 (robfig parseDuration) parseDuration version testVersion h3f h2f h1
      (isExecutedAtMostOncePerYear_generateWeeklyWeekendCron parseDuration)
      (fun r k => isExecutedAtMostXTimesAMonth_generateWeeklyWeekendCron parseDuration r k 4
        (le_refl _))).round_cases allowed rng t j).2
      (macro_month_some parseDuration 4 (by norm_num)) with hc | ⟨c, hc, hk⟩
    · exact absurd hc hne
    · refine ⟨c, hc, fun hb => ?_, fun hb => ?_, fun _ => check_month_true _ c 4 hk⟩
      · exact absurd (chain_of_BandN3 hv ht hb) h3
      · exact absurd (chain_of_BandN2 hv ht hb).2 h2
  have h1f : isN1 version testVersion = false := by simpa using h1
  rw [updateTest_of_no_band _ _ rng _ _ _ h3f h2f h1f t j] at hne
  exact absurd rfl hne


/-- C1 at the branch `release-4.14` with current version 4.17, band `n-3`: the
test on `@daily` gets a new cron, here `6 5 5 4 *`, that
`isExecutedAtMostOncePerYear` accepts. -/
theorem C1_witness :
    BandN3 ⟨4, 17⟩ ⟨4, 14⟩ ∧
    ∃ t2 cron, (updateIntervalFieldsForMatchedSteps (robfig (fun _ => none)) (fun _ => none)
        (fun k => k) 0
        ⟨"release-4.14", "", [⟨"e2e-test", some "@daily", none, ""⟩]⟩ ⟨4, 17⟩ none).1.Tests
        = [t2] ∧ t2.Cron = some cron ∧ cron = "6 5 5 4 *" ∧
      isExecutedAtMostOncePerYear (robfig (fun _ => none)) cron = some true := by
  have hb : BandN3 ⟨4, 17⟩ ⟨4, 14⟩ := Or.inr ⟨rfl, by decide⟩
  have hout : (updateIntervalFieldsForMatchedSteps (robfig (fun _ => none)) (fun _ => none)
        (fun k => k) 0
        ⟨"release-4.14", "", [⟨"e2e-test", some "@daily", none, ""⟩]⟩ ⟨4, 17⟩ none).1.Tests
        = [⟨"e2e-test", some "6 5 5 4 *", none, ""⟩] := by decide!
  have h := C1_changed_cron_passes_validator (fun _ => none) (fun k => k) 0
    ⟨"release-4.14", "", [⟨"e2e-test", some "@daily", none, ""⟩]⟩ ⟨4, 17⟩ ⟨4, 14⟩ none
    (by unfold isInt64; norm_num) (by decide)
  obtain ⟨t2, rest, h1, hrest, heq⟩ := List.forall₂_cons_left_iff.mp h
  have hnil : rest = [] := List.forall₂_nil_left_iff.mp hrest
  subst hnil
  have e := heq.symm.trans hout
  have e2 : t2 = ⟨"e2e-test", some "6 5 5 4 *", none, ""⟩ := List.head_eq_of_cons_eq e
  subst e2
  obtain ⟨cron, hc, hy, _, _⟩ := h1 (by decide)
  have hcron : cron = "6 5 5 4 *" := (Option.some.inj hc).symm
  exact ⟨hb, _, cron, heq, hc, hcron, hy hb⟩

/-! ### `isExecutedAtMostOncePerYear` -/

/-- `isExecutedAtMostOncePerYear` reads the expression through the `switch` on
the macros only. -/
theorem isExecutedAtMostOncePerYear_of_fields (lib : CronLib) (c c2 : String)
    (h : macroToFields c = macroToFields c2) :
    isExecutedAtMostOncePerYear lib c = isExecutedAtMostOncePerYear lib c2 := by
  unfold isExecutedAtMostOncePerYear
  rw [h]

theorem macroToFields_fields :
    macroToFields "0 0 * * *" = "0 0 * * *" ∧ macroToFields "0 0 * * 0" = "0 0 * * 0" ∧
    macroToFields "0 0 1 * *" = "0 0 1 * *" ∧ macroToFields "0 0 1 1 *" = "0 0 1 1 *" ∧
    macroToFields "@yearly" = "0 0 1 1 *" := by decide

/-- What `cron.Parse` makes of `0 0 1 1 *` and of `0 0 * * *`. -/
theorem Parse_yearly_daily (pd : String → Option Int) :
    Parse pd "0 0 1 1 *" = some (.spec ⟨1, 1 <<< 0, 1 <<< 0, 1 <<< (0 + 1), 1 <<< (0 + 1),
      all dow⟩) ∧
    Parse pd "0 0 * * *" = some (.spec ⟨1, 1 <<< 0, 1 <<< 0, all dom, all months, all dow⟩) := by
  constructor
  · exact Parse_five pd 0 (fmtNat 0) (fmtNat (0 + 1)) (fmtNat (0 + 1)) ['*'] _ _ _ _ _
      (isField_fmtNat _) (isField_fmtNat _) (isField_fmtNat _) isField_star
      (getField_minutes 0 (by norm_num)) (getField_hours 0 (by norm_num))
      (getField_dom 0 (by norm_num)) (getField_months 0 (by norm_num)) getField_star.2.2.2
  · exact Parse_five pd 0 (fmtNat 0) ['*'] ['*'] ['*'] _ _ _ _ _
      (isField_fmtNat _) isField_star isField_star isField_star
      (getField_minutes 0 (by norm_num)) (getField_hours 0 (by norm_num))
      getField_star.2.1 getField_star.2.2.1 getField_star.2.2.2

/-- Under `robfig`, `@yearly` runs at most once a year and `0 0 * * *` more
often. -/
theorem isExecutedAtMostOncePerYear_examples (pd : String → Option Int) :
    isExecutedAtMostOncePerYear (robfig pd) "@yearly" = some true ∧
    isExecutedAtMostOncePerYear (robfig pd) "0 0 * * *" = some false := by
  obtain ⟨py, pdly⟩ := Parse_yearly_daily pd
  constructor
  · rw [← macroToFields_fields.2.2.2.2] at py
    rw [isExecutedAtMostOncePerYear_daily pd _ _ 0 0 py rfl rfl rfl (by norm_num)
      (yearly_later _ 0 0 (0 + 1) (0 + 1) rfl rfl rfl rfl rfl rfl (by norm_num) (by norm_num)
        (by norm_num) (by norm_num) (by norm_num) (by norm_num))]
    have := yearly_card (⟨1, 1 <<< 0, 1 <<< 0, 1 <<< (0 + 1), 1 <<< (0 + 1), all dow⟩ :
      SpecSchedule) 0 0 (0 + 1) (0 + 1) rfl rfl rfl rfl rfl rfl (by norm_num)
    rw [decide_eq_true this]
  · rw [← macroToFields_fields.1] at pdly
    obtain ⟨c, hex⟩ := monthly_fires (⟨1, 1 <<< 0, 1 <<< 0, all dom, all months, all dow⟩ :
      SpecSchedule) 0 0 5 rfl rfl rfl rfl rfl (all_dom_bits 5 (by norm_num) (by norm_num))
      (by norm_num) (by norm_num) (by norm_num) (by norm_num)
    rw [isExecutedAtMostOncePerYear_daily pd _ _ 0 0 pdly rfl rfl rfl (by norm_num) hex]
    rw [decide_eq_false (by omega)]


/-- C10 (amended): `isExecutedAtMostOncePerYear` and the activations strictly
between 2024-01-01T00:00:00Z and 2025-01-01T00:00:00Z.  For any library and
any set `F` of activation times of which `Next` returns the first one after a
time of the window, the result is the error with 1000 activations or more in
the window, and else says whether there is at most one.  Under `robfig` this
holds of every expression parsed to a schedule of fields that is activated
again between the end of the window and 2030.  An expression that is a macro
in any letter case gives the result of its five fields; `@yearly` gives true
and `0 0 * * *` gives false; an expression that does not parse gives the
error. -/
theorem C10_at_most_once_per_year (parseDuration : String → Option Int) :
    (∀ (lib : CronLib) (cronExpr : String) (schedule : lib.Schedule) (F : Nat → Bool),
      lib.Parse (macroToFields cronExpr) = some schedule →
      (∀ t, 63839664000 ≤ t → t < 63871286400 → (t = 63839664000 ∨ F t = true) →
        F (lib.Next schedule t) = true ∧ t < lib.Next schedule t ∧
          ∀ u, t < u → u < lib.Next schedule t → F u = false) →
      isExecutedAtMostOncePerYear lib cronExpr =
        if ((Finset.Ioo 63839664000 63871286400).filter (fun u => F u = true)).card < 1000 then
          some (decide (((Finset.Ioo 63839664000 63871286400).filter
            (fun u => F u = true)).card ≤ 1))
        else none) ∧
    (∀ (cronExpr : String) (s : SpecSchedule),
      Parse parseDuration (macroToFields cronExpr) = some (.spec s) →
      (∃ u, 63871286400 ≤ u ∧ u < 64029052800 ∧ firesAt s u = true) →
      isExecutedAtMostOncePerYear (robfig parseDuration) cronExpr =
        if ((Finset.Ioo 63839664000 63871286400).filter
            (fun u => firesAt s u = true)).card < 1000 then
          some (decide (((Finset.Ioo 63839664000 63871286400).filter
            (fun u => firesAt s u = true)).card ≤ 1))
        else none) ∧
    (∀ (lib : CronLib) (cronExpr : String),
      (ToLower cronExpr = "@daily" →
        isExecutedAtMostOncePerYear lib cronExpr = isExecutedAtMostOncePerYear lib "0 0 * * *") ∧
      (ToLower cronExpr = "@weekly" →
        isExecutedAtMostOncePerYear lib cronExpr = isExecutedAtMostOncePerYear lib "0 0 * * 0") ∧
      (ToLower cronExpr = "@monthly" →
        isExecutedAtMostOncePerYear lib cronExpr = isExecutedAtMostOncePerYear lib "0 0 1 * *") ∧
      (ToLower cronExpr = "@yearly" ∨ ToLower cronExpr = "@annually" →
        isExecutedAtMostOncePerYear lib cronExpr
          = isExecutedAtMostOncePerYear lib "0 0 1 1 *")) ∧
    isExecutedAtMostOncePerYear (robfig parseDuration) "@yearly" = some true ∧
    isExecutedAtMostOncePerYear (robfig parseDuration) "0 0 * * *" = some false ∧
    (∀ (lib : CronLib) (cronExpr : String), lib.Parse (macroToFields cronExpr) = none →
      isExecutedAtMostOncePerYear lib cronExpr = none) := by
  refine ⟨fun lib cronExpr schedule F hparse hc =>
      isExecutedAtMostOncePerYear_eq lib cronExpr schedule F hparse hc,
    fun cronExpr s hparse hex => isExecutedAtMostOncePerYear_spec parseDuration cronExpr s hparse hex,
    ?_, (isExecutedAtMostOncePerYear_examples parseDuration).1,
    (isExecutedAtMostOncePerYear_examples parseDuration).2,
    fun lib cronExpr hparse => isExecutedAtMostOncePerYear_of_none lib cronExpr hparse⟩
  intro lib cronExpr
  obtain ⟨m1, m2, m3, m4, _⟩ := macroToFields_fields
  refine ⟨fun h => ?_, fun h => ?_, fun h => ?_, fun h => ?_⟩
  · apply isExecutedAtMostOncePerYear_of_fields
    rw [m1]
    simp [macroToFields, h]
  · apply isExecutedAtMostOncePerYear_of_fields
    rw [m2]
    have : ToLower cronExpr ≠ "@daily" := by rw [h]; decide
    simp [macroToFields, h]
  · apply isExecutedAtMostOncePerYear_of_fields
    rw [m3]
    simp [macroToFields, h]
  · apply isExecutedAtMostOncePerYear_of_fields
    rw [m4]
    rcases h with h | h <;> simp [macroToFields, h]

/-- C10 (amended) at `30 14 15 3 *`: the schedule is activated once in the
window, on 2024-03-15, and again on 2025-03-15, and the result is true. -/
theorem C10_witness :
    isExecutedAtMostOncePerYear (robfig (fun _ => none)) "30 14 15 3 *" = some true := by
  have hp : Parse (fun _ => none) (macroToFields "30 14 15 3 *")
      = some (.spec ⟨1, 1 <<< 30, 1 <<< 14, 1 <<< 15, 1 <<< 3, all dow⟩) := by decide
  have hex := yearly_later (⟨1, 1 <<< 30, 1 <<< 14, 1 <<< 15, 1 <<< 3, all dow⟩ : SpecSchedule)
    14 30 3 15 rfl rfl rfl rfl rfl rfl (by norm_num) (by norm_num) (by norm_num) (by norm_num)
    (by norm_num) (by norm_num)
  have hc := yearly_card (⟨1, 1 <<< 30, 1 <<< 14, 1 <<< 15, 1 <<< 3, all dow⟩ : SpecSchedule)
    14 30 3 15 rfl rfl rfl rfl rfl rfl (by norm_num)
  rw [(C10_at_most_once_per_year (fun _ => none)).2.1 "30 14 15 3 *" _ hp hex,
    if_pos (by omega), decide_eq_true hc]

/-! ### `isExecutedAtMostXTimesAMonth` -/

/-- `isExecutedAtMostXTimesAMonth` once the expression is parsed. -/
theorem isExecutedAtMostXTimesAMonth_of_parse (lib : CronLib) (cronExpr : String) (x : Int)
    (schedule : lib.Schedule) (hparse : lib.Parse (macroToFields cronExpr) = some schedule) :
    isExecutedAtMostXTimesAMonth lib cronExpr x =
      (countExecutions (lib.Next schedule) (fun next => decide (next > 63842342400)) 100
        63839664000 0).map
        (fun (executionCount : Nat) => decide ((executionCount : Int) ≤ x)) := by
  unfold isExecutedAtMostXTimesAMonth
  simp only [hparse]
  rw [monthEnd_eq, windowStart_eq]
  cases countExecutions (lib.Next schedule) (fun next => decide (next > 63842342400)) 100
    63839664000 0 <;> rfl

/-- `isExecutedAtMostXTimesAMonth` returns the error of `cron.Parse`. -/
theorem isExecutedAtMostXTimesAMonth_of_none (lib : CronLib) (cronExpr : String) (x : Int)
    (hparse : lib.Parse (macroToFields cronExpr) = none) :
    isExecutedAtMostXTimesAMonth lib cronExpr x = none := by
  unfold isExecutedAtMostXTimesAMonth
  simp only [hparse]

/-- The validator of the month with two duration parsers under which the
expression parses alike. -/
theorem isExecutedAtMostXTimesAMonth_congr (pd pd2 : String → Option Int) (cronExpr : String)
    (x : Int) (h : Parse pd (macroToFields cronExpr) = Parse pd2 (macroToFields cronExpr)) :
    isExecutedAtMostXTimesAMonth (robfig pd) cronExpr x
      = isExecutedAtMostXTimesAMonth (robfig pd2) cronExpr x := by
  cases hp : Parse pd2 (macroToFields cronExpr) with
  | none =>
    rw [isExecutedAtMostXTimesAMonth_of_none (robfig pd) cronExpr x (h.trans hp),
      isExecutedAtMostXTimesAMonth_of_none (robfig pd2) cronExpr x hp]
  | some schedule =>
    rw [isExecutedAtMostXTimesAMonth_of_parse (robfig pd) cronExpr x schedule (h.trans hp),
      isExecutedAtMostXTimesAMonth_of_parse (robfig pd2) cronExpr x schedule hp]
    rfl

/-- A cron that runs at most `x` times a month runs at most `y` times a month
for every larger `y`. -/
theorem isExecutedAtMostXTimesAMonth_mono (lib : CronLib) (cronExpr : String) (x y : Int)
    (hxy : x ≤ y) (h : isExecutedAtMostXTimesAMonth lib cronExpr x = some true) :
    isExecutedAtMostXTimesAMonth lib cronExpr y = some true := by
  cases hp : lib.Parse (macroToFields cronExpr) with
  | none =>
    rw [isExecutedAtMostXTimesAMonth_of_none lib cronExpr x hp] at h
    exact absurd h (by simp)
  | some schedule =>
    rw [isExecutedAtMostXTimesAMonth_of_parse lib cronExpr x schedule hp] at h
    rw [isExecutedAtMostXTimesAMonth_of_parse lib cronExpr y schedule hp]
    generalize countExecutions (lib.Next schedule) (fun next => decide (next > 63842342400)) 100
      63839664000 0 = r at h ⊢
    cases r with
    | none => exact absurd h (by simp)
    | some n =>
      have h2 : decide ((n : Int) ≤ x) = true := Option.some.inj h
      have h3 : (n : Int) ≤ x := of_decide_eq_true h2
      exact congrArg some (decide_eq_true (le_trans h3 hxy))

/-- What `cron.Parse` makes of `0 0 1,15 * *`. -/
theorem Parse_first_and_fifteenth (pd : String → Option Int) :
    Parse pd "0 0 1,15 * *"
      = some (.spec ⟨1, 1 <<< 0, 1 <<< 0, 1 <<< (0 + 1) ||| 1 <<< 15, all months, all dow⟩) :=
  Parse_five pd 0 (fmtNat 0) (fmtNat 1 ++ ',' :: fmtNat 15) ['*'] ['*'] _ _ _ _ _
    (isField_fmtNat _) (isField_pair _ _) isField_star isField_star
    (getField_minutes 0 (by norm_num)) (getField_hours 0 (by norm_num)) (by decide)
    getField_star.2.2.1 getField_star.2.2.2

/-- Under `robfig`, `0 0 1,15 * *` runs at most twice a month and not at most
once: the window has 2024-01-15 and 2024-02-01, each at 00:00:00. -/
theorem isExecutedAtMostXTimesAMonth_examples (pd : String → Option Int) :
    isExecutedAtMostXTimesAMonth (robfig pd) "0 0 1,15 * *" 2 = some true ∧
    isExecutedAtMostXTimesAMonth (robfig pd) "0 0 1,15 * *" 1 = some false := by
  have hm : macroToFields "0 0 1,15 * *" = "0 0 1,15 * *" := by decide
  have hp : Parse pd (macroToFields "0 0 1,15 * *")
      = Parse (fun _ => none) (macroToFields "0 0 1,15 * *") := by
    rw [hm, Parse_first_and_fifteenth pd, Parse_first_and_fifteenth (fun _ => none)]
  have e2 : isExecutedAtMostXTimesAMonth (robfig (fun _ => none)) "0 0 1,15 * *" 2
      = some true := by decide!
  have e1 : isExecutedAtMostXTimesAMonth (robfig (fun _ => none)) "0 0 1,15 * *" 1
      = some false := by decide!
  exact ⟨(isExecutedAtMostXTimesAMonth_congr pd _ _ 2 hp).trans e2,
    (isExecutedAtMostXTimesAMonth_congr pd _ _ 1 hp).trans e1⟩

/-- C11 as stated fails: `0 0 30 2 *` parses and is never activated in the
window of the month, so that it runs at most 0 times, yet
`isExecutedAtMostXTimesAMonth` with 0 returns the error: `Next` finds no
activation within five years and returns the zero time, which is not after the
end of the window, and the loop uses up its 100 rounds. -/
theorem C11_counterexample :
    Parse (fun _ => none) "0 0 30 2 *"
      = some (.spec ⟨1, 1, 1, 1 <<< 30, 1 <<< 2, all dow⟩) ∧
    ((Finset.Ioo 63839664000 63842342401).filter
      (fun u => firesAt ⟨1, 1, 1, 1 <<< 30, 1 <<< 2, all dow⟩ u = true)).card = 0 ∧
    isExecutedAtMostXTimesAMonth (robfig (fun _ => none)) "0 0 30 2 *" 0 = none := by
  have hp : Parse (fun _ => none) "0 0 30 2 *"
      = some (.spec ⟨1, 1, 1, 1 <<< 30, 1 <<< 2, all dow⟩) := by decide
  have hm : macroToFields "0 0 30 2 *" = "0 0 30 2 *" := by decide
  refine ⟨hp, ?_, ?_⟩
  · rw [Finset.card_eq_zero, Finset.filter_eq_empty_iff]
    intro u hu
    simp only [Finset.mem_Ioo] at hu
    intro hf
    rw [firesAt_iff] at hf
    obtain ⟨a, b, _⟩ := hf
    have hstar : (starBit &&& (1 <<< 30 : Nat) != 0) = false := by decide
    simp only [dayMatches, hstar, all_dow_star, Bool.or_true, Bool.false_or, if_true,
      Bool.and_eq_true] at b
    rw [bitSet_one_shiftLeft] at a
    rw [bitSet_one_shiftLeft] at b
    simp only [decide_eq_true_eq] at a b
    exact no_february_30 u (by omega) (by omega) ⟨a.symm, b.1.symm⟩
  · have h1 : (robfig (fun _ => none)).Next
        (Schedule.spec ⟨1, 1, 1, 1 <<< 30, 1 <<< 2, all dow⟩) 63839664000 = 0 := by decide!
    have h2 : (robfig (fun _ => none)).Next
        (Schedule.spec ⟨1, 1, 1, 1 <<< 30, 1 <<< 2, all dow⟩) 0 = 0 := by decide!
    have h3 : (fun next : Nat => decide (next > 63842342400)) 0 = false := by decide
    rw [← hm] at hp
    rw [isExecutedAtMostXTimesAMonth_of_parse (robfig (fun _ => none)) "0 0 30 2 *" 0
        (Schedule.spec ⟨1, 1, 1, 1 <<< 30, 1 <<< 2, all dow⟩) hp,
      countExecutions_stuck _ _ 63839664000 0 h1 h2 h3 100 0]
    rfl

/-- C11 (amended): `isExecutedAtMostXTimesAMonth` and the activations after
2024-01-01T00:00:00Z up to and including 2024-02-01T00:00:00Z.  For any
library and any set `F` of activation times of which `Next` returns the first
one after a time of the window, the result is the error with 100 activations
or more in the window, and else says whether there are at most `x`.  Under
`robfig` this holds of every expression parsed to a schedule of fields that is
activated again between the end of the window and 2030.  A true result for
`x` stays true for every larger `x`, with any library; `0 0 1,15 * *` gives
true for 2 and false for 1. -/
theorem C11_at_most_x_times_a_month (parseDuration : String → Option Int) :
    (∀ (lib : CronLib) (cronExpr : String) (x : Int) (schedule : lib.Schedule) (F : Nat → Bool),
      lib.Parse (macroToFields cronExpr) = some schedule →
      (∀ t, 63839664000 ≤ t → t < 63842342401 → (t = 63839664000 ∨ F t = true) →
        F (lib.Next schedule t) = true ∧ t < lib.Next schedule t ∧
          ∀ u, t < u → u < lib.Next schedule t → F u = false) →
      isExecutedAtMostXTimesAMonth lib cronExpr x =
        if ((Finset.Ioo 63839664000 63842342401).filter (fun u => F u = true)).card < 100 then
          some (decide ((((Finset.Ioo 63839664000 63842342401).filter
            (fun u => F u = true)).card : Int) ≤ x))
        else none) ∧
    (∀ (cronExpr : String) (x : Int) (s : SpecSchedule),
      Parse parseDuration (macroToFields cronExpr) = some (.spec s) →
      (∃ u, 63842342401 ≤ u ∧ u < 64029052800 ∧ firesAt s u = true) →
      isExecutedAtMostXTimesAMonth (robfig parseDuration) cronExpr x =
        if ((Finset.Ioo 63839664000 63842342401).filter
            (fun u => firesAt s u = true)).card < 100 then
          some (decide ((((Finset.Ioo 63839664000 63842342401).filter
            (fun u => firesAt s u = true)).card : Int) ≤ x))
        else none) ∧
    (∀ (lib : CronLib) (cronExpr : String) (x y : Int), x ≤ y →
      isExecutedAtMostXTimesAMonth lib cronExpr x = some true →
      isExecutedAtMostXTimesAMonth lib cronExpr y = some true) ∧
    isExecutedAtMostXTimesAMonth (robfig parseDuration) "0 0 1,15 * *" 2 = some true ∧
    isExecutedAtMostXTimesAMonth (robfig parseDuration) "0 0 1,15 * *" 1 = some false :=
  ⟨fun lib cronExpr x schedule F hparse hc =>
      isExecutedAtMostXTimesAMonth_eq lib cronExpr x schedule F hparse hc,
    fun cronExpr x s hparse hex =>
      isExecutedAtMostXTimesAMonth_spec parseDuration cronExpr x s hparse hex,
    fun lib cronExpr x y hxy h => isExecutedAtMostXTimesAMonth_mono lib cronExpr x y hxy h,
    (isExecutedAtMostXTimesAMonth_examples parseDuration).1,
    (isExecutedAtMostXTimesAMonth_examples parseDuration).2⟩

/-- C11 (amended) at `0 0 1,15 * *`: true for 2, hence true for 3. -/
theorem C11_witness :
    isExecutedAtMostXTimesAMonth (robfig (fun _ => none)) "0 0 1,15 * *" 3 = some true :=
  (C11_at_most_x_times_a_month (fun _ => none)).2.2.1 (robfig (fun _ => none)) "0 0 1,15 * *"
    2 3 (by norm_num) (isExecutedAtMostXTimesAMonth_examples (fun _ => none)).1

/-! ### The guard of the counting loop -/

/-- The counting loop never returns less than the count it starts with. -/
theorem countExecutions_ge (next : Nat → Nat) (stop : Nat → Bool) :
    ∀ (rounds c count m : Nat), countExecutions next stop rounds c count = some m →
      count ≤ m := by
  intro rounds
  induction rounds with
  | zero => intro c count m h; simp [countExecutions] at h
  | succ r ih =>
    intro c count m h
    unfold countExecutions at h
    split at h
    · have := Option.some.inj h
      omega
    · have := ih _ _ _ h
      omega

/-- The counting loop against a set `F` of activation times, when `next`
gives the first activation after a time as long as the window has one: with
`k` activations or more in the window the loop returns the error or a count
of `k` or more, and the error when `k` uses up the rounds. -/
theorem countExecutions_at_least (next : Nat → Nat) (stop : Nat → Bool) (F : Nat → Bool)
    (a E : Nat) (hstop : ∀ n, stop n = true ↔ E ≤ n)
    (hc : ∀ t, a ≤ t → t < E → (t = a ∨ F t = true) → (∃ u, t < u ∧ u < E ∧ F u = true) →
      F (next t) = true ∧ t < next t ∧ ∀ u, t < u → u < next t → F u = false) :
    ∀ (rounds c count k : Nat), a ≤ c → c < E → (c = a ∨ F c = true) →
      k ≤ ((Finset.Ioo c E).filter (fun u => F u = true)).card →
      (rounds ≤ k → countExecutions next stop rounds c count = none) ∧
      (∀ m, countExecutions next stop rounds c count = some m → count + k ≤ m) := by
  intro rounds
  induction rounds with
  | zero =>
    intro c count k _ _ _ _
    exact ⟨fun _ => rfl, fun m h => by simp [countExecutions] at h⟩
  | succ r ih =>
    intro c count k h1 h2 h3 hk
    rcases Nat.eq_zero_or_pos k with rfl | hpos
    · exact ⟨fun h => absurd h (by omega),
        fun m h => by have := countExecutions_ge next stop _ _ _ _ h; omega⟩
    · have hne : ((Finset.Ioo c E).filter (fun u => F u = true)).Nonempty := by
        rw [← Finset.card_pos]; omega
      obtain ⟨u, hu⟩ := hne
      simp only [Finset.mem_filter, Finset.mem_Ioo] at hu
      obtain ⟨c1, c2, c3⟩ := hc c h1 h2 h3 ⟨u, hu.1.1, hu.1.2, hu.2⟩
      have hle : next c ≤ u := by
        by_contra hgt
        have := c3 u hu.1.1 (by omega)
        rw [this] at hu
        exact absurd hu.2 (by simp)
      have hs2 : ¬ stop (next c) = true := fun e => by have := (hstop _).mp e; omega
      have hcard := card_firings_step F c (next c) E c2 (by omega) c1 c3
      obtain ⟨i1, i2⟩ := ih (next c) (count + 1) (k - 1) (by omega) (by omega) (Or.inr c1)
        (by omega)
      unfold countExecutions
      rw [if_neg hs2]
      exact ⟨fun h => i1 (by omega), fun m h => by have := i2 m h; omega⟩

/-- For a time of the window that is its start or an activation, and after
which the schedule is activated before 2030, `Next` returns the first
activation after that time; the activations are counted from the start of the
window. -/
theorem Schedule_Next_contract (sch : Schedule) (t : Nat) (h1 : 63839664000 ≤ t)
    (h2 : t < 63871286400)
    (h3 : t = 63839664000 ∨ sch.firesFrom 63839664000 t = true)
    (hex : ∃ u, t < u ∧ u < 64029052800 ∧ sch.firesFrom 63839664000 u = true) :
    sch.firesFrom 63839664000 (sch.Next t) = true ∧ t < sch.Next t ∧
      ∀ v, t < v → v < sch.Next t → sch.firesFrom 63839664000 v = false := by
  cases sch with
  | spec s => exact Next_contract s t h1 h2 hex
  | every delay =>
    obtain ⟨u, hu1, _, hu3⟩ := hex
    simp only [Schedule.firesFrom, Bool.and_eq_true, decide_eq_true_eq] at hu3 h3
    have hpos : 0 < delay := by
      rcases Nat.eq_zero_or_pos delay with h0 | h0
      · subst h0
        rw [Nat.mod_zero] at hu3
        omega
      · exact h0
    have ht : (t - 63839664000) % delay = 0 := by
      rcases h3 with h3 | h3
      · subst h3; simp
      · exact h3.2
    show Schedule.firesFrom (.every delay) 63839664000 (t + delay) = true ∧ t < t + delay ∧
      ∀ v, t < v → v < t + delay → Schedule.firesFrom (.every delay) 63839664000 v = false
    refine ⟨?_, by omega, ?_⟩
    · simp only [Schedule.firesFrom, Bool.and_eq_true, decide_eq_true_eq]
      refine ⟨by omega, ?_⟩
      have e : t + delay - 63839664000 = (t - 63839664000) + delay := by omega
      rw [e, Nat.add_mod_right]
      exact ht
    · intro v hv1 hv2
      simp only [Schedule.firesFrom, Bool.and_eq_false_iff, decide_eq_false_iff_not]
      right
      have e : v - 63839664000 = (t - 63839664000) + (v - t) := by omega
      rw [e, Nat.add_mod, ht, Nat.zero_add, Nat.mod_mod, Nat.mod_eq_of_lt (by omega)]
      omega

/-- Under `robfig` the schedule of an expression that is activated 1000 times
or more in the window of the year makes `isExecutedAtMostOncePerYear` return
the error, and one activated twice or more does not make it return true. -/
theorem isExecutedAtMostOncePerYear_guard (pd : String → Option Int) (cronExpr : String)
    (sch : Schedule) (hparse : Parse pd (macroToFields cronExpr) = some sch) :
    (1000 ≤ ((Finset.Ioo 63839664000 63871286400).filter
        (fun u => sch.firesFrom 63839664000 u = true)).card →
      isExecutedAtMostOncePerYear (robfig pd) cronExpr = none) ∧
    (2 ≤ ((Finset.Ioo 63839664000 63871286400).filter
        (fun u => sch.firesFrom 63839664000 u = true)).card →
      isExecutedAtMostOncePerYear (robfig pd) cronExpr ≠ some true) := by
  have key := countExecutions_at_least (sch.Next)
    (fun next => decide (next > 63871286400) || next == 63871286400)
    (sch.firesFrom 63839664000)
    63839664000 63871286400
    (by intro n; simp only [Bool.or_eq_true, decide_eq_true_eq, beq_iff_eq]; omega)
    (by
      intro t ht1 ht2 ht3 hex
      obtain ⟨u, hu1, hu2, hu3⟩ := hex
      exact Schedule_Next_contract sch t ht1 ht2 ht3 ⟨u, hu1, by omega, hu3⟩)
  have e := isExecutedAtMostOncePerYear_of_parse (robfig pd) cronExpr sch hparse
  constructor
  · intro hk
    have := (key 1000 63839664000 0 1000 (le_refl _) (by norm_num) (Or.inl rfl) hk).1
      (le_refl _)
    rw [e]
    show Option.map _ (countExecutions sch.Next _ 1000 63839664000 0) = none
    rw [this]
    rfl
  · intro hk hres
    rw [e] at hres
    have hres2 : Option.map (fun executionCount => decide (executionCount ≤ 1))
        (countExecutions sch.Next
          (fun next => decide (next > 63871286400) || next == 63871286400) 1000 63839664000 0)
        = some true := hres
    cases hc : countExecutions sch.Next
        (fun next => decide (next > 63871286400) || next == 63871286400) 1000 63839664000 0 with
    | none => rw [hc] at hres2; exact absurd hres2 (by simp)
    | some m =>
      rw [hc] at hres2
      have h1 : decide (m ≤ 1) = true := Option.some.inj hres2
      have h2 : m ≤ 1 := of_decide_eq_true h1
      have := (key 1000 63839664000 0 2 (le_refl _) (by norm_num) (Or.inl rfl) hk).2 m hc
      omega

/-- Under `robfig` the schedule of an expression that is activated 100 times
or more in the window of the month makes `isExecutedAtMostXTimesAMonth` return
the error. -/
theorem isExecutedAtMostXTimesAMonth_guard (pd : String → Option Int) (cronExpr : String)
    (x : Int) (sch : Schedule) (hparse : Parse pd (macroToFields cronExpr) = some sch)
    (hk : 100 ≤ ((Finset.Ioo 63839664000 63842342401).filter
        (fun u => sch.firesFrom 63839664000 u = true)).card) :
    isExecutedAtMostXTimesAMonth (robfig pd) cronExpr x = none := by
  have key := countExecutions_at_least (sch.Next)
    (fun next => decide (next > 63842342400)) (sch.firesFrom 63839664000)
    63839664000 63842342401
    (by intro n; simp only [decide_eq_true_eq]; omega)
    (by
      intro t ht1 ht2 ht3 hex
      obtain ⟨u, hu1, hu2, hu3⟩ := hex
      exact Schedule_Next_contract sch t ht1 (by omega) ht3 ⟨u, hu1, by omega, hu3⟩)
  have e := isExecutedAtMostXTimesAMonth_of_parse (robfig pd) cronExpr x sch hparse
  have := (key 100 63839664000 0 100 (le_refl _) (by norm_num) (Or.inl rfl) hk).1 (le_refl _)
  rw [e]
  show Option.map _ (countExecutions sch.Next _ 100 63839664000 0) = none
  rw [this]
  rfl

/-- When the cron block leaves the round with the test as it came, the round
changes nothing. -/
theorem updateTest_of_continue (lib : CronLib) (parseDuration : String → Option Int)
    (rng : Nat → Nat) (version testVersion : MajorMinor) (allowed : Option (String → Bool))
    (test : TestStepConfiguration) (i : Nat)
    (h : cronBlock lib rng version testVersion test i = (test, i, false)) :
    updateTest lib parseDuration rng version testVersion allowed test i = (test, i) := by
  rcases updateTest_cases lib parseDuration rng version testVersion allowed test i with e | e
  · exact e
  · rw [e, h]
    rfl

/-- An error of the validators of the band, on a cron that is no macro, makes
the cron block leave the round with the test as it came: in band `n-3` and
before an error of `isExecutedAtMostOncePerYear`; in the bands `n-2` and `n-1`
that error, or the error of `isExecutedAtMostXTimesAMonth` after
`isExecutedAtMostOncePerYear` returned false. -/
theorem cronBlock_of_guard (lib : CronLib) (rng : Nat → Nat) (version testVersion : MajorMinor)
    (test : TestStepConfiguration) (i : Nat) (cron : String) (hcron : test.Cron = some cron)
    (hplain : ToLower cron ∉ ["@daily", "@weekly", "@monthly", "@yearly", "@annually"])
    (h : (atMostN3 version testVersion = true ∧ isExecutedAtMostOncePerYear lib cron = none) ∨
      (atMostN3 version testVersion = false ∧ isN2 version testVersion = true ∧
        (isExecutedAtMostOncePerYear lib cron = none ∨
          (isExecutedAtMostOncePerYear lib cron = some false ∧
            isExecutedAtMostXTimesAMonth lib cron 2 = none))) ∨
      (atMostN3 version testVersion = false ∧ isN2 version testVersion = false ∧
        isN1 version testVersion = true ∧
        (isExecutedAtMostOncePerYear lib cron = none ∨
          (isExecutedAtMostOncePerYear lib cron = some false ∧
            isExecutedAtMostXTimesAMonth lib cron 4 = none)))) :
    cronBlock lib rng version testVersion test i = (test, i, false) := by
  have e := convertCronMacroToGenerated_of_not_macro rng i cron hplain
  have hself := with_Cron_self test cron hcron
  unfold cronBlock
  rw [hcron]
  simp only
  rcases h with ⟨h3, he⟩ | ⟨h3, h2, he⟩ | ⟨h3, h2, h1, he⟩
  · simp [updateCron, h3, e, he, hself]
  · rcases he with he | ⟨he, hm⟩
    · simp [updateCron, h3, h2, e, he, hself]
    · simp [updateCron, h3, h2, e, he, hm, hself]
  · rcases he with he | ⟨he, hm⟩
    · simp [updateCron, h3, h2, h1, e, he, hself]
    · simp [updateCron, h3, h2, h1, e, he, hm, hself]

/-- What `isExecutedAtMostOncePerYear` returns when it does not return true:
the error or false. -/
theorem isExecutedAtMostOncePerYear_not_true (lib : CronLib) (cron : String)
    (h : isExecutedAtMostOncePerYear lib cron ≠ some true) :
    isExecutedAtMostOncePerYear lib cron = none ∨
      isExecutedAtMostOncePerYear lib cron = some false := by
  cases hy : isExecutedAtMostOncePerYear lib cron with
  | none => exact Or.inl rfl
  | some b =>
    cases b with
    | false => exact Or.inr rfl
    | true => exact absurd hy h

/-- The activations of the window of the month are activations of the window
of the year. -/
theorem card_month_le_year (F : Nat → Bool) :
    ((Finset.Ioo 63839664000 63842342401).filter (fun u => F u = true)).card ≤
      ((Finset.Ioo 63839664000 63871286400).filter (fun u => F u = true)).card := by
  apply Finset.card_le_card
  intro u hu
  simp only [Finset.mem_filter, Finset.mem_Ioo] at hu ⊢
  exact ⟨⟨hu.1.1, by omega⟩, hu.2⟩

theorem all_hours_bits : ∀ h < 24, bitSet (all hours) h = true := by decide

/-- What `cron.Parse` makes of `0 * * * *`. -/
theorem Parse_hourly (pd : String → Option Int) :
    Parse pd "0 * * * *"
      = some (.spec ⟨1, 1 <<< 0, all hours, all dom, all months, all dow⟩) :=
  Parse_five pd 0 ['*'] ['*'] ['*'] ['*'] _ _ _ _ _
    isField_star isField_star isField_star isField_star
    (getField_minutes 0 (by norm_num)) (by decide) getField_star.2.1 getField_star.2.2.1
    getField_star.2.2.2

/-- The schedule of `0 * * * *` is activated at every full hour of the
thousand hours after 2024-01-01T00:00:00Z. -/
theorem hourly_fires (k : Nat) (hk : k < 1000) :
    firesAt ⟨1, 1 <<< 0, all hours, all dom, all months, all dow⟩
      (63839664000 + 3600 * (k + 1)) = true := by
  have hf : firstDay = 738885 := rfl
  have hs : spanDays = 2557 := rfl
  obtain ⟨⟨a1, a2, a3, a4⟩, _⟩ :=
    calendar_facts ((63839664000 + 3600 * (k + 1)) / 86400) (by omega) (by omega)
  have hl := daysIn_le (yearOfDay ((63839664000 + 3600 * (k + 1)) / 86400))
    (monthOfDay ((63839664000 + 3600 * (k + 1)) / 86400))
  rw [firesAt_iff]
  refine ⟨all_months_bits _ (by unfold Month dayNumber; omega)
      (by unfold Month dayNumber; exact a3), ?_, all_hours_bits _ (by unfold Hour; omega), ?_,
    ?_⟩
  · rw [dayMatches_star_dow _ _ rfl]
    exact all_dom_bits _ (by unfold Day dayNumber; omega) (by unfold Day dayNumber; exact a1)
  · show bitSet (1 <<< 0) _ = true
    rw [bitSet_one_shiftLeft]
    simp only [decide_eq_true_eq]
    unfold Minute
    omega
  · show bitSet 1 _ = true
    rw [bitSet_one]
    simp only [decide_eq_true_eq]
    unfold Second
    omega

/-- The schedule of `0 * * * *` is activated 1000 times or more in the window
of the year. -/
theorem hourly_card :
    1000 ≤ ((Finset.Ioo 63839664000 63871286400).filter
      (fun u => firesAt ⟨1, 1 <<< 0, all hours, all dom, all months, all dow⟩ u = true)).card := by
  have h := Finset.card_le_card_of_injOn (fun k => 63839664000 + 3600 * (k + 1))
    (s := Finset.range 1000)
    (t := (Finset.Ioo 63839664000 63871286400).filter
      (fun u => firesAt ⟨1, 1 <<< 0, all hours, all dom, all months, all dow⟩ u = true))
    (by
      intro k hk
      rw [Finset.mem_range] at hk
      simp only [Finset.mem_filter, Finset.mem_Ioo]
      exact ⟨⟨by omega, by omega⟩, hourly_fires k hk⟩)
    (by
      intro a _ b _ hab
      have hab2 : 63839664000 + 3600 * (a + 1) = 63839664000 + 3600 * (b + 1) := hab
      omega)
  rw [Finset.card_range] at h
  exact h

/-- What `cron.Parse` makes of `0 */8 * * *`. -/
theorem Parse_eight_hourly (pd : String → Option Int) :
    Parse pd "0 */8 * * *"
      = some (.spec ⟨1, 1 <<< 0, 1 ||| 1 <<< 8 ||| 1 <<< 16 ||| starBit, all dom, all months,
        all dow⟩) :=
  Parse_five pd 0 ['*', '/', '8'] ['*'] ['*'] ['*'] _ _ _ _ _
    ⟨by simp, by decide⟩ isField_star isField_star isField_star
    (getField_minutes 0 (by norm_num)) (by decide) getField_star.2.1 getField_star.2.2.1
    getField_star.2.2.2

theorem eight_hours_bits :
    ∀ h < 24, h % 8 = 0 → bitSet (1 ||| 1 <<< 8 ||| 1 <<< 16 ||| starBit) h = true := by decide

/-- The schedule of `0 */8 * * *` is activated every eight hours of the
thousand times eight hours after 2024-01-01T00:00:00Z. -/
theorem eight_hourly_fires (k : Nat) (hk : k < 1000) :
    firesAt ⟨1, 1 <<< 0, 1 ||| 1 <<< 8 ||| 1 <<< 16 ||| starBit, all dom, all months, all dow⟩
      (63839664000 + 28800 * (k + 1)) = true := by
  have hf : firstDay = 738885 := rfl
  have hs : spanDays = 2557 := rfl
  obtain ⟨⟨a1, a2, a3, a4⟩, _⟩ :=
    calendar_facts ((63839664000 + 28800 * (k + 1)) / 86400) (by omega) (by omega)
  have hl := daysIn_le (yearOfDay ((63839664000 + 28800 * (k + 1)) / 86400))
    (monthOfDay ((63839664000 + 28800 * (k + 1)) / 86400))
  rw [firesAt_iff]
  refine ⟨all_months_bits _ (by unfold Month dayNumber; omega)
      (by unfold Month dayNumber; exact a3), ?_,
    eight_hours_bits _ (by unfold Hour; omega) (by unfold Hour; omega), ?_, ?_⟩
  · rw [dayMatches_star_dow _ _ rfl]
    exact all_dom_bits _ (by unfold Day dayNumber; omega) (by unfold Day dayNumber; exact a1)
  · show bitSet (1 <<< 0) _ = true
    rw [bitSet_one_shiftLeft]
    simp only [decide_eq_true_eq]
    unfold Minute
    omega
  · show bitSet 1 _ = true
    rw [bitSet_one]
    simp only [decide_eq_true_eq]
    unfold Second
    omega

/-- The schedule of `0 */8 * * *` is activated 1000 times or more in the
window of the year. -/
theorem eight_hourly_card :
    1000 ≤ ((Finset.Ioo 63839664000 63871286400).filter
      (fun u => Schedule.firesFrom
        (.spec ⟨1, 1 <<< 0, 1 ||| 1 <<< 8 ||| 1 <<< 16 ||| starBit, all dom, all months,
          all dow⟩) 63839664000 u = true)).card := by
  have h := Finset.card_le_card_of_injOn (fun k => 63839664000 + 28800 * (k + 1))
    (s := Finset.range 1000)
    (t := (Finset.Ioo 63839664000 63871286400).filter
      (fun u => Schedule.firesFrom
        (.spec ⟨1, 1 <<< 0, 1 ||| 1 <<< 8 ||| 1 <<< 16 ||| starBit, all dom, all months,
          all dow⟩) 63839664000 u = true))
    (by
      intro k hk
      rw [Finset.mem_range] at hk
      simp only [Finset.mem_filter, Finset.mem_Ioo]
      exact ⟨⟨by omega, by omega⟩, eight_hourly_fires k hk⟩)
    (by
      intro a _ b _ hab
      have hab2 : 63839664000 + 28800 * (a + 1) = 63839664000 + 28800 * (b + 1) := hab
      omega)
  rw [Finset.card_range] at h
  exact h

/-- What `cron.Parse` makes of `@every 1h`, when `time.ParseDuration` reads
`1h` as an hour. -/
theorem Parse_every_hour (pd : String → Option Int) (h : pd "1h" = some 3600000000000) :
    Parse pd "@every 1h" = some (.every 3600) := by
  show parseDescriptor pd "@every 1h" = _
  unfold parseDescriptor
  rw [if_neg (by decide), if_neg (by decide), if_neg (by decide), if_neg (by decide),
    if_neg (by decide), if_pos (by decide)]
  have e : (⟨"@every 1h".data.drop 7⟩ : String) = "1h" := rfl
  rw [e, h]
  rfl

/-- The constant delay of an hour is activated 1000 times or more in the
window of the year, counted from the start of the window. -/
theorem every_hour_card :
    1000 ≤ ((Finset.Ioo 63839664000 63871286400).filter
      (fun u => Schedule.firesFrom (.every 3600) 63839664000 u = true)).card := by
  have h := Finset.card_le_card_of_injOn (fun k => 63839664000 + 3600 * (k + 1))
    (s := Finset.range 1000)
    (t := (Finset.Ioo 63839664000 63871286400).filter
      (fun u => Schedule.firesFrom (.every 3600) 63839664000 u = true))
    (by
      intro k hk
      rw [Finset.mem_range] at hk
      simp only [Finset.mem_filter, Finset.mem_Ioo, Schedule.firesFrom, Bool.and_eq_true,
        decide_eq_true_eq]
      exact ⟨⟨by omega, by omega⟩, by omega, by omega⟩)
    (by
      intro a _ b _ hab
      have hab2 : 63839664000 + 3600 * (a + 1) = 63839664000 + 3600 * (b + 1) := hab
      omega)
  rw [Finset.card_range] at h
  exact h

/-- The validators of the bands make the round leave a cron alone that is no
macro and is activated too often for their loops: 1000 times or more in the
year in every band that is reduced, or 100 times or more in the month in the
bands `n-2` and `n-1`. -/
theorem updateTest_of_too_often (parseDuration : String → Option Int) (rng : Nat → Nat)
    (version testVersion : MajorMinor) (allowed : Option (String → Bool))
    (test : TestStepConfiguration) (i : Nat) (cron : String) (sch : Schedule)
    (hcron : test.Cron = some cron)
    (hplain : ToLower cron ∉ ["@daily", "@weekly", "@monthly", "@yearly", "@annually"])
    (hparse : Parse parseDuration cron = some sch)
    (h : ((atMostN3 version testVersion = true ∨ isN2 version testVersion = true ∨
          isN1 version testVersion = true) ∧
        1000 ≤ ((Finset.Ioo 63839664000 63871286400).filter
          (fun u => sch.firesFrom 63839664000 u = true)).card) ∨
      (atMostN3 version testVersion = false ∧
        (isN2 version testVersion = true ∨ isN1 version testVersion = true) ∧
        100 ≤ ((Finset.Ioo 63839664000 63842342401).filter
          (fun u => sch.firesFrom 63839664000 u = true)).card)) :
    updateTest (robfig parseDuration) parseDuration rng version testVersion allowed test i
      = (test, i) := by
  rw [← macroToFields_of_not_macro cron hplain] at hparse
  apply updateTest_of_continue
  apply cronBlock_of_guard _ _ _ _ _ _ cron hcron hplain
  have hband : ∀ he : (∀ x, isExecutedAtMostOncePerYear (robfig parseDuration) cron = none ∨
        (isExecutedAtMostOncePerYear (robfig parseDuration) cron = some false ∧
          isExecutedAtMostXTimesAMonth (robfig parseDuration) cron x = none)),
      atMostN3 version testVersion = false →
      (isN2 version testVersion = true ∨ isN1 version testVersion = true) →
      (atMostN3 version testVersion = true ∧
          isExecutedAtMostOncePerYear (robfig parseDuration) cron = none) ∨
        (atMostN3 version testVersion = false ∧ isN2 version testVersion = true ∧
          (isExecutedAtMostOncePerYear (robfig parseDuration) cron = none ∨
            (isExecutedAtMostOncePerYear (robfig parseDuration) cron = some false ∧
              isExecutedAtMostXTimesAMonth (robfig parseDuration) cron 2 = none))) ∨
        (atMostN3 version testVersion = false ∧ isN2 version testVersion = false ∧
          isN1 version testVersion = true ∧
          (isExecutedAtMostOncePerYear (robfig parseDuration) cron = none ∨
            (isExecutedAtMostOncePerYear (robfig parseDuration) cron = some false ∧
              isExecutedAtMostXTimesAMonth (robfig parseDuration) cron 4 = none))) := by
    intro he h3 hb
    by_cases h2 : isN2 version testVersion = true
    · exact Or.inr (Or.inl ⟨h3, h2, he 2⟩)
    · have h2f : isN2 version testVersion = false := by simpa using h2
      rcases hb with hb | hb
      · exact absurd hb h2
      · exact Or.inr (Or.inr ⟨h3, h2f, hb, he 4⟩)
  rcases h with ⟨hb, hk⟩ | ⟨h3, hb, hk⟩
  · have hy := (isExecutedAtMostOncePerYear_guard parseDuration cron sch hparse).1 hk
    by_cases h3 : atMostN3 version testVersion = true
    · exact Or.inl ⟨h3, hy⟩
    · have h3f : atMostN3 version testVersion = false := by simpa using h3
      exact hband (fun _ => Or.inl hy) h3f (hb.resolve_left h3)
  · have hyear := isExecutedAtMostOncePerYear_not_true _ _
      ((isExecutedAtMostOncePerYear_guard parseDuration cron sch hparse).2
        (le_trans (by omega) (card_month_le_year (sch.firesFrom 63839664000))))
    have hmonth := fun x => isExecutedAtMostXTimesAMonth_guard parseDuration cron x sch hparse hk
    refine hband ?_ h3 hb
    intro x
    rcases hyear with hy | hy
    · exact Or.inl hy
    · exact Or.inr ⟨hy, hmonth x⟩

/-- C12: under `robfig`, for every expression that `cron.Parse` accepts,
whether it gives a schedule of fields or the constant delay of `@every`,
`isExecutedAtMostOncePerYear` returns the error when the schedule is
activated 1000 times or more strictly between 2024-01-01T00:00:00Z and
2025-01-01T00:00:00Z, and `isExecutedAtMostXTimesAMonth` when it is activated
100 times or more after 2024-01-01T00:00:00Z up to 2024-02-01T00:00:00Z; and
`updateIntervalFieldsForMatchedSteps` returns a test as it came, cron and
interval unchanged, when its cron is no macro and trips a guard that the band
consults: 1000 activations or more in the year in every reduced band (`n-3`
and before, `n-2`, `n-1`), or 100 or more in the month in the bands `n-2` and
`n-1`. -/
theorem C12_guard_skips_test (parseDuration : String → Option Int) (rng : Nat → Nat) (i : Nat)
    (configuration : DataWithInfo) (version testVersion : MajorMinor)
    (allowed : Option (String → Bool)) (hv : isInt64 version.Minor)
    (hp : ParseMajorMinor (extractedVersionOf configuration.Branch configuration.Variant)
      = some testVersion) :
    (∀ (cronExpr : String) (sch : Schedule),
      Parse parseDuration (macroToFields cronExpr) = some sch →
      (1000 ≤ ((Finset.Ioo 63839664000 63871286400).filter
          (fun u => sch.firesFrom 63839664000 u = true)).card →
        isExecutedAtMostOncePerYear (robfig parseDuration) cronExpr = none) ∧
      (100 ≤ ((Finset.Ioo 63839664000 63842342401).filter
          (fun u => sch.firesFrom 63839664000 u = true)).card →
        ∀ x, isExecutedAtMostXTimesAMonth (robfig parseDuration) cronExpr x = none)) ∧
    List.Forall₂
      (fun t t2 => ∀ (cron : String) (sch : Schedule), t.Cron = some cron →
        ToLower cron ∉ ["@daily", "@weekly", "@monthly", "@yearly", "@annually"] →
        Parse parseDuration cron = some sch →
        ((BandN3 version testVersion ∨ BandN2 version testVersion ∨
            BandN1 version testVersion) ∧
          1000 ≤ ((Finset.Ioo 63839664000 63871286400).filter
            (fun u => sch.firesFrom 63839664000 u = true)).card) ∨
        ((BandN2 version testVersion ∨ BandN1 version testVersion) ∧
          100 ≤ ((Finset.Ioo 63839664000 63842342401).filter
            (fun u => sch.firesFrom 63839664000 u = true)).card) →
        t2 = t)
      configuration.Tests
      (updateIntervalFieldsForMatchedSteps (robfig parseDuration) parseDuration rng i
        configuration version allowed).1.Tests := by
  have ht := (ParseMajorMinor_range _ _ hp).2.1
  refine ⟨fun cronExpr sch hparse =>
    ⟨(isExecutedAtMostOncePerYear_guard parseDuration cronExpr sch hparse).1,
      fun hk x => isExecutedAtMostXTimesAMonth_guard parseDuration cronExpr x sch hparse hk⟩, ?_⟩
  rw [update_of_parse_some _ _ rng version allowed i configuration testVersion hp]
  apply updateTests_forall₂
  intro t j cron sch hcron hplain hparse hband
  rw [updateTest_of_too_often parseDuration rng version testVersion allowed t j cron sch hcron
    hplain hparse ?_]
  rcases hband with ⟨hb, hk⟩ | ⟨hb, hk⟩
  · refine Or.inl ⟨?_, hk⟩
    rcases hb with hb | hb | hb
    · exact Or.inl (chain_of_BandN3 hv ht hb)
    · exact Or.inr (Or.inl (chain_of_BandN2 hv ht hb).2)
    · exact Or.inr (Or.inr (chain_of_BandN1 hv ht hb).2.2)
  · rcases hb with hb | hb
    · exact Or.inr ⟨(chain_of_BandN2 hv ht hb).1, Or.inl (chain_of_BandN2 hv ht hb).2, hk⟩
    · exact Or.inr ⟨(chain_of_BandN1 hv ht hb).1, Or.inr (chain_of_BandN1 hv ht hb).2.2, hk⟩

/-- C12 at the branch `release-4.14` with current version 4.17, band `n-3`:
the hourly cron `0 * * * *` is not reduced, and the interval `24h` next to it
stays as well; and at the branch `release-4.16`, band `n-1`: the cron
`0 */8 * * *`, activated 1000 times or more in the year though only three
times a day, and the constant delay `@every 1h` are not reduced. -/
theorem C12_witness :
    (updateIntervalFieldsForMatchedSteps
      (robfig (fun s => if s = "24h" then some 86400000000000 else none))
      (fun s => if s = "24h" then some 86400000000000 else none) (fun k => k) 0
      ⟨"release-4.14", "", [⟨"e2e-test", some "0 * * * *", some "24h", ""⟩]⟩ ⟨4, 17⟩ none).1.Tests
      = [⟨"e2e-test", some "0 * * * *", some "24h", ""⟩] ∧
    (updateIntervalFieldsForMatchedSteps
      (robfig (fun s => if s = "1h" then some 3600000000000 else none))
      (fun s => if s = "1h" then some 3600000000000 else none) (fun k => k) 0
      ⟨"release-4.16", "",
        [⟨"e2e-eight", some "0 */8 * * *", none, ""⟩,
         ⟨"e2e-every", some "@every 1h", some "1h", ""⟩]⟩ ⟨4, 17⟩ none).1.Tests
      = [⟨"e2e-eight", some "0 */8 * * *", none, ""⟩,
         ⟨"e2e-every", some "@every 1h", some "1h", ""⟩] := by
  constructor
  · have h := (C12_guard_skips_test (fun s => if s = "24h" then some 86400000000000 else none)
      (fun k => k) 0 ⟨"release-4.14", "", [⟨"e2e-test", some "0 * * * *", some "24h", ""⟩]⟩
      ⟨4, 17⟩ ⟨4, 14⟩ none (by unfold isInt64; norm_num) (by decide)).2
    obtain ⟨t2, rest, h1, hrest, heq⟩ := List.forall₂_cons_left_iff.mp h
    have hnil : rest = [] := List.forall₂_nil_left_iff.mp hrest
    subst hnil
    have e := h1 "0 * * * *" _ rfl (by decide) (Parse_hourly _)
      (Or.inl ⟨Or.inl (Or.inr ⟨rfl, by decide⟩), hourly_card⟩)
    rw [heq, e]
  · have h := (C12_guard_skips_test (fun s => if s = "1h" then some 3600000000000 else none)
      (fun k => k) 0
      ⟨"release-4.16", "",
        [⟨"e2e-eight", some "0 */8 * * *", none, ""⟩,
         ⟨"e2e-every", some "@every 1h", some "1h", ""⟩]⟩
      ⟨4, 17⟩ ⟨4, 16⟩ none (by unfold isInt64; norm_num) (by decide)).2
    obtain ⟨t2, rest, h1, hrest, heq⟩ := List.forall₂_cons_left_iff.mp h
    obtain ⟨t3, rest2, h2, hrest2, heq2⟩ := List.forall₂_cons_left_iff.mp hrest
    have hnil : rest2 = [] := List.forall₂_nil_left_iff.mp hrest2
    subst hnil
    have e1 := h1 "0 */8 * * *" _ rfl (by decide) (Parse_eight_hourly _)
      (Or.inl ⟨Or.inr (Or.inr ⟨rfl, by decide⟩), eight_hourly_card⟩)
    have e2 := h2 "@every 1h" _ rfl (by decide) (Parse_every_hour _ rfl)
      (Or.inl ⟨Or.inr (Or.inr ⟨rfl, by decide⟩), every_hour_card⟩)
    rw [heq, heq2, e1, e2]

/-! ### The generators -/

/-- A schedule for one day of the month, up to the 28th, is activated at most
once in the window of the month: on that day of January, or, for the first of
the month at 00:00, on 2024-02-01 instead of 2024-01-01. -/
theorem monthly_card_month (s : SpecSchedule) (h mi d : Nat) (hS : s.Second = 1)
    (hM : s.Minute = 1 <<< mi) (hH : s.Hour = 1 <<< h) (hMo : s.Month = all months)
    (hDm : s.Dom = 1 <<< d) (hDw : s.Dow = all dow) (hmi : mi < 60) (hd1 : 1 ≤ d) :
    ((Finset.Ioo 63839664000 63842342401).filter (fun u => firesAt s u = true)).card ≤ 1 := by
  have hf : firstDay = 738885 := rfl
  have hs : spanDays = 2557 := rfl
  obtain ⟨j1, j2, _, _⟩ := days_2024
  have key : ∀ u, u ∈ (Finset.Ioo 63839664000 63842342401).filter
      (fun u => firesAt s u = true) →
      u = u / 86400 * 86400 + h * 3600 + mi * 60 ∧
      (u / 86400 = firstDay + (d - 1) ∨ (d = 1 ∧ u / 86400 = firstDay + 31)) := by
    intro u hu
    simp only [Finset.mem_filter, Finset.mem_Ioo] at hu
    obtain ⟨⟨u1, u2⟩, u3⟩ := hu
    obtain ⟨ha, hu4⟩ := (daily_firesAt s h mi hS hM hH hmi u).mp u3
    rw [activeDay_monthly s _ hMo hDw (by omega) (by omega), hDm, bitSet_one_shiftLeft] at ha
    simp only [decide_eq_true_eq] at ha
    refine ⟨hu4, ?_⟩
    obtain ⟨k, hk⟩ : ∃ k, u / 86400 = firstDay + k := ⟨u / 86400 - firstDay, by omega⟩
    rw [hk] at ha
    by_cases hk31 : k < 31
    · have := (j1 k hk31).2
      left
      omega
    · have e : firstDay + k = firstDay + 31 + 0 := by omega
      have := (j2 0 (by omega)).2
      rw [← e] at this
      right
      omega
  rw [Finset.card_le_one]
  intro a ha b hb
  obtain ⟨a1, a2⟩ := key a ha
  obtain ⟨b1, b2⟩ := key b hb
  simp only [Finset.mem_filter, Finset.mem_Ioo] at ha hb
  omega

/-- A cron of `generateMonthlyCron` runs at most `x` times a month, for any
`x` from 1 on. -/
theorem isExecutedAtMostXTimesAMonth_monthly_true (pd : String → Option Int)
    (rng : Nat → Nat) (i : Nat) (x : Int) (hx : 1 ≤ x) :
    isExecutedAtMostXTimesAMonth (robfig pd) (generateMonthlyCron rng i).1 x = some true := by
  have hp := Parse_generateMonthlyCron pd rng i
  rw [← macroToFields_of_not_macro _ (not_macro_generateMonthlyCron rng i)] at hp
  have h0 := Intn_lt rng i 60 (by norm_num)
  have h1 := Intn_lt rng (i + 1) 24 (by norm_num)
  have h2 := Intn_lt rng (i + 2) 28 (by norm_num)
  obtain ⟨c, hex⟩ := monthly_fires (⟨1, 1 <<< Intn rng i 60, 1 <<< Intn rng (i + 1) 24,
      1 <<< (Intn rng (i + 2) 28 + 1), all months, all dow⟩ : SpecSchedule) _ _
    (Intn rng (i + 2) 28 + 1) rfl rfl rfl rfl rfl
    (by rw [bitSet_one_shiftLeft]; simp) h1 h0 (by omega) (by omega)
  rw [isExecutedAtMostXTimesAMonth_daily pd _ x _ _ _ hp rfl rfl rfl h0 hex]
  have := monthly_card_month (⟨1, 1 <<< Intn rng i 60, 1 <<< Intn rng (i + 1) 24,
      1 <<< (Intn rng (i + 2) 28 + 1), all months, all dow⟩ : SpecSchedule) _ _ _
    rfl rfl rfl rfl rfl rfl h0 (show 1 ≤ Intn rng (i + 2) 28 + 1 by omega)
  rw [decide_eq_true (by omega)]

/-- C13: for every random draw, `generateYearlyCron` gives `M H D MON *` with
`D` from 1 to 28 and `MON` from 1 to 12, `generateMonthlyCron` gives
`M H D * *`, `generateBiWeeklyCron` gives `M H D1,D2 * *` with `D1` from 5 to
14 and `D2` from 15 to 28, and `generateWeeklyWeekendCron` gives `M H * * d`
with `d` 0 or 6, with `M` below 60 and `H` below 24; `cron.Parse` of `robfig`
parses each of them, and the validators return true without error:
`isExecutedAtMostOncePerYear` on the first, and `isExecutedAtMostXTimesAMonth`
with 1 on the second, with 2 on the third and with 5 on the fourth. -/
theorem C13_generated_crons_pass (parseDuration : String → Option Int) (rng : Nat → Nat)
    (i : Nat) :
    ((∃ m h d mon, m < 60 ∧ h < 24 ∧ 1 ≤ d ∧ d ≤ 28 ∧ 1 ≤ mon ∧ mon ≤ 12 ∧
        (generateYearlyCron rng i).1 = ⟨fmtNat m ++ ' ' :: (fmtNat h ++ ' ' ::
          (fmtNat d ++ ' ' :: (fmtNat mon ++ ' ' :: ['*'])))⟩) ∧
      (Parse parseDuration (generateYearlyCron rng i).1).isSome = true ∧
      isExecutedAtMostOncePerYear (robfig parseDuration) (generateYearlyCron rng i).1
        = some true) ∧
    ((∃ m h d, m < 60 ∧ h < 24 ∧ 1 ≤ d ∧ d ≤ 28 ∧
        (generateMonthlyCron rng i).1 = ⟨fmtNat m ++ ' ' :: (fmtNat h ++ ' ' ::
          (fmtNat d ++ ' ' :: (['*'] ++ ' ' :: ['*'])))⟩) ∧
      (Parse parseDuration (generateMonthlyCron rng i).1).isSome = true ∧
      isExecutedAtMostXTimesAMonth (robfig parseDuration) (generateMonthlyCron rng i).1 1
        = some true) ∧
    ((∃ m h d1 d2, m < 60 ∧ h < 24 ∧ 5 ≤ d1 ∧ d1 ≤ 14 ∧ 15 ≤ d2 ∧ d2 ≤ 28 ∧
        (generateBiWeeklyCron rng i).1 = ⟨fmtNat m ++ ' ' :: (fmtNat h ++ ' ' ::
          ((fmtNat d1 ++ ',' :: fmtNat d2) ++ ' ' :: (['*'] ++ ' ' :: ['*'])))⟩) ∧
      (Parse parseDuration (generateBiWeeklyCron rng i).1).isSome = true ∧
      isExecutedAtMostXTimesAMonth (robfig parseDuration) (generateBiWeeklyCron rng i).1 2
        = some true) ∧
    ((∃ m h d, m < 60 ∧ h < 24 ∧ (d = 0 ∨ d = 6) ∧
        (generateWeeklyWeekendCron rng i).1 = ⟨fmtNat m ++ ' ' :: (fmtNat h ++ ' ' ::
          (['*'] ++ ' ' :: (['*'] ++ ' ' :: fmtNat d)))⟩) ∧
      (Parse parseDuration (generateWeeklyWeekendCron rng i).1).isSome = true ∧
      isExecutedAtMostXTimesAMonth (robfig parseDuration) (generateWeeklyWeekendCron rng i).1 5
        = some true) := by
  have b60 := fun j => Intn_lt rng j 60 (by norm_num)
  have b24 := fun j => Intn_lt rng j 24 (by norm_num)
  have b28 := fun j => Intn_lt rng j 28 (by norm_num)
  have b12 := fun j => Intn_lt rng j 12 (by norm_num)
  have b10 := fun j => Intn_lt rng j 10 (by norm_num)
  have b14 := fun j => Intn_lt rng j 14 (by norm_num)
  refine ⟨⟨⟨_, _, _, _, b60 _, b24 _, ?_, ?_, ?_, ?_, generateYearlyCron_eq rng i⟩, ?_,
      isExecutedAtMostOncePerYear_generateYearlyCron parseDuration rng i⟩,
    ⟨⟨_, _, _, b60 _, b24 _, ?_, ?_, generateMonthlyCron_eq rng i⟩, ?_,
      isExecutedAtMostXTimesAMonth_monthly_true parseDuration rng i 1 (le_refl _)⟩,
    ⟨⟨_, _, _, _, b60 _, b24 _, ?_, ?_, ?_, ?_, generateBiWeeklyCron_eq rng i⟩, ?_,
      isExecutedAtMostXTimesAMonth_generateBiWeeklyCron parseDuration rng i 2 (le_refl _)⟩,
    ⟨⟨_, _, _, b60 _, b24 _, weekend_day rng i, generateWeeklyWeekendCron_eq rng i⟩, ?_,
      isExecutedAtMostXTimesAMonth_generateWeeklyWeekendCron parseDuration rng i 5
        (by norm_num)⟩⟩
  · omega
  · have := b28 (i + 1); omega
  · omega
  · have := b12 i; omega
  · rw [Parse_generateYearlyCron]; rfl
  · omega
  · have := b28 (i + 2); omega
  · rw [Parse_generateMonthlyCron]; rfl
  · omega
  · have := b10 (i + 2); omega
  · omega
  · have := b14 (i + 3); omega
  · rw [Parse_generateBiWeeklyCron]; rfl
  · rw [Parse_generateWeeklyWeekendCron]; rfl

end FrequencyReducer

namespace CiOperator

/-! ## The orchestrator: theorems -/

/-! ### Input hash -/

/-- Two permutations of a list of strings are sorted to the same list. -/
theorem Strings_perm (S : GoSort) (x y : List String) (h : x.Perm y) :
    S.Strings x = S.Strings y := by
  have key : ∀ z : List String, (S.Strings z).Pairwise (fun a b => decide (b < a) = false) :=
    fun z => S.sorted (fun a b => decide (a < b)) z
      (fun a => by simp)
      (fun a b c hab hbc => by
        simp only [decide_eq_true_eq] at hab hbc ⊢
        exact lt_trans hab hbc)
      (fun a b c hab hbc => by
        simp only [decide_eq_false_iff_not, not_lt] at hab hbc ⊢
        exact le_trans hbc hab)
  have hperm : (S.Strings x).Perm (S.Strings y) :=
    ((S.perm _ x).trans h).trans (S.perm _ y).symm
  have hle : ∀ z : List String, (S.Strings z).Sorted (fun a b => a ≤ b) := by
    intro z
    refine (key z).imp ?_
    intro a b hab
    simpa using hab
  exact List.eq_of_perm_of_sorted hperm (hle x) (hle y)

/-- C15: sorting a list of inputs and a permutation of it, as `resolveInputs`
does with `sort.Strings`, and applying `inputHash` gives the same hash, with
any sorting function that keeps the contract of `sort` and any digest. -/
theorem C15_hash_of_permuted_inputs (S : GoSort) (sha256 : List Nat → Digest)
    (inputs permuted : List String) (h : permuted.Perm inputs) :
    inputHash sha256 (S.Strings inputs) = inputHash sha256 (S.Strings permuted) ∧
    ∀ namespace0, resolveInputs S sha256 inputs namespace0
      = resolveInputs S sha256 permuted namespace0 := by
  have e := Strings_perm S permuted inputs h
  refine ⟨by rw [e], fun namespace0 => ?_⟩
  unfold resolveInputs
  rw [e]

/-- C15 at the inputs `b`, `a`, `c` and `c`, `a`, `b`, sorted by insertion. -/
theorem C15_witness :
    inputHash checkSum (insertionSort.Strings ["b", "a", "c"])
      = inputHash checkSum (insertionSort.Strings ["c", "a", "b"]) :=
  (C15_hash_of_permuted_inputs insertionSort checkSum ["b", "a", "c"] ["c", "a", "b"]
    (by decide)).1

/-- The characters of a quantum are eight characters of the alphabet. -/
theorem encodeQuantum_format (b0 b1 b2 b3 b4 : Nat) :
    (encodeQuantum oneWayNameAlphabet b0 b1 b2 b3 b4).length = 8 ∧
    ∀ c ∈ encodeQuantum oneWayNameAlphabet b0 b1 b2 b3 b4, c ∈ oneWayNameAlphabet := by
  unfold encodeQuantum
  refine ⟨by simp, ?_⟩
  intro c hc
  simp only [List.mem_map, List.mem_range] at hc
  obtain ⟨k, _, rfl⟩ := hc
  have hlen : oneWayNameAlphabet.length = 32 := by decide
  have hlt : ∀ v : Nat, v &&& 0x1F < oneWayNameAlphabet.length := by
    intro v
    rw [hlen]
    exact Nat.lt_succ_of_le Nat.and_le_right
  rw [List.getD_eq_getElem _ _ (hlt _)]
  exact List.getElem_mem _

/-- The first five bytes of a digest, encoded: eight characters of the
alphabet. -/
theorem encode_digest_format (d : Digest) :
    (EncodeToString oneWayNameAlphabet (d.bytes.take 5)).length = 8 ∧
    ∀ c ∈ EncodeToString oneWayNameAlphabet (d.bytes.take 5), c ∈ oneWayNameAlphabet := by
  obtain ⟨bytes, size, _⟩ := d
  match bytes, size with
  | b0 :: b1 :: b2 :: b3 :: b4 :: rest, _ =>
    have e : (b0 :: b1 :: b2 :: b3 :: b4 :: rest).take 5 = [b0, b1, b2, b3, b4] := rfl
    simp only [e, EncodeToString, List.append_nil]
    exact encodeQuantum_format b0 b1 b2 b3 b4

/-- C16: for every list of inputs `inputHash` returns a string of exactly 8
characters, each of the alphabet `bcdfghijklmnpqrstvwxyz0123456789`, the
encoding of the first five bytes of the digest without padding; and so does
`getHashFromBytes` for every sequence of bytes. -/
theorem C16_hash_format (sha256 : List Nat → Digest) (inputs : List String) (b : List Nat) :
    ((inputHash sha256 inputs).length = 8 ∧
      ∀ c ∈ (inputHash sha256 inputs).data, c ∈ "bcdfghijklmnpqrstvwxyz0123456789".data) ∧
    ((getHashFromBytes sha256 b).length = 8 ∧
      ∀ c ∈ (getHashFromBytes sha256 b).data, c ∈ "bcdfghijklmnpqrstvwxyz0123456789".data) :=
  ⟨encode_digest_format _, encode_digest_format _⟩

/-! ### Namespace -/

/-- Without an occurrence of `old` the loop of `strings.Replace` leaves the
text as it is. -/
theorem replaceLoop_of_not_contains (old new : List Char) :
    ∀ (s : List Char) (left : Nat), FrequencyReducer.containsSub s old = false →
      replaceLoop old new left 0 s = s := by
  intro s
  induction s with
  | nil => intro left _; cases left <;> rfl
  | cons c cs ih =>
    intro left h
    simp only [FrequencyReducer.containsSub, Bool.or_eq_false_iff] at h
    cases left with
    | zero => rfl
    | succ l =>
      simp only [replaceLoop, h.1, Bool.false_eq_true, if_false]
      rw [ih _ h.2]

/-- Passing over the runes of an occurrence just replaced. -/
theorem replaceLoop_skip (old new : List Char) (left : Nat) :
    ∀ (p s : List Char), replaceLoop old new left p.length (p ++ s)
      = replaceLoop old new left 0 s := by
  intro p
  induction p with
  | nil => intro s; rfl
  | cons c cs ih =>
    intro s
    simp only [List.length_cons, List.cons_append, replaceLoop]
    exact ih s

/-- A number of replacements above the length of the text is as good as any
other. -/
theorem replaceLoop_enough (old new : List Char) :
    ∀ (s : List Char) (left left2 skip : Nat), s.length < left → s.length < left2 →
      replaceLoop old new left skip s = replaceLoop old new left2 skip s := by
  intro s
  induction s with
  | nil => intro left left2 skip _ _; cases left <;> cases left2 <;> cases skip <;> rfl
  | cons c cs ih =>
    intro left left2 skip h1 h2
    simp only [List.length_cons] at h1 h2
    cases skip with
    | succ k =>
      simp only [replaceLoop]
      exact ih _ _ _ (by omega) (by omega)
    | zero =>
      obtain ⟨l, rfl⟩ : ∃ l, left = l + 1 := ⟨left - 1, by omega⟩
      obtain ⟨l2, rfl⟩ : ∃ l2, left2 = l2 + 1 := ⟨left2 - 1, by omega⟩
      simp only [replaceLoop]
      split
      · rw [ih l l2 _ (by omega) (by omega)]
      · rw [ih (l + 1) (l2 + 1) 0 (by omega) (by omega)]

/-- No occurrence of `{id}` starts in a text without one and ends in a
following `{id}`: the brace that opens it is its first rune only. -/
theorem startsWith_id_straddle (c : Char) (cs b : List Char)
    (h : FrequencyReducer.startsWith (c :: cs) "{id}".data = false) :
    FrequencyReducer.startsWith (c :: cs ++ ("{id}".data ++ b)) "{id}".data = false := by
  have e : "{id}".data = ['{', 'i', 'd', '}'] := rfl
  rw [e] at h ⊢
  match cs with
  | [] =>
    simp only [FrequencyReducer.startsWith, List.cons_append, List.nil_append,
      Bool.and_eq_false_imp, beq_iff_eq]
    intro _ h2
    exact absurd h2 (by decide)
  | [c1] =>
    simp only [FrequencyReducer.startsWith, List.cons_append, List.nil_append,
      Bool.and_eq_false_imp, beq_iff_eq]
    intro _ _ h2
    exact absurd h2 (by decide)
  | [c1, c2] =>
    simp only [FrequencyReducer.startsWith, List.cons_append, List.nil_append,
      Bool.and_eq_false_imp, beq_iff_eq]
    intro _ _ _ h2
    exact absurd h2 (by decide)
  | c1 :: c2 :: c3 :: rest =>
    simp only [FrequencyReducer.startsWith, List.cons_append, Bool.and_true,
      Bool.and_eq_false_imp, beq_iff_eq] at h ⊢
    exact h

/-- The loop of `strings.Replace` for `{id}` on a text without `{id}`,
followed by `{id}` and more text: the first text, `new`, and the loop on the
rest. -/
theorem replaceLoop_id (new : List Char) :
    ∀ (a b : List Char) (left : Nat), FrequencyReducer.containsSub a "{id}".data = false →
      replaceLoop "{id}".data new (left + 1) 0 (a ++ ("{id}".data ++ b))
        = a ++ (new ++ replaceLoop "{id}".data new left 0 b) := by
  intro a
  induction a with
  | nil =>
    intro b left _
    have e : "{id}".data = ['{', 'i', 'd', '}'] := rfl
    have hs : FrequencyReducer.startsWith ('{' :: ('i' :: 'd' :: '}' :: b)) ['{', 'i', 'd', '}']
        = true := by
      simp [FrequencyReducer.startsWith]
    have hk := replaceLoop_skip ['{', 'i', 'd', '}'] new left ['i', 'd', '}'] b
    rw [e]
    show replaceLoop ['{', 'i', 'd', '}'] new (left + 1) 0 ('{' :: ('i' :: 'd' :: '}' :: b))
      = new ++ replaceLoop ['{', 'i', 'd', '}'] new left 0 b
    rw [replaceLoop, if_pos hs]
    exact congrArg (fun t => new ++ t) hk
  | cons c cs ih =>
    intro b left h
    simp only [FrequencyReducer.containsSub, Bool.or_eq_false_iff] at h
    have hs := startsWith_id_straddle c cs b h.1
    rw [List.cons_append] at hs ⊢
    simp only [replaceLoop, hs, Bool.false_eq_true, if_false]
    rw [ih b left h.2]
    rfl

/-- `strings.Replace` of all `{id}` by a text other than `{id}`, as its
loop. -/
theorem Replace_id (s new : String) (hne : new ≠ "{id}") :
    Replace s "{id}" new (-1)
      = ⟨replaceLoop "{id}".data new.data (s.length + 1) 0 s.data⟩ := by
  unfold Replace
  have h1 : ¬ ("{id}" = new ∨ (-1 : Int) = 0) := by
    rintro (h | h)
    · exact hne h.symm
    · exact absurd h (by decide)
  have h2 : ¬ "{id}".data = [] := by decide
  rw [if_neg h1]
  simp only [h2, if_false]
  rfl

/-- `strings.Replace` of all `{id}` keeps a text without `{id}` as it is. -/
theorem Replace_id_of_not_contains (s new : String)
    (h : FrequencyReducer.Contains s "{id}" = false) : Replace s "{id}" new (-1) = s := by
  by_cases hne : new = "{id}"
  · unfold Replace
    rw [if_pos (Or.inl hne.symm)]
  · rw [Replace_id s new hne, replaceLoop_of_not_contains _ _ _ _ h]

/-- `strings.Replace` of all `{id}` in a text without `{id}`, followed by
`{id}` and more text: the first text, `new`, and what `strings.Replace` makes
of the rest. -/
theorem Replace_id_split (a b new : String) (h : FrequencyReducer.Contains a "{id}" = false) :
    Replace (a ++ "{id}" ++ b) "{id}" new (-1) = a ++ new ++ Replace b "{id}" new (-1) := by
  by_cases hne : new = "{id}"
  · unfold Replace
    rw [if_pos (Or.inl hne.symm), if_pos (Or.inl hne.symm), hne]
  · rw [Replace_id _ new hne, Replace_id b new hne]
    have hd : (a ++ "{id}" ++ b).data = a.data ++ ("{id}".data ++ b.data) := by
      simp [String.data_append]
    have hl : (a ++ "{id}" ++ b).length = a.length + 4 + b.length := by
      simp [String.length_append]
      rfl
    rw [hd, hl, replaceLoop_id new.data a.data b.data _ h,
      replaceLoop_enough _ _ b.data (a.length + 4 + b.length) (b.length + 1) 0
        (by show b.data.length < _; have : b.length = b.data.length := rfl; omega)
        (by show b.data.length < _; have : b.length = b.data.length := rfl; omega)]
    apply String.ext
    simp [String.data_append]

theorem utf8ByteSize_eq_zero (s : String) : s.utf8ByteSize = 0 ↔ s = "" := by
  obtain ⟨data⟩ := s
  cases data with
  | nil => exact ⟨fun _ => rfl, fun _ => rfl⟩
  | cons c cs =>
    constructor
    · intro h
      have hpos := Char.utf8Size_pos c
      have e : String.utf8ByteSize ⟨c :: cs⟩ = String.utf8ByteSize.go cs + c.utf8Size := rfl
      omega
    · intro h
      exact absurd (congrArg String.data h) (by simp)

/-- C17: `resolveInputs` sets the namespace to `ci-op-` followed by the input
hash when the value of `--namespace` is empty; it keeps a value without
`{id}` as it is; and in a value with `{id}` it puts the input hash for every
`{id}`: for the first one, and in the same way for those of the text after
it. -/
theorem C17_namespace (S : GoSort) (sha256 : List Nat → Digest) (inputs : List String) :
    (resolveInputs S sha256 inputs "").2 = "ci-op-" ++ (resolveInputs S sha256 inputs "").1 ∧
    (∀ namespace0 : String, namespace0 ≠ "" →
      FrequencyReducer.Contains namespace0 "{id}" = false →
      (resolveInputs S sha256 inputs namespace0).2 = namespace0) ∧
    (∀ a b : String, FrequencyReducer.Contains a "{id}" = false →
      (resolveInputs S sha256 inputs (a ++ "{id}" ++ b)).2
        = a ++ (resolveInputs S sha256 inputs (a ++ "{id}" ++ b)).1
          ++ Replace b "{id}" (resolveInputs S sha256 inputs (a ++ "{id}" ++ b)).1 (-1)) ∧
    ∀ namespace0 : String,
      (resolveInputs S sha256 inputs namespace0).1 = inputHash sha256 (S.Strings inputs) := by
  refine ⟨?_, ?_, ?_, fun _ => rfl⟩
  · have h := Replace_id_split "ci-op-" "" (inputHash sha256 (S.Strings inputs)) (by decide)
    have e : Replace "" "{id}" (inputHash sha256 (S.Strings inputs)) (-1) = "" :=
      Replace_id_of_not_contains _ _ (by decide)
    rw [e] at h
    have e2 : ("ci-op-" ++ "{id}" ++ "" : String) = "ci-op-{id}" := by decide
    rw [e2] at h
    unfold resolveInputs
    simp only [(utf8ByteSize_eq_zero "").mpr rfl, if_true]
    rw [h]
    apply String.ext
    simp [String.data_append]
  · intro namespace0 hne hc
    unfold resolveInputs
    have : ¬ namespace0.utf8ByteSize = 0 := fun h => hne ((utf8ByteSize_eq_zero _).mp h)
    simp only [this, if_false]
    exact Replace_id_of_not_contains _ _ hc
  · intro a b ha
    unfold resolveInputs
    have : ¬ (a ++ "{id}" ++ b).utf8ByteSize = 0 := by
      intro h
      have := congrArg String.length ((utf8ByteSize_eq_zero _).mp h)
      simp only [String.length_append] at this
      have h4 : "{id}".length = 4 := rfl
      have h0 : "".length = 0 := rfl
      omega
    simp only [this, if_false]
    exact Replace_id_split a b _ ha

/-! ### JUnit suites -/

/-- One call of `sortSuite`, unfolded. -/
theorem sortSuite_mk (S : GoSort) (name : String) (numTests numFailed : Nat)
    (properties : List TestSuiteProperty) (testCases : List TestCase)
    (children : List TestSuite) :
    sortSuite S (.mk name numTests numFailed properties testCases children) =
      .mk name numTests numFailed
        (S.Slice (fun a b => decide (a.Name < b.Name)) properties)
        (S.Slice (fun a b => decide (a.Name < b.Name)) testCases)
        ((S.Slice (fun a b => decide (a.Name < b.Name)) children).map (sortSuite S)) := by
  rw [sortSuite]
  congr 1
  rw [List.map_attach]
  exact (List.pmap_eq_map _ _ _ _)

/-- The suite keeps its name. -/
theorem sortSuite_Name (S : GoSort) (suite : TestSuite) :
    (sortSuite S suite).Name = suite.Name := by
  cases suite
  rw [sortSuite_mk]
  rfl

/-- What `sort.Slice` with the comparison of a name returns is in
non-decreasing order of the name. -/
theorem Slice_by_name (S : GoSort) {α : Type} (nm : α → String) (x : List α) :
    (S.Slice (fun a b => decide (nm a < nm b)) x).Pairwise (fun a b => nm a ≤ nm b) := by
  have h := S.sorted (fun a b => decide (nm a < nm b)) x
    (fun a => decide_eq_false (lt_irrefl _))
    (fun a b c hab hbc => decide_eq_true
      (lt_trans (of_decide_eq_true hab) (of_decide_eq_true hbc)))
    (fun a b c hab hbc => decide_eq_false (fun hac =>
      (of_decide_eq_false hab) (lt_of_lt_of_le hac (not_lt.mp (of_decide_eq_false hbc)))))
  exact h.imp (fun hba => not_lt.mp (of_decide_eq_false hba))

/-- A sorted suite is in order at every level. -/
theorem sortSuite_InOrder (S : GoSort) :
    ∀ (n : Nat) (suite : TestSuite), sizeOf suite ≤ n → InOrder (sortSuite S suite) := by
  intro n
  induction n with
  | zero =>
    intro suite h
    cases suite
    simp only [TestSuite.mk.sizeOf_spec] at h
    omega
  | succ n ih =>
    intro suite h
    cases suite with
    | mk name numTests numFailed properties testCases children =>
      rw [sortSuite_mk]
      refine InOrder.mk _ _ _ _ _ _ (Slice_by_name S _ _) (Slice_by_name S _ _) ?_ ?_
      · rw [List.pairwise_map]
        refine (Slice_by_name S (fun c : TestSuite => c.Name) children).imp ?_
        intro a b hab
        rw [sortSuite_Name, sortSuite_Name]
        exact hab
      · intro c hc
        obtain ⟨d, hd, rfl⟩ := List.mem_map.mp hc
        have hmem : d ∈ children := (S.perm _ children).mem_iff.mp hd
        have hlt := List.sizeOf_lt_of_mem hmem
        simp only [TestSuite.mk.sizeOf_spec] at h
        exact ih d (by omega)

/-- A sorted suite is the suite rearranged, at every level. -/
theorem sortSuite_Rearranged (S : GoSort) :
    ∀ (n : Nat) (suite : TestSuite), sizeOf suite ≤ n →
      Rearranged suite (sortSuite S suite) := by
  intro n
  induction n with
  | zero =>
    intro suite h
    cases suite
    simp only [TestSuite.mk.sizeOf_spec] at h
    omega
  | succ n ih =>
    intro suite h
    cases suite with
    | mk name numTests numFailed properties testCases children =>
      rw [sortSuite_mk]
      refine Rearranged.mk _ _ _ _ _ _ _ _ _ (sortSuite S) (S.perm _ _) (S.perm _ _)
        (S.perm _ _) ?_
      intro d hd
      have hmem : d ∈ children := (S.perm _ children).mem_iff.mp hd
      have hlt := List.sizeOf_lt_of_mem hmem
      simp only [TestSuite.mk.sizeOf_spec] at h
      exact ih d (by omega)

/-- The suite of the example, sorted by insertion. -/
theorem sortSuite_example :
    sortSuite insertionSort
      (.mk "job" 2 1 [⟨"zone", "a"⟩, ⟨"arch", "b"⟩] [⟨"t2", none⟩, ⟨"t1", none⟩]
        [.mk "s2" 0 0 [] [] [], .mk "s1" 1 0 [] [⟨"b", none⟩, ⟨"a", none⟩] []]) =
      .mk "job" 2 1 [⟨"arch", "b"⟩, ⟨"zone", "a"⟩] [⟨"t1", none⟩, ⟨"t2", none⟩]
        [.mk "s1" 1 0 [] [⟨"a", none⟩, ⟨"b", none⟩] [], .mk "s2" 0 0 [] [] []] := by
  rw [sortSuite_mk]
  have e1 : insertionSort.Slice (fun a b : TestSuiteProperty => decide (a.Name < b.Name))
      [⟨"zone", "a"⟩, ⟨"arch", "b"⟩] = [⟨"arch", "b"⟩, ⟨"zone", "a"⟩] := by
    simp [insertionSort, List.insertionSort, List.orderedInsert]
    decide
  have e2 : insertionSort.Slice (fun a b : TestCase => decide (a.Name < b.Name))
      [⟨"t2", none⟩, ⟨"t1", none⟩] = [⟨"t1", none⟩, ⟨"t2", none⟩] := by
    simp [insertionSort, List.insertionSort, List.orderedInsert]
    decide
  have e3 : insertionSort.Slice (fun a b : TestCase => decide (a.Name < b.Name))
      [⟨"b", none⟩, ⟨"a", none⟩] = [⟨"a", none⟩, ⟨"b", none⟩] := by
    simp [insertionSort, List.insertionSort, List.orderedInsert]
    decide
  have e4 : insertionSort.Slice (fun a b : TestCase => decide (a.Name < b.Name))
      [] = [] := rfl
  have e5 : insertionSort.Slice (fun a b : TestSuiteProperty => decide (a.Name < b.Name))
      [] = [] := rfl
  have e6 : insertionSort.Slice (fun a b : TestSuite => decide (a.Name < b.Name))
      [] = [] := rfl
  have e7 : insertionSort.Slice (fun a b : TestSuite => decide (a.Name < b.Name))
      [.mk "s2" 0 0 [] [] [], .mk "s1" 1 0 [] [⟨"b", none⟩, ⟨"a", none⟩] []] =
      [.mk "s1" 1 0 [] [⟨"b", none⟩, ⟨"a", none⟩] [], .mk "s2" 0 0 [] [] []] := by
    simp [insertionSort, List.insertionSort, List.orderedInsert, TestSuite.Name]
    decide
  rw [e1, e2, e7]
  simp only [List.map_cons, List.map_nil, sortSuite_mk, e3, e4, e5, e6]

/-- C18: for every sort function that keeps the contract of the package
`sort`, the suite that `sortSuite` returns has, at every level, its
properties, its child suites and its test cases in non-decreasing order of
the name, and it is the given suite rearranged at every level: each of the
three lists is a permutation of the list before, the child suites being
sorted in turn. -/
theorem C18_sorted_at_every_level (S : GoSort) (suite : TestSuite) :
    InOrder (sortSuite S suite) ∧ Rearranged suite (sortSuite S suite) :=
  ⟨sortSuite_InOrder S _ suite (le_refl _), sortSuite_Rearranged S _ suite (le_refl _)⟩

/-! ### The JUnit of a failed start -/

/-- The search in a list is the search in each of its errors. -/
theorem errorsIsAny_eq_any (l : List GoError) : errorsIsAny l = l.any errorsIs := by
  induction l with
  | nil => rw [errorsIsAny]; rfl
  | cons a l ih => rw [errorsIsAny, List.any_cons, ih]

/-- `errors.Is` finds an `errWroteJUnit` in every covered error. -/
theorem errorsIs_of_Covered (err : GoError) (h : Covered err) : errorsIs err = true := by
  induction h with
  | self wrapped => rw [errorsIs]
  | wraps message unwrap err hmem _ ih =>
    rw [errorsIs, errorsIsAny_eq_any]
    exact List.any_eq_true.mpr ⟨err, hmem, ih⟩

/-- An error in which `errors.Is` finds an `errWroteJUnit` is covered. -/
theorem Covered_of_errorsIs :
    ∀ (n : Nat) (err : GoError), sizeOf err ≤ n → errorsIs err = true → Covered err := by
  intro n
  induction n with
  | zero =>
    intro err h
    cases err <;> simp at h
  | succ n ih =>
    intro err h his
    cases err with
    | errWroteJUnit wrapped => exact Covered.self wrapped
    | other message unwrap =>
      rw [errorsIs, errorsIsAny_eq_any] at his
      obtain ⟨e, hmem, he⟩ := List.any_eq_true.mp his
      have hlt := List.sizeOf_lt_of_mem hmem
      simp only [GoError.other.sizeOf_spec] at h
      exact Covered.wraps message unwrap e hmem (ih e (by omega) he)

/-- `errors.Is` finds an `errWroteJUnit` exactly in the covered errors. -/
theorem errorsIs_iff (err : GoError) : errorsIs err = true ↔ Covered err :=
  ⟨Covered_of_errorsIs _ err (le_refl _), errorsIs_of_Covered err⟩

/-- The test cases: one for each error that is not covered, in the order of
the errors. -/
theorem failingTestCases_eq (errs : List GoError) :
    failingTestCases errs =
      (errs.filter (fun err => !errorsIs err)).map
        (fun err => (⟨"initialize", some ⟨"", err.Error⟩⟩ : TestCase)) := by
  induction errs with
  | nil => rfl
  | cons err rest ih =>
    rw [failingTestCases]
    cases h : errorsIs err
    · rw [if_neg (by simp), List.filter_cons_of_pos (by simp [h]), List.map_cons, ih]
    · rw [if_pos rfl, List.filter_cons_of_neg (by simp [h]), ih]

/-- There is no test case exactly when every error is covered. -/
theorem failingTestCases_eq_nil (errs : List GoError) :
    failingTestCases errs = [] ↔ ∀ err ∈ errs, Covered err := by
  rw [failingTestCases_eq, List.map_eq_nil_iff, List.filter_eq_nil_iff]
  constructor
  · intro h err hmem
    have := h err hmem
    exact (errorsIs_iff err).mp (by simpa using this)
  · intro h err hmem
    have := (errorsIs_iff err).mpr (h err hmem)
    simp [this]

/-- The errors of the example: the second wraps an `errWroteJUnit`. -/
theorem writeFailingJUnit_example :
    writeFailingJUnit insertionSort id
      [.other "could not resolve inputs" [],
       .other "step failed: boom" [.errWroteJUnit (.other "boom" [])],
       .other "b" []] =
      some ("junit_job.xml",
        [.mk "job" 3 3 [] [⟨"initialize", some ⟨"", "could not resolve inputs"⟩⟩,
          ⟨"initialize", some ⟨"", "b"⟩⟩] []]) := by
  simp [writeFailingJUnit, failingTestCases, errorsIs, errorsIsAny, GoError.Error, writeJUnit,
    insertionSort, List.insertionSort, List.orderedInsert, sortSuite_mk]

/-- C19: the test cases that `writeFailingJUnit` builds are one test case
named `initialize` for each given error that is not covered (that neither is
nor wraps an `errWroteJUnit`), in the order of the errors, each with the text
of the error as the output of its failure; `errors.Is` tells exactly the
covered errors; nothing is written exactly when every given error is covered,
and otherwise the file `junit_job.xml` is written with the one suite `job` of
these test cases, censored and sorted. -/
theorem C19_failing_junit (S : GoSort) (censor : TestSuite → TestSuite) (errs : List GoError) :
    failingTestCases errs =
      (errs.filter (fun err => !errorsIs err)).map
        (fun err => (⟨"initialize", some ⟨"", err.Error⟩⟩ : TestCase)) ∧
    (∀ err : GoError, errorsIs err = true ↔ Covered err) ∧
    (writeFailingJUnit S censor errs = none ↔ ∀ err ∈ errs, Covered err) ∧
    (writeFailingJUnit S censor errs =
        some ("junit_job.xml",
          [sortSuite S (censor
            (.mk "job" errs.length errs.length [] (failingTestCases errs) []))]) ↔
      ∃ err ∈ errs, ¬ Covered err) := by
  have hsingle : ∀ suite : TestSuite,
      S.Slice (fun a b : TestSuite => decide (a.Name < b.Name)) [suite] = [suite] :=
    fun suite => List.perm_singleton.mp (S.perm _ [suite])
  have hname : "junit_" ++ "job" ++ ".xml" = "junit_job.xml" := by decide
  refine ⟨failingTestCases_eq errs, errorsIs_iff, ?_, ?_⟩
  · rw [← failingTestCases_eq_nil]
    unfold writeFailingJUnit
    simp only [List.length_eq_zero]
    by_cases h : failingTestCases errs = []
    · simp only [h, if_true]
    · simp only [h, if_false, writeJUnit]
      exact ⟨fun hc => Option.noConfusion hc, fun hc => absurd hc (fun hc => hc)⟩
  · have hex : (∃ err ∈ errs, ¬ Covered err) ↔ ¬ failingTestCases errs = [] := by
      rw [failingTestCases_eq_nil]
      push_neg
      rfl
    rw [hex]
    unfold writeFailingJUnit
    simp only [List.length_eq_zero]
    by_cases h : failingTestCases errs = []
    · simp only [h, if_true, not_true, iff_false]
      exact fun hc => Option.noConfusion hc
    · simp only [h, if_false, writeJUnit, hsingle, List.map_cons, List.map_nil, hname,
        not_false_eq_true]

/-! ### Access of the authors -/

/-- The binding for one author, with the group `alice-group`. -/
theorem generateAuthorAccessRoleBinding_example :
    generateAuthorAccessRoleBinding insertionSort (fun author => author ++ "-group")
      "ci-op-abc" ["alice"] =
      { Name := "ci-op-author-access",
        Namespace := "ci-op-abc",
        Subjects := [{ Kind := "Group", Name := "alice-group" }],
        RoleRef := { Kind := "ClusterRole", Name := "admin" } } := by
  decide

/-- C20: the role of the binding that `generateAuthorAccessRoleBinding`
builds is the cluster role `admin`, for every namespace and all authors; it is
not the role `view`. -/
theorem C20_author_role_is_admin (S : GoSort) (GitHubUserGroup : String → String)
    (namespace0 : String) (authors : List String) :
    (generateAuthorAccessRoleBinding S GitHubUserGroup namespace0 authors).RoleRef =
      { Kind := "ClusterRole", Name := "admin" } ∧
    (generateAuthorAccessRoleBinding S GitHubUserGroup namespace0 authors).RoleRef.Name
      ≠ "view" :=
  ⟨rfl, show "admin" ≠ "view" by decide⟩

/-! ### The input hash and the concatenation of the inputs -/

/-- The bytes of a concatenation of strings. -/
theorem bytesOf_join (inputs : List String) :
    bytesOf (String.join inputs) = inputs.flatMap bytesOf := by
  have hdata : ∀ (l : List String) (acc : String),
      (l.foldl (fun r s => r ++ s) acc).data = acc.data ++ l.flatMap (fun s => s.data) := by
    intro l
    induction l with
    | nil => intro acc; simp
    | cons a l ih =>
      intro acc
      rw [List.foldl_cons, ih, String.data_append, List.flatMap_cons, List.append_assoc]
  have hnil : ("" : String).data = [] := rfl
  unfold String.join
  unfold bytesOf
  rw [hdata, hnil, List.nil_append]
  induction inputs with
  | nil => rfl
  | cons a l ih => rw [List.flatMap_cons, List.flatMap_cons, List.flatMap_append, ih]

/-- C29: the input hash of a list of inputs is the input hash of the one
string that is their concatenation, so two lists whose inputs concatenate to
the same bytes have the same hash. -/
theorem C29_hash_of_concatenation (sha256 : List Nat → Digest) (a : List String) :
    inputHash sha256 a = inputHash sha256 [String.join a] ∧
    ∀ b : List String, a.flatMap bytesOf = b.flatMap bytesOf →
      inputHash sha256 a = inputHash sha256 b := by
  constructor
  · unfold inputHash
    rw [List.flatMap_cons, List.flatMap_nil, List.append_nil, bytesOf_join]
  · intro b h
    unfold inputHash
    rw [h]

/-- C29 at the inputs `ab`, `c` and `a`, `bc`. -/
theorem C29_witness :
    inputHash checkSum ["ab", "c"] = inputHash checkSum ["a", "bc"] :=
  (C29_hash_of_concatenation checkSum ["ab", "c"]).2 ["a", "bc"] (by decide)

/-! ### Parameters of the form `key=value` -/

/-- `strings.Split` gives one piece more than there are separators. -/
theorem splitOnChar_length (sep : Char) (s : List Char) :
    (FrequencyReducer.splitOnChar sep s).length = s.count sep + 1 := by
  induction s with
  | nil => rfl
  | cons c cs ih =>
    unfold FrequencyReducer.splitOnChar
    by_cases h : c = sep
    · rw [if_pos h, List.length_cons, ih, h, List.count_cons_self]
    · rw [if_neg h, List.count_cons_of_ne (fun e => h e.symm)]
      cases hs : FrequencyReducer.splitOnChar sep cs with
      | nil => exact absurd hs (FrequencyReducer.splitOnChar_ne_nil sep cs)
      | cons p ps =>
        rw [hs] at ih
        simpa using ih

/-- The two pieces of a text with one separator. -/
theorem splitOnChar_of_count_one (sep : Char) (s : List Char) (h : s.count sep = 1) :
    FrequencyReducer.splitOnChar sep s =
      [s.takeWhile (fun c => c != sep), (s.dropWhile (fun c => c != sep)).drop 1] := by
  induction s with
  | nil => simp at h
  | cons c cs ih =>
    unfold FrequencyReducer.splitOnChar
    by_cases hc : c = sep
    · subst hc
      rw [if_pos rfl]
      rw [List.count_cons_self] at h
      have h0 : cs.count c = 0 := by omega
      have hnot : c ∉ cs := List.count_eq_zero.mp h0
      rw [FrequencyReducer.splitOnChar_of_not_mem c cs hnot]
      simp
    · rw [if_neg hc]
      rw [List.count_cons_of_ne (fun e => hc e.symm)] at h
      rw [ih h]
      simp [hc]

/-- The loop of `parseKeyValParams`, by the parameters with one `=` and the
others. -/
theorem parseKeyValParamsLoop_eq (paramType : String) (input : List String) :
    ∀ (params : List (String × String)) (validationErrors : List String),
    parseKeyValParamsLoop paramType input (params, validationErrors) =
      ((input.filter (fun param => param.data.count '=' = 1)).foldl
          (fun m param => mapSet m (paramName param) (paramValue param)) params,
        validationErrors ++
          (input.filter (fun param => ¬ param.data.count '=' = 1)).map
            (fun param => "could not parse " ++ paramType ++ ": " ++ param ++
              " is not in the format key=value")) := by
  induction input with
  | nil => intro params errs; simp [parseKeyValParamsLoop]
  | cons param rest ih =>
    intro params errs
    rw [parseKeyValParamsLoop]
    by_cases h : param.data.count '=' = 1
    · rw [splitOnChar_of_count_one '=' param.data h]
      simp only
      rw [ih, List.filter_cons_of_pos (by simpa using h),
        List.filter_cons_of_neg (by simpa using h), List.foldl_cons]
      rfl
    · have hlen := splitOnChar_length '=' param.data
      have hne : ∀ a b : List Char, FrequencyReducer.splitOnChar '=' param.data ≠ [a, b] := by
        intro a b hab
        rw [hab] at hlen
        simp only [List.length_cons, List.length_nil] at hlen
        omega
      have hstep : ∀ l : List (List Char), (∀ a b : List Char, l ≠ [a, b]) →
          (match l with
            | [name, val] =>
              parseKeyValParamsLoop paramType rest
                (mapSet params ⟨TrimSpace name⟩ ⟨TrimSpace val⟩, errs)
            | _ =>
              parseKeyValParamsLoop paramType rest
                (params, errs ++
                  ["could not parse " ++ paramType ++ ": " ++ param ++
                    " is not in the format key=value"])) =
            parseKeyValParamsLoop paramType rest
              (params, errs ++
                ["could not parse " ++ paramType ++ ": " ++ param ++
                  " is not in the format key=value"]) := by
        intro l hl
        split
        · rename_i name val
          exact absurd rfl (hl name val)
        · rfl
      rw [hstep _ hne, ih, List.filter_cons_of_neg (by simpa using h),
        List.filter_cons_of_pos (by simpa using h), List.map_cons, List.append_assoc]
      rfl

/-- The value of a key after an assignment. -/
theorem mapGet_mapSet {V : Type} (m : List (String × V)) (k : String) (v : V) (key : String) :
    mapGet (mapSet m k v) key = if k = key then some v else mapGet m key := by
  induction m with
  | nil =>
    by_cases h : k = key
    · simp [mapSet, mapGet, h]
    · simp [mapSet, mapGet, h]
  | cons entry m ih =>
    rw [mapSet]
    by_cases he : entry.1 = k
    · rw [if_pos he]
      by_cases h : k = key
      · simp [mapGet, h]
      · have : ¬ entry.1 = key := fun hc => h (he.symm.trans hc)
        simp [mapGet, h, this]
    · rw [if_neg he]
      by_cases hek : entry.1 = key
      · have : ¬ k = key := fun hc => he (hek.trans hc.symm)
        simp [mapGet, hek, this]
      · unfold mapGet at ih ⊢
        simp only [List.find?_cons, hek, decide_False]
        exact ih

/-- The value of a key after assignments in a row: the value of the last
assignment to the key, or the value before when there is none. -/
theorem mapGet_foldl_mapSet {V P : Type} (k : P → String) (v : P → V) (l : List P) :
    ∀ (m : List (String × V)) (key : String),
    mapGet (l.foldl (fun m p => mapSet m (k p) (v p)) m) key =
      match l.reverse.find? (fun p => k p = key) with
      | some p => some (v p)
      | none => mapGet m key := by
  induction l using List.reverseRecOn with
  | nil => intro m key; rfl
  | append_singleton l a ih =>
    intro m key
    rw [List.foldl_append, List.foldl_cons, List.foldl_nil, mapGet_mapSet, List.reverse_append,
      List.reverse_singleton, List.singleton_append, List.find?_cons]
    by_cases h : k a = key
    · simp [h]
    · simp only [h, if_false, decide_False]
      exact ih m key

/-- C28: `parseKeyValParams` returns an error exactly when some parameter does
not have exactly one `=`, that is, when `strings.Split` on `=` does not give
two parts; when every parameter has exactly one `=` it returns a map, and the
value of a name in the map is the trimmed value of the last parameter whose
trimmed name is that name, and the name is not in the map when no parameter
has it. -/
theorem C28_key_value_params (input : List String) (paramType : String) :
    ((∃ errs, parseKeyValParams input paramType = .error errs) ↔
      ∃ param ∈ input, ¬ param.data.count '=' = 1) ∧
    ((∀ param ∈ input, param.data.count '=' = 1) →
      ∃ params, parseKeyValParams input paramType = .ok params ∧
        ∀ name : String, mapGet params name =
          (input.reverse.find? (fun param => paramName param = name)).map paramValue) ∧
    (∀ param : String,
      (FrequencyReducer.splitOnChar '=' param.data).length = 2 ↔ param.data.count '=' = 1) := by
  have hres := parseKeyValParamsLoop_eq paramType input [] []
  refine ⟨?_, ?_, ?_⟩
  · unfold parseKeyValParams
    simp only
    rw [hres]
    simp only [List.nil_append, List.length_map]
    constructor
    · rintro ⟨errs, he⟩
      by_cases hpos : (input.filter (fun param => ¬ param.data.count '=' = 1)).length > 0
      · obtain ⟨param, hp⟩ := List.exists_mem_of_length_pos hpos
        have hm := List.mem_filter.mp hp
        exact ⟨param, hm.1, by simpa using hm.2⟩
      · rw [if_neg hpos] at he
        exact Except.noConfusion he
    · rintro ⟨param, hmem, hbad⟩
      have hp : param ∈ input.filter (fun param => ¬ param.data.count '=' = 1) :=
        List.mem_filter.mpr ⟨hmem, by simpa using hbad⟩
      have hpos := List.length_pos_of_mem hp
      rw [if_pos hpos]
      exact ⟨_, rfl⟩
  · intro hall
    have hbad : input.filter (fun param => ¬ param.data.count '=' = 1) = [] := by
      rw [List.filter_eq_nil_iff]
      intro param hmem
      simpa using hall param hmem
    have hgood : input.filter (fun param => param.data.count '=' = 1) = input := by
      rw [List.filter_eq_self]
      intro param hmem
      simpa using hall param hmem
    unfold parseKeyValParams
    simp only
    rw [hres, hbad, hgood]
    refine ⟨_, rfl, ?_⟩
    intro name
    rw [mapGet_foldl_mapSet paramName paramValue input [] name]
    cases input.reverse.find? (fun param => paramName param = name) with
    | none => rfl
    | some p => rfl
  · intro param
    rw [splitOnChar_length]
    omega

/-- C28 at three parameters, the third with the name of the first. -/
theorem C28_witness :
    ∃ params, parseKeyValParams ["A=1", " B = x ", "A=2"] "multi-stage-param" = .ok params ∧
      ∀ name : String, mapGet params name =
        ((["A=1", " B = x ", "A=2"] : List String).reverse.find?
          (fun param => paramName param = name)).map paramValue :=
  (C28_key_value_params ["A=1", " B = x ", "A=2"] "multi-stage-param").2.1 (by decide)

/-- The parameters of the example, parsed. -/
theorem parseKeyValParams_example :
    parseKeyValParams ["A=1", " B = x ", "A=2"] "multi-stage-param" =
      .ok [("A", "2"), ("B", "x")] ∧
    parseKeyValParams ["A=1", "B", "C=1=2"] "multi-stage-param" =
      .error ["could not parse multi-stage-param: B is not in the format key=value",
        "could not parse multi-stage-param: C=1=2 is not in the format key=value"] := by
  constructor <;> rfl

/-! ### The additional suffix of the targets -/

/-- Trimming the suffix that was added gives the name back. -/
theorem TrimSuffix_added (x suffix : String) :
    TrimSuffix (x ++ "-" ++ suffix) ("-" ++ suffix) = x := by
  unfold TrimSuffix endsWith
  have hd : (x ++ "-" ++ suffix).data = x.data ++ ("-" ++ suffix).data := by
    simp only [String.data_append, List.append_assoc]
  have hs : FrequencyReducer.startsWith (x ++ "-" ++ suffix).data.reverse
      ("-" ++ suffix).data.reverse = true := by
    rw [hd, List.reverse_append]
    exact (FrequencyReducer.startsWith_iff _ _).mpr ⟨_, rfl⟩
  rw [if_pos hs, hd]
  simp

/-- The targets after the inner loop: the targets before, or the new name. -/
theorem renameFirstTarget_mem (testAs targetWithSuffix : String) :
    ∀ (targets : List String) (j : Nat) (g : String),
      g ∈ (renameFirstTarget testAs targetWithSuffix targets j).1 →
        g ∈ targets ∨ g = targetWithSuffix := by
  intro targets
  induction targets with
  | nil => intro j g h; simp [renameFirstTarget] at h
  | cons target rest ih =>
    intro j g h
    rw [renameFirstTarget] at h
    by_cases ht : testAs = target
    · rw [if_pos ht] at h
      rcases List.mem_cons.mp h with h1 | h1
      · exact Or.inr h1
      · exact Or.inl (List.mem_cons_of_mem _ h1)
    · rw [if_neg ht] at h
      rcases List.mem_cons.mp h with h1 | h1
      · exact Or.inl (h1 ▸ List.mem_cons_self _ _)
      · rcases ih (j + 1) g h1 with h2 | h2
        · exact Or.inl (List.mem_cons_of_mem _ h2)
        · exact Or.inr h2

/-- A target that is not the name of the test stays after the inner loop. -/
theorem renameFirstTarget_keeps (testAs targetWithSuffix : String) :
    ∀ (targets : List String) (j : Nat) (g : String), g ∈ targets → g ≠ testAs →
      g ∈ (renameFirstTarget testAs targetWithSuffix targets j).1 := by
  intro targets
  induction targets with
  | nil => intro j g h; simp at h
  | cons target rest ih =>
    intro j g h hne
    rw [renameFirstTarget]
    by_cases ht : testAs = target
    · rw [if_pos ht]
      rcases List.mem_cons.mp h with h1 | h1
      · exact absurd (h1.trans ht.symm) hne
      · exact List.mem_cons_of_mem _ h1
    · rw [if_neg ht]
      rcases List.mem_cons.mp h with h1 | h1
      · exact h1 ▸ List.mem_cons_self _ _
      · exact List.mem_cons_of_mem _ (ih (j + 1) g h1 hne)

/-- The inner loop finds a target exactly when the name of the test is one,
and then the new name is among the targets after it. -/
theorem renameFirstTarget_found (testAs targetWithSuffix : String) :
    ∀ (targets : List String) (j : Nat),
      (testAs ∈ targets →
        (∃ k, (renameFirstTarget testAs targetWithSuffix targets j).2 = some k) ∧
        targetWithSuffix ∈ (renameFirstTarget testAs targetWithSuffix targets j).1) ∧
      (testAs ∉ targets →
        renameFirstTarget testAs targetWithSuffix targets j = (targets, none)) := by
  intro targets
  induction targets with
  | nil => intro j; simp [renameFirstTarget]
  | cons target rest ih =>
    intro j
    rw [renameFirstTarget]
    by_cases ht : testAs = target
    · rw [if_pos ht]
      refine ⟨fun _ => ⟨⟨j, rfl⟩, List.mem_cons_self _ _⟩, fun h => ?_⟩
      exact absurd (ht ▸ List.mem_cons_self _ _) h
    · rw [if_neg ht]
      constructor
      · intro h
        have hr : testAs ∈ rest := by
          rcases List.mem_cons.mp h with h1 | h1
          · exact absurd h1 ht
          · exact h1
        obtain ⟨⟨k, hk⟩, hm⟩ := (ih (j + 1)).1 hr
        exact ⟨⟨k, hk⟩, List.mem_cons_of_mem _ hm⟩
      · intro h
        have hr : testAs ∉ rest := fun hc => h (List.mem_cons_of_mem _ hc)
        rw [(ih (j + 1)).2 hr]

/-- A target that is the name of none of the tests that are left stays to the
end of the loop. -/
theorem handleTargetAdditionalSuffixLoop_keeps (suffix : String) :
    ∀ (rest : List TestStepConfiguration) (targets : List String) (target g : String),
      g ∈ targets → (∀ y ∈ rest, y.As ≠ g) →
        g ∈ (handleTargetAdditionalSuffixLoop suffix rest targets target).2.1 := by
  intro rest
  induction rest with
  | nil => intro targets target g hg _; exact hg
  | cons test rest ih =>
    intro targets target g hg hne
    have hne1 : g ≠ test.As := fun e => hne test (List.mem_cons_self _ _) e.symm
    have hne2 : ∀ y ∈ rest, y.As ≠ g := fun y hy => hne y (List.mem_cons_of_mem _ hy)
    rw [handleTargetAdditionalSuffixLoop]
    split
    · rename_i targets2 j heq
      have hk := renameFirstTarget_keeps test.As (test.As ++ "-" ++ suffix) targets 0 g hg hne1
      rw [heq] at hk
      exact ih targets2 _ g hk hne2
    · exact ih targets target g hg hne2

/-- Every target at the end of the loop was a target before the loop or is
not the name of a test, when no target that is the name of a test gives the
name of a test with the suffix added. -/
theorem handleTargetAdditionalSuffixLoop_targets (suffix : String) (N : String → Prop) :
    ∀ (rest : List TestStepConfiguration) (targets : List String) (target : String),
      (∀ y ∈ rest, N y.As) →
      (∀ g ∈ targets, N g → ¬ N (g ++ "-" ++ suffix)) →
      ∀ f ∈ (handleTargetAdditionalSuffixLoop suffix rest targets target).2.1,
        f ∈ targets ∨ ¬ N f := by
  intro rest
  induction rest with
  | nil => intro targets target _ _ f hf; exact Or.inl hf
  | cons test rest ih =>
    intro targets target hN hQ f hf
    have hN1 : N test.As := hN test (List.mem_cons_self _ _)
    have hN2 : ∀ y ∈ rest, N y.As := fun y hy => hN y (List.mem_cons_of_mem _ hy)
    rw [handleTargetAdditionalSuffixLoop] at hf
    split at hf
    · rename_i targets2 j heq
      have hin : test.As ∈ targets := by
        by_contra hc
        have := (renameFirstTarget_found test.As (test.As ++ "-" ++ suffix) targets 0).2 hc
        rw [heq] at this
        exact Option.noConfusion (congrArg Prod.snd this)
      have hnew : ¬ N (test.As ++ "-" ++ suffix) := hQ test.As hin hN1
      have hmem : ∀ g ∈ targets2, g ∈ targets ∨ g = test.As ++ "-" ++ suffix := by
        intro g hg
        have := renameFirstTarget_mem test.As (test.As ++ "-" ++ suffix) targets 0 g
        rw [heq] at this
        exact this hg
      have hQ2 : ∀ g ∈ targets2, N g → ¬ N (g ++ "-" ++ suffix) := by
        intro g hg hNg
        rcases hmem g hg with h1 | h1
        · exact hQ g h1 hNg
        · rw [h1] at hNg
          exact absurd hNg hnew
      rcases ih targets2 _ hN2 hQ2 f hf with h1 | h1
      · rcases hmem f h1 with h2 | h2
        · exact Or.inl h2
        · exact Or.inr (h2 ▸ hnew)
      · exact Or.inr h1
    · exact ih targets target hN2 hQ f hf

/-- The tests after the loop, with the suffix trimmed from the names that are
targets at the end of the loop, are the tests before the loop. -/
theorem handleTargetAdditionalSuffixLoop_trimmed (suffix : String) (N : String → Prop) :
    ∀ (rest : List TestStepConfiguration) (targets : List String) (target : String),
      (∀ y ∈ rest, N y.As) →
      (∀ g ∈ targets, N g → ¬ N (g ++ "-" ++ suffix)) →
      (handleTargetAdditionalSuffixLoop suffix rest targets target).1.map
        (fun test =>
          if (handleTargetAdditionalSuffixLoop suffix rest targets target).2.1.any
              (fun g => test.As = g) then
            { test with As := TrimSuffix test.As ("-" ++ suffix) }
          else test) = rest := by
  intro rest
  induction rest with
  | nil => intro targets target _ _; rfl
  | cons test rest ih =>
    intro targets target hN hQ
    have hN1 : N test.As := hN test (List.mem_cons_self _ _)
    have hN2 : ∀ y ∈ rest, N y.As := fun y hy => hN y (List.mem_cons_of_mem _ hy)
    have hall := handleTargetAdditionalSuffixLoop_targets suffix N (test :: rest) targets target
      hN hQ
    rw [handleTargetAdditionalSuffixLoop] at hall ⊢
    split at hall
    · rename_i targets2 j heq
      have hin : test.As ∈ targets := by
        by_contra hc
        have := (renameFirstTarget_found test.As (test.As ++ "-" ++ suffix) targets 0).2 hc
        rw [heq] at this
        exact Option.noConfusion (congrArg Prod.snd this)
      have hnew : ¬ N (test.As ++ "-" ++ suffix) := hQ test.As hin hN1
      have hmem : ∀ g ∈ targets2, g ∈ targets ∨ g = test.As ++ "-" ++ suffix := by
        intro g hg
        have := renameFirstTarget_mem test.As (test.As ++ "-" ++ suffix) targets 0 g
        rw [heq] at this
        exact this hg
      have hQ2 : ∀ g ∈ targets2, N g → ¬ N (g ++ "-" ++ suffix) := by
        intro g hg hNg
        rcases hmem g hg with h1 | h1
        · exact hQ g h1 hNg
        · rw [h1] at hNg
          exact absurd hNg hnew
      have hin2 : test.As ++ "-" ++ suffix ∈ targets2 := by
        have := ((renameFirstTarget_found test.As (test.As ++ "-" ++ suffix) targets 0).1 hin).2
        rw [heq] at this
        exact this
      have hfinal := handleTargetAdditionalSuffixLoop_keeps suffix rest targets2
        (if j = 0 then test.As ++ "-" ++ suffix else target) (test.As ++ "-" ++ suffix) hin2
        (fun y hy e => hnew (e ▸ hN2 y hy))
      simp only [List.map_cons]
      rw [ih targets2 _ hN2 hQ2]
      have hany : (handleTargetAdditionalSuffixLoop suffix rest targets2
          (if j = 0 then test.As ++ "-" ++ suffix else target)).2.1.any
            (fun g => test.As ++ "-" ++ suffix = g) = true :=
        List.any_eq_true.mpr ⟨_, hfinal, decide_eq_true rfl⟩
      rw [if_pos hany, TrimSuffix_added]
    · rename_i heq
      have hnin : test.As ∉ targets := by
        intro hc
        obtain ⟨⟨k, hk⟩, _⟩ :=
          (renameFirstTarget_found test.As (test.As ++ "-" ++ suffix) targets 0).1 hc
        rw [heq] at hk
        exact Option.noConfusion hk
      simp only [List.map_cons]
      rw [ih targets target hN2 hQ]
      have hany : ¬ (handleTargetAdditionalSuffixLoop suffix rest targets target).2.1.any
          (fun g => test.As = g) = true := by
        intro hc
        obtain ⟨g, hg, he⟩ := List.any_eq_true.mp hc
        have he2 : test.As = g := of_decide_eq_true he
        rcases hall g hg with h1 | h1
        · exact hnin (he2 ▸ h1)
        · exact h1 (he2 ▸ hN1)
      rw [if_neg hany]

/-- C27: when the suffix is not empty and no test of the configuration is
named as a targeted test of the configuration followed by `-` and the suffix,
the tests that `resolveInputs` marshals for the hash, after
`handleTargetAdditionalSuffix` has renamed the targeted tests, are the tests
of the configuration as they were, so the input hash and the namespace are
the ones of the configuration as it was, whatever the suffix. With a test
named that way the names that are hashed can depend on the suffix, against
the comment in `resolveInputs`. -/
theorem C27_suffix_trimmed (o : options) (hs : o.targetAdditionalSuffix ≠ "")
    (hq : ∀ t ∈ o.Tests, t.As ∈ o.targets →
      ∀ u ∈ o.Tests, u.As ≠ t.As ++ "-" ++ o.targetAdditionalSuffix) :
    resolveInputsConfigSpec (handleTargetAdditionalSuffix o) = o.Tests ∧
    ∀ (marshal : List TestStepConfiguration → String) (S : GoSort)
      (sha256 : List Nat → Digest) (inputs : List String) (namespace0 : String),
      resolveInputs S sha256
          (inputs ++ [marshal (resolveInputsConfigSpec (handleTargetAdditionalSuffix o))])
          namespace0 =
        resolveInputs S sha256 (inputs ++ [marshal o.Tests]) namespace0 := by
  have hmain : resolveInputsConfigSpec (handleTargetAdditionalSuffix o) = o.Tests := by
    unfold resolveInputsConfigSpec handleTargetAdditionalSuffix
    rw [if_neg hs]
    simp only
    rw [if_pos hs]
    refine handleTargetAdditionalSuffixLoop_trimmed o.targetAdditionalSuffix
      (fun n => ∃ t ∈ o.Tests, t.As = n) o.Tests o.targets o.Target
      (fun y hy => ⟨y, hy, rfl⟩) ?_
    rintro g hg ⟨t, ht, htg⟩ ⟨u, hu, hug⟩
    exact hq t ht (htg ▸ hg) u hu (htg ▸ hug)
  refine ⟨hmain, ?_⟩
  intro marshal S sha256 inputs namespace0
  rw [hmain]

/-- C27 at the tests `unit` and `e2e`, the target `e2e` and the suffix `1`. -/
theorem C27_witness :
    resolveInputsConfigSpec (handleTargetAdditionalSuffix
      { targetAdditionalSuffix := "1", targets := ["e2e"], dependencyOverrides := [],
        Tests := [⟨"unit", none⟩, ⟨"e2e", none⟩], Target := "e2e",
        TargetAdditionalSuffix := "" }) = [⟨"unit", none⟩, ⟨"e2e", none⟩] :=
  (C27_suffix_trimmed
      { targetAdditionalSuffix := "1", targets := ["e2e"], dependencyOverrides := [],
        Tests := [⟨"unit", none⟩, ⟨"e2e", none⟩], Target := "e2e",
        TargetAdditionalSuffix := "" } (by decide) (by decide)).1

/-- C27 at the tests `e2e-1` and `e2e` and the target `e2e`. With the suffix
`1` the test `e2e` is renamed to `e2e-1`, both tests are then named as the
target, and both are trimmed to `e2e`; with the suffix `2` the test `e2e` is
renamed to `e2e-2` and trimmed back, and the names that are hashed are the
names `e2e-1` and `e2e` of the configuration. The names that are hashed
depend on the suffix, where the comment in `resolveInputs` says that
different suffixes are to resolve the same. -/
theorem C27_counterexample :
    (handleTargetAdditionalSuffix
      { targetAdditionalSuffix := "1", targets := ["e2e"], dependencyOverrides := [],
        Tests := [⟨"e2e-1", none⟩, ⟨"e2e", none⟩], Target := "e2e",
        TargetAdditionalSuffix := "" }) =
      { targetAdditionalSuffix := "1", targets := ["e2e-1"], dependencyOverrides := [],
        Tests := [⟨"e2e-1", none⟩, ⟨"e2e-1", none⟩], Target := "e2e-1",
        TargetAdditionalSuffix := "1" } ∧
    resolveInputsConfigSpec (handleTargetAdditionalSuffix
      { targetAdditionalSuffix := "1", targets := ["e2e"], dependencyOverrides := [],
        Tests := [⟨"e2e-1", none⟩, ⟨"e2e", none⟩], Target := "e2e",
        TargetAdditionalSuffix := "" }) = [⟨"e2e", none⟩, ⟨"e2e", none⟩] ∧
    ([⟨"e2e", none⟩, ⟨"e2e", none⟩] : List TestStepConfiguration) ≠
      [⟨"e2e-1", none⟩, ⟨"e2e", none⟩] ∧
    (handleTargetAdditionalSuffix
      { targetAdditionalSuffix := "2", targets := ["e2e"], dependencyOverrides := [],
        Tests := [⟨"e2e-1", none⟩, ⟨"e2e", none⟩], Target := "e2e",
        TargetAdditionalSuffix := "" }) =
      { targetAdditionalSuffix := "2", targets := ["e2e-2"], dependencyOverrides := [],
        Tests := [⟨"e2e-1", none⟩, ⟨"e2e-2", none⟩], Target := "e2e-2",
        TargetAdditionalSuffix := "2" } ∧
    resolveInputsConfigSpec (handleTargetAdditionalSuffix
      { targetAdditionalSuffix := "2", targets := ["e2e"], dependencyOverrides := [],
        Tests := [⟨"e2e-1", none⟩, ⟨"e2e", none⟩], Target := "e2e",
        TargetAdditionalSuffix := "" }) = [⟨"e2e-1", none⟩, ⟨"e2e", none⟩] := by
  decide

/-! ### The overrides of the dependencies -/

/-- One override after the other on one dependency: the last override whose
name is the `Env` of the dependency counts. -/
theorem foldl_override_dependency (EqualFold : String → String → Bool)
    (entries : List (String × String)) (dependency : StepDependency) :
    entries.foldl
        (fun d entry => if EqualFold d.Env entry.1 then { d with PullSpec := entry.2 } else d)
        dependency = lastOverride EqualFold entries dependency ∧
    (lastOverride EqualFold entries dependency).Env = dependency.Env ∧
    (lastOverride EqualFold entries dependency).Name = dependency.Name := by
  induction entries using List.reverseRecOn with
  | nil => exact ⟨rfl, rfl, rfl⟩
  | append_singleton l a ih =>
    obtain ⟨ih1, ih2, ih3⟩ := ih
    have hlast : lastOverride EqualFold (l ++ [a]) dependency =
        if EqualFold dependency.Env a.1 then { dependency with PullSpec := a.2 }
        else lastOverride EqualFold l dependency := by
      unfold lastOverride
      rw [List.reverse_append, List.reverse_singleton, List.singleton_append, List.find?_cons]
      cases h : EqualFold dependency.Env a.1
      · simp
      · simp
    rw [List.foldl_append, List.foldl_cons, List.foldl_nil, ih1, ih2, hlast]
    cases h : EqualFold dependency.Env a.1
    · simp only [Bool.false_eq_true, if_false]
      exact ⟨trivial, ih2, ih3⟩
    · simp only [if_true]
      refine ⟨?_, trivial, trivial⟩
      have e1 : (lastOverride EqualFold l dependency).Name = dependency.Name := ih3
      cases hl : lastOverride EqualFold l dependency with
      | mk n e p =>
        rw [hl] at ih2 e1
        simp only at ih2 e1
        rw [ih2, e1]

/-- The overrides of a row of entries on the steps, one call of
`overrideTestStepDependency` for each entry. -/
theorem foldl_overrideTestStepDependency (EqualFold : String → String → Bool)
    (entries : List (String × String)) (steps : List LiteralTestStep) :
    entries.foldl (fun s entry => overrideTestStepDependency EqualFold entry.1 entry.2 s) steps =
      mapDependencies (lastOverride EqualFold entries) steps := by
  have hdep : ∀ deps : List StepDependency,
      entries.foldl
        (fun ds entry => ds.map (fun d =>
          if EqualFold d.Env entry.1 then { d with PullSpec := entry.2 } else d)) deps =
      deps.map (lastOverride EqualFold entries) := by
    intro deps
    have hfun : (lastOverride EqualFold entries) = fun dependency => entries.foldl
        (fun d entry => if EqualFold d.Env entry.1 then { d with PullSpec := entry.2 } else d)
        dependency := by
      funext d
      exact (foldl_override_dependency EqualFold entries d).1.symm
    rw [hfun]
    clear hfun
    induction entries generalizing deps with
    | nil => simp
    | cons a l ih =>
      rw [List.foldl_cons, ih]
      simp only [List.map_map, List.foldl_cons]
      rfl
  have hsteps : ∀ steps : List LiteralTestStep,
      entries.foldl (fun s entry => overrideTestStepDependency EqualFold entry.1 entry.2 s)
          steps =
        steps.map (fun step =>
          { step with
            Dependencies := entries.foldl
              (fun ds entry => ds.map (fun d =>
                if EqualFold d.Env entry.1 then { d with PullSpec := entry.2 } else d))
              step.Dependencies }) := by
    clear hdep
    induction entries with
    | nil =>
      intro steps
      simp only [List.foldl_nil]
      exact (List.map_id steps).symm
    | cons a l ih =>
      intro steps
      rw [List.foldl_cons, ih]
      unfold overrideTestStepDependency
      simp only [List.map_map, List.foldl_cons]
      rfl
  rw [hsteps]
  unfold mapDependencies
  apply List.map_congr_left
  intro step _
  rw [hdep]

/-- The overrides of a row of entries on a multi-stage test. -/
theorem foldl_overrideTestSteps (EqualFold : String → String → Bool)
    (entries : List (String × String)) (literal : MultiStageTestConfigurationLiteral) :
    entries.foldl (fun l entry => overrideTestSteps EqualFold entry.1 entry.2 l) literal =
      { literal with
        Pre := mapDependencies (lastOverride EqualFold entries) literal.Pre,
        Test := mapDependencies (lastOverride EqualFold entries) literal.Test,
        Post := mapDependencies (lastOverride EqualFold entries) literal.Post } := by
  rw [← foldl_overrideTestStepDependency, ← foldl_overrideTestStepDependency,
    ← foldl_overrideTestStepDependency]
  induction entries generalizing literal with
  | nil => rfl
  | cons a l ih =>
    rw [List.foldl_cons, ih]
    rfl

/-- The composition of two replacements of the dependencies. -/
theorem mapDependencies_mapDependencies (f g : StepDependency → StepDependency)
    (steps : List LiteralTestStep) :
    mapDependencies f (mapDependencies g steps) = mapDependencies (fun d => f (g d)) steps := by
  unfold mapDependencies
  simp [List.map_map, Function.comp]

/-- The first loop of `overrideTestStepDependencyParams`, by dependency. -/
theorem overrideAtTestLevel_eq (R : GoRange) (EqualFold : String → String → Bool)
    (tests : List TestStepConfiguration) :
    overrideAtTestLevel R EqualFold tests =
      mapTestDependencies (fun overrides d => lastOverride EqualFold (R.order overrides) d)
        tests := by
  unfold overrideAtTestLevel mapTestDependencies
  apply List.map_congr_left
  intro test _
  cases test with
  | mk testAs literal =>
    cases literal with
    | none => rfl
    | some literal =>
      simp only
      rw [foldl_overrideTestSteps]

/-- The second loop of `overrideTestStepDependencyParams`, by dependency. -/
theorem overrideByParams_eq (R : GoRange) (EqualFold : String → String → Bool)
    (dependencyOverrideParams : List (String × String)) (tests : List TestStepConfiguration) :
    overrideByParams R EqualFold dependencyOverrideParams tests =
      mapTestDependencies
        (fun _ d => lastOverride EqualFold (R.order dependencyOverrideParams) d) tests := by
  unfold overrideByParams
  generalize R.order dependencyOverrideParams = entries
  have h : ∀ tests : List TestStepConfiguration,
      entries.foldl
        (fun tests entry =>
          tests.map (fun test =>
            match test.MultiStageTestConfigurationLiteral with
            | none => test
            | some literal =>
              { test with
                MultiStageTestConfigurationLiteral :=
                  some (overrideTestSteps EqualFold entry.1 entry.2 literal) }))
        tests =
      tests.map (fun test =>
        match test.MultiStageTestConfigurationLiteral with
        | none => test
        | some literal =>
          { test with
            MultiStageTestConfigurationLiteral :=
              some (entries.foldl
                (fun l entry => overrideTestSteps EqualFold entry.1 entry.2 l) literal) }) := by
    induction entries with
    | nil =>
      intro tests
      simp only [List.foldl_nil]
      symm
      conv => rhs; rw [← List.map_id tests]
      apply List.map_congr_left
      intro test _
      cases test with
      | mk testAs literal =>
        cases literal with
        | none => rfl
        | some literal => rfl
    | cons a l ih =>
      intro tests
      rw [List.foldl_cons, ih, List.map_map]
      apply List.map_congr_left
      intro test _
      simp only [Function.comp]
      cases test with
      | mk testAs literal =>
        cases literal with
        | none => rfl
        | some literal => rfl
  rw [h]
  unfold mapTestDependencies
  apply List.map_congr_left
  intro test _
  cases test with
  | mk testAs literal =>
    cases literal with
    | none => rfl
    | some literal =>
      simp only
      rw [foldl_overrideTestSteps]

/-- The two loops of `overrideTestStepDependencyParams`, by dependency: the
overrides of the test first, then the parameters. -/
theorem overrideByParams_overrideAtTestLevel (R : GoRange)
    (EqualFold : String → String → Bool) (dependencyOverrideParams : List (String × String))
    (tests : List TestStepConfiguration) :
    overrideByParams R EqualFold dependencyOverrideParams
        (overrideAtTestLevel R EqualFold tests) =
      mapTestDependencies
        (fun overrides d =>
          lastOverride EqualFold (R.order dependencyOverrideParams)
            (lastOverride EqualFold (R.order overrides) d)) tests := by
  rw [overrideByParams_eq, overrideAtTestLevel_eq]
  unfold mapTestDependencies
  rw [List.map_map]
  apply List.map_congr_left
  intro test _
  simp only [Function.comp]
  cases test with
  | mk testAs literal =>
    cases literal with
    | none => rfl
    | some literal =>
      simp only [mapDependencies_mapDependencies]

/-- The last override that counts is an entry whose name is the `Env` of the
dependency, and nothing changes when there is no such entry. -/
theorem lastOverride_cases (EqualFold : String → String → Bool)
    (entries : List (String × String)) (dependency : StepDependency) :
    (∃ entry ∈ entries, EqualFold dependency.Env entry.1 = true ∧
      lastOverride EqualFold entries dependency = { dependency with PullSpec := entry.2 }) ∨
    ((∀ entry ∈ entries, EqualFold dependency.Env entry.1 = false) ∧
      lastOverride EqualFold entries dependency = dependency) := by
  unfold lastOverride
  cases h : entries.reverse.find? (fun entry => EqualFold dependency.Env entry.1) with
  | some entry =>
    left
    refine ⟨entry, List.mem_reverse.mp (List.mem_of_find?_eq_some h), ?_, rfl⟩
    exact @List.find?_some _ (fun entry => EqualFold dependency.Env entry.1) entry
      entries.reverse h
  | none =>
    right
    refine ⟨?_, rfl⟩
    intro entry hmem
    have := List.find?_eq_none.mp h entry (List.mem_reverse.mpr hmem)
    simpa using this

/-- The dependency after the two loops: a parameter whose name is the `Env` of
the dependency counts before an override of the test, and one of these
parameters gives the pull specification. -/
theorem overriddenDependency_spec (R : GoRange) (EqualFold : String → String → Bool)
    (params overrides : List (String × String)) (d : StepDependency) :
    (overriddenDependency R EqualFold params overrides d).Env = d.Env ∧
    (overriddenDependency R EqualFold params overrides d).Name = d.Name ∧
    ((∃ entry ∈ params, EqualFold d.Env entry.1 = true) →
      ∃ entry ∈ params, EqualFold d.Env entry.1 = true ∧
        (overriddenDependency R EqualFold params overrides d).PullSpec = entry.2) ∧
    ((∀ entry ∈ params, EqualFold d.Env entry.1 = false) →
      (∃ entry ∈ overrides, EqualFold d.Env entry.1 = true) →
      ∃ entry ∈ overrides, EqualFold d.Env entry.1 = true ∧
        (overriddenDependency R EqualFold params overrides d).PullSpec = entry.2) ∧
    ((∀ entry ∈ params, EqualFold d.Env entry.1 = false) →
      (∀ entry ∈ overrides, EqualFold d.Env entry.1 = false) →
      overriddenDependency R EqualFold params overrides d = d) := by
  unfold overriddenDependency
  have hp : ∀ entry, entry ∈ R.order params ↔ entry ∈ params :=
    fun entry => (R.perm params).mem_iff
  have ho : ∀ entry, entry ∈ R.order overrides ↔ entry ∈ overrides :=
    fun entry => (R.perm overrides).mem_iff
  obtain ⟨_, hEnv1, hName1⟩ := foldl_override_dependency EqualFold (R.order overrides) d
  obtain ⟨_, hEnv2, hName2⟩ := foldl_override_dependency EqualFold (R.order params)
    (lastOverride EqualFold (R.order overrides) d)
  refine ⟨hEnv2.trans hEnv1, hName2.trans hName1, ?_, ?_, ?_⟩
  · rintro ⟨entry, hmem, hfold⟩
    rcases lastOverride_cases EqualFold (R.order params)
      (lastOverride EqualFold (R.order overrides) d) with ⟨e, he, hf, heq⟩ | ⟨hnone, _⟩
    · rw [hEnv1] at hf
      exact ⟨e, (hp e).mp he, hf, by rw [heq]⟩
    · have := hnone entry ((hp entry).mpr hmem)
      rw [hEnv1, hfold] at this
      exact Bool.noConfusion this
  · intro hnone ⟨entry, hmem, hfold⟩
    rcases lastOverride_cases EqualFold (R.order params)
      (lastOverride EqualFold (R.order overrides) d) with ⟨e, he, hf, _⟩ | ⟨_, heq⟩
    · rw [hEnv1, hnone e ((hp e).mp he)] at hf
      exact Bool.noConfusion hf
    · rw [heq]
      rcases lastOverride_cases EqualFold (R.order overrides) d with
        ⟨e, he, hf, heq2⟩ | ⟨hnone2, _⟩
      · exact ⟨e, (ho e).mp he, hf, by rw [heq2]⟩
      · have := hnone2 entry ((ho entry).mpr hmem)
        rw [hfold] at this
        exact Bool.noConfusion this
  · intro hnone hnone2
    rcases lastOverride_cases EqualFold (R.order params)
      (lastOverride EqualFold (R.order overrides) d) with ⟨e, he, hf, _⟩ | ⟨_, heq⟩
    · rw [hEnv1, hnone e ((hp e).mp he)] at hf
      exact Bool.noConfusion hf
    · rw [heq]
      rcases lastOverride_cases EqualFold (R.order overrides) d with
        ⟨e, he, hf, _⟩ | ⟨_, heq2⟩
      · rw [hnone2 e ((ho e).mp he)] at hf
        exact Bool.noConfusion hf
      · exact heq2

/-- C26 (amended): `overrideTestStepDependencyParams` fails exactly as the
parameters fail to parse. When it succeeds, the steps of the tests are as
before but for the pull specifications of the dependencies of the pre, test
and post steps of the multi-stage tests: a dependency whose `Env` equals,
ignoring case, the name of a parameter has the pull specification of one such
parameter (of the last one that the visit of the map meets), whatever the
overrides of the test say; otherwise a dependency whose `Env` equals the name
of an override of the test has the pull specification of one such override;
and a dependency that no override and no parameter names is unchanged. -/
theorem C26_dependency_overrides (R : GoRange) (EqualFold : String → String → Bool)
    (o : options) :
    (∀ errs, parseKeyValParams o.dependencyOverrides "dependency-override-param" = .error errs →
      overrideTestStepDependencyParams R EqualFold o = .error errs) ∧
    (∀ params, parseKeyValParams o.dependencyOverrides "dependency-override-param" = .ok params →
      overrideTestStepDependencyParams R EqualFold o =
        .ok { o with
          Tests := (mapTestDependencies (overriddenDependency R EqualFold params) o.Tests) } ∧
      ∀ (overrides : List (String × String)) (d : StepDependency),
        (overriddenDependency R EqualFold params overrides d).Env = d.Env ∧
        (overriddenDependency R EqualFold params overrides d).Name = d.Name ∧
        ((∃ entry ∈ params, EqualFold d.Env entry.1 = true) →
          ∃ entry ∈ params, EqualFold d.Env entry.1 = true ∧
            (overriddenDependency R EqualFold params overrides d).PullSpec = entry.2) ∧
        ((∀ entry ∈ params, EqualFold d.Env entry.1 = false) →
          (∃ entry ∈ overrides, EqualFold d.Env entry.1 = true) →
          ∃ entry ∈ overrides, EqualFold d.Env entry.1 = true ∧
            (overriddenDependency R EqualFold params overrides d).PullSpec = entry.2) ∧
        ((∀ entry ∈ params, EqualFold d.Env entry.1 = false) →
          (∀ entry ∈ overrides, EqualFold d.Env entry.1 = false) →
          overriddenDependency R EqualFold params overrides d = d)) := by
  constructor
  · intro errs h
    unfold overrideTestStepDependencyParams
    rw [h]
  · intro params h
    refine ⟨?_, fun overrides d => overriddenDependency_spec R EqualFold params overrides d⟩
    unfold overrideTestStepDependencyParams
    rw [h]
    simp only
    rw [overrideByParams_overrideAtTestLevel]
    rfl

/-- C26 (amended) with the parameter `oo_index=registry/index:param`: the
dependency `OO_INDEX` has the pull specification of the parameter, not the one
of the override of the test, and the dependency `OO_BUNDLE` keeps its own. -/
theorem C26_witness :
    overrideTestStepDependencyParams rangeInOrder equalFoldASCII
        (optionsWithOverrides ["oo_index=registry/index:param"]) =
      .ok { optionsWithOverrides ["oo_index=registry/index:param"] with
        Tests := [
          { As := "e2e",
            MultiStageTestConfigurationLiteral := some
              { Pre := [],
                Test := [{ As := "install",
                           Dependencies := [⟨"index", "OO_INDEX", "registry/index:param"⟩,
                             ⟨"bundle", "OO_BUNDLE", "registry/bundle:old"⟩] }],
                Post := [],
                DependencyOverrides := [("OO_INDEX", "registry/index:test")] } },
          { As := "unit", MultiStageTestConfigurationLiteral := none }] } :=
  ((C26_dependency_overrides rangeInOrder equalFoldASCII
    (optionsWithOverrides ["oo_index=registry/index:param"])).2
      [("oo_index", "registry/index:param")] rfl).1

/-- C26 as stated fails: with the parameters `OO_INDEX=registry/a` and
`oo_index=registry/b`, both names equal the `Env` of the dependency ignoring
case; the dependency gets the pull specification of the parameter that the
visit of the map meets last, so it does not have the one of the other
parameter, whichever the order of the visit is. -/
theorem C26_counterexample :
    parseKeyValParams ["OO_INDEX=registry/a", "oo_index=registry/b"]
        "dependency-override-param" =
      .ok [("OO_INDEX", "registry/a"), ("oo_index", "registry/b")] ∧
    equalFoldASCII "OO_INDEX" "OO_INDEX" = true ∧
    equalFoldASCII "OO_INDEX" "oo_index" = true ∧
    (overriddenDependency rangeInOrder equalFoldASCII
      [("OO_INDEX", "registry/a"), ("oo_index", "registry/b")]
      [("OO_INDEX", "registry/index:test")]
      ⟨"index", "OO_INDEX", "registry/index:old"⟩).PullSpec = "registry/b" ∧
    (overriddenDependency rangeReversed equalFoldASCII
      [("OO_INDEX", "registry/a"), ("oo_index", "registry/b")]
      [("OO_INDEX", "registry/index:test")]
      ⟨"index", "OO_INDEX", "registry/index:old"⟩).PullSpec = "registry/a" ∧
    overrideTestStepDependencyParams rangeInOrder equalFoldASCII
        (optionsWithOverrides ["OO_INDEX=registry/a", "oo_index=registry/b"]) =
      .ok { optionsWithOverrides ["OO_INDEX=registry/a", "oo_index=registry/b"] with
        Tests := [
          { As := "e2e",
            MultiStageTestConfigurationLiteral := some
              { Pre := [],
                Test := [{ As := "install",
                           Dependencies := [⟨"index", "OO_INDEX", "registry/b"⟩,
                             ⟨"bundle", "OO_BUNDLE", "registry/bundle:old"⟩] }],
                Post := [],
                DependencyOverrides := [("OO_INDEX", "registry/index:test")] } },
          { As := "unit", MultiStageTestConfigurationLiteral := none }] } :=
  ⟨rfl, by decide, by decide, by decide, by decide, rfl⟩

end CiOperator

namespace PipelineController

/-! ### The pipeline controller: the second stage -/

/-- The record of a job after one more record was added. -/
theorem find_insertLatest (batch : List ProwJob) (pjob : ProwJob) (job : String) :
    (insertLatest batch pjob).find? (fun r => r.Job = job) =
      if pjob.Job = job then
        match batch.find? (fun r => r.Job = job) with
        | none => some pjob
        | some existing =>
          if existing.CreationTimestamp < pjob.CreationTimestamp then some pjob
          else some existing
      else batch.find? (fun r => r.Job = job) := by
  induction batch with
  | nil =>
    by_cases h : pjob.Job = job
    · simp [insertLatest, h]
    · simp [insertLatest, h]
  | cons existing rest ih =>
    rw [insertLatest]
    by_cases he : existing.Job = pjob.Job
    · rw [if_pos he]
      by_cases h : pjob.Job = job
      · have hej : existing.Job = job := he.trans h
        by_cases hlt : existing.CreationTimestamp < pjob.CreationTimestamp
        · simp [hlt, h, hej]
        · simp [hlt, h, hej]
      · have hej : ¬ existing.Job = job := fun hc => h (he.symm.trans hc)
        by_cases hlt : existing.CreationTimestamp < pjob.CreationTimestamp
        · simp [hlt, h, hej]
        · simp [hlt, h, hej]
    · rw [if_neg he]
      by_cases hej : existing.Job = job
      · have h : ¬ pjob.Job = job := fun hc => he (hej.trans hc.symm)
        simp [h, hej]
      · simp only [List.find?_cons, hej, decide_False, ih]

/-- The record of a job in the latest records is the latest record of the
job, read off the records in their order. -/
theorem find_foldl_insertLatest (job : String) (pjs : List ProwJob) :
    (pjs.foldl insertLatest []).find? (fun r => r.Job = job) = latestOf job pjs := by
  unfold latestOf
  induction pjs using List.reverseRecOn with
  | nil => rfl
  | append_singleton l a ih =>
    rw [List.foldl_append, List.foldl_append, List.foldl_cons, List.foldl_nil,
      List.foldl_cons, List.foldl_nil, find_insertLatest, ih]

/-- When `latestOf` finds nothing, the job has no record. -/
theorem latestOf_none (job : String) (pjs : List ProwJob) (h : latestOf job pjs = none) :
    ∀ other ∈ pjs, ¬ other.Job = job := by
  unfold latestOf at h
  induction pjs using List.reverseRecOn with
  | nil => intro other ho; simp at ho
  | append_singleton l b ih =>
    rw [List.foldl_append, List.foldl_cons, List.foldl_nil] at h
    by_cases hb : b.Job = job
    · rw [if_pos hb] at h
      exfalso
      revert h
      cases List.foldl _ none l with
      | none => exact fun hc => Option.noConfusion hc
      | some e =>
        dsimp only
        split <;> exact fun hc => Option.noConfusion hc
    · rw [if_neg hb] at h
      intro other ho
      rcases List.mem_append.mp ho with h1 | h1
      · exact ih h other h1
      · have : other = b := by simpa using h1
        rw [this]
        exact hb

/-- What `latestOf` finds is a record of the job, and no record of the job
was created later. -/
theorem latestOf_some (job : String) (pjs : List ProwJob) (r : ProwJob)
    (h : latestOf job pjs = some r) :
    r ∈ pjs ∧ r.Job = job ∧
      ∀ other ∈ pjs, other.Job = job → other.CreationTimestamp ≤ r.CreationTimestamp := by
  induction pjs using List.reverseRecOn generalizing r with
  | nil => exact Option.noConfusion h
  | append_singleton l a ih =>
    have hstep : latestOf job (l ++ [a]) =
        if a.Job = job then
          match latestOf job l with
          | none => some a
          | some existing =>
            if existing.CreationTimestamp < a.CreationTimestamp then some a
            else some existing
        else latestOf job l := by
      unfold latestOf
      rw [List.foldl_append, List.foldl_cons, List.foldl_nil]
    rw [hstep] at h
    by_cases ha : a.Job = job
    · rw [if_pos ha] at h
      cases hacc : latestOf job l with
      | none =>
        rw [hacc] at h
        have hr : a = r := Option.some.inj h
        subst hr
        refine ⟨by simp, ha, ?_⟩
        intro other ho hoj
        rcases List.mem_append.mp ho with hol | hoa
        · exact absurd hoj (latestOf_none job l hacc other hol)
        · have : other = a := by simpa using hoa
          rw [this]
      | some existing =>
        rw [hacc] at h
        obtain ⟨hmem, hjob, hmax⟩ := ih existing hacc
        dsimp only at h
        by_cases hlt : existing.CreationTimestamp < a.CreationTimestamp
        · rw [if_pos hlt] at h
          have hr : a = r := Option.some.inj h
          subst hr
          refine ⟨by simp, ha, ?_⟩
          intro other ho hoj
          rcases List.mem_append.mp ho with hol | hoa
          · exact le_trans (hmax other hol hoj) (le_of_lt hlt)
          · have : other = a := by simpa using hoa
            rw [this]
        · rw [if_neg hlt] at h
          have hr : existing = r := Option.some.inj h
          subst hr
          refine ⟨List.mem_append_left _ hmem, hjob, ?_⟩
          intro other ho hoj
          rcases List.mem_append.mp ho with hol | hoa
          · exact hmax other hol hoj
          · have : other = a := by simpa using hoa
            rw [this]
            exact not_lt.mp hlt
    · rw [if_neg ha] at h
      obtain ⟨hmem, hjob, hmax⟩ := ih r h
      refine ⟨List.mem_append_left _ hmem, hjob, ?_⟩
      intro other ho hoj
      rcases List.mem_append.mp ho with hol | hoa
      · exact hmax other hol hoj
      · have : other = a := by simpa using hoa
        exact absurd (this ▸ hoj) ha

/-- The state of the latest record of a job on a SHA, read off the records. -/
theorem latestState_latestBatch (pjs : List ProwJob) (sha job : String) :
    latestState (latestBatch pjs sha) job =
      (latestOf job (pjs.filter (fun r => r.SHA = sha))).map (fun r => r.State) := by
  unfold latestState latestBatch
  rw [find_foldl_insertLatest]

/-- The latest state of a job on a SHA is the state of a record of the job on
that SHA after which no record of the job on that SHA was created. -/
theorem latestState_some (pjs : List ProwJob) (sha job : String) (state : ProwJobState)
    (h : latestState (latestBatch pjs sha) job = some state) :
    ∃ r ∈ pjs, r.SHA = sha ∧ r.Job = job ∧ r.State = state ∧
      ∀ other ∈ pjs, other.SHA = sha → other.Job = job →
        other.CreationTimestamp ≤ r.CreationTimestamp := by
  rw [latestState_latestBatch] at h
  cases hl : latestOf job (pjs.filter (fun r => r.SHA = sha)) with
  | none => rw [hl] at h; exact Option.noConfusion h
  | some r =>
    rw [hl] at h
    obtain ⟨hmem, hjob, hmax⟩ := latestOf_some job _ r hl
    have hm := List.mem_filter.mp hmem
    refine ⟨r, hm.1, of_decide_eq_true hm.2, hjob, Option.some.inj h, ?_⟩
    intro other ho hs hj
    exact hmax other (List.mem_filter.mpr ⟨ho, decide_eq_true hs⟩) hj

/-- A job has no latest state on a SHA exactly when it has no record on that
SHA. -/
theorem latestState_none (pjs : List ProwJob) (sha job : String) :
    latestState (latestBatch pjs sha) job = none ↔
      ∀ r ∈ pjs, r.SHA = sha → ¬ r.Job = job := by
  rw [latestState_latestBatch]
  constructor
  · intro h r hr hs
    cases hl : latestOf job (pjs.filter (fun r => r.SHA = sha)) with
    | none =>
      exact latestOf_none job _ hl r (List.mem_filter.mpr ⟨hr, decide_eq_true hs⟩)
    | some x => rw [hl] at h; exact Option.noConfusion h
  · intro h
    cases hl : latestOf job (pjs.filter (fun r => r.SHA = sha)) with
    | none => rfl
    | some x =>
      obtain ⟨hmem, hjob, _⟩ := latestOf_some job _ x hl
      have hm := List.mem_filter.mp hmem
      exact absurd hjob (h x hm.1 (of_decide_eq_true hm.2))

/-- The records of other SHAs do not count. -/
theorem latestBatch_filter (pjs : List ProwJob) (sha : String) :
    latestBatch (pjs.filter (fun r => r.SHA = sha)) sha = latestBatch pjs sha := by
  unfold latestBatch
  rw [List.filter_filter]
  simp only [Bool.and_self]

/-- When the second stage is triggered, in the model of the decision. -/
theorem reportSuccessOnPR_iff (applies : String → Bool) (isPRClosed : Bool) (pj : ProwJob)
    (pjs : List ProwJob) (presubmits : presubmitTests) :
    reportSuccessOnPR applies isPRClosed pj pjs presubmits = true ↔
      isPRClosed = false ∧
      (∀ job ∈ presubmits.protected0,
        latestState (latestBatch pjs pj.SHA) job ≠ some .SuccessState) ∧
      (∀ job ∈ presubmits.alwaysRequired, applies job = true →
        latestState (latestBatch pjs pj.SHA) job = some .SuccessState) ∧
      (∀ job ∈ presubmits.conditionallyRequired,
        latestState (latestBatch pjs pj.SHA) job ≠ some .FailureState ∧
        latestState (latestBatch pjs pj.SHA) job ≠ some .AbortedState) ∧
      (presubmits.conditionallyRequired ≠ [] →
        ∃ job ∈ presubmits.conditionallyRequired,
          latestState (latestBatch pjs pj.SHA) job = some .SuccessState) := by
  unfold reportSuccessOnPR
  simp only
  generalize latestBatch pjs pj.SHA = latest
  by_cases h1 : presubmits.protected0.any
      (fun job => latestState latest job == some .SuccessState) = true
  · rw [if_pos h1]
    obtain ⟨job, hj, hs⟩ := List.any_eq_true.mp h1
    constructor
    · intro hc; exact Bool.noConfusion hc
    · intro hc; exact absurd (beq_iff_eq.mp hs) (hc.2.1 job hj)
  rw [if_neg h1]
  have h1b : ∀ job ∈ presubmits.protected0, latestState latest job ≠ some .SuccessState := by
    intro job hj hs
    exact h1 (List.any_eq_true.mpr ⟨job, hj, beq_iff_eq.mpr hs⟩)
  by_cases h2 : (presubmits.alwaysRequired.filter applies).any
      (fun job => latestState latest job != some .SuccessState) = true
  · rw [if_pos h2]
    obtain ⟨job, hj, hs⟩ := List.any_eq_true.mp h2
    have hm := List.mem_filter.mp hj
    constructor
    · intro hc; exact Bool.noConfusion hc
    · intro hc
      have := hc.2.2.1 job hm.1 hm.2
      rw [this] at hs
      exact Bool.noConfusion hs
  rw [if_neg h2]
  have h2b : ∀ job ∈ presubmits.alwaysRequired, applies job = true →
      latestState latest job = some .SuccessState := by
    intro job hj ha
    by_contra hs
    exact h2 (List.any_eq_true.mpr ⟨job, List.mem_filter.mpr ⟨hj, ha⟩, bne_iff_ne.mpr hs⟩)
  by_cases h3 : presubmits.conditionallyRequired.any
      (fun job => latestState latest job == some .FailureState ||
        latestState latest job == some .AbortedState) = true
  · rw [if_pos h3]
    obtain ⟨job, hj, hs⟩ := List.any_eq_true.mp h3
    constructor
    · intro hc; exact Bool.noConfusion hc
    · intro hc
      have := hc.2.2.2.1 job hj
      rcases Bool.or_eq_true_iff.mp hs with hf | hf
      · exact absurd (beq_iff_eq.mp hf) this.1
      · exact absurd (beq_iff_eq.mp hf) this.2
  rw [if_neg h3]
  have h3b : ∀ job ∈ presubmits.conditionallyRequired,
      latestState latest job ≠ some .FailureState ∧
      latestState latest job ≠ some .AbortedState := by
    intro job hj
    constructor
    · intro hs
      exact h3 (List.any_eq_true.mpr ⟨job, hj,
        Bool.or_eq_true_iff.mpr (Or.inl (beq_iff_eq.mpr hs))⟩)
    · intro hs
      exact h3 (List.any_eq_true.mpr ⟨job, hj,
        Bool.or_eq_true_iff.mpr (Or.inr (beq_iff_eq.mpr hs))⟩)
  by_cases h4 : presubmits.conditionallyRequired.any
      (fun job => latestState latest job == some .SuccessState) = true
  · obtain ⟨job, hj, hs⟩ := List.any_eq_true.mp h4
    rw [h4]
    simp only [Bool.not_true, Bool.and_false, Bool.false_eq_true, if_false]
    constructor
    · intro hc
      refine ⟨by simpa using hc, h1b, h2b, h3b, fun _ => ⟨job, hj, beq_iff_eq.mp hs⟩⟩
    · intro hc
      simp [hc.1]
  · have h4f : presubmits.conditionallyRequired.any
        (fun job => latestState latest job == some .SuccessState) = false := by
      simpa using h4
    rw [h4f]
    cases hc : presubmits.conditionallyRequired with
    | nil =>
      simp only [List.isEmpty_nil, Bool.not_true, Bool.false_and, Bool.false_eq_true,
        if_false]
      constructor
      · intro hcl
        rw [hc] at h3b
        refine ⟨by simpa using hcl, h1b, h2b, h3b, fun hne => absurd rfl hne⟩
      · intro hcl
        simp [hcl.1]
    | cons c cs =>
      simp only [List.isEmpty_cons, Bool.not_false, Bool.and_self, if_true]
      constructor
      · intro hcl; exact Bool.noConfusion hcl
      · intro hcl
        obtain ⟨job, hj, hs⟩ := hcl.2.2.2.2 (List.cons_ne_nil c cs)
        rw [← hc] at hj
        exact absurd (List.any_eq_true.mpr ⟨job, hj, beq_iff_eq.mpr hs⟩ :
          presubmits.conditionallyRequired.any
            (fun job => latestState latest job == some .SuccessState) = true) h4

/-- The cases of `Test_reconciler_reportSuccessOnPR` that promote, in the
model of the decision. -/
theorem reportSuccessOnPR_tests_true :
    reportSuccessOnPR appliesInTests false dummyPJ
      [composePresubmit "org-repo-master-ps2" .SuccessState "sha",
       composePresubmit "org-repo-master-ps3" .SuccessState "sha"]
      ⟨["org-repo-master-ps1"], ["org-repo-master-ps2", "org-repo-other-branch-ps2"],
        ["org-repo-master-ps3"]⟩ = true ∧
    reportSuccessOnPR appliesInTests false dummyPJ
      [composePresubmit "org-repo-master-ps2" .SuccessState "sha",
       composePresubmit "org-repo-master-ps3" .SuccessState "sha"]
      ⟨["org-repo-master-ps1"], ["org-repo-master-ps2"],
        ["org-repo-master-ps3", "org-repo-master-ps4", "org-repo-master-ps5"]⟩ = true ∧
    reportSuccessOnPR appliesInTests false dummyPJ []
      ⟨["org-repo-master-ps2"], [], []⟩ = true := by
  decide

/-- The cases of `Test_reconciler_reportSuccessOnPR` that do not promote, in
the model of the decision: the pull request is closed; the conditionally
required job failed; the always required job was aborted; the protected job
succeeded already; the required jobs are not complete; the jobs passed on
another SHA. -/
theorem reportSuccessOnPR_tests_false :
    reportSuccessOnPR appliesInTests true dummyPJ
      [composePresubmit "org-repo-master-ps2" .SuccessState "sha",
       composePresubmit "org-repo-master-ps3" .SuccessState "sha"]
      ⟨["org-repo-master-ps1"], ["org-repo-master-ps2"], ["org-repo-master-ps3"]⟩ = false ∧
    reportSuccessOnPR appliesInTests false dummyPJ
      [composePresubmit "org-repo-master-ps2" .SuccessState "sha",
       composePresubmit "org-repo-master-ps3" .FailureState "sha"]
      ⟨["org-repo-master-ps1"], ["org-repo-master-ps2"], ["org-repo-master-ps3"]⟩ = false ∧
    reportSuccessOnPR appliesInTests false dummyPJ
      [composePresubmit "org-repo-master-ps2" .AbortedState "sha",
       composePresubmit "org-repo-master-ps3" .SuccessState "sha"]
      ⟨["org-repo-master-ps1"], ["org-repo-master-ps2"], ["org-repo-master-ps3"]⟩ = false ∧
    reportSuccessOnPR appliesInTests false dummyPJ
      [composePresubmit "org-repo-master-ps1" .SuccessState "sha",
       composePresubmit "org-repo-master-ps2" .SuccessState "sha",
       composePresubmit "org-repo-master-ps3" .SuccessState "sha"]
      ⟨["org-repo-master-ps1", "org-repo-master-ps4"], ["org-repo-master-ps2"],
        ["org-repo-master-ps3"]⟩ = false ∧
    reportSuccessOnPR appliesInTests false dummyPJ
      [composePresubmit "org-repo-master-ps2" .PendingState "sha",
       composePresubmit "org-repo-master-ps3" .TriggeredState "sha"]
      ⟨["org-repo-master-ps1"], ["org-repo-master-ps2"], ["org-repo-master-ps3"]⟩ = false ∧
    reportSuccessOnPR appliesInTests false dummyPJ
      [composePresubmit "org-repo-master-ps2" .SuccessState "other-sha",
       composePresubmit "org-repo-master-ps3" .SuccessState "other-sha"]
      ⟨["org-repo-master-ps1"], ["org-repo-master-ps2"], ["org-repo-master-ps3"]⟩ = false := by
  decide

/-- C14 (amended): in the model of the decision that the spec describes,
`reportSuccessOnPR` reports that the second stage should be triggered exactly
when the pull request is open, no protected job has `Success` as its latest
state on the triggering SHA, every always required job of the base branch has
`Success` as its latest state on that SHA, no conditionally required job has
`Failure` or `Aborted` as its latest state on that SHA and, when conditionally
required jobs are configured, at least one of them has `Success` as its latest
state on that SHA. The records of other SHAs do not count, and the latest
state of a job is the state of a record on that SHA after which no record of
the job on that SHA was created. -/
theorem C14_second_stage (applies : String → Bool) (isPRClosed : Bool) (pj : ProwJob)
    (pjs : List ProwJob) (presubmits : presubmitTests) :
    (reportSuccessOnPR applies isPRClosed pj pjs presubmits = true ↔
      isPRClosed = false ∧
      (∀ job ∈ presubmits.protected0,
        latestState (latestBatch pjs pj.SHA) job ≠ some .SuccessState) ∧
      (∀ job ∈ presubmits.alwaysRequired, applies job = true →
        latestState (latestBatch pjs pj.SHA) job = some .SuccessState) ∧
      (∀ job ∈ presubmits.conditionallyRequired,
        latestState (latestBatch pjs pj.SHA) job ≠ some .FailureState ∧
        latestState (latestBatch pjs pj.SHA) job ≠ some .AbortedState) ∧
      (presubmits.conditionallyRequired ≠ [] →
        ∃ job ∈ presubmits.conditionallyRequired,
          latestState (latestBatch pjs pj.SHA) job = some .SuccessState)) ∧
    reportSuccessOnPR applies isPRClosed pj (pjs.filter (fun r => r.SHA = pj.SHA)) presubmits =
      reportSuccessOnPR applies isPRClosed pj pjs presubmits ∧
    (∀ (job : String) (state : ProwJobState),
      latestState (latestBatch pjs pj.SHA) job = some state →
      ∃ r ∈ pjs, r.SHA = pj.SHA ∧ r.Job = job ∧ r.State = state ∧
        ∀ other ∈ pjs, other.SHA = pj.SHA → other.Job = job →
          other.CreationTimestamp ≤ r.CreationTimestamp) ∧
    (∀ job : String, latestState (latestBatch pjs pj.SHA) job = none ↔
      ∀ r ∈ pjs, r.SHA = pj.SHA → ¬ r.Job = job) := by
  refine ⟨reportSuccessOnPR_iff applies isPRClosed pj pjs presubmits, ?_,
    fun job state h => latestState_some pjs pj.SHA job state h,
    fun job => latestState_none pjs pj.SHA job⟩
  unfold reportSuccessOnPR
  rw [latestBatch_filter]

/-- C14 (amended) at the first case of the test: the conditions hold and the
second stage is triggered. -/
theorem C14_witness :
    reportSuccessOnPR appliesInTests false dummyPJ
      [composePresubmit "org-repo-master-ps2" .SuccessState "sha",
       composePresubmit "org-repo-master-ps3" .SuccessState "sha"]
      ⟨["org-repo-master-ps1"], ["org-repo-master-ps2", "org-repo-other-branch-ps2"],
        ["org-repo-master-ps3"]⟩ = true :=
  (C14_second_stage appliesInTests false dummyPJ
      [composePresubmit "org-repo-master-ps2" .SuccessState "sha",
       composePresubmit "org-repo-master-ps3" .SuccessState "sha"]
      ⟨["org-repo-master-ps1"], ["org-repo-master-ps2", "org-repo-other-branch-ps2"],
        ["org-repo-master-ps3"]⟩).1.mpr (by decide)

/-- C14 as stated fails in the model of the decision: the pull request is
open, no protected job ran, the always required job succeeded on the SHA and
one of the two conditionally required jobs succeeded on the SHA, but the other
one failed there, which disqualifies the promotion. -/
theorem C14_counterexample :
    reportSuccessOnPR appliesInTests false dummyPJ
      [composePresubmit "org-repo-master-ps2" .SuccessState "sha",
       composePresubmit "org-repo-master-ps3" .SuccessState "sha",
       composePresubmit "org-repo-master-ps4" .FailureState "sha"]
      ⟨["org-repo-master-ps1"], ["org-repo-master-ps2"],
        ["org-repo-master-ps3", "org-repo-master-ps4"]⟩ = false ∧
    latestState (latestBatch
      [composePresubmit "org-repo-master-ps2" .SuccessState "sha",
       composePresubmit "org-repo-master-ps3" .SuccessState "sha",
       composePresubmit "org-repo-master-ps4" .FailureState "sha"] dummyPJ.SHA)
      "org-repo-master-ps1" = none ∧
    latestState (latestBatch
      [composePresubmit "org-repo-master-ps2" .SuccessState "sha",
       composePresubmit "org-repo-master-ps3" .SuccessState "sha",
       composePresubmit "org-repo-master-ps4" .FailureState "sha"] dummyPJ.SHA)
      "org-repo-master-ps2" = some .SuccessState ∧
    latestState (latestBatch
      [composePresubmit "org-repo-master-ps2" .SuccessState "sha",
       composePresubmit "org-repo-master-ps3" .SuccessState "sha",
       composePresubmit "org-repo-master-ps4" .FailureState "sha"] dummyPJ.SHA)
      "org-repo-master-ps3" = some .SuccessState := by
  decide

end PipelineController

namespace Jobconfig

open CiOperator (GoRange GoSort mapGet mapSet rangeInOrder rangeReversed)

/-! ### Labels for file names -/

/-- What `strings.TrimLeft` returns does not start with a rune of the set. -/
theorem TrimLeft_head (s cutset : List Char) :
    ∀ c, (TrimLeft s cutset).head? = some c → cutset.contains c = false := by
  intro c h
  unfold TrimLeft at h
  have := List.head?_dropWhile_not (fun c => cutset.contains c) s
  rw [h] at this
  simpa using this

/-- A text that does not start with a rune of the set is kept by
`strings.TrimLeft`. -/
theorem TrimLeft_of_head (s cutset : List Char)
    (h : ∀ c, s.head? = some c → cutset.contains c = false) : TrimLeft s cutset = s := by
  unfold TrimLeft
  cases s with
  | nil => rfl
  | cons a s =>
    have := h a rfl
    rw [List.dropWhile_cons_of_neg (by rw [this]; exact Bool.false_ne_true)]

/-- What `strings.TrimRight` returns does not end with a rune of the set. -/
theorem TrimRight_getLast (s cutset : List Char) :
    ∀ c, (TrimRight s cutset).getLast? = some c → cutset.contains c = false := by
  intro c h
  unfold TrimRight at h
  rw [List.getLast?_reverse] at h
  exact TrimLeft_head s.reverse cutset c h

/-- A text that does not end with a rune of the set is kept by
`strings.TrimRight`. -/
theorem TrimRight_of_getLast (s cutset : List Char)
    (h : ∀ c, s.getLast? = some c → cutset.contains c = false) : TrimRight s cutset = s := by
  unfold TrimRight
  have := TrimLeft_of_head s.reverse cutset (by
    intro c hc
    rw [List.head?_reverse] at hc
    exact h c hc)
  unfold TrimLeft at this
  rw [this, List.reverse_reverse]

/-- Trimming on the left keeps the end of a text that is not trimmed away. -/
theorem TrimLeft_getLast (s cutset : List Char) (c : Char)
    (h : (TrimLeft s cutset).getLast? = some c) : s.getLast? = some c := by
  unfold TrimLeft at h
  have hs : (s.dropWhile (fun c => cutset.contains c)) <:+ s := List.dropWhile_suffix _
  obtain ⟨t, ht⟩ := hs
  have hne : s.dropWhile (fun c => cutset.contains c) ≠ [] := by
    intro hc
    rw [hc] at h
    exact Option.noConfusion h
  rw [← ht, List.getLast?_append_of_ne_nil _ hne]
  exact h

/-- C25: for every text, what `MakeRegexFilenameLabel` returns is not empty,
is made of ASCII letters, digits, `_`, `-` and `.` only, neither starts nor
ends with `-`, `.` or `_`, is `master` when nothing else is left, and is
returned unchanged when the function is applied to it. -/
theorem C25_filename_label (possibleRegex : String) :
    (MakeRegexFilenameLabel possibleRegex).data ≠ [] ∧
    (∀ c ∈ (MakeRegexFilenameLabel possibleRegex).data, isLabelRune c = true) ∧
    (∀ c, (MakeRegexFilenameLabel possibleRegex).data.head? = some c →
      c ≠ '-' ∧ c ≠ '.' ∧ c ≠ '_') ∧
    (∀ c, (MakeRegexFilenameLabel possibleRegex).data.getLast? = some c →
      c ≠ '-' ∧ c ≠ '.' ∧ c ≠ '_') ∧
    (TrimLeft (TrimRight (removeRegexParts possibleRegex.data) "-._".data) "-._".data = [] →
      MakeRegexFilenameLabel possibleRegex = "master") ∧
    MakeRegexFilenameLabel (MakeRegexFilenameLabel possibleRegex) =
      MakeRegexFilenameLabel possibleRegex := by
  have hcut : ∀ c : Char, "-._".data.contains c = false → c ≠ '-' ∧ c ≠ '.' ∧ c ≠ '_' := by
    intro c hc
    refine ⟨?_, ?_, ?_⟩ <;> intro e <;> subst e <;> exact absurd hc (by decide)
  have hfix : ∀ l : List Char, l ≠ [] → (∀ c ∈ l, isLabelRune c = true) →
      (∀ c, l.head? = some c → "-._".data.contains c = false) →
      (∀ c, l.getLast? = some c → "-._".data.contains c = false) →
      MakeRegexFilenameLabel ⟨l⟩ = ⟨l⟩ := by
    intro l hne hall hhead hlast
    unfold MakeRegexFilenameLabel removeRegexParts
    simp only
    rw [List.filter_eq_self.mpr hall, TrimRight_of_getLast l _ hlast,
      TrimLeft_of_head l _ hhead, if_neg (by simpa using hne)]
  generalize hl : TrimLeft (TrimRight (removeRegexParts possibleRegex.data) "-._".data)
    "-._".data = label
  have hdef : MakeRegexFilenameLabel possibleRegex =
      if label.length = 0 then "master" else ⟨label⟩ := by
    unfold MakeRegexFilenameLabel
    simp only
    rw [hl]
  by_cases hlen : label.length = 0
  · rw [hdef, if_pos hlen]
    refine ⟨by decide, by decide, ?_, ?_, fun _ => rfl, by decide⟩
    · intro c hc
      have : c = 'm' := by
        have h2 : some 'm' = some c := hc
        exact (Option.some.inj h2).symm
      subst this
      decide
    · intro c hc
      have : c = 'r' := by
        have h2 : some 'r' = some c := hc
        exact (Option.some.inj h2).symm
      subst this
      decide
  · rw [hdef, if_neg hlen]
    have hne : label ≠ [] := fun e => hlen (by rw [e]; rfl)
    have hall : ∀ c ∈ label, isLabelRune c = true := by
      intro c hc
      rw [← hl] at hc
      have h1 : c ∈ TrimRight (removeRegexParts possibleRegex.data) "-._".data :=
        (List.dropWhile_sublist _).subset hc
      have h2 : c ∈ (removeRegexParts possibleRegex.data).reverse :=
        (List.dropWhile_sublist _).subset (List.mem_reverse.mp h1)
      have h3 := List.mem_reverse.mp h2
      exact (List.mem_filter.mp h3).2
    have hhead : ∀ c, label.head? = some c → "-._".data.contains c = false := by
      intro c hc
      rw [← hl] at hc
      exact TrimLeft_head _ _ c hc
    have hlast : ∀ c, label.getLast? = some c → "-._".data.contains c = false := by
      intro c hc
      rw [← hl] at hc
      exact TrimRight_getLast _ _ c (TrimLeft_getLast _ _ c hc)
    refine ⟨hne, hall, fun c hc => hcut c (hhead c hc), fun c hc => hcut c (hlast c hc),
      fun e => absurd e hne, hfix label hne hall hhead hlast⟩

/-! ### Merging the generated jobs into a file -/

/-- C24: what `mergePresubmits` returns for every old and new job. The merged
job has the `MaxConcurrency` and the `SkipReport` of the old job, whether the
old job sets them or not; its `Cluster` is the value of the cluster label of
the new job when the new job has that label, and the `Cluster` of the old job
otherwise, so never the `Cluster` of the new job; for a job whose name ends
with `-images` and an old job that sets `RunIfChanged` or `SkipIfOnlyChanged`,
these two fields are the ones of the old job and `AlwaysRun` is false, and
otherwise the three are the ones of the new job; every other field is the one
of the new job. The doc comment of the function prefers the fields of the new
job unless the old job sets them, which the first three fields do not
follow. -/
theorem C24_merge_presubmits (ClusterLabel : String) (old new : Presubmit) :
    (mergePresubmits ClusterLabel old new).MaxConcurrency = old.MaxConcurrency ∧
    (mergePresubmits ClusterLabel old new).SkipReport = old.SkipReport ∧
    (mergePresubmits ClusterLabel old new).Cluster =
      (match mapGet new.Labels ClusterLabel with
        | some val => val
        | none => old.Cluster) ∧
    ((mergePresubmits ClusterLabel old new).RunIfChanged,
      (mergePresubmits ClusterLabel old new).SkipIfOnlyChanged,
      (mergePresubmits ClusterLabel old new).AlwaysRun) =
      (if HasSuffix new.Name "-images" = true ∧
          (old.RunIfChanged ≠ "" ∨ old.SkipIfOnlyChanged ≠ "") then
        (old.RunIfChanged, old.SkipIfOnlyChanged, false)
      else (new.RunIfChanged, new.SkipIfOnlyChanged, new.AlwaysRun)) ∧
    (mergePresubmits ClusterLabel old new).Name = new.Name ∧
    (mergePresubmits ClusterLabel old new).Labels = new.Labels ∧
    (mergePresubmits ClusterLabel old new).ReporterConfig = new.ReporterConfig ∧
    (mergePresubmits ClusterLabel old new).Other = new.Other ∧
    (mergePresubmits ClusterLabel old new).Rest = new.Rest := by
  have hc : (if old.Cluster ≠ "" then old.Cluster else "") = old.Cluster := by
    by_cases h : old.Cluster = ""
    · rw [if_neg (not_not.mpr h), h]
    · rw [if_pos h]
  unfold mergePresubmits
  simp only [hc]
  by_cases h1 : HasSuffix new.Name "-images" = true
  · by_cases h2 : old.RunIfChanged ≠ "" ∨ old.SkipIfOnlyChanged ≠ ""
    · rw [if_pos h1, if_pos h2, if_pos ⟨h1, h2⟩]
      exact ⟨rfl, rfl, rfl, rfl, rfl, rfl, rfl, rfl, rfl⟩
    · rw [if_pos h1, if_neg h2, if_neg (fun hc => h2 hc.2)]
      exact ⟨rfl, rfl, rfl, rfl, rfl, rfl, rfl, rfl, rfl⟩
  · rw [if_neg h1, if_neg (fun hc => h1 hc.1)]
    exact ⟨rfl, rfl, rfl, rfl, rfl, rfl, rfl, rfl, rfl⟩

/-- C24 at an old job that leaves `MaxConcurrency`, `SkipReport` and `Cluster`
unset and a new job that sets them to 5, true and `build01` and has no cluster
label: the merged presubmit has 0, false and the empty cluster, none of the
values of the new job, where the doc comment of `mergePresubmits` prefers the
fields of the new job unless the old job sets them; `mergePostsubmits` and
`mergePeriodics`, which carry the same doc comment, keep the cluster `build01`
of the new job at an old job without a cluster. -/
theorem C24_counterexample :
    mergePresubmits "ci-operator.openshift.io/cluster"
      { Name := "pull-ci-org-repo-master-unit", Labels := [], MaxConcurrency := 0,
        Cluster := "", ReporterConfig := none, Other := "", AlwaysRun := true,
        RunIfChanged := "", SkipIfOnlyChanged := "", SkipReport := false, Rest := "" }
      { Name := "pull-ci-org-repo-master-unit", Labels := [], MaxConcurrency := 5,
        Cluster := "build01", ReporterConfig := none, Other := "", AlwaysRun := true,
        RunIfChanged := "", SkipIfOnlyChanged := "", SkipReport := true, Rest := "" } =
      { Name := "pull-ci-org-repo-master-unit", Labels := [], MaxConcurrency := 0,
        Cluster := "", ReporterConfig := none, Other := "", AlwaysRun := true,
        RunIfChanged := "", SkipIfOnlyChanged := "", SkipReport := false, Rest := "" } ∧
    (mergePostsubmits "ci-operator.openshift.io/is-promotion"
      { Name := "branch-ci-org-repo-master-images", Labels := [], MaxConcurrency := 0,
        Cluster := "", ReporterConfig := none, Other := "", Rest := "" }
      { Name := "branch-ci-org-repo-master-images", Labels := [], MaxConcurrency := 5,
        Cluster := "build01", ReporterConfig := none, Other := "", Rest := "" }).Cluster
      = "build01" ∧
    (mergePeriodics
      { Name := "periodic-ci-org-repo-master-e2e", Labels := [], MaxConcurrency := 0,
        Cluster := "", ReporterConfig := none, Other := "", Rest := "" }
      { Name := "periodic-ci-org-repo-master-e2e", Labels := [], MaxConcurrency := 5,
        Cluster := "build01", ReporterConfig := none, Other := "", Rest := "" }).Cluster
      = "build01" := by
  decide

/-! ### Maps as lists of entries -/

/-- The keys after an assignment: a new key comes last. -/
theorem keys_mapSet {V : Type} (m : List (String × V)) (k : String) (v : V) :
    (mapSet m k v).map Prod.fst =
      if k ∈ m.map Prod.fst then m.map Prod.fst else m.map Prod.fst ++ [k] := by
  induction m with
  | nil => simp [mapSet]
  | cons e m ih =>
    rw [mapSet]
    by_cases he : e.1 = k
    · rw [if_pos he, if_pos (by simp [he])]
      simp [he]
    · rw [if_neg he, List.map_cons, ih]
      have hke : ¬ k = e.1 := fun hc => he hc.symm
      by_cases hk : k ∈ m.map Prod.fst
      · rw [if_pos hk, if_pos (by simp only [List.map_cons, List.mem_cons]; exact Or.inr hk)]
        rfl
      · rw [if_neg hk, if_neg (by
          simp only [List.map_cons, List.mem_cons]
          exact fun hc => hc.elim hke hk)]
        rfl

/-- The keys stay distinct under an assignment. -/
theorem nodup_keys_mapSet {V : Type} (m : List (String × V)) (k : String) (v : V)
    (h : (m.map Prod.fst).Nodup) : ((mapSet m k v).map Prod.fst).Nodup := by
  rw [keys_mapSet]
  by_cases hk : k ∈ m.map Prod.fst
  · rw [if_pos hk]; exact h
  · rw [if_neg hk]
    exact List.Nodup.append h (List.nodup_singleton k) (by
      intro a ha hb
      rw [List.mem_singleton] at hb
      exact hk (hb ▸ ha))

/-- The entries after an assignment, for a map with distinct keys. -/
theorem mem_mapSet {V : Type} (m : List (String × V)) (k : String) (v : V)
    (h : (m.map Prod.fst).Nodup) (entry : String × V) :
    entry ∈ mapSet m k v ↔ entry = (k, v) ∨ (entry ∈ m ∧ entry.1 ≠ k) := by
  induction m with
  | nil => simp [mapSet]
  | cons e m ih =>
    have hn := List.nodup_cons.mp h
    rw [mapSet]
    by_cases he : e.1 = k
    · rw [if_pos he]
      simp only [List.mem_cons]
      constructor
      · rintro (h1 | h1)
        · exact Or.inl h1
        · refine Or.inr ⟨Or.inr h1, ?_⟩
          intro hc
          exact hn.1 (List.mem_map.mpr ⟨entry, h1, hc.trans he.symm⟩)
      · rintro (h1 | ⟨h1 | h1, h2⟩)
        · exact Or.inl h1
        · exact absurd (h1 ▸ he) h2
        · exact Or.inr h1
    · rw [if_neg he]
      simp only [List.mem_cons, ih hn.2]
      constructor
      · rintro (h1 | h1 | ⟨h1, h2⟩)
        · exact Or.inr ⟨Or.inl h1, h1 ▸ he⟩
        · exact Or.inl h1
        · exact Or.inr ⟨Or.inr h1, h2⟩
      · rintro (h1 | ⟨h1 | h1, h2⟩)
        · exact Or.inr (Or.inl h1)
        · exact Or.inl h1
        · exact Or.inr (Or.inr ⟨h1, h2⟩)

/-- In a map with distinct keys, an entry is there exactly when its value is
the value of its key. -/
theorem mapGet_eq_some_iff {V : Type} (m : List (String × V)) (h : (m.map Prod.fst).Nodup)
    (k : String) (v : V) : mapGet m k = some v ↔ (k, v) ∈ m := by
  induction m with
  | nil => simp [mapGet]
  | cons e m ih =>
    have hn := List.nodup_cons.mp h
    unfold mapGet at ih ⊢
    by_cases he : e.1 = k
    · simp only [List.find?_cons, he, decide_True, Option.map_some', List.mem_cons]
      constructor
      · intro h1
        left
        have : e.2 = v := Option.some.inj h1
        rw [← this, ← he]
      · rintro (h1 | h1)
        · rw [← h1]
        · exact absurd (List.mem_map.mpr ⟨(k, v), h1, he.symm⟩) hn.1
    · simp only [List.find?_cons, he, decide_False, List.mem_cons, ih hn.2]
      constructor
      · exact fun h1 => Or.inr h1
      · rintro (h1 | h1)
        · exact absurd (by rw [← h1]) he
        · exact h1

/-- A key has no value exactly when it is not a key of the map. -/
theorem mapGet_eq_none_iff {V : Type} (m : List (String × V)) (k : String) :
    mapGet m k = none ↔ k ∉ m.map Prod.fst := by
  unfold mapGet
  rw [Option.map_eq_none', List.find?_eq_none]
  simp only [decide_eq_true_eq, List.mem_map, not_exists, not_and]

/-- The map of the jobs by name: its keys are distinct, every entry is a job
of the list under its name, and the names of the list are its keys. -/
theorem jobsByName_spec {J : Type} (name : J → String) (jobs : List J) :
    ((jobsByName name jobs).map Prod.fst).Nodup ∧
    (∀ entry ∈ jobsByName name jobs, name entry.2 = entry.1 ∧ entry.2 ∈ jobs) ∧
    (∀ k, k ∈ (jobsByName name jobs).map Prod.fst ↔ k ∈ jobs.map name) := by
  unfold jobsByName
  induction jobs using List.reverseRecOn with
  | nil => simp
  | append_singleton l a ih =>
    obtain ⟨h1, h2, h3⟩ := ih
    rw [List.foldl_append, List.foldl_cons, List.foldl_nil]
    refine ⟨nodup_keys_mapSet _ _ _ h1, ?_, ?_⟩
    · intro entry he
      rcases (mem_mapSet _ _ _ h1 entry).mp he with h | ⟨h, _⟩
      · rw [h]
        exact ⟨rfl, by simp⟩
      · exact ⟨(h2 entry h).1, List.mem_append_left _ (h2 entry h).2⟩
    · intro k
      rw [keys_mapSet]
      by_cases hk : name a ∈ (l.foldl (fun m job => mapSet m (name job) job) []).map Prod.fst
      · rw [if_pos hk, h3 k, List.map_append, List.mem_append]
        constructor
        · exact fun h => Or.inl h
        · rintro (h | h)
          · exact h
          · have : k = name a := by simpa using h
            rw [this]
            exact (h3 _).mp hk
      · rw [if_neg hk, List.mem_append, h3 k, List.map_append, List.mem_append]
        simp

/-- When the names of the jobs are distinct, the map holds the jobs, in their
order. -/
theorem jobsByName_of_nodup {J : Type} (name : J → String) (jobs : List J)
    (h : (jobs.map name).Nodup) :
    jobsByName name jobs = jobs.map (fun job => (name job, job)) := by
  unfold jobsByName
  induction jobs using List.reverseRecOn with
  | nil => rfl
  | append_singleton l a ih =>
    rw [List.map_append, List.nodup_append] at h
    rw [List.foldl_append, List.foldl_cons, List.foldl_nil, ih h.1, List.map_append]
    have hk : name a ∉ (l.map (fun job => (name job, job))).map Prod.fst := by
      rw [List.map_map]
      intro hc
      exact h.2.2 hc (by simp)
    clear ih h
    generalize l.map (fun job => (name job, job)) = m at hk
    induction m with
    | nil => rfl
    | cons e m ihm =>
      rw [mapSet]
      have he : ¬ e.1 = name a := fun hc => hk (by simp [hc])
      rw [if_neg he, ihm (fun hc => hk (by
        simp only [List.map_cons, List.mem_cons]
        exact Or.inr hc))]
      rfl

/-! ### The merged jobs -/

/-- The jobs that `mergeJobs` returns: every name of the source once, and
beyond those the last job of each name of the destination whose name is not
in `allJobs`. -/
theorem mergeJobs_spec {J : Type} (R : GoRange) (name : J → String) (merge : J → J → J)
    (hmerge : ∀ o n, name (merge o n) = name n)
    (destinationJobs sourceJobs : List J) (allJobs : List String) :
    MergedJobs name ((jobsByName name destinationJobs).map Prod.snd) sourceJobs allJobs
      (mergeJobs R name merge destinationJobs sourceJobs allJobs) := by
  obtain ⟨hO1, hO2, hO3⟩ := jobsByName_spec name destinationJobs
  obtain ⟨hN1, hN2, hN3⟩ := jobsByName_spec name sourceJobs
  unfold mergeJobs
  simp only
  generalize hO : jobsByName name destinationJobs = O at hO1 hO2 hO3
  generalize hN : jobsByName name sourceJobs = N at hN1 hN2 hN3
  have hnames1 : ((R.order N).map (fun entry =>
      match mapGet O entry.1 with
      | some oldJob => merge oldJob entry.2
      | none => entry.2)).map name = (R.order N).map Prod.fst := by
    rw [List.map_map]
    apply List.map_congr_left
    intro e he
    have hen := (hN2 e ((R.perm N).mem_iff.mp he)).1
    simp only [Function.comp]
    cases mapGet O e.1 with
    | none => exact hen
    | some oldJob => exact (hmerge oldJob e.2).trans hen
  have hnodup1 : ((R.order N).map Prod.fst).Nodup :=
    ((R.perm N).map Prod.fst).nodup_iff.mpr hN1
  have hpart2 : ∀ job ∈ (R.order O).filterMap (fun entry =>
      if (mapGet N entry.1).isNone ∧ ¬ allJobs.contains entry.1 then some entry.2 else none),
      name job ∉ sourceJobs.map name := by
    intro job hjob
    obtain ⟨e, he, hg⟩ := List.mem_filterMap.mp hjob
    by_cases hc : (mapGet N e.1).isNone ∧ ¬ allJobs.contains e.1
    · rw [if_pos hc] at hg
      have hj : e.2 = job := Option.some.inj hg
      have hen := (hO2 e ((R.perm O).mem_iff.mp he)).1
      rw [← hj, hen, ← hN3]
      exact (mapGet_eq_none_iff N e.1).mp (Option.isNone_iff_eq_none.mp hc.1)
    · rw [if_neg hc] at hg
      exact Option.noConfusion hg
  constructor
  · intro n hn
    rw [List.map_append, List.count_append, hnames1]
    have h1 : ((R.order N).map Prod.fst).count n = 1 :=
      List.count_eq_one_of_mem hnodup1 (((R.perm N).map Prod.fst).mem_iff.mpr ((hN3 n).mpr hn))
    have h2 : (((R.order O).filterMap (fun entry =>
        if (mapGet N entry.1).isNone ∧ ¬ allJobs.contains entry.1 then some entry.2
        else none)).map name).count n = 0 := by
      apply List.count_eq_zero_of_not_mem
      intro hc
      obtain ⟨job, hjob, hjn⟩ := List.mem_map.mp hc
      exact hpart2 job hjob (hjn ▸ hn)
    rw [h1, h2]
  · rw [List.filter_append]
    have hf1 : ((R.order N).map (fun entry =>
        match mapGet O entry.1 with
        | some oldJob => merge oldJob entry.2
        | none => entry.2)).filter (fun job => decide (name job ∉ sourceJobs.map name)) = [] := by
      rw [List.filter_eq_nil_iff]
      intro job hjob
      have hmem : name job ∈ (R.order N).map Prod.fst := by
        rw [← hnames1]
        exact List.mem_map_of_mem name hjob
      have hin : name job ∈ sourceJobs.map name :=
        (hN3 _).mp (((R.perm N).map Prod.fst).mem_iff.mp hmem)
      simpa using hin
    have hf2 : ((R.order O).filterMap (fun entry =>
        if (mapGet N entry.1).isNone ∧ ¬ allJobs.contains entry.1 then some entry.2
        else none)).filter (fun job => decide (name job ∉ sourceJobs.map name)) =
        (R.order O).filterMap (fun entry =>
          if (mapGet N entry.1).isNone ∧ ¬ allJobs.contains entry.1 then some entry.2
          else none) := by
      rw [List.filter_eq_self]
      intro job hjob
      simpa using hpart2 job hjob
    rw [hf1, hf2, List.nil_append]
    refine ((R.perm O).filterMap _).trans ?_
    have hgen : ∀ l : List (String × J), (∀ e ∈ l, name e.2 = e.1) →
        l.filterMap (fun entry =>
          if (mapGet N entry.1).isNone ∧ ¬ allJobs.contains entry.1 then some entry.2
          else none) =
        (l.map Prod.snd).filter
          (fun job => decide (name job ∉ sourceJobs.map name ∧ name job ∉ allJobs)) := by
      intro l
      induction l with
      | nil => intro _; rfl
      | cons e l ih =>
        intro hl
        have he := hl e (List.mem_cons_self _ _)
        have ihl := ih (fun x hx => hl x (List.mem_cons_of_mem _ hx))
        have hiff : ((mapGet N e.1).isNone ∧ ¬ allJobs.contains e.1) ↔
            (name e.2 ∉ sourceJobs.map name ∧ name e.2 ∉ allJobs) := by
          rw [he, ← hN3, Option.isNone_iff_eq_none, mapGet_eq_none_iff]
          simp
        by_cases hc : (mapGet N e.1).isNone ∧ ¬ allJobs.contains e.1
        · rw [List.filterMap_cons_some (by rw [if_pos hc]), List.map_cons,
            List.filter_cons_of_pos (by simpa using hiff.mp hc), ihl]
        · rw [List.filterMap_cons_none (by rw [if_neg hc]), List.map_cons,
            List.filter_cons_of_neg (by simpa using fun h1 h2 => hc (hiff.mpr ⟨h1, h2⟩)), ihl]
    rw [hgen O (fun e he => (hO2 e he).1)]

/-- The merged presubmit has the name of the new one. -/
theorem mergePresubmits_Name (ClusterLabel : String) (old new : Presubmit) :
    (mergePresubmits ClusterLabel old new).Name = new.Name := by
  unfold mergePresubmits
  simp only
  split
  · split <;> rfl
  · rfl

/-- The merged postsubmit has the name of the new one. -/
theorem mergePostsubmits_Name (PromotionJobLabelKey : String) (old new : Postsubmit) :
    (mergePostsubmits PromotionJobLabelKey old new).Name = new.Name := by
  unfold mergePostsubmits
  simp only
  split <;> split <;> rfl

/-- The merged periodic has the name of the new one. -/
theorem mergePeriodics_Name (old new : Periodic) :
    (mergePeriodics old new).Name = new.Name := by
  unfold mergePeriodics
  simp only
  split <;> split <;> rfl

/-- The value of a key does not depend on the order of the entries of a map
with distinct keys. -/
theorem mapGet_perm {V : Type} (m1 m2 : List (String × V)) (hp : m1.Perm m2)
    (h : (m2.map Prod.fst).Nodup) (k : String) : mapGet m1 k = mapGet m2 k := by
  have h1 : (m1.map Prod.fst).Nodup := (hp.map Prod.fst).nodup_iff.mpr h
  cases hv : mapGet m2 k with
  | some v =>
    exact (mapGet_eq_some_iff m1 h1 k v).mpr
      (hp.mem_iff.mpr ((mapGet_eq_some_iff m2 h k v).mp hv))
  | none =>
    rw [mapGet_eq_none_iff] at hv ⊢
    exact fun hc => hv ((hp.map Prod.fst).mem_iff.mp hc)

/-- The value of a key after the loop that updates a map for every entry of
another map, whose keys are distinct. -/
theorem mapGet_foldl_update {V S : Type} (F : Option V → S → V) (E : List (String × S))
    (hE : (E.map Prod.fst).Nodup) :
    ∀ (dest : List (String × V)) (k : String),
      mapGet (E.foldl (fun dest e => mapSet dest e.1 (F (mapGet dest e.1) e.2)) dest) k =
        match mapGet E k with
        | some s => some (F (mapGet dest k) s)
        | none => mapGet dest k := by
  induction E with
  | nil => intro dest k; rfl
  | cons e E ih =>
    intro dest k
    have hn := List.nodup_cons.mp hE
    rw [List.foldl_cons, ih hn.2]
    by_cases hk : e.1 = k
    · have hnone : mapGet E k = none := by
        rw [mapGet_eq_none_iff]
        exact hk ▸ hn.1
      have hsome : mapGet (e :: E) k = some e.2 := by
        unfold mapGet
        simp [hk]
      rw [hnone, hsome]
      simp only
      rw [CiOperator.mapGet_mapSet, if_pos hk, hk]
    · have hsame : mapGet (e :: E) k = mapGet E k := by
        unfold mapGet
        simp [hk]
      rw [hsame, CiOperator.mapGet_mapSet, if_neg hk]

/-- The presubmits of a repository after `mergeJobConfig`. -/
theorem mergeJobConfig_key {J : Type} (R : GoRange) (name : J → String) (merge : J → J → J)
    (dest src : List (String × List J)) (hsrc : (src.map Prod.fst).Nodup)
    (allJobs : List String) (repo : String) :
    mapGet ((R.order src).foldl
        (fun dest entry =>
          mapSet dest entry.1
            (mergeJobs R name merge ((mapGet dest entry.1).getD []) entry.2 allJobs)) dest)
        repo =
      match mapGet src repo with
      | some jobs => some (mergeJobs R name merge ((mapGet dest repo).getD []) jobs allJobs)
      | none => mapGet dest repo := by
  have hn : ((R.order src).map Prod.fst).Nodup := ((R.perm src).map Prod.fst).nodup_iff.mpr hsrc
  rw [mapGet_foldl_update (fun o jobs => mergeJobs R name merge (o.getD []) jobs allJobs)
    (R.order src) hn dest repo, mapGet_perm (R.order src) src (R.perm src) hsrc repo]
  cases mapGet src repo <;> rfl

/-- C21 (amended): after `mergeJobConfig`, for every repository that is a key
of the presubmits of the source (likewise of its postsubmits, and for the
periodics when the source has any), the destination holds every name of a
job of the source exactly once, and beyond those exactly the jobs that the
destination held before under names that are not in `allJobs`, unchanged,
where of several jobs of one name that the destination held only the last
counts; when the names of the jobs that the destination held are distinct
these are all of them. The jobs of the repositories that are not keys of the
source are untouched. The keys of the maps of the source are distinct, as in
every map. -/
theorem C21_merge_job_config (R : GoRange) (ClusterLabel PromotionJobLabelKey : String)
    (destination source : JobConfig) (allJobs : List String)
    (hpre : (source.PresubmitsStatic.map Prod.fst).Nodup)
    (hpost : (source.PostsubmitsStatic.map Prod.fst).Nodup) :
    (∀ repo jobs, mapGet source.PresubmitsStatic repo = some jobs →
      ∃ merged,
        mapGet (mergeJobConfig R ClusterLabel PromotionJobLabelKey destination source
          allJobs).PresubmitsStatic repo = some merged ∧
        MergedJobs (fun job : Presubmit => job.Name)
          ((jobsByName (fun job : Presubmit => job.Name)
            ((mapGet destination.PresubmitsStatic repo).getD [])).map Prod.snd)
          jobs allJobs merged) ∧
    (∀ repo, mapGet source.PresubmitsStatic repo = none →
      mapGet (mergeJobConfig R ClusterLabel PromotionJobLabelKey destination source
        allJobs).PresubmitsStatic repo = mapGet destination.PresubmitsStatic repo) ∧
    (∀ repo jobs, mapGet source.PostsubmitsStatic repo = some jobs →
      ∃ merged,
        mapGet (mergeJobConfig R ClusterLabel PromotionJobLabelKey destination source
          allJobs).PostsubmitsStatic repo = some merged ∧
        MergedJobs (fun job : Postsubmit => job.Name)
          ((jobsByName (fun job : Postsubmit => job.Name)
            ((mapGet destination.PostsubmitsStatic repo).getD [])).map Prod.snd)
          jobs allJobs merged) ∧
    (∀ repo, mapGet source.PostsubmitsStatic repo = none →
      mapGet (mergeJobConfig R ClusterLabel PromotionJobLabelKey destination source
        allJobs).PostsubmitsStatic repo = mapGet destination.PostsubmitsStatic repo) ∧
    (source.Periodics ≠ [] →
      MergedJobs (fun job : Periodic => job.Name)
        ((jobsByName (fun job : Periodic => job.Name) destination.Periodics).map Prod.snd)
        source.Periodics allJobs
        (mergeJobConfig R ClusterLabel PromotionJobLabelKey destination source
          allJobs).Periodics) ∧
    (source.Periodics = [] →
      (mergeJobConfig R ClusterLabel PromotionJobLabelKey destination source
        allJobs).Periodics = destination.Periodics) ∧
    (∀ (J : Type) (name : J → String) (jobs : List J), (jobs.map name).Nodup →
      (jobsByName name jobs).map Prod.snd = jobs) := by
  refine ⟨?_, ?_, ?_, ?_, ?_, ?_, ?_⟩
  · intro repo jobs h
    refine ⟨_, ?_, mergeJobs_spec R (fun job : Presubmit => job.Name)
      (mergePresubmits ClusterLabel) (mergePresubmits_Name ClusterLabel)
      ((mapGet destination.PresubmitsStatic repo).getD []) jobs allJobs⟩
    unfold mergeJobConfig
    simp only
    rw [mergeJobConfig_key R _ _ _ _ hpre, h]
  · intro repo h
    unfold mergeJobConfig
    simp only
    rw [mergeJobConfig_key R _ _ _ _ hpre, h]
  · intro repo jobs h
    refine ⟨_, ?_, mergeJobs_spec R (fun job : Postsubmit => job.Name)
      (mergePostsubmits PromotionJobLabelKey) (mergePostsubmits_Name PromotionJobLabelKey)
      ((mapGet destination.PostsubmitsStatic repo).getD []) jobs allJobs⟩
    unfold mergeJobConfig
    simp only
    rw [mergeJobConfig_key R _ _ _ _ hpost, h]
  · intro repo h
    unfold mergeJobConfig
    simp only
    rw [mergeJobConfig_key R _ _ _ _ hpost, h]
  · intro h
    have hlen : source.Periodics.length ≠ 0 := fun hc => h (List.length_eq_zero.mp hc)
    unfold mergeJobConfig
    simp only
    rw [if_pos hlen]
    exact mergeJobs_spec R (fun job : Periodic => job.Name) mergePeriodics mergePeriodics_Name
      destination.Periodics source.Periodics allJobs
  · intro h
    unfold mergeJobConfig
    simp only
    rw [if_neg (by rw [h]; exact fun hc => hc rfl)]
  · intro J name jobs h
    rw [jobsByName_of_nodup name jobs h, List.map_map]
    exact List.map_id jobs

/-- C21 (amended) at a destination with the presubmits `a` and `b` of one
repository and a source with the presubmits `b` and `c` of it. -/
theorem C21_witness :
    ∃ merged,
      mapGet (mergeJobConfig rangeInOrder "cluster" "promotion"
        ⟨[("org/repo", [examplePresubmit "a" "old", examplePresubmit "b" "old"])], [], []⟩
        ⟨[("org/repo", [examplePresubmit "b" "new", examplePresubmit "c" "new"])], [], []⟩
        ["b", "c"]).PresubmitsStatic "org/repo" = some merged ∧
      MergedJobs (fun job : Presubmit => job.Name)
        ((jobsByName (fun job : Presubmit => job.Name)
          ((mapGet [("org/repo", [examplePresubmit "a" "old", examplePresubmit "b" "old"])]
            "org/repo").getD [])).map Prod.snd)
        [examplePresubmit "b" "new", examplePresubmit "c" "new"] ["b", "c"] merged :=
  (C21_merge_job_config rangeInOrder "cluster" "promotion"
    ⟨[("org/repo", [examplePresubmit "a" "old", examplePresubmit "b" "old"])], [], []⟩
    ⟨[("org/repo", [examplePresubmit "b" "new", examplePresubmit "c" "new"])], [], []⟩
    ["b", "c"] (by decide) (by decide)).1 "org/repo"
    [examplePresubmit "b" "new", examplePresubmit "c" "new"] rfl

/-- The example of the merge, evaluated. -/
theorem mergeJobConfig_example :
    mergeJobConfig rangeInOrder "cluster" "promotion"
      ⟨[("org/repo", [examplePresubmit "a" "old", examplePresubmit "b" "old"])], [], []⟩
      ⟨[("org/repo", [examplePresubmit "b" "new", examplePresubmit "c" "new"])], [], []⟩
      ["b", "c"] =
      ⟨[("org/repo", [examplePresubmit "b" "new", examplePresubmit "c" "new",
        examplePresubmit "a" "old"])], [], []⟩ := by
  decide

/-- C21 as stated fails when the destination holds two jobs of one name: with
the two presubmits named `a` in the destination and the presubmit `b` in the
source, the destination holds `b` once and only the second job named `a`
afterwards, though neither job named `a` is in `allJobs`. -/
theorem C21_counterexample :
    mergeJobConfig rangeInOrder "cluster" "promotion"
      ⟨[("org/repo", [examplePresubmit "a" "first", examplePresubmit "a" "second"])], [], []⟩
      ⟨[("org/repo", [examplePresubmit "b" "new"])], [], []⟩
      ["b"] =
      ⟨[("org/repo", [examplePresubmit "b" "new", examplePresubmit "a" "second"])], [], []⟩ ∧
    examplePresubmit "a" "first" ∉
      [examplePresubmit "b" "new", examplePresubmit "a" "second"] ∧
    (examplePresubmit "a" "first").Name ∉ ["b"] := by
  decide

/-! ### Pruning the stale jobs -/

/-- The requirements of the prune labels: all are built, or none. -/
theorem foldl_requirements (validKey validValue : String → Bool)
    (entries : List (String × String)) :
    ∀ init : List Requirement,
      entries.foldl
          (fun acc entry =>
            match acc with
            | none => none
            | some ls =>
              match NewRequirement validKey validValue entry.1 .Equals entry.2 with
              | none => none
              | some req => some (ls ++ [req]))
          (some init) =
        if entries.all (fun entry => validKey entry.1 && validValue entry.2) then
          some (init ++ entries.map (fun entry => ⟨entry.1, .Equals, entry.2⟩))
        else none := by
  have hnone : ∀ l : List (String × String),
      l.foldl
          (fun (acc : Option (List Requirement)) entry =>
            match acc with
            | none => none
            | some ls =>
              match NewRequirement validKey validValue entry.1 .Equals entry.2 with
              | none => none
              | some req => some (ls ++ [req]))
          none = none := by
    intro l
    induction l with
    | nil => rfl
    | cons a l ih => rw [List.foldl_cons]; exact ih
  induction entries with
  | nil => intro init; simp
  | cons e l ih =>
    intro init
    rw [List.foldl_cons]
    by_cases hv : (validKey e.1 && validValue e.2) = true
    · have hr : NewRequirement validKey validValue e.1 .Equals e.2 =
          some ⟨e.1, .Equals, e.2⟩ := by
        unfold NewRequirement
        rw [if_pos hv]
      simp only [hr]
      rw [ih, List.all_cons, hv, Bool.true_and, List.map_cons, List.append_assoc]
      rfl
    · have hr : NewRequirement validKey validValue e.1 .Equals e.2 = none := by
        unfold NewRequirement
        rw [if_neg hv]
      simp only [hr]
      rw [hnone, List.all_cons]
      have : (validKey e.1 && validValue e.2) = false := by simpa using hv
      rw [this, Bool.false_and]
      rfl

/-- The selector of the stale jobs, when it can be built. -/
theorem staleSelectorFor_eq (R : GoRange) (validKey validValue : String → Bool)
    (generator : String) (pruneLabels : List (String × String)) :
    staleSelectorFor R validKey validValue generator pruneLabels =
      if (validKey LabelGenerator && validValue generator) &&
          (validKey generator && validValue newlyGenerated) &&
          pruneLabels.all (fun entry => validKey entry.1 && validValue entry.2) then
        some ([⟨LabelGenerator, .Equals, generator⟩, ⟨generator, .NotEquals, newlyGenerated⟩] ++
          (R.order pruneLabels).map (fun entry => ⟨entry.1, .Equals, entry.2⟩))
      else none := by
  have hall : (R.order pruneLabels).all (fun entry => validKey entry.1 && validValue entry.2) =
      pruneLabels.all (fun entry => validKey entry.1 && validValue entry.2) := by
    rw [Bool.eq_iff_iff, List.all_eq_true, List.all_eq_true]
    constructor
    · intro h e he; exact h e ((R.perm pruneLabels).mem_iff.mpr he)
    · intro h e he; exact h e ((R.perm pruneLabels).mem_iff.mp he)
  unfold staleSelectorFor generatedSelectorFor
  by_cases h1 : (validKey LabelGenerator && validValue generator) = true
  · have hr1 : NewRequirement validKey validValue LabelGenerator .Equals generator =
        some ⟨LabelGenerator, .Equals, generator⟩ := by
      unfold NewRequirement
      rw [if_pos h1]
    simp only [hr1]
    by_cases h2 : (validKey generator && validValue newlyGenerated) = true
    · have hr2 : NewRequirement validKey validValue generator .NotEquals newlyGenerated =
          some ⟨generator, .NotEquals, newlyGenerated⟩ := by
        unfold NewRequirement
        rw [if_pos h2]
      simp only [hr2]
      rw [foldl_requirements, hall, h1, h2]
      rfl
    · have hr2 : NewRequirement validKey validValue generator .NotEquals newlyGenerated =
          none := by
        unfold NewRequirement
        rw [if_neg h2]
      simp only [hr2]
      have : (validKey generator && validValue newlyGenerated) = false := by simpa using h2
      rw [this]
      simp
  · have hr1 : NewRequirement validKey validValue LabelGenerator .Equals generator = none := by
      unfold NewRequirement
      rw [if_neg h1]
    simp only [hr1]
    have : (validKey LabelGenerator && validValue generator) = false := by simpa using h1
    rw [this]
    simp

/-- A requirement with `Equals` matches the labels that have the key with the
value. -/
theorem Matches_Equals (key value : String) (ls : List (String × String)) :
    (⟨key, .Equals, value⟩ : Requirement).Matches ls = decide (mapGet ls key = some value) := by
  unfold Requirement.Matches
  simp only
  cases h : mapGet ls key with
  | none => simp
  | some v =>
    simp only [Option.some.injEq]
    rw [Bool.eq_iff_iff]
    simp

/-- A requirement with `NotEquals` matches the labels that do not have the key
with the value. -/
theorem Matches_NotEquals (key value : String) (ls : List (String × String)) :
    (⟨key, .NotEquals, value⟩ : Requirement).Matches ls =
      decide (mapGet ls key ≠ some value) := by
  unfold Requirement.Matches
  simp only
  cases h : mapGet ls key with
  | none => simp
  | some v =>
    rw [Bool.eq_iff_iff]
    simp

/-- The selector of the stale jobs matches the labels of the stale jobs. -/
theorem Matches_stale (R : GoRange) (generator : String)
    (pruneLabels ls : List (String × String)) :
    Matches ([⟨LabelGenerator, .Equals, generator⟩, ⟨generator, .NotEquals, newlyGenerated⟩] ++
      (R.order pruneLabels).map (fun entry => ⟨entry.1, .Equals, entry.2⟩)) ls =
      isStaleJob generator pruneLabels ls := by
  unfold Matches isStaleJob
  rw [List.all_append, List.all_cons, List.all_cons, List.all_nil, Bool.and_true,
    Matches_Equals, Matches_NotEquals]
  congr 1
  rw [Bool.eq_iff_iff, List.all_eq_true, List.all_eq_true]
  constructor
  · intro h e he
    have := h _ (List.mem_map_of_mem (fun entry : String × String =>
      (⟨entry.1, .Equals, entry.2⟩ : Requirement)) ((R.perm pruneLabels).mem_iff.mpr he))
    rw [Matches_Equals] at this
    exact this
  · intro h r hr
    obtain ⟨e, he, rfl⟩ := List.mem_map.mp hr
    rw [Matches_Equals]
    exact h e ((R.perm pruneLabels).mem_iff.mp he)

/-- The value of a key after `delete`. -/
theorem mapGet_mapDelete {V : Type} (m : List (String × V)) (k key : String) :
    mapGet (mapDelete m k) key = if key = k then none else mapGet m key := by
  unfold mapDelete mapGet
  induction m with
  | nil => simp
  | cons e m ih =>
    by_cases hek : e.1 = k
    · rw [List.filter_cons_of_neg (by simp [hek]), ih]
      by_cases hkey : key = k
      · rw [if_pos hkey, if_pos hkey]
      · rw [if_neg hkey, if_neg hkey, List.find?_cons_of_neg]
        simp only [decide_eq_true_eq]
        exact fun hc => hkey (hc.symm.trans hek)
    · rw [List.filter_cons_of_pos (by simp [hek])]
      by_cases hke : e.1 = key
      · have hkey : ¬ key = k := fun hc => hek (hke.trans hc)
        rw [if_neg hkey, List.find?_cons_of_pos _ (by simp [hke]),
          List.find?_cons_of_pos _ (by simp [hke])]
      · rw [List.find?_cons_of_neg _ (by simp [hke]), List.find?_cons_of_neg _ (by simp [hke])]
        exact ih

/-- The jobs of a repository after the inner loop of `Prune` for one
repository. -/
theorem mapGet_prune_inner {J : Type} (skip : J → Bool) (keep : J → J) (repo : String)
    (jobs : List J) :
    ∀ (pruned : List (String × List J)) (k : String),
      mapGet (jobs.foldl
          (fun pruned job =>
            if skip job then pruned
            else mapSet pruned repo ((mapGet pruned repo).getD [] ++ [keep job]))
          pruned) k =
        if repo = k then
          (if ((jobs.filter (fun job => !skip job)).map keep).isEmpty then mapGet pruned k
          else some ((mapGet pruned k).getD [] ++ (jobs.filter (fun job => !skip job)).map keep))
        else mapGet pruned k := by
  induction jobs with
  | nil =>
    intro pruned k
    by_cases h : repo = k
    · rw [if_pos h]; rfl
    · rw [if_neg h]; rfl
  | cons job jobs ih =>
    intro pruned k
    rw [List.foldl_cons]
    by_cases hs : skip job = true
    · rw [if_pos hs, ih, List.filter_cons_of_neg (by simp [hs])]
    · rw [if_neg hs, ih, List.filter_cons_of_pos (by simp [hs]), List.map_cons]
      by_cases h : repo = k
      · subst h
        rw [if_pos rfl, if_pos rfl, CiOperator.mapGet_mapSet, if_pos rfl]
        simp only [List.isEmpty_cons, Bool.false_eq_true, if_false, Option.getD_some]
        by_cases he : ((jobs.filter (fun job => !skip job)).map keep).isEmpty = true
        · rw [if_pos he, List.isEmpty_iff.mp he]
        · rw [if_neg he, List.append_assoc]
          rfl
      · rw [if_neg h, if_neg h, CiOperator.mapGet_mapSet, if_neg h]

/-- The jobs of a repository after the loops of `Prune` over a map with
distinct keys. -/
theorem mapGet_prune_outer {J : Type} (skip : J → Bool) (keep : J → J)
    (E : List (String × List J)) (hE : (E.map Prod.fst).Nodup) :
    ∀ (pruned : List (String × List J)) (k : String),
      mapGet (E.foldl
          (fun pruned entry =>
            entry.2.foldl
              (fun pruned job =>
                if skip job then pruned
                else mapSet pruned entry.1 ((mapGet pruned entry.1).getD [] ++ [keep job]))
              pruned)
          pruned) k =
        match mapGet E k with
        | none => mapGet pruned k
        | some jobs =>
          if ((jobs.filter (fun job => !skip job)).map keep).isEmpty then mapGet pruned k
          else some ((mapGet pruned k).getD [] ++ (jobs.filter (fun job => !skip job)).map keep) := by
  induction E with
  | nil => intro pruned k; rfl
  | cons e E ih =>
    intro pruned k
    have hn := List.nodup_cons.mp hE
    rw [List.foldl_cons, ih hn.2, mapGet_prune_inner]
    by_cases hk : e.1 = k
    · have hnone : mapGet E k = none := by
        rw [mapGet_eq_none_iff]
        exact hk ▸ hn.1
      have hsome : mapGet (e :: E) k = some e.2 := by
        unfold mapGet
        simp [hk]
      rw [hnone, hsome, if_pos hk]
    · have hsame : mapGet (e :: E) k = mapGet E k := by
        unfold mapGet
        simp [hk]
      rw [hsame, if_neg hk]

/-- The jobs of a repository in the map that a loop of `Prune` builds. -/
theorem mapGet_pruneMap {J : Type} (R : GoRange) (skip : J → Bool) (keep : J → J)
    (jobs : List (String × List J)) (h : (jobs.map Prod.fst).Nodup) (repo : String) :
    mapGet (pruneMap R skip keep jobs) repo =
      match mapGet jobs repo with
      | none => none
      | some js =>
        if ((js.filter (fun job => !skip job)).map keep).isEmpty then none
        else some ((js.filter (fun job => !skip job)).map keep) := by
  have hn : ((R.order jobs).map Prod.fst).Nodup := ((R.perm jobs).map Prod.fst).nodup_iff.mpr h
  unfold pruneMap
  rw [mapGet_prune_outer skip keep (R.order jobs) hn [] repo,
    mapGet_perm (R.order jobs) jobs (R.perm jobs) h repo]
  cases mapGet jobs repo with
  | none => rfl
  | some js =>
    simp only
    by_cases he : ((js.filter (fun job => !skip job)).map keep).isEmpty = true
    · rw [if_pos he, if_pos he]; rfl
    · rw [if_neg he, if_neg he]; rfl

/-- A map in which nothing was deleted is read as the configuration has it. -/
theorem labelsNow_of_not_mem (generator : String) (deleted : List Nat) (a : Nat)
    (labels : List (String × String)) (h : a ∉ deleted) :
    labelsNow generator deleted a labels = labels := by
  unfold labelsNow
  rw [if_neg (by simpa using h)]

/-- One round of the loop over the postsubmits deletes in the map of its job
or in none. -/
theorem prunePostsubmit_deleted (isStale isGenerated : JobBase → Bool) (generator repo : String)
    (a : Nat) (job : Postsubmit) (state : List (String × List Postsubmit) × List Nat) :
    ∀ b ∈ (prunePostsubmit isStale isGenerated generator repo a job state).2,
      b = a ∨ b ∈ state.2 := by
  intro b hb
  unfold prunePostsubmit at hb
  simp only at hb
  split at hb
  · exact Or.inr hb
  · split at hb
    · exact List.mem_cons.mp hb
    · exact Or.inr hb

/-- One round of the loop over the postsubmits for a job in whose map nothing
was deleted. -/
theorem prunePostsubmit_own (isStale isGenerated : JobBase → Bool) (generator repo : String)
    (a : Nat) (job : Postsubmit) (state : List (String × List Postsubmit) × List Nat)
    (h : a ∉ state.2) :
    (prunePostsubmit isStale isGenerated generator repo a job state).1 =
      if isStale job.toJobBase then state.1
      else mapSet state.1 repo ((mapGet state.1 repo).getD [] ++
        [if isGenerated job.toJobBase then { job with Labels := mapDelete job.Labels generator }
          else job]) := by
  unfold prunePostsubmit
  simp only [labelsNow_of_not_mem generator state.2 a job.Labels h]
  by_cases hs : isStale job.toJobBase = true
  · rw [if_pos hs, if_pos hs]
  · rw [if_neg hs, if_neg hs]
    by_cases hg : isGenerated job.toJobBase = true
    · rw [if_pos hg, if_pos hg]
    · rw [if_neg hg, if_neg hg]

/-- The inner loop over the postsubmits deletes in the maps of its jobs
only. -/
theorem prunePostsubmitsOf_deleted (isStale isGenerated : JobBase → Bool) (generator : String)
    (mapOf : String → Nat → Nat) (repo : String) :
    ∀ (jobs : List Postsubmit) (i : Nat) (state : List (String × List Postsubmit) × List Nat),
      ∀ b ∈ (prunePostsubmitsOf isStale isGenerated generator mapOf repo jobs i state).2,
        b ∈ state.2 ∨ b ∈ (List.range' i jobs.length).map (mapOf repo) := by
  intro jobs
  induction jobs with
  | nil => intro i state b hb; exact Or.inl hb
  | cons job jobs ih =>
    intro i state b hb
    unfold prunePostsubmitsOf at hb
    rw [List.length_cons, List.range'_succ, List.map_cons]
    rcases ih (i + 1) _ b hb with h | h
    · rcases prunePostsubmit_deleted isStale isGenerated generator repo _ job state b h with h | h
      · exact Or.inr (h ▸ List.mem_cons_self _ _)
      · exact Or.inl h
    · exact Or.inr (List.mem_cons_of_mem _ h)

/-- The inner loop over the postsubmits of a repository whose jobs hold maps
of their own, in none of which the marker label was deleted: it appends the
jobs that are not stale as the loop over copies does. -/
theorem prunePostsubmitsOf_own (isStale isGenerated : JobBase → Bool) (generator : String)
    (mapOf : String → Nat → Nat) (repo : String) :
    ∀ (jobs : List Postsubmit) (i : Nat) (state : List (String × List Postsubmit) × List Nat),
      ((List.range' i jobs.length).map (mapOf repo)).Nodup →
      (∀ a ∈ (List.range' i jobs.length).map (mapOf repo), a ∉ state.2) →
      (prunePostsubmitsOf isStale isGenerated generator mapOf repo jobs i state).1 =
        jobs.foldl
          (fun pruned job =>
            if isStale job.toJobBase then pruned
            else mapSet pruned repo ((mapGet pruned repo).getD [] ++
              [if isGenerated job.toJobBase then
                  { job with Labels := mapDelete job.Labels generator }
                else job]))
          state.1 := by
  intro jobs
  induction jobs with
  | nil => intro i state _ _; rfl
  | cons job jobs ih =>
    intro i state hnd hfree
    rw [List.length_cons, List.range'_succ, List.map_cons] at hnd hfree
    have hn := List.nodup_cons.mp hnd
    unfold prunePostsubmitsOf
    rw [List.foldl_cons, ih (i + 1) _ hn.2 ?_,
      prunePostsubmit_own isStale isGenerated generator repo _ job state
        (hfree _ (List.mem_cons_self _ _))]
    intro a ha hdel
    rcases prunePostsubmit_deleted isStale isGenerated generator repo _ job state a hdel with h | h
    · exact hn.1 (h ▸ ha)
    · exact hfree a (List.mem_cons_of_mem _ ha) h

/-- The loop over the postsubmits deletes in the maps of the postsubmits
only. -/
theorem prunePostsubmits_fold_deleted (isStale isGenerated : JobBase → Bool) (generator : String)
    (mapOf : String → Nat → Nat) :
    ∀ (E : List (String × List Postsubmit)) (state : List (String × List Postsubmit) × List Nat),
      ∀ b ∈ (E.foldl
          (fun state entry =>
            prunePostsubmitsOf isStale isGenerated generator mapOf entry.1 entry.2 0 state)
          state).2,
        b ∈ state.2 ∨ b ∈ postsubmitMaps mapOf E := by
  intro E
  induction E with
  | nil => intro state b hb; exact Or.inl hb
  | cons e E ih =>
    intro state b hb
    rw [List.foldl_cons] at hb
    unfold postsubmitMaps
    rw [List.flatMap_cons, List.mem_append]
    rcases ih _ b hb with h | h
    · rcases prunePostsubmitsOf_deleted isStale isGenerated generator mapOf e.1 e.2 0 state b h
        with h | h
      · exact Or.inl h
      · exact Or.inr (Or.inl h)
    · exact Or.inr (Or.inr h)

/-- The loop over the postsubmits whose jobs hold maps of their own, in none
of which the marker label was deleted: it builds the map that the loop over
copies builds. -/
theorem prunePostsubmits_fold_own (isStale isGenerated : JobBase → Bool) (generator : String)
    (mapOf : String → Nat → Nat) :
    ∀ (E : List (String × List Postsubmit)) (state : List (String × List Postsubmit) × List Nat),
      (postsubmitMaps mapOf E).Nodup →
      (∀ a ∈ postsubmitMaps mapOf E, a ∉ state.2) →
      (E.foldl
          (fun state entry =>
            prunePostsubmitsOf isStale isGenerated generator mapOf entry.1 entry.2 0 state)
          state).1 =
        E.foldl
          (fun pruned entry =>
            entry.2.foldl
              (fun pruned job =>
                if isStale job.toJobBase then pruned
                else mapSet pruned entry.1 ((mapGet pruned entry.1).getD [] ++
                  [if isGenerated job.toJobBase then
                      { job with Labels := mapDelete job.Labels generator }
                    else job]))
              pruned)
          state.1 := by
  intro E
  induction E with
  | nil => intro state _ _; rfl
  | cons e E ih =>
    intro state hnd hfree
    unfold postsubmitMaps at hnd hfree
    rw [List.flatMap_cons] at hnd hfree
    have hn := List.nodup_append.mp hnd
    rw [List.foldl_cons, List.foldl_cons, ih _ hn.2.1 ?_,
      prunePostsubmitsOf_own isStale isGenerated generator mapOf e.1 e.2 0 state hn.1
        (fun a ha => hfree a (List.mem_append_left _ ha))]
    intro a ha hdel
    rcases prunePostsubmitsOf_deleted isStale isGenerated generator mapOf e.1 e.2 0 state a hdel
      with h | h
    · exact hfree a (List.mem_append_right _ ha) h
    · exact hn.2.2 h ha

/-- The maps of the postsubmits in the order of a visit are the maps of the
postsubmits. -/
theorem postsubmitMaps_order (R : GoRange) (mapOf : String → Nat → Nat)
    (jobs : List (String × List Postsubmit)) :
    (postsubmitMaps mapOf (R.order jobs)).Perm (postsubmitMaps mapOf jobs) :=
  List.Perm.flatMap_right _ (R.perm jobs)

/-- The loop of `Prune` over postsubmits that hold maps of their own builds
the map that the loop over copies builds. -/
theorem prunePostsubmits_own (R : GoRange) (isStale isGenerated : JobBase → Bool)
    (generator : String) (mapOf : String → Nat → Nat) (jobs : List (String × List Postsubmit))
    (h : (postsubmitMaps mapOf jobs).Nodup) :
    (prunePostsubmits R isStale isGenerated generator mapOf jobs).1 =
      pruneMap R (fun job : Postsubmit => isStale job.toJobBase)
        (fun job =>
          if isGenerated job.toJobBase then { job with Labels := mapDelete job.Labels generator }
          else job)
        jobs := by
  unfold prunePostsubmits pruneMap
  exact prunePostsubmits_fold_own isStale isGenerated generator mapOf (R.order jobs) ([], [])
    ((postsubmitMaps_order R mapOf jobs).nodup_iff.mpr h) (fun a _ hd => by simp at hd)

/-- The loop of `Prune` over the postsubmits deletes the marker label in the
maps of the postsubmits only. -/
theorem prunePostsubmits_deleted (R : GoRange) (isStale isGenerated : JobBase → Bool)
    (generator : String) (mapOf : String → Nat → Nat) (jobs : List (String × List Postsubmit)) :
    ∀ b ∈ (prunePostsubmits R isStale isGenerated generator mapOf jobs).2,
      b ∈ postsubmitMaps mapOf jobs := by
  intro b hb
  unfold prunePostsubmits at hb
  rcases prunePostsubmits_fold_deleted isStale isGenerated generator mapOf (R.order jobs)
    ([], []) b hb with h | h
  · simp at h
  · exact (postsubmitMaps_order R mapOf jobs).mem_iff.mp h

/-- The loop of `Prune` over periodics whose maps the loop over the
postsubmits left alone: the periodics that are not stale, in their order,
each without the marker label when the generator generated it. -/
theorem prunePeriodics_own (isStale isGenerated : JobBase → Bool) (generator : String)
    (deleted : List Nat) (mapOf : Nat → Nat) :
    ∀ (jobs : List Periodic) (i : Nat),
      (∀ a ∈ (List.range' i jobs.length).map mapOf, a ∉ deleted) →
      prunePeriodics isStale isGenerated generator deleted mapOf jobs i =
        (jobs.filter (fun job => !isStale job.toJobBase)).map
          (fun job =>
            if isGenerated job.toJobBase then
              { job with Labels := mapDelete job.Labels generator }
            else job) := by
  intro jobs
  induction jobs with
  | nil => intro i _; rfl
  | cons job jobs ih =>
    intro i hfree
    rw [List.length_cons, List.range'_succ, List.map_cons] at hfree
    unfold prunePeriodics
    simp only [labelsNow_of_not_mem generator deleted (mapOf i) job.Labels
      (hfree _ (List.mem_cons_self _ _))]
    rw [ih (i + 1) (fun a ha => hfree a (List.mem_cons_of_mem _ ha))]
    by_cases hs : isStale job.toJobBase = true
    · rw [if_pos hs, List.filter_cons_of_neg (by simp [hs])]
    · rw [if_neg hs, List.filter_cons_of_pos (by simp [hs]), List.map_cons]

/-- `Prune`, by the jobs that are stale and the labels that are kept. -/
theorem Prune_eq (R : GoRange) (validKey validValue : String → Bool) (maps : LabelMaps)
    (jobConfig : JobConfig) (generator : String) (pruneLabels : List (String × String)) :
    Prune R validKey validValue maps jobConfig generator pruneLabels =
      if validSelectors validKey validValue generator pruneLabels then
        some
          { PresubmitsStatic :=
              pruneMap R (fun job : Presubmit => isStaleJob generator pruneLabels job.Labels)
                (fun job => { job with Labels := keptLabels generator job.Labels })
                jobConfig.PresubmitsStatic,
            PostsubmitsStatic :=
              (prunePostsubmits R (fun job => isStaleJob generator pruneLabels job.Labels)
                (fun job => decide (mapGet job.Labels LabelGenerator = some generator))
                generator maps.postsubmit jobConfig.PostsubmitsStatic).1,
            Periodics :=
              prunePeriodics (fun job => isStaleJob generator pruneLabels job.Labels)
                (fun job => decide (mapGet job.Labels LabelGenerator = some generator))
                generator
                (prunePostsubmits R (fun job => isStaleJob generator pruneLabels job.Labels)
                  (fun job => decide (mapGet job.Labels LabelGenerator = some generator))
                  generator maps.postsubmit jobConfig.PostsubmitsStatic).2
                maps.periodic jobConfig.Periodics 0 }
      else none := by
  unfold Prune validSelectors
  rw [staleSelectorFor_eq]
  by_cases hv : ((validKey LabelGenerator && validValue generator) &&
      (validKey generator && validValue newlyGenerated) &&
      pruneLabels.all (fun entry => validKey entry.1 && validValue entry.2)) = true
  · rw [if_pos hv, if_pos hv]
    have h1 : (validKey LabelGenerator && validValue generator) = true := by
      simp only [Bool.and_eq_true] at hv ⊢
      exact hv.1.1
    have hg : generatedSelectorFor validKey validValue generator =
        some [⟨LabelGenerator, .Equals, generator⟩] := by
      unfold generatedSelectorFor NewRequirement
      rw [if_pos h1]
    simp only [hg]
    have hstale : ∀ ls : List (String × String),
        Matches ([⟨LabelGenerator, .Equals, generator⟩,
          ⟨generator, .NotEquals, newlyGenerated⟩] ++
          (R.order pruneLabels).map (fun entry => ⟨entry.1, .Equals, entry.2⟩)) ls =
        isStaleJob generator pruneLabels ls := Matches_stale R generator pruneLabels
    have hgen : ∀ ls : List (String × String),
        Matches [⟨LabelGenerator, .Equals, generator⟩] ls =
          decide (mapGet ls LabelGenerator = some generator) := by
      intro ls
      unfold Matches
      rw [List.all_cons, List.all_nil, Bool.and_true, Matches_Equals]
    have hkeep1 : (fun job : Presubmit =>
        if decide (mapGet job.toJobBase.Labels LabelGenerator = some generator) = true then
          { job with Labels := mapDelete job.Labels generator }
        else job) = fun job => { job with Labels := keptLabels generator job.Labels } := by
      funext job
      unfold keptLabels
      by_cases hc : mapGet job.Labels LabelGenerator = some generator
      · rw [if_pos (by simpa using hc), if_pos hc]
      · rw [if_neg (by simpa using hc), if_neg hc]
    simp only [hstale, hgen, hkeep1]
  · rw [if_neg hv, if_neg hv]

/-- C22: `Prune` fails exactly when one of its selectors cannot be built, that
is, when the generator label with the generator, the marker label with
`newly-generated` or a prune label with its value is not valid as a label.
Otherwise the jobs of every repository in the presubmits that it returns are
the jobs of the input that are not stale, in their order, where a job is
stale when its generator label is the generator, its marker label is not
`newly-generated` and it carries every prune label with the given value; a
job that is kept has its labels without the marker label when its generator
label is the generator, and is as it was otherwise; a repository none of
whose jobs is kept is not a key of the result. The same holds of the
postsubmits when no two postsubmits of the input hold the same map of labels,
and of the periodics when no periodic holds the map of a postsubmit: the
loop over the postsubmits deletes the marker label in the maps of the input,
without the copy that the other two loops make. The keys of the maps of the
input are distinct, as in every map. -/
theorem C22_prune (R : GoRange) (validKey validValue : String → Bool) (maps : LabelMaps)
    (jobConfig : JobConfig) (generator : String) (pruneLabels : List (String × String))
    (hpre : (jobConfig.PresubmitsStatic.map Prod.fst).Nodup)
    (hpost : (jobConfig.PostsubmitsStatic.map Prod.fst).Nodup) :
    (Prune R validKey validValue maps jobConfig generator pruneLabels = none ↔
      validSelectors validKey validValue generator pruneLabels = false) ∧
    (∀ pruned, Prune R validKey validValue maps jobConfig generator pruneLabels = some pruned →
      (∀ repo, mapGet pruned.PresubmitsStatic repo =
        keptJobs (fun job : Presubmit => job.Labels) (fun job ls => { job with Labels := ls })
          generator pruneLabels (mapGet jobConfig.PresubmitsStatic repo)) ∧
      ((postsubmitMaps maps.postsubmit jobConfig.PostsubmitsStatic).Nodup →
        ∀ repo, mapGet pruned.PostsubmitsStatic repo =
          keptJobs (fun job : Postsubmit => job.Labels) (fun job ls => { job with Labels := ls })
            generator pruneLabels (mapGet jobConfig.PostsubmitsStatic repo)) ∧
      ((∀ a ∈ periodicMaps maps.periodic jobConfig.Periodics,
          a ∉ postsubmitMaps maps.postsubmit jobConfig.PostsubmitsStatic) →
        pruned.Periodics =
          (jobConfig.Periodics.filter
            (fun job => !isStaleJob generator pruneLabels job.Labels)).map
            (fun job => { job with Labels := keptLabels generator job.Labels }))) ∧
    (∀ (labels : List (String × String)) (key : String),
      mapGet (keptLabels generator labels) key =
        if mapGet labels LabelGenerator = some generator ∧ key = generator then none
        else mapGet labels key) ∧
    (∀ labels : List (String × String),
      isStaleJob generator pruneLabels labels = true ↔
        mapGet labels LabelGenerator = some generator ∧
        mapGet labels generator ≠ some newlyGenerated ∧
        ∀ entry ∈ pruneLabels, mapGet labels entry.1 = some entry.2) := by
  refine ⟨?_, ?_, ?_, ?_⟩
  · rw [Prune_eq]
    by_cases hv : validSelectors validKey validValue generator pruneLabels = true
    · rw [if_pos hv, hv]
      exact ⟨fun h => Option.noConfusion h, fun h => Bool.noConfusion h⟩
    · rw [if_neg hv]
      exact ⟨fun _ => by simpa using hv, fun _ => rfl⟩
  · intro pruned h
    rw [Prune_eq] at h
    by_cases hv : validSelectors validKey validValue generator pruneLabels = true
    · rw [if_pos hv] at h
      have hp := Option.some.inj h
      subst hp
      refine ⟨?_, ?_, ?_⟩
      · intro repo
        simp only
        rw [mapGet_pruneMap R _ _ _ hpre repo]
        unfold keptJobs
        cases mapGet jobConfig.PresubmitsStatic repo <;> rfl
      · intro hown repo
        simp only
        rw [prunePostsubmits_own R _ _ generator maps.postsubmit _ hown,
          mapGet_pruneMap R _ _ _ hpost repo]
        unfold keptJobs
        simp only [decide_eq_true_eq]
        cases mapGet jobConfig.PostsubmitsStatic repo with
        | none => rfl
        | some js =>
          have hk : (fun job : Postsubmit =>
              if mapGet job.Labels LabelGenerator = some generator then
                { job with Labels := mapDelete job.Labels generator }
              else job) = fun job => { job with Labels := keptLabels generator job.Labels } := by
            funext job
            unfold keptLabels
            by_cases hc : mapGet job.Labels LabelGenerator = some generator
            · rw [if_pos hc, if_pos hc]
            · rw [if_neg hc, if_neg hc]
          simp only [hk]
      · intro hown
        simp only
        rw [prunePeriodics_own _ _ generator _ maps.periodic jobConfig.Periodics 0
          (fun a ha hd => hown a ha (prunePostsubmits_deleted R _ _ generator maps.postsubmit
            jobConfig.PostsubmitsStatic a hd))]
        simp only [decide_eq_true_eq]
        have hk : (fun job : Periodic =>
            if mapGet job.Labels LabelGenerator = some generator then
              { job with Labels := mapDelete job.Labels generator }
            else job) = fun job => { job with Labels := keptLabels generator job.Labels } := by
          funext job
          unfold keptLabels
          by_cases hc : mapGet job.Labels LabelGenerator = some generator
          · rw [if_pos hc, if_pos hc]
          · rw [if_neg hc, if_neg hc]
        rw [hk]
    · rw [if_neg hv] at h
      exact Option.noConfusion h
  · intro labels key
    unfold keptLabels
    by_cases hg : mapGet labels LabelGenerator = some generator
    · rw [if_pos hg, mapGet_mapDelete]
      by_cases hk : key = generator
      · rw [if_pos hk, if_pos ⟨hg, hk⟩]
      · rw [if_neg hk, if_neg (fun hc => hk hc.2)]
    · rw [if_neg hg, if_neg (fun hc => hg hc.1)]
  · intro labels
    unfold isStaleJob
    simp only [Bool.and_eq_true, decide_eq_true_eq, List.all_eq_true, and_assoc]

/-- The jobs of the example: one that the generator `prowgen` generated in an
earlier run, one that it generated in this run, and one that was written by
hand, as presubmits and as postsubmits that hold maps of their own. -/
theorem Prune_example :
    Prune rangeInOrder nonEmptyText nonEmptyText ownMaps
      ⟨[("org/repo",
          [labelledPresubmit "stale" [(LabelGenerator, "prowgen")],
           labelledPresubmit "fresh" [(LabelGenerator, "prowgen"), ("prowgen", newlyGenerated)],
           labelledPresubmit "manual" [("team", "a")]])],
        [("org/repo",
          [labelledPostsubmit "stale" [(LabelGenerator, "prowgen")],
           labelledPostsubmit "fresh" [(LabelGenerator, "prowgen"), ("prowgen", newlyGenerated)],
           labelledPostsubmit "manual" [("team", "a")]])], []⟩
      "prowgen" [] =
      some ⟨[("org/repo",
          [labelledPresubmit "fresh" [(LabelGenerator, "prowgen")],
           labelledPresubmit "manual" [("team", "a")]])],
        [("org/repo",
          [labelledPostsubmit "fresh" [(LabelGenerator, "prowgen")],
           labelledPostsubmit "manual" [("team", "a")]])], []⟩ := by
  decide

/-- C22 at the jobs of the example: the postsubmits of the repository in the
result, which hold maps of their own, are the jobs that are kept. -/
theorem C22_witness :
    mapGet
      [("org/repo",
        [labelledPostsubmit "fresh" [(LabelGenerator, "prowgen")],
         labelledPostsubmit "manual" [("team", "a")]])] "org/repo" =
      keptJobs (fun job : Postsubmit => job.Labels) (fun job ls => { job with Labels := ls })
        "prowgen" []
        (mapGet
          [("org/repo",
            [labelledPostsubmit "stale" [(LabelGenerator, "prowgen")],
             labelledPostsubmit "fresh"
               [(LabelGenerator, "prowgen"), ("prowgen", newlyGenerated)],
             labelledPostsubmit "manual" [("team", "a")]])] "org/repo") :=
  ((C22_prune rangeInOrder nonEmptyText nonEmptyText ownMaps
    ⟨[("org/repo",
        [labelledPresubmit "stale" [(LabelGenerator, "prowgen")],
         labelledPresubmit "fresh" [(LabelGenerator, "prowgen"), ("prowgen", newlyGenerated)],
         labelledPresubmit "manual" [("team", "a")]])],
      [("org/repo",
        [labelledPostsubmit "stale" [(LabelGenerator, "prowgen")],
         labelledPostsubmit "fresh" [(LabelGenerator, "prowgen"), ("prowgen", newlyGenerated)],
         labelledPostsubmit "manual" [("team", "a")]])], []⟩
    "prowgen" [] (by decide) (by decide)).2.1
    ⟨[("org/repo",
        [labelledPresubmit "fresh" [(LabelGenerator, "prowgen")],
         labelledPresubmit "manual" [("team", "a")]])],
      [("org/repo",
        [labelledPostsubmit "fresh" [(LabelGenerator, "prowgen")],
         labelledPostsubmit "manual" [("team", "a")]])], []⟩ (by decide)).2.1 (by decide)
    "org/repo"

/-- C22 at two postsubmits of one repository that hold one map of labels,
with the generator label `prowgen` and the marker label `newly-generated`,
for the generator `prowgen` and no prune labels. Neither job is stale. The
first is kept and the marker label is deleted in the map of the two; the
second is then read without the marker label, is stale and is dropped. A
periodic that holds the same map is dropped as well. With maps of their own
the three jobs are kept. -/
theorem C22_counterexample :
    isStaleJob "prowgen" [] [(LabelGenerator, "prowgen"), ("prowgen", newlyGenerated)]
      = false ∧
    Prune rangeInOrder nonEmptyText nonEmptyText sharedMap
      ⟨[], [("org/repo",
          [labelledPostsubmit "first"
             [(LabelGenerator, "prowgen"), ("prowgen", newlyGenerated)],
           labelledPostsubmit "second"
             [(LabelGenerator, "prowgen"), ("prowgen", newlyGenerated)]])], []⟩
      "prowgen" [] =
      some ⟨[], [("org/repo",
          [labelledPostsubmit "first" [(LabelGenerator, "prowgen")]])], []⟩ ∧
    Prune rangeInOrder nonEmptyText nonEmptyText sharedMap
      ⟨[], [("org/repo",
          [labelledPostsubmit "first"
             [(LabelGenerator, "prowgen"), ("prowgen", newlyGenerated)]])],
        [labelledPeriodic "nightly"
           [(LabelGenerator, "prowgen"), ("prowgen", newlyGenerated)]]⟩
      "prowgen" [] =
      some ⟨[], [("org/repo",
          [labelledPostsubmit "first" [(LabelGenerator, "prowgen")]])], []⟩ ∧
    Prune rangeInOrder nonEmptyText nonEmptyText ownMaps
      ⟨[], [("org/repo",
          [labelledPostsubmit "first"
             [(LabelGenerator, "prowgen"), ("prowgen", newlyGenerated)],
           labelledPostsubmit "second"
             [(LabelGenerator, "prowgen"), ("prowgen", newlyGenerated)]])],
        [labelledPeriodic "nightly"
           [(LabelGenerator, "prowgen"), ("prowgen", newlyGenerated)]]⟩
      "prowgen" [] =
      some ⟨[], [("org/repo",
          [labelledPostsubmit "first" [(LabelGenerator, "prowgen")],
           labelledPostsubmit "second" [(LabelGenerator, "prowgen")]])],
        [labelledPeriodic "nightly" [(LabelGenerator, "prowgen")]]⟩ := by
  decide

/-! ### The names of the files -/

/-- One step of `strings.Split`. -/
theorem splitOnChar_cons (sep c : Char) (l : List Char) :
    FrequencyReducer.splitOnChar sep (c :: l) =
      if c = sep then [] :: FrequencyReducer.splitOnChar sep l
      else
        match FrequencyReducer.splitOnChar sep l with
        | [] => [[c]]
        | p :: ps => (c :: p) :: ps := by
  rfl

/-- `strings.Split` of two texts joined by the separator. -/
theorem splitOnChar_append_sep (sep : Char) (x y : List Char) :
    FrequencyReducer.splitOnChar sep (x ++ sep :: y) =
      FrequencyReducer.splitOnChar sep x ++ FrequencyReducer.splitOnChar sep y := by
  induction x with
  | nil =>
    rw [List.nil_append, splitOnChar_cons, if_pos rfl]
    rfl
  | cons c x ih =>
    rw [List.cons_append, splitOnChar_cons sep c (x ++ sep :: y), splitOnChar_cons sep c x, ih]
    by_cases h : c = sep
    · rw [if_pos h, if_pos h, List.cons_append]
    · rw [if_neg h, if_neg h]
      cases hs : FrequencyReducer.splitOnChar sep x with
      | nil => exact absurd hs (FrequencyReducer.splitOnChar_ne_nil sep x)
      | cons p ps => rfl

/-- Joining with a separator, one element after the other. -/
theorem intercalate_cons_cons (sep a b : List Char) (l : List (List Char)) :
    List.intercalate sep (a :: b :: l) = a ++ sep ++ List.intercalate sep (b :: l) := by
  simp [List.intercalate, List.intersperse]

/-- Joining one element. -/
theorem intercalate_singleton (sep a : List Char) : List.intercalate sep [a] = a := by
  simp [List.intercalate, List.intersperse]

/-- Joining a list that ends with a list that is not empty. -/
theorem intercalate_append (sep : List Char) (A cs : List (List Char)) (h : cs ≠ []) :
    List.intercalate sep (A ++ cs) =
      A.flatMap (fun a => a ++ sep) ++ List.intercalate sep cs := by
  induction A with
  | nil => rfl
  | cons a A ih =>
    cases hA : A ++ cs with
    | nil =>
      have := List.append_eq_nil.mp hA
      exact absurd this.2 h
    | cons b l =>
      rw [List.cons_append, hA, intercalate_cons_cons, ← hA, ih, List.flatMap_cons]
      simp only [List.append_assoc]

/-- The components of names joined by the separator, with a separator at the
end. -/
theorem splitOnChar_intercalate (cs : List (List Char)) (hne : cs ≠ [])
    (h : ∀ c ∈ cs, '/' ∉ c) :
    FrequencyReducer.splitOnChar '/' (List.intercalate ['/'] cs ++ ['/']) = cs ++ [[]] := by
  induction cs with
  | nil => exact absurd rfl hne
  | cons c cs ih =>
    have hc := h c (List.mem_cons_self _ _)
    cases cs with
    | nil =>
      rw [intercalate_singleton, FrequencyReducer.splitOnChar_append '/' c [] hc]
      rfl
    | cons b l =>
      rw [intercalate_cons_cons, List.append_assoc, List.append_assoc, List.singleton_append,
        FrequencyReducer.splitOnChar_append '/' c _ hc,
        ih (List.cons_ne_nil _ _) (fun x hx => h x (List.mem_cons_of_mem _ hx))]
      rfl

/-- `filepath.Clean` keeps names, in their order. -/
theorem foldl_cleanStep_components (rooted : Bool) (cs : List (List Char))
    (h : ∀ c ∈ cs, IsComponent c) :
    ∀ st : Nat × List (List Char),
      cs.foldl (cleanStep rooted) st = (st.1, cs.reverse ++ st.2) := by
  induction cs with
  | nil => intro st; rfl
  | cons c cs ih =>
    intro st
    obtain ⟨h1, _, h3, h4⟩ := h c (List.mem_cons_self _ _)
    rw [List.foldl_cons, ih (fun x hx => h x (List.mem_cons_of_mem _ hx))]
    unfold cleanStep
    rw [if_neg (fun hc => hc.elim h1 h3), if_neg h4]
    simp

/-- The join of names is not empty. -/
theorem intercalate_ne_nil (cs : List (List Char)) (hne : cs ≠ [])
    (h : ∀ c ∈ cs, IsComponent c) : List.intercalate ['/'] cs ≠ [] := by
  cases cs with
  | nil => exact absurd rfl hne
  | cons c cs =>
    have hc := (h c (List.mem_cons_self _ _)).1
    cases cs with
    | nil => rw [intercalate_singleton]; exact hc
    | cons b l =>
      rw [intercalate_cons_cons]
      intro hnil
      exact hc (List.append_eq_nil.mp (List.append_eq_nil.mp hnil).1).1

/-- The join of names does not start with a separator. -/
theorem intercalate_head (cs : List (List Char)) (hne : cs ≠ [])
    (h : ∀ c ∈ cs, IsComponent c) : (List.intercalate ['/'] cs).head? ≠ some '/' := by
  cases cs with
  | nil => exact absurd rfl hne
  | cons c cs =>
    obtain ⟨h1, h2, _, _⟩ := h c (List.mem_cons_self _ _)
    have hhead : ∀ rest : List Char, (c ++ rest).head? ≠ some '/' := by
      intro rest
      cases c with
      | nil => exact absurd rfl h1
      | cons a c =>
        intro hc
        have : a = '/' := Option.some.inj hc
        exact h2 (this ▸ List.mem_cons_self _ _)
    cases cs with
    | nil =>
      rw [intercalate_singleton]
      have := hhead []
      rwa [List.append_nil] at this
    | cons b l =>
      rw [intercalate_cons_cons, List.append_assoc]
      exact hhead _

/-- Names that are each followed by a separator form a prefix to which names
can be appended. -/
theorem flatMap_dirPrefix (A : List (List Char)) :
    IsDirPrefix (A.flatMap (fun a => a ++ ['/'])) := by
  rcases List.eq_nil_or_concat A with h | ⟨B, b, h⟩
  · subst h
    exact Or.inl rfl
  · subst h
    refine Or.inr ⟨B.flatMap (fun a => a ++ ['/']) ++ b, ?_⟩
    simp [List.flatMap_append]

/-- `filepath.Clean` of a path that ends with names and a separator: the
names stay at the end, after a prefix to which names can be appended. -/
theorem Clean_tail (w : List Char) (hw : IsDirPrefix w) (cs : List (List Char))
    (hne : cs ≠ []) (h : ∀ c ∈ cs, IsComponent c) :
    ∃ y, IsDirPrefix y ∧
      Clean (w ++ List.intercalate ['/'] cs ++ ['/']) = y ++ List.intercalate ['/'] cs := by
  have hsep : ∀ c ∈ cs, '/' ∉ c := fun c hc => (h c hc).2.1
  have hjoin := intercalate_ne_nil cs hne h
  have hfold : ∀ (rooted : Bool) (st : Nat × List (List Char)),
      (cs ++ [[]]).foldl (cleanStep rooted) st = (st.1, cs.reverse ++ st.2) := by
    intro rooted st
    rw [List.foldl_append, foldl_cleanStep_components rooted cs h, List.foldl_cons,
      List.foldl_nil]
    unfold cleanStep
    rw [if_pos (Or.inl rfl)]
  rcases hw with hw | ⟨v, hv⟩
  · subst hw
    refine ⟨[], Or.inl rfl, ?_⟩
    simp only [List.nil_append]
    unfold Clean
    have hne2 : List.intercalate ['/'] cs ++ ['/'] ≠ [] := by simp
    have hroot : ¬ (List.intercalate ['/'] cs ++ ['/']).head? = some '/' := by
      rw [List.head?_append_of_ne_nil _ hjoin]
      exact intercalate_head cs hne h
    rw [if_neg hne2]
    simp only
    rw [splitOnChar_intercalate cs hne hsep, hfold, if_neg hroot]
    simp only [List.replicate_zero, List.nil_append, List.append_nil, List.reverse_reverse]
    rw [if_neg hjoin]
  · subst hv
    have hpath : v ++ ['/'] ++ List.intercalate ['/'] cs ++ ['/'] =
        v ++ '/' :: (List.intercalate ['/'] cs ++ ['/']) := by simp
    rw [hpath]
    unfold Clean
    have hne2 : v ++ '/' :: (List.intercalate ['/'] cs ++ ['/']) ≠ [] := by simp
    rw [if_neg hne2]
    simp only
    rw [splitOnChar_append_sep, splitOnChar_intercalate cs hne hsep, List.foldl_append, hfold]
    generalize (FrequencyReducer.splitOnChar '/' v).foldl
      (cleanStep (decide ((v ++ '/' :: (List.intercalate ['/'] cs ++ ['/'])).head? = some '/')))
      (0, []) = st
    generalize hr : (if (v ++ '/' :: (List.intercalate ['/'] cs ++ ['/'])).head? = some '/' then
      ['/'] else []) = root
    have hroot : root = [] ∨ root = ['/'] := by
      rw [← hr]
      split
      · exact Or.inr rfl
      · exact Or.inl rfl
    clear hr
    simp only [List.reverse_append, List.reverse_reverse]
    rw [← List.append_assoc, intercalate_append ['/'] _ cs hne, ← List.append_assoc]
    have hout : root ++ (List.replicate st.1 ['.', '.'] ++ st.2.reverse).flatMap
        (fun a => a ++ ['/']) ++ List.intercalate ['/'] cs ≠ [] := by
      intro hc
      exact hjoin (List.append_eq_nil.mp hc).2
    rw [if_neg hout]
    refine ⟨_, ?_, rfl⟩
    rcases flatMap_dirPrefix (List.replicate st.1 ['.', '.'] ++ st.2.reverse) with hf | ⟨u, hu⟩
    · rw [hf, List.append_nil]
      rcases hroot with h1 | h1
      · exact Or.inl h1
      · exact Or.inr ⟨[], by rw [h1]; rfl⟩
    · rw [hu, ← List.append_assoc]
      exact Or.inr ⟨_, rfl⟩

/-- The last component of a path and what is before it, read from the end. -/
theorem reverse_split (p : Char → Bool) (w c : List Char) (hc : ∀ x ∈ c, p x = true)
    (hw : w = [] ∨ ∃ v s, w = v ++ [s] ∧ p s = false) :
    (w ++ c).reverse.takeWhile p = c.reverse ∧ (w ++ c).reverse.dropWhile p = w.reverse := by
  rw [List.reverse_append]
  have hc2 : ∀ x ∈ c.reverse, p x = true := fun x hx => hc x (List.mem_reverse.mp hx)
  generalize c.reverse = l at hc2
  induction l with
  | nil =>
    rcases hw with hw | ⟨v, s, hv, hs⟩
    · subst hw; exact ⟨rfl, rfl⟩
    · subst hv
      rw [List.nil_append, List.reverse_append, List.reverse_singleton, List.singleton_append,
        List.takeWhile_cons_of_neg (by rw [hs]; exact Bool.false_ne_true),
        List.dropWhile_cons_of_neg (by rw [hs]; exact Bool.false_ne_true)]
      exact ⟨rfl, rfl⟩
  | cons a l ih =>
    have ha := hc2 a (List.mem_cons_self _ _)
    have ihl := ih (fun x hx => hc2 x (List.mem_cons_of_mem _ hx))
    rw [List.cons_append, List.takeWhile_cons_of_pos ha, List.dropWhile_cons_of_pos ha, ihl.1,
      ihl.2]
    exact ⟨rfl, rfl⟩

/-- A prefix to which names can be appended is empty or ends with a rune that
is the separator. -/
theorem IsDirPrefix.ends (w : List Char) (hw : IsDirPrefix w) :
    w = [] ∨ ∃ v s, w = v ++ [s] ∧ (decide (s ≠ '/')) = false := by
  rcases hw with h | ⟨v, h⟩
  · exact Or.inl h
  · exact Or.inr ⟨v, '/', h, by decide⟩

/-- `filepath.Base` of a path that ends with a name is the name. -/
theorem Base_tail (w c : List Char) (hw : IsDirPrefix w) (hne : c ≠ []) (hc : '/' ∉ c) :
    Base (w ++ c) = c := by
  have hall : ∀ x ∈ c, decide (x ≠ '/') = true := by
    intro x hx
    exact decide_eq_true (fun e => hc (e ▸ hx))
  have hsplit := reverse_split (fun x => decide (x ≠ '/')) w c hall (IsDirPrefix.ends w hw)
  unfold Base
  have hne2 : w ++ c ≠ [] := fun h => hne (List.append_eq_nil.mp h).2
  rw [if_neg hne2]
  simp only
  have hstrip : (w ++ c).reverse.dropWhile (fun x => decide (x = '/')) = (w ++ c).reverse := by
    rw [List.reverse_append]
    cases hr : c.reverse with
    | nil => exact absurd (List.reverse_eq_nil_iff.mp hr) hne
    | cons a l =>
      have ha : a ∈ c := List.mem_reverse.mp (hr ▸ List.mem_cons_self _ _)
      have : ¬ a = '/' := fun e => hc (e ▸ ha)
      rw [List.cons_append, List.dropWhile_cons_of_neg (by simpa using this)]
  rw [hstrip, List.reverse_reverse, hsplit.1, List.reverse_reverse, if_neg hne]

/-- `filepath.Dir` of a path that ends with a name is `filepath.Clean` of what
is before the name. -/
theorem Dir_tail (w c : List Char) (hw : IsDirPrefix w) (hc : '/' ∉ c) :
    Dir (w ++ c) = Clean w := by
  have hall : ∀ x ∈ c, decide (x ≠ '/') = true := by
    intro x hx
    exact decide_eq_true (fun e => hc (e ▸ hx))
  have hsplit := reverse_split (fun x => decide (x ≠ '/')) w c hall (IsDirPrefix.ends w hw)
  unfold Dir
  rw [hsplit.2, List.reverse_reverse]

/-- `filepath.Ext` of a path that ends with a name that ends with `.yaml`. -/
theorem Ext_yaml (w x : List Char) (hw : IsDirPrefix w) (hx : '/' ∉ x) :
    Ext (w ++ (x ++ ".yaml".data)) = ".yaml".data := by
  have hc : '/' ∉ x ++ ".yaml".data := by
    intro h
    rcases List.mem_append.mp h with h1 | h1
    · exact hx h1
    · exact absurd h1 (by decide)
  have hall : ∀ c ∈ x ++ ".yaml".data, decide (c ≠ '/') = true := by
    intro c hcm
    exact decide_eq_true (fun e => hc (e ▸ hcm))
  have hsplit := reverse_split (fun c => decide (c ≠ '/')) w (x ++ ".yaml".data) hall
    (IsDirPrefix.ends w hw)
  unfold Ext
  simp only
  rw [hsplit.1, List.reverse_append]
  have hrev : ".yaml".data.reverse = ['l', 'm', 'a', 'y', '.'] := by decide
  rw [hrev, if_pos (by simp)]
  simp [List.takeWhile]

/-- `strings.TrimSuffix` of a text that ends with the suffix. -/
theorem trimSuffix_append (x s : List Char) : trimSuffix (x ++ s) s = x := by
  unfold trimSuffix CiOperator.endsWith
  have hs : FrequencyReducer.startsWith (x ++ s).reverse s.reverse = true := by
    rw [List.reverse_append]
    exact (FrequencyReducer.startsWith_iff _ _).mpr ⟨_, rfl⟩
  rw [if_pos hs]
  simp

/-- `strings.LastIndex` of `-` in a text whose part after a `-` has none. -/
theorem lastIndex_append (b t : List Char) (ht : '-' ∉ t) :
    lastIndex (b ++ '-' :: t) '-' = some b.length := by
  unfold lastIndex
  rw [if_pos (by simp)]
  have hall : ∀ x ∈ t, decide (x ≠ '-') = true := by
    intro x hx
    exact decide_eq_true (fun e => ht (e ▸ hx))
  have hsplit := reverse_split (fun x => decide (x ≠ '-')) (b ++ ['-']) t hall
    (Or.inr ⟨b, '-', rfl, by decide⟩)
  have he : b ++ '-' :: t = b ++ ['-'] ++ t := by simp
  rw [he, hsplit.1]
  simp only [List.length_append, List.length_reverse, List.length_cons, List.length_nil]
  congr 1
  omega

/-- `strings.LastIndex` of `-` in a text without `-`. -/
theorem lastIndex_none (s : List Char) (h : '-' ∉ s) : lastIndex s '-' = none := by
  unfold lastIndex
  rw [if_neg h]

/-- `extractInfoFromPath`, by the repository, the organization and the name
of the file without its extension that it reads from the path. -/
theorem extractInfoFromPath_of (configFilePath : String) (repo org name : List Char)
    (h1 : Base (Dir configFilePath.data) = repo)
    (h2 : Base (Dir (Dir configFilePath.data)) = org)
    (h3 : trimSuffix (Base configFilePath.data) (Ext configFilePath.data) = name) :
    extractInfoFromPath configFilePath =
      if repo = ['.'] ∨ repo = ['/'] then none
      else if org = ['.'] ∨ org = ['/'] then none
      else if !FrequencyReducer.startsWith name (org ++ ['-'] ++ repo ++ ['-']) then none
      else
        match lastIndex (name.drop (org ++ ['-'] ++ repo ++ ['-']).length) '-' with
        | none =>
          if name.drop (org ++ ['-'] ++ repo ++ ['-']).length ≠ "periodics".data then none
          else some ⟨⟨org⟩, ⟨repo⟩, "", "periodics", configFilePath⟩
        | some typeIndex =>
          some ⟨⟨org⟩, ⟨repo⟩,
            ⟨(name.drop (org ++ ['-'] ++ repo ++ ['-']).length).take typeIndex⟩,
            ⟨(name.drop (org ++ ['-'] ++ repo ++ ['-']).length).drop (typeIndex + 1)⟩,
            configFilePath⟩ := by
  subst h1 h2 h3
  rfl

/-- The core of the round trip, on lists of runes: the path of a file whose
name is built from names of an organization and of a repository, a branch and
a type gives these back. `x` is the name of the file without `.yaml`. -/
theorem extractInfoFromPath_core (d o r b t x : List Char)
    (ho : IsComponent o) (hr : IsComponent r) (hb : '/' ∉ b) (ht : '/' ∉ t) (ht2 : '-' ∉ t)
    (hx : (x = o ++ ['-'] ++ r ++ ['-'] ++ (b ++ '-' :: t)) ∨
      (x = o ++ ['-'] ++ r ++ ['-'] ++ "periodics".data ∧ b = [] ∧ t = "periodics".data)) :
    extractInfoFromPath ⟨d ++ ['/'] ++ (o ++ ['/'] ++ r) ++ ['/'] ++ (x ++ ".yaml".data)⟩ =
      some ⟨⟨o⟩, ⟨r⟩, ⟨b⟩, ⟨t⟩,
        ⟨d ++ ['/'] ++ (o ++ ['/'] ++ r) ++ ['/'] ++ (x ++ ".yaml".data)⟩⟩ := by
  have hxs : '/' ∉ x := by
    have hmem : ∀ l : List Char, '/' ∉ l → '/' ∉ o ++ ['-'] ++ r ++ ['-'] ++ l := by
      intro l hl hc
      simp only [List.mem_append, List.mem_singleton] at hc
      rcases hc with (((h1 | h1) | h1) | h1) | h1
      · exact ho.2.1 h1
      · exact absurd h1 (by decide)
      · exact hr.2.1 h1
      · exact absurd h1 (by decide)
      · exact hl h1
    rcases hx with hx | ⟨hx, _, _⟩
    · rw [hx]
      refine hmem _ ?_
      intro hc
      rcases List.mem_append.mp hc with h1 | h1
      · exact hb h1
      · rcases List.mem_cons.mp h1 with h2 | h2
        · exact absurd h2 (by decide)
        · exact ht h2
    · rw [hx]
      exact hmem _ (by decide)
  have hbase : '/' ∉ x ++ ".yaml".data := by
    intro hc
    rcases List.mem_append.mp hc with h1 | h1
    · exact hxs h1
    · exact absurd h1 (by decide)
  have hbne : x ++ ".yaml".data ≠ [] := by simp
  have hjoin2 : List.intercalate ['/'] [o, r] = o ++ ['/'] ++ r := by
    rw [intercalate_cons_cons, intercalate_singleton]
  have hjoin1 : List.intercalate ['/'] [o] = o := intercalate_singleton _ _
  have hw1 : IsDirPrefix (d ++ ['/'] ++ (o ++ ['/'] ++ r) ++ ['/']) := Or.inr ⟨_, rfl⟩
  obtain ⟨y, hy, hclean⟩ := Clean_tail (d ++ ['/']) (Or.inr ⟨d, rfl⟩) [o, r] (by simp)
    (by
      intro c hc
      rcases List.mem_cons.mp hc with h1 | h1
      · exact h1 ▸ ho
      · rw [List.mem_singleton.mp h1]; exact hr)
  rw [hjoin2] at hclean
  have hdir : Dir (d ++ ['/'] ++ (o ++ ['/'] ++ r) ++ ['/'] ++ (x ++ ".yaml".data)) =
      (y ++ o ++ ['/']) ++ r := by
    rw [Dir_tail _ _ hw1 hbase, hclean]
    simp only [List.append_assoc]
  have hw2 : IsDirPrefix (y ++ o ++ ['/']) := Or.inr ⟨_, rfl⟩
  have hrepo : Base ((y ++ o ++ ['/']) ++ r) = r := Base_tail _ _ hw2 hr.1 hr.2.1
  obtain ⟨y2, hy2, hclean2⟩ := Clean_tail y hy [o] (by simp)
    (by
      intro c hc
      rw [List.mem_singleton.mp hc]; exact ho)
  rw [hjoin1] at hclean2
  have hdir2 : Dir ((y ++ o ++ ['/']) ++ r) = y2 ++ o := by
    rw [Dir_tail _ _ hw2 hr.2.1, hclean2]
  have horg : Base (y2 ++ o) = o := Base_tail _ _ hy2 ho.1 ho.2.1
  have hbasename : Base (d ++ ['/'] ++ (o ++ ['/'] ++ r) ++ ['/'] ++ (x ++ ".yaml".data)) =
      x ++ ".yaml".data := Base_tail _ _ hw1 hbne hbase
  have hext : Ext (d ++ ['/'] ++ (o ++ ['/'] ++ r) ++ ['/'] ++ (x ++ ".yaml".data)) =
      ".yaml".data := Ext_yaml _ _ hw1 hxs
  have hr1 : ¬ (r = ['.'] ∨ r = ['/']) := by
    rintro (h1 | h1)
    · exact hr.2.2.1 h1
    · exact hr.2.1 (by rw [h1]; exact List.mem_singleton.mpr rfl)
  have ho1 : ¬ (o = ['.'] ∨ o = ['/']) := by
    rintro (h1 | h1)
    · exact ho.2.2.1 h1
    · exact ho.2.1 (by rw [h1]; exact List.mem_singleton.mpr rfl)
  rw [extractInfoFromPath_of _ r o x (by rw [hdir, hrepo]) (by rw [hdir, hdir2, horg])
    (by rw [hbasename, hext, trimSuffix_append]), if_neg hr1, if_neg ho1]
  have hstarts : ∀ rest : List Char,
      FrequencyReducer.startsWith (o ++ ['-'] ++ r ++ ['-'] ++ rest) (o ++ ['-'] ++ r ++ ['-'])
        = true := fun rest => (FrequencyReducer.startsWith_iff _ _).mpr ⟨rest, rfl⟩
  have hdrop : ∀ rest : List Char,
      (o ++ ['-'] ++ r ++ ['-'] ++ rest).drop (o ++ ['-'] ++ r ++ ['-']).length = rest :=
    fun rest => List.drop_left _ _
  rcases hx with hx | ⟨hx, hb0, ht0⟩
  · rw [hx, hstarts, hdrop, lastIndex_append b t ht2]
    simp only [Bool.not_true, Bool.false_eq_true, if_false]
    have h1 : (b ++ '-' :: t).take b.length = b := List.take_left _ _
    have h2 : (b ++ '-' :: t).drop (b.length + 1) = t := by
      have : b ++ '-' :: t = (b ++ ['-']) ++ t := by simp
      rw [this]
      have hl : b.length + 1 = (b ++ ['-']).length := by simp
      rw [hl]
      exact List.drop_left _ _
    rw [h1, h2]
  · rw [hx, hstarts, hdrop, lastIndex_none _ (by decide)]
    simp only [Bool.not_true, Bool.false_eq_true, if_false, ne_eq, not_true_eq_false]
    rw [hb0, ht0]

/-- C23 (amended): for every directory and every `Info` whose `Org` and `Repo`
are names of entries of a directory (not empty, without separator, neither `.`
nor `..`), whose `Branch` and `Type` have no separator and whose `Type` has no
`-`, `extractInfoFromPath` of the path of the directory, `Org`, `Repo` and
`Info.Basename` succeeds and returns the same `Org`, `Repo`, `Branch` and
`Type`, with the path as `Filename`; this holds for a file of periodics
without a branch and for a branch that has `-` in it. -/
theorem C23_info_round_trip (dir : String) (i : Info)
    (horg : IsComponent i.Org.data) (hrepo : IsComponent i.Repo.data)
    (hbranch : '/' ∉ i.Branch.data) (htype : '/' ∉ i.Type0.data)
    (hdash : '-' ∉ i.Type0.data) :
    extractInfoFromPath (dir ++ "/" ++ i.Org ++ "/" ++ i.Repo ++ "/" ++ i.Basename) =
      some { Org := i.Org, Repo := i.Repo, Branch := i.Branch, Type0 := i.Type0,
             Filename := dir ++ "/" ++ i.Org ++ "/" ++ i.Repo ++ "/" ++ i.Basename } := by
  have hsl : ("/" : String).data = ['/'] := rfl
  by_cases hc : i.Type0 = "periodics" ∧ i.Branch = ""
  · have hb0 : i.Branch.data = [] := by rw [hc.2]
    have ht0 : i.Type0.data = "periodics".data := by rw [hc.1]
    have hpath : dir ++ "/" ++ i.Org ++ "/" ++ i.Repo ++ "/" ++ i.Basename =
        ⟨dir.data ++ ['/'] ++ (i.Org.data ++ ['/'] ++ i.Repo.data) ++ ['/'] ++
          ((i.Org.data ++ ['-'] ++ i.Repo.data ++ ['-'] ++ "periodics".data) ++
            ".yaml".data)⟩ := by
      apply String.ext
      unfold Info.Basename
      rw [if_pos hc]
      simp only [String.data_append, hsl, List.map_cons, List.map_nil, intercalate_cons_cons,
        intercalate_singleton, ht0, List.append_assoc, List.cons_append, List.nil_append]
    rw [hpath]
    exact extractInfoFromPath_core dir.data i.Org.data i.Repo.data i.Branch.data i.Type0.data _
      horg hrepo hbranch htype hdash (Or.inr ⟨rfl, hb0, ht0⟩)
  · have hpath : dir ++ "/" ++ i.Org ++ "/" ++ i.Repo ++ "/" ++ i.Basename =
        ⟨dir.data ++ ['/'] ++ (i.Org.data ++ ['/'] ++ i.Repo.data) ++ ['/'] ++
          ((i.Org.data ++ ['-'] ++ i.Repo.data ++ ['-'] ++
            (i.Branch.data ++ '-' :: i.Type0.data)) ++ ".yaml".data)⟩ := by
      apply String.ext
      unfold Info.Basename
      rw [if_neg hc]
      simp only [String.data_append, hsl, List.map_cons, List.map_nil, intercalate_cons_cons,
        intercalate_singleton, List.append_assoc, List.cons_append, List.nil_append]
    rw [hpath]
    exact extractInfoFromPath_core dir.data i.Org.data i.Repo.data i.Branch.data i.Type0.data _
      horg hrepo hbranch htype hdash (Or.inl rfl)

/-- C23 (amended) at the presubmits of the branch `release-4.1` of
`openshift/ci-tools` under `ci-operator/jobs`. -/
theorem C23_witness :
    extractInfoFromPath ("ci-operator/jobs" ++ "/" ++
        (⟨"openshift", "ci-tools", "release-4.1", "presubmits", ""⟩ : Info).Org ++ "/" ++
        (⟨"openshift", "ci-tools", "release-4.1", "presubmits", ""⟩ : Info).Repo ++ "/" ++
        (⟨"openshift", "ci-tools", "release-4.1", "presubmits", ""⟩ : Info).Basename) =
      some { Org := "openshift", Repo := "ci-tools", Branch := "release-4.1",
             Type0 := "presubmits",
             Filename := "ci-operator/jobs" ++ "/" ++
               (⟨"openshift", "ci-tools", "release-4.1", "presubmits", ""⟩ : Info).Org ++ "/" ++
               (⟨"openshift", "ci-tools", "release-4.1", "presubmits", ""⟩ : Info).Repo ++ "/" ++
               (⟨"openshift", "ci-tools", "release-4.1", "presubmits", ""⟩ : Info).Basename } :=
  C23_info_round_trip "ci-operator/jobs"
    ⟨"openshift", "ci-tools", "release-4.1", "presubmits", ""⟩
    ⟨by decide, by decide, by decide, by decide⟩ ⟨by decide, by decide, by decide, by decide⟩
    (by decide) (by decide) (by decide)

/-- The round trip of the examples: a file of periodics without a branch, and
a branch with `-` in it. -/
theorem extractInfoFromPath_examples :
    (⟨"org", "repo", "", "periodics", ""⟩ : Info).Basename = "org-repo-periodics.yaml" ∧
    extractInfoFromPath "jobs/org/repo/org-repo-periodics.yaml" =
      some ⟨"org", "repo", "", "periodics", "jobs/org/repo/org-repo-periodics.yaml"⟩ ∧
    (⟨"org", "repo", "release-4.1", "presubmits", ""⟩ : Info).Basename =
      "org-repo-release-4.1-presubmits.yaml" ∧
    extractInfoFromPath "jobs/org/repo/org-repo-release-4.1-presubmits.yaml" =
      some ⟨"org", "repo", "release-4.1", "presubmits",
        "jobs/org/repo/org-repo-release-4.1-presubmits.yaml"⟩ := by
  decide

/-- C23 as stated fails. With `..` as `Org`, which is not empty, has no
separator and is not `.`, `filepath.Dir` cleans the organization and the
directory before it away, and no organization is left to extract. With the
branch `release/4.1`, whose separator the claim does not exclude, the
directory of the file is no longer the one of the repository. -/
theorem C23_counterexample :
    (⟨"..", "repo", "master", "presubmits", ""⟩ : Info).Basename =
      "..-repo-master-presubmits.yaml" ∧
    extractInfoFromPath "jobs/../repo/..-repo-master-presubmits.yaml" = none ∧
    ("..".data ≠ [] ∧ '/' ∉ "..".data ∧ ".." ≠ "." ∧ '-' ∉ "presubmits".data) ∧
    (⟨"org", "repo", "release/4.1", "presubmits", ""⟩ : Info).Basename =
      "org-repo-release/4.1-presubmits.yaml" ∧
    extractInfoFromPath "jobs/org/repo/org-repo-release/4.1-presubmits.yaml" = none := by
  decide

end Jobconfig
